import Mathlib

/-!
# Dynamic-shape concretization (csrc/dynamic_transform.cpp)

A shallow embedding of `dynamic_transform.cpp`: the Initial Info Builder and
`clone`, the planner (`analyzeReshapes`, `analyzeResizes`, `operator==`, `hash`,
`getConcretizationInfo`) and the Concretizer (`concretizeReshape`,
`concretizeResize`, `mutate`, `propagateFromProducerToConsumer`), together with
the registry of optimization passes (`csrc/optimization`) and `roundUpPow2Or8`
of the normalization scheduler.

Conventions of the embedding.

* IR nodes are owned by a `Fusion` and handled through pointers in the C++
  code.  A node is modelled by a record of the attributes the code reads,
  together with its `name`, the number that identifies the node inside its
  Fusion; comparing two pointers into one Fusion is comparing the records.
* `TORCH_CHECK` / `TORCH_INTERNAL_ASSERT` failures are the `Except.error`
  results; every assertion has its own `Error` constructor.
* The expression evaluator, the shape-algebra routine `analyzeView` and the
  view-plan type `AnalyzeViewResult` live outside this file; they are taken
  as parameters.
-/

namespace nvfuser

/-! ## Data model -/

/-- Category of an axis.  The source file names `Symbolic`, `Iteration` and
`Broadcast`; `Reduction` is the category removed by `TensorDomain::noReductions`. -/
inductive IterType where
  | Iteration
  | Reduction
  | Broadcast
  | Symbolic
  deriving DecidableEq, Repr

/-- Handle of a scalar expression node (`Val*` of a scalar). -/
abbrev Val := Nat

/-- Result of evaluating a scalar expression: an `int64_t`, a double (kept as
its bit pattern) or a bool.  `isInt()` holds for the first constructor only. -/
inductive EvaluatorValue where
  | int (i : Int)
  | double (bits : Nat)
  | bool (b : Bool)
  deriving DecidableEq, Repr

/-- Axis descriptor (`IterDomain`): the attributes read by the planner. -/
structure IterDomain where
  name : Nat
  extent : Val
  iterType : IterType
  maybePartial : Bool
  deriving DecidableEq, Repr

/-- Domain of a tensor: root, rfactor (derived) and leaf axis lists and the
contiguity flags. -/
structure TensorDomain where
  root : List IterDomain
  rfactor : List IterDomain
  leaf : List IterDomain
  contiguity : List (Option Bool)
  deriving DecidableEq, Repr

/-- Tensor value. -/
structure TensorView where
  name : Nat
  domain : TensorDomain
  deriving DecidableEq, Repr

/-- Reshape operation `out = view(in)`. -/
structure ViewOp where
  name : Nat
  inp : TensorView
  out : TensorView
  deriving DecidableEq, Repr

/-- Resize operation on one axis. -/
structure Resize where
  name : Nat
  inp : IterDomain
  out : IterDomain
  leftExpand : Val
  rightExpand : Val
  deriving DecidableEq, Repr

/-- Failures raised by the planner, one per assertion of the source. -/
inductive Error where
  /-- Assertion "Unexpected output tv of ViewOp". -/
  | reshapeOutputWithoutRFactor (out_tv : Nat)
  /-- Assertion "Invalid domain to reshape". -/
  | reshapeInputPartial (inp_id : Nat)
  /-- Assertion "Cannot evaluate the extent of an input domain to reshape". -/
  | reshapeInputNotEvaluated (inp_id : Nat)
  /-- Assertion "Invalid evaluated value of domain extent" (input side). -/
  | reshapeInputNotInt (inp_id : Nat)
  /-- Assertion "Invalid input domain extent". -/
  | reshapeInputExtentInvalid (extent : Int)
  /-- Assertion "Cannot evaluate the extent of an output domain to reshape". -/
  | reshapeOutputNotEvaluated (out_id : Nat)
  /-- Assertion "Invalid evaluated value of domain extent" (output side). -/
  | reshapeOutputNotInt (out_id : Nat)
  /-- Assertion "Multiple output domains of size -1 not allowed". -/
  | reshapeMultipleMinusOne (out_tv : Nat)
  /-- Assertion "Invalid output domain extent". -/
  | reshapeOutputExtentInvalid (extent : Int)
  /-- Assertion "Found non-dynamic Resize in initial concretization info". -/
  | resizeNotDynamic (op : Nat)
  /-- Assertion "Cannot evaluate the extent of a resized domain". -/
  | resizeNotEvaluated (out_id : Nat)
  /-- Assertion "Invalid evaluated value of resized domain extent". -/
  | resizeNotInt (out_id : Nat)
  /-- Assertion "Invalid resized domain extent". -/
  | resizeExtentInvalid (extent : Int) (out_id : Nat)
  /-- Assertion "Received n inputs but expected m". -/
  | inputCountMismatch (received expected : Nat)
  /-- Assertion "Expected integer input at position i". -/
  | expectedInteger (position : Nat)
  /-- Assertion "Expected CUDA tensor at position i". -/
  | expectedTensor (position : Nat)
  /-- Failure raised inside the shape-algebra routine. -/
  | invalidShape
  /-- Failure raised by the compatibility check of a consuming operation. -/
  | concretizationRejected (use : Nat)
  /-- Assertion "Invalid DynamicTransformInitialInfo. The associated Fusion is
  different from the given Fusion". -/
  | differentFusion
  /-- Assertion "Resized IterDomain must have a Resize definition". -/
  | resizeWithoutDefinition (id : Nat)
  /-- Assertion "Invalid tensor" (leaf domain differs from the derived domain). -/
  | invalidTensor (tv : Nat)
  /-- Assertion "Unexpected output ... IterDomain was expected". -/
  | unexpectedOutput (expr : Nat)
  /-- Assertion "Failed to concretize an output IterType for expression". -/
  | failedOutputIterType (expr : Nat)
  /-- Assertion "Unexpected to have a non-contig symbolic domain". -/
  | nonContigSymbolic (id : Nat)
  /-- Assertion "No input ID found to map with output ID". -/
  | noInputIdFound (root_id : Nat)
  /-- Assertion "Producer ID not concretized". -/
  | producerNotConcretized (input_id : Nat)
  /-- Assertion "Did not find id_type for consumer root domain". -/
  | noIdType (root_id : Nat)
  /-- Assertion "Failed to concretize" (a root axis of a consumer). -/
  | failedToConcretize (root_id : Nat)
  /-- Access past the end of a vector (`at`). -/
  | outOfRange
  /-- A value is not of the kind it is cast to (`as`). -/
  | invalidCast
  deriving DecidableEq, Repr

/-- Declared graph input: a scalar (whose data type is integral or not) or a
tensor.  `isIntegralScalar()` holds for `scalar v true`, `isA<TensorView>()`
for `tensorView tv`. -/
inductive InputVal where
  | scalar (v : Val) (integral : Bool)
  | tensorView (tv : TensorView)
  deriving DecidableEq, Repr

/-- Runtime argument (`ArgAbstract`): an integer (`ArgType::Long`), a tensor
(`ArgType::Tensor`, seen through `getSize`), or an argument of another type. -/
inductive ArgAbstract where
  | long (value : Int)
  | tensor (getSize : Nat → Int)
  | other (type : Nat)

/-- The interface of the expression evaluator on a state of type `E`:
`bind(expr, value)` and `evaluate(expr)`. -/
structure ExpressionEvaluator (E : Type) where
  bind : E → Val → Int → E
  evaluate : E → Val → Option EvaluatorValue

/-- Modelled from the spec: `TensorDomain::hasRFactor` (ir nodes are not part
of the sources at hand), true when the domain has a derived domain. -/
def TensorDomain.hasRFactor (td : TensorDomain) : Bool :=
  !td.rfactor.isEmpty

/-- Modelled from the spec: `TensorDomain::maybeRFactor`, the derived domain
when there is one and the root domain otherwise. -/
def TensorDomain.maybeRFactor (td : TensorDomain) : List IterDomain :=
  if td.hasRFactor then td.rfactor else td.root

/-- Modelled from the spec: `TensorDomain::hasSymbolicAxis`, true when some
axis of the domain has kind Symbolic. -/
def TensorDomain.hasSymbolicAxis (td : TensorDomain) : Bool :=
  td.root.any (fun id => id.iterType == IterType.Symbolic) ||
    td.maybeRFactor.any (fun id => id.iterType == IterType.Symbolic)

/-- Modelled from the spec: `TensorDomain::noReductions`, the axes that are
not reductions, in order. -/
def TensorDomain.noReductions (ids : List IterDomain) : List IterDomain :=
  ids.filter (fun id => id.iterType != IterType.Reduction)

/-- Accessor `TensorView::hasRFactor`. -/
def TensorView.hasRFactor (tv : TensorView) : Bool :=
  tv.domain.hasRFactor

/-- Accessor `TensorView::getMaybeRFactorDomain`. -/
def TensorView.getMaybeRFactorDomain (tv : TensorView) : List IterDomain :=
  tv.domain.maybeRFactor

/-- Initial Info: the dynamic operations recorded for one graph, and the
evaluator (of some type `E`) warmed up while recording them. -/
structure DynamicTransformInitialInfo (E : Type) where
  fusion_ : Nat
  dynamic_reshapes_ : List ViewOp
  dynamic_resizes_ : List Resize
  root_dynamic_vals_ : List Val
  scalar_inputs_affecting_concretization_ : List Nat
  expr_eval_ : E

/-- Concretization Info: the graph it belongs to, one view plan per dynamic
reshape and one axis kind per dynamic resize.  `Plan` is `AnalyzeViewResult`. -/
structure DynamicTransformConcretizationInfo (Plan : Type) where
  fusion_ : Nat
  reshape_transforms_ : List (TensorView × Plan)
  resize_transforms_ : List (IterDomain × IterType)

/-! ## analyzeResizes -/

/-- Body of the loop of `analyzeResizes` for one recorded op: the entry that
is appended to `resize_transforms_`, or the assertion that fails. -/
def analyzeResize (evaluate : Val → Option EvaluatorValue) (op : Resize) :
    Except Error (IterDomain × IterType) :=
  let out_id := op.out
  if out_id.iterType != IterType.Symbolic then
    .error (.resizeNotDynamic op.name)
  else
    match evaluate out_id.extent with
    | none => .error (.resizeNotEvaluated out_id.name)
    | some (.int extent_int) =>
      if extent_int > 0 then
        let iter_type :=
          if extent_int = 1 then IterType.Broadcast else IterType.Iteration
        .ok (out_id, iter_type)
      else
        .error (.resizeExtentInvalid extent_int out_id.name)
    | some _ => .error (.resizeNotInt out_id.name)

/-- The loop of `analyzeResizes` over the recorded ops, threading the vector
`resize_transforms_` that each iteration appends to. -/
def analyzeResizesLoop (evaluate : Val → Option EvaluatorValue) :
    List Resize → List (IterDomain × IterType) →
      Except Error (List (IterDomain × IterType))
  | [], resize_transforms => .ok resize_transforms
  | op :: ops, resize_transforms =>
    match analyzeResize evaluate op with
    | .error e => .error e
    | .ok entry => analyzeResizesLoop evaluate ops (resize_transforms ++ [entry])

/-- The member function
`DynamicTransformConcretizationInfo::analyzeResizes(info, expr_eval)`. -/
def DynamicTransformConcretizationInfo.analyzeResizes {Plan E : Type}
    (self : DynamicTransformConcretizationInfo Plan)
    (info : DynamicTransformInitialInfo E)
    (evaluate : Val → Option EvaluatorValue) :
    Except Error (DynamicTransformConcretizationInfo Plan) :=
  match analyzeResizesLoop evaluate info.dynamic_resizes_ self.resize_transforms_ with
  | .error e => .error e
  | .ok resize_transforms => .ok { self with resize_transforms_ := resize_transforms }

/-! ## analyzeReshapes -/

/-- First loop of `analyzeReshapes`: the input shape, one evaluated extent per
axis of `inp_dom`, each of which has to be a positive integer. -/
def reshapeInputShape (evaluate : Val → Option EvaluatorValue) :
    List IterDomain → Except Error (List Int)
  | [] => .ok []
  | inp_id :: inp_dom =>
    if inp_id.maybePartial then
      .error (.reshapeInputPartial inp_id.name)
    else
      match evaluate inp_id.extent with
      | none => .error (.reshapeInputNotEvaluated inp_id.name)
      | some (.int extent) =>
        if extent > 0 then
          match reshapeInputShape evaluate inp_dom with
          | .error e => .error e
          | .ok inp_shape => .ok (extent :: inp_shape)
        else
          .error (.reshapeInputExtentInvalid extent)
      | some _ => .error (.reshapeInputNotInt inp_id.name)

/-- Second loop of `analyzeReshapes`: the output shape, one evaluated extent
per axis of `out_dom`; `extent_m1_found` records that a -1 was already seen. -/
def reshapeOutputShape (evaluate : Val → Option EvaluatorValue) (out_tv : Nat) :
    List IterDomain → Bool → Except Error (List Int)
  | [], _ => .ok []
  | out_id :: out_dom, extent_m1_found =>
    match evaluate out_id.extent with
    | none => .error (.reshapeOutputNotEvaluated out_id.name)
    | some (.int extent_int) =>
      if extent_int = -1 then
        if extent_m1_found then
          .error (.reshapeMultipleMinusOne out_tv)
        else
          match reshapeOutputShape evaluate out_tv out_dom true with
          | .error e => .error e
          | .ok out_shape => .ok (extent_int :: out_shape)
      else if extent_int > 0 then
        match reshapeOutputShape evaluate out_tv out_dom extent_m1_found with
        | .error e => .error e
        | .ok out_shape => .ok (extent_int :: out_shape)
      else
        .error (.reshapeOutputExtentInvalid extent_int)
    | some _ => .error (.reshapeOutputNotInt out_id.name)

/-- Body of the loop of `analyzeReshapes` for an op whose output has a
Symbolic axis: the entry appended to `reshape_transforms_`, or the assertion
that fails.  `analyzeView` is the shape-algebra routine. -/
def analyzeReshape {Plan : Type}
    (analyzeView : TensorView → List Int → List Int → Except Error Plan)
    (evaluate : Val → Option EvaluatorValue) (op : ViewOp) :
    Except Error (TensorView × Plan) :=
  let inp_tv := op.inp
  let out_tv := op.out
  if !out_tv.hasRFactor then
    .error (.reshapeOutputWithoutRFactor out_tv.name)
  else
    match reshapeInputShape evaluate
        (TensorDomain.noReductions inp_tv.getMaybeRFactorDomain) with
    | .error e => .error e
    | .ok inp_shape =>
      match reshapeOutputShape evaluate out_tv.name out_tv.getMaybeRFactorDomain false with
      | .error e => .error e
      | .ok out_shape =>
        match analyzeView inp_tv inp_shape out_shape with
        | .error e => .error e
        | .ok view_result => .ok (out_tv, view_result)

/-- The loop of `analyzeReshapes` over the recorded ops, threading the vector
`reshape_transforms_`.  An op whose output has no Symbolic axis makes the
function return at once. -/
def analyzeReshapesLoop {Plan : Type}
    (analyzeView : TensorView → List Int → List Int → Except Error Plan)
    (evaluate : Val → Option EvaluatorValue) :
    List ViewOp → List (TensorView × Plan) → Except Error (List (TensorView × Plan))
  | [], reshape_transforms => .ok reshape_transforms
  | op :: ops, reshape_transforms =>
    if !op.out.domain.hasSymbolicAxis then
      .ok reshape_transforms
    else
      match analyzeReshape analyzeView evaluate op with
      | .error e => .error e
      | .ok entry =>
        analyzeReshapesLoop analyzeView evaluate ops (reshape_transforms ++ [entry])

/-- The member function
`DynamicTransformConcretizationInfo::analyzeReshapes(info, expr_eval)`. -/
def DynamicTransformConcretizationInfo.analyzeReshapes {Plan E : Type}
    (self : DynamicTransformConcretizationInfo Plan)
    (analyzeView : TensorView → List Int → List Int → Except Error Plan)
    (info : DynamicTransformInitialInfo E)
    (evaluate : Val → Option EvaluatorValue) :
    Except Error (DynamicTransformConcretizationInfo Plan) :=
  match analyzeReshapesLoop analyzeView evaluate info.dynamic_reshapes_
      self.reshape_transforms_ with
  | .error e => .error e
  | .ok reshape_transforms => .ok { self with reshape_transforms_ := reshape_transforms }

/-! ## Building a Concretization Info -/

/-- Graph: its identity and its declared inputs. -/
structure Fusion where
  addr : Nat
  inputs : List InputVal

/-- Modelled from the spec: the constructor of
`DynamicTransformConcretizationInfo`, which is written in dynamic_transform.h
and not in the sources at hand.  Following section 4.2, the Info references
the given graph, starts with empty result lists, and runs reshape resolution
and then resize resolution with the given evaluator. -/
def DynamicTransformConcretizationInfo.create {Plan E : Type}
    (analyzeView : TensorView → List Int → List Int → Except Error Plan)
    (fusion : Fusion) (info : DynamicTransformInitialInfo E)
    (evaluate : Val → Option EvaluatorValue) :
    Except Error (DynamicTransformConcretizationInfo Plan) :=
  let self : DynamicTransformConcretizationInfo Plan :=
    { fusion_ := fusion.addr, reshape_transforms_ := [], resize_transforms_ := [] }
  match self.analyzeReshapes analyzeView info evaluate with
  | .error e => .error e
  | .ok self => self.analyzeResizes info evaluate

/-- The overload `DynamicTransform::getConcretizationInfo(fusion, info, expr_eval)`
taking an evaluator that is already bound. -/
def getConcretizationInfo {Plan E : Type}
    (analyzeView : TensorView → List Int → List Int → Except Error Plan)
    (fusion : Fusion) (info : DynamicTransformInitialInfo E)
    (evaluate : Val → Option EvaluatorValue) :
    Except Error (DynamicTransformConcretizationInfo Plan) :=
  DynamicTransformConcretizationInfo.create analyzeView fusion info evaluate

/-- Inner loop of `getConcretizationInfo`: binds the extent of axis `j`,
`j + 1`, ... of a tensor input to the size the argument reports at that
position. -/
def bindTensorSizes {E : Type} (ev : ExpressionEvaluator E) (getSize : Nat → Int) :
    List IterDomain → Nat → E → E
  | [], _, expr_eval => expr_eval
  | id :: dom, j, expr_eval =>
    bindTensorSizes ev getSize dom (j + 1) (ev.bind expr_eval id.extent (getSize j))

/-- Outer loop of `getConcretizationInfo` over the positions `i`, `i + 1`, ...
of the arguments and declared inputs. -/
def bindInputs {E : Type} (ev : ExpressionEvaluator E) :
    List InputVal → List ArgAbstract → Nat → E → Except Error E
  | inpi :: inputs, argi :: args, i, expr_eval =>
    match inpi with
    | .scalar v true =>
      match argi with
      | .long arg_val => bindInputs ev inputs args (i + 1) (ev.bind expr_eval v arg_val)
      | _ => .error (.expectedInteger i)
    | .tensorView tv =>
      match argi with
      | .tensor getSize =>
        bindInputs ev inputs args (i + 1)
          (bindTensorSizes ev getSize tv.domain.maybeRFactor 0 expr_eval)
      | _ => .error (.expectedTensor i)
    | .scalar _ false => bindInputs ev inputs args (i + 1) expr_eval
  | _, _, _, expr_eval => .ok expr_eval

/-- The overload `DynamicTransform::getConcretizationInfo(fusion, info, args)`
taking the runtime arguments. -/
def getConcretizationInfoArgs {Plan E : Type}
    (analyzeView : TensorView → List Int → List Int → Except Error Plan)
    (ev : ExpressionEvaluator E)
    (fusion : Fusion) (info : DynamicTransformInitialInfo E)
    (args : List ArgAbstract) :
    Except Error (DynamicTransformConcretizationInfo Plan) :=
  let expr_eval := info.expr_eval_
  if args.length ≠ fusion.inputs.length then
    .error (.inputCountMismatch args.length fusion.inputs.length)
  else
    match bindInputs ev fusion.inputs args 0 expr_eval with
    | .error e => .error e
    | .ok expr_eval =>
      DynamicTransformConcretizationInfo.create analyzeView fusion info
        (ev.evaluate expr_eval)

/-! ## Equality and hash -/

/-- The comparison loops of `operator==`: the entries of two vectors of the
same size are compared position by position with `entryEq`. -/
def transformsEqual {α : Type} (entryEq : α → α → Bool) : List α → List α → Bool
  | transform :: rest, other_transform :: other_rest =>
    if !entryEq transform other_transform then false
    else transformsEqual entryEq rest other_rest
  | _, _ => true

/-- Comparison of two reshape results, `std::pair<TensorView*, AnalyzeViewResult>`:
the tensors are the same and the plans compare equal under `planEq`. -/
def reshapeEntryEq {Plan : Type} (planEq : Plan → Plan → Bool)
    (a b : TensorView × Plan) : Bool :=
  decide (a.1 = b.1) && planEq a.2 b.2

/-- Comparison of two resize results, `std::pair<IterDomain*, IterType>`. -/
def resizeEntryEq (a b : IterDomain × IterType) : Bool :=
  decide (a.1 = b.1) && decide (a.2 = b.2)

/-- The member function `DynamicTransformConcretizationInfo::operator==`.
`this_addr` and `other_addr` are the addresses of the two objects, `planEq` is
`AnalyzeViewResult::operator==`. -/
def DynamicTransformConcretizationInfo.equals {Plan : Type}
    (planEq : Plan → Plan → Bool)
    (this_addr : Nat) (self : DynamicTransformConcretizationInfo Plan)
    (other_addr : Nat) (other : DynamicTransformConcretizationInfo Plan) : Bool :=
  if this_addr = other_addr then
    true
  else if self.fusion_ ≠ other.fusion_ then
    false
  else if self.reshape_transforms_.length ≠ other.reshape_transforms_.length ∨
      self.resize_transforms_.length ≠ other.resize_transforms_.length then
    false
  else if !transformsEqual (reshapeEntryEq planEq)
      self.reshape_transforms_ other.reshape_transforms_ then
    false
  else if !transformsEqual resizeEntryEq
      self.resize_transforms_ other.resize_transforms_ then
    false
  else
    true

/-- Number of values of a `size_t` (64 bits). -/
def sizeModulus : Nat := 2 ^ 64

/-- The member function `DynamicTransformConcretizationInfo::hash`; `planHash`
is `AnalyzeViewResult::hash` and the addition is that of `size_t`. -/
def DynamicTransformConcretizationInfo.hash {Plan : Type} (planHash : Plan → Nat)
    (self : DynamicTransformConcretizationInfo Plan) : Nat :=
  self.reshape_transforms_.foldl
    (fun hash kv => (hash + planHash kv.2) % sizeModulus) 0

/-! ## Shape algebra -/

/-- Modelled from the spec: the view plan (`AnalyzeViewResult`, declared in
transform_view.h, which is not part of the sources at hand).  Of the plan the
spec fixes the shapes it reconciles: the input shape and the output shape with
the wildcard resolved; the split/merge/broadcast steps are left out. -/
structure ViewPlan where
  inputShape : List Int
  outputShape : List Int
  deriving DecidableEq, Repr

/-- Product of the known (non-wildcard) dimensions of a requested shape. -/
def knownProduct (out_shape : List Int) : Int :=
  (out_shape.filter (fun d => d ≠ -1)).prod

/-- Modelled from the spec: the shape-algebra routine `analyzeView` of
transform_view.cpp, which is not part of the sources at hand.  Following
sections 4.2, 6 and 8: at most one -1 wildcard is resolved; the product of the
known dimensions has to divide the total input element count evenly, and the
wildcard becomes the quotient; without a wildcard the two element counts have
to agree; any other request is rejected as an invalid shape. -/
def analyzeViewSpec (_inp_tv : TensorView) (inp_shape out_shape : List Int) :
    Except Error ViewPlan :=
  let total := inp_shape.prod
  let known := knownProduct out_shape
  if out_shape.count (-1) = 0 then
    if known = total then
      .ok { inputShape := inp_shape, outputShape := out_shape }
    else
      .error .invalidShape
  else if out_shape.count (-1) = 1 then
    if known ≠ 0 ∧ total % known = 0 then
      .ok { inputShape := inp_shape,
            outputShape := out_shape.map (fun d => if d = -1 then total / known else d) }
    else
      .error .invalidShape
  else
    .error .invalidShape

/-! ## Bindings prescribed by the spec -/

/-- Section 4.2, Binding, for a tensor input: the extent expression of every
domain axis is bound to the corresponding runtime dimension length. -/
def specTensorBindings (getSize : Nat → Int) (dom : List IterDomain) : List (Val × Int) :=
  dom.enum.map (fun p => (p.2.extent, getSize p.1))

/-- Section 4.2, Binding, for one declared input and its argument: an integral
scalar is bound to the given integer, a tensor contributes the bindings of its
axes, and any other input is left unbound. -/
def specInputBindings : InputVal → ArgAbstract → List (Val × Int)
  | .scalar v true, .long value => [(v, value)]
  | .tensorView tv, .tensor getSize => specTensorBindings getSize tv.domain.maybeRFactor
  | _, _ => []

/-- Section 4.2, Binding, for all declared inputs, in input order. -/
def specBindings : List InputVal → List ArgAbstract → List (Val × Int)
  | inpi :: inputs, argi :: args => specInputBindings inpi argi ++ specBindings inputs args
  | _, _ => []

/-- The argument has the type the declared input asks for: an integer for an
integral scalar, a tensor for a tensor; other inputs ask for nothing. -/
def argMatches : InputVal → ArgAbstract → Bool
  | .scalar _ true, .long _ => true
  | .scalar _ true, _ => false
  | .tensorView _, .tensor _ => true
  | .tensorView _, _ => false
  | .scalar _ false, _ => true

/-! ## Initial Info Builder -/

/-- Defining operation of an axis, as the builder distinguishes it: a Resize
or an operation of another kind. -/
inductive IdDefinition where
  | resize (op : Resize)
  | other (name : Nat)
  deriving DecidableEq, Repr

/-- Statement met by the traversal of the builder: a reshape operation, a
tensor value, or a statement for which the builder has no handler. -/
inductive BuilderStatement where
  | viewOp (op : ViewOp)
  | tensorView (tv : TensorView)
  | other (name : Nat)
  deriving DecidableEq, Repr

/-- The state of `DynamicTransformInitialInfoBuilder`: the lists of `info_`
filled by the handlers, and `leaf_dynamic_vals_`. -/
structure DynamicTransformInitialInfoBuilder where
  dynamic_reshapes_ : List ViewOp
  dynamic_resizes_ : List Resize
  leaf_dynamic_vals_ : List Val
  deriving DecidableEq, Repr

/-- The loops of `handle(ViewOp*)` over a domain: the extents the evaluator
cannot evaluate, in axis order. -/
def unevaluatedExtents (evaluate : Val → Option EvaluatorValue) :
    List IterDomain → List Val
  | [] => []
  | id :: dom =>
    match evaluate id.extent with
    | none => id.extent :: unevaluatedExtents evaluate dom
    | some _ => unevaluatedExtents evaluate dom

/-- The handler `DynamicTransformInitialInfoBuilder::handle(ViewOp*)`. -/
def DynamicTransformInitialInfoBuilder.handleViewOp
    (self : DynamicTransformInitialInfoBuilder)
    (evaluate : Val → Option EvaluatorValue) (op : ViewOp) :
    DynamicTransformInitialInfoBuilder :=
  let inp_tv := op.inp
  let out_tv := op.out
  if out_tv.domain.hasSymbolicAxis then
    let inp_dom := TensorDomain.noReductions inp_tv.getMaybeRFactorDomain
    let out_dom := out_tv.getMaybeRFactorDomain
    { self with
      dynamic_reshapes_ := self.dynamic_reshapes_ ++ [op],
      leaf_dynamic_vals_ := self.leaf_dynamic_vals_ ++
        unevaluatedExtents evaluate inp_dom ++ unevaluatedExtents evaluate out_dom }
  else
    self

/-- The loop of `handle(TensorView*)` over the axes of the tensor;
`definition` gives the defining operation of an axis, if any. -/
def handleTensorViewLoop (definition : IterDomain → Option IdDefinition) :
    List IterDomain → DynamicTransformInitialInfoBuilder → DynamicTransformInitialInfoBuilder
  | [], self => self
  | id :: rfd, self =>
    match definition id with
    | none => handleTensorViewLoop definition rfd self
    | some d =>
      if id.iterType != IterType.Symbolic then
        handleTensorViewLoop definition rfd self
      else
        match d with
        | .resize op =>
          handleTensorViewLoop definition rfd
            { self with
              dynamic_resizes_ := self.dynamic_resizes_ ++ [op],
              leaf_dynamic_vals_ := self.leaf_dynamic_vals_ ++ [id.extent] }
        | .other _ => handleTensorViewLoop definition rfd self

/-- The handler `DynamicTransformInitialInfoBuilder::handle(TensorView*)`. -/
def DynamicTransformInitialInfoBuilder.handleTensorView
    (self : DynamicTransformInitialInfoBuilder)
    (definition : IterDomain → Option IdDefinition) (tv : TensorView) :
    DynamicTransformInitialInfoBuilder :=
  handleTensorViewLoop definition tv.getMaybeRFactorDomain self

/-- The traversal `traverseTo` as the builder sees it: the handlers are run
on the statements in the order the traversal delivers them. -/
def DynamicTransformInitialInfoBuilder.traverse
    (evaluate : Val → Option EvaluatorValue)
    (definition : IterDomain → Option IdDefinition) :
    List BuilderStatement → DynamicTransformInitialInfoBuilder →
      DynamicTransformInitialInfoBuilder
  | [], self => self
  | .viewOp op :: stmts, self =>
    DynamicTransformInitialInfoBuilder.traverse evaluate definition stmts
      (self.handleViewOp evaluate op)
  | .tensorView tv :: stmts, self =>
    DynamicTransformInitialInfoBuilder.traverse evaluate definition stmts
      (self.handleTensorView definition tv)
  | .other _ :: stmts, self =>
    DynamicTransformInitialInfoBuilder.traverse evaluate definition stmts self

/-- The loop of the constructor over the declared inputs, from position `i`
on: the positions whose input is one of the root dynamic values.  A root
dynamic value is a scalar, so a tensor input is never one of them. -/
def affectingInputs (dyn_vals : List Val) : List InputVal → Nat → List Nat
  | [], _ => []
  | input :: inputs, i =>
    match input with
    | .scalar v _ =>
      if v ∈ dyn_vals then i :: affectingInputs dyn_vals inputs (i + 1)
      else affectingInputs dyn_vals inputs (i + 1)
    | .tensorView _ => affectingInputs dyn_vals inputs (i + 1)

/-- The function `DynamicTransform::getInitialInfo(fusion)`: the constructor of
the builder followed by `getInfo`.  `stmts` is what `traverseTo` visits,
`inputsOf` is `InputsOf::outputs`, `ev` and `expr_eval` the evaluator of the
Info. -/
def getInitialInfo {E : Type} (ev : ExpressionEvaluator E) (expr_eval : E)
    (definition : IterDomain → Option IdDefinition)
    (inputsOf : List Val → List Val)
    (stmts : List BuilderStatement) (fusion : Fusion) : DynamicTransformInitialInfo E :=
  let builder := DynamicTransformInitialInfoBuilder.traverse (ev.evaluate expr_eval)
    definition stmts
    { dynamic_reshapes_ := [], dynamic_resizes_ := [], leaf_dynamic_vals_ := [] }
  let root_dynamic_vals := inputsOf builder.leaf_dynamic_vals_
  { fusion_ := fusion.addr,
    dynamic_reshapes_ := builder.dynamic_reshapes_,
    dynamic_resizes_ := builder.dynamic_resizes_,
    root_dynamic_vals_ := root_dynamic_vals,
    scalar_inputs_affecting_concretization_ := affectingInputs root_dynamic_vals fusion.inputs 0,
    expr_eval_ := expr_eval }

/-! ## Concretizer: graph state and substitution table -/

/-- Value that can be substituted by the mutator (`Val*`): an axis, a domain
or a tensor. -/
inductive IrVal where
  | iterDomain (id : IterDomain)
  | tensorDomain (td : TensorDomain)
  | tensorView (tv : TensorView)
  deriving DecidableEq, Repr

/-- Input of an operation: a tensor, given by its name, or another value. -/
inductive ExprInput where
  | tensorView (name : Nat)
  | other (v : Val)
  deriving DecidableEq, Repr

/-- Operation on tensors: its name, its inputs and the names of the tensors
it produces. -/
structure Expr where
  name : Nat
  inputs : List ExprInput
  outputs : List Nat
  deriving DecidableEq, Repr

/-- Axis-transform operation (split, merge, resize, ...) between the root and
the derived domain of a tensor: its axis inputs and its outputs. -/
structure IdExpr where
  name : Nat
  inputs : List IterDomain
  outputs : List IrVal
  deriving DecidableEq, Repr

/-- Statement visited by the propagation pass: a tensor (read from the graph
by its name when it is visited), a domain, or a value of another kind. -/
inductive Statement where
  | tensorView (name : Nat)
  | tensorDomain (td : TensorDomain)
  | other (name : Nat)
  deriving DecidableEq, Repr

/-- The graph as the Concretizer sees it, with the substitution table
`mutations_` of the mutator: the newest substitution comes first. -/
structure IrState where
  fusion : Nat
  vals : List TensorView
  exprs : List Expr
  outputs : List Nat
  mutations_ : List (IrVal × IrVal)
  deriving DecidableEq, Repr

/-- What `reshape(inp_tv, view_analysis)` adds to the graph: the concrete
output tensor, and the tensors and operations created on the way. -/
structure ReshapeResult where
  out : TensorView
  newVals : List TensorView
  newExprs : List Expr
  deriving DecidableEq, Repr

/-- The collaborators of the Concretizer that are outside dynamic_transform.cpp:
the uses of an axis or domain, the compatibility check of a consuming
operation, the promotion rule, the root-domain correspondence between a
producer and a consumer, the axis transforms between root and derived domain,
the defining operation of an axis, the traversal order and the construction of
a reshaped tensor. -/
structure IrQueries (Plan : Type) where
  uses : IrVal → List Expr
  checkConcretization : Expr → IrVal → IrVal → Bool
  promoteIterType : IterType → IterType → IterType
  mapConsumerToProducer : TensorView → TensorView → IterDomain → Option IterDomain
  getExprsBetween : TensorView → List IdExpr
  definition : IterDomain → Option IdDefinition
  getStmts : IrState → List Statement
  reshape : TensorView → Plan → ReshapeResult

/-- Tensor of the graph with the given name, in its current state. -/
def IrState.tensorView? (st : IrState) (name : Nat) : Option TensorView :=
  st.vals.find? (fun tv => tv.name == name)

/-- Defining operation of a tensor: the operation that lists it as an output. -/
def IrState.definition? (st : IrState) (tv : TensorView) : Option Expr :=
  st.exprs.find? (fun e => e.outputs.contains tv.name)

/-- The tensors among the inputs of an operation, in input order
(`ir_utils::filterByType<TensorView>(def->inputs())`). -/
def IrState.tensorInputs (st : IrState) (e : Expr) : List TensorView :=
  e.inputs.filterMap (fun i =>
    match i with
    | .tensorView name => st.tensorView? name
    | .other _ => none)

/-- Modelled from the spec: `ir_utils::producerTvsOf`, the tensors the defining
operation of a tensor reads. -/
def IrState.producerTvsOf (st : IrState) (tv : TensorView) : List TensorView :=
  match st.definition? tv with
  | none => []
  | some e => st.tensorInputs e

/-- The accessor `Val::uses`: the operations that read a value.  The uses of a
tensor are read from the graph, those of an axis or domain are reported by the
collaborators. -/
def IrState.uses {Plan : Type} (q : IrQueries Plan) (st : IrState) : IrVal → List Expr
  | .tensorView tv => st.exprs.filter (fun e => e.inputs.contains (.tensorView tv.name))
  | v => q.uses v

/-- Modelled from the spec: `OptOutMutator::maybeMutated`, the substitution
table consulted for a value; a value without substitution stands for itself. -/
def maybeMutated (mutations : List (IrVal × IrVal)) (val : IrVal) : IrVal :=
  match mutations.lookup val with
  | some mutation => mutation
  | none => val

/-- Modelled from the spec: `OptOutMutator::registerMutation`, which records
the substitution of `val` by `mutation`, overriding an earlier one. -/
def IrState.registerMutation (st : IrState) (val mutation : IrVal) : IrState :=
  { st with mutations_ := (val, mutation) :: st.mutations_ }

/-- The loop of `checkConcretizedUses` over the uses of `old_val`: the first
use that rejects the substitution raises its failure. -/
def checkConcretizedUsesLoop (check : Expr → IrVal → IrVal → Bool)
    (old_val new_val : IrVal) : List Expr → Except Error Unit
  | [] => .ok ()
  | use :: uses =>
    if check use old_val new_val then checkConcretizedUsesLoop check old_val new_val uses
    else .error (.concretizationRejected use.name)

/-- The member function `DynamicTransformConcretizer::checkConcretizedUses`. -/
def checkConcretizedUses {Plan : Type} (q : IrQueries Plan) (st : IrState)
    (old_val new_val : IrVal) : Except Error Unit :=
  checkConcretizedUsesLoop q.checkConcretization old_val new_val (st.uses q old_val)

/-- The member function `DynamicTransformConcretizer::registerConcretization`:
the check of the uses, then the registration. -/
def registerConcretization {Plan : Type} (q : IrQueries Plan) (st : IrState)
    (old_val new_val : IrVal) : Except Error IrState :=
  match checkConcretizedUses q st old_val new_val with
  | .error e => .error e
  | .ok _ => .ok (st.registerMutation old_val new_val)

/-! ## Concretizer: rebuilding a domain -/

/-- The substitute of an axis, `maybeMutated(id)->as<IterDomain>()`. -/
def maybeMutatedId (mutations : List (IrVal × IrVal)) (id : IterDomain) :
    Except Error IterDomain :=
  match maybeMutated mutations (.iterDomain id) with
  | .iterDomain updated_id => .ok updated_id
  | _ => .error .invalidCast

/-- Modelled from the spec: `IterDomain::sameAs`, the comparison of two axes
by their attributes, whatever their identity. -/
def IterDomain.sameAs (a b : IterDomain) : Bool :=
  a.extent == b.extent && a.iterType == b.iterType && a.maybePartial == b.maybePartial

/-- The lambda `updateIdVec` of `mutate(TensorDomain*)`: the substitutes of the
axes of a list, and whether one of them differs from its original. -/
def updateIdVec (mutations : List (IrVal × IrVal)) :
    List IterDomain → Except Error (List IterDomain × Bool)
  | [] => .ok ([], false)
  | id :: ids =>
    match maybeMutatedId mutations id with
    | .error e => .error e
    | .ok updated_id =>
      match updateIdVec mutations ids with
      | .error e => .error e
      | .ok (updated_ids, mutated) =>
        .ok (updated_id :: updated_ids, !updated_id.sameAs id || mutated)

/-- The contiguity loop of `mutate(TensorDomain*)`, from position `i` on:
`originals` are the remaining axes of the original derived-or-root domain,
`updated` the whole list of their substitutes, `contig` the flags so far. -/
def updateContiguity (updated : List IterDomain) :
    List IterDomain → Nat → List (Option Bool) → Except Error (List (Option Bool))
  | [], _, contig => .ok contig
  | original_id :: originals, i, contig =>
    if original_id.iterType != IterType.Symbolic then
      updateContiguity updated originals (i + 1) contig
    else
      match contig[i]? with
      | none => .error .outOfRange
      | some none => .error (.nonContigSymbolic original_id.name)
      | some (some _) =>
        match updated[i]? with
        | none => .error .outOfRange
        | some updated_id =>
          if updated_id.iterType == IterType.Broadcast then
            updateContiguity updated originals (i + 1) (contig.set i none)
          else
            updateContiguity updated originals (i + 1) contig

/-- The member function `DynamicTransformConcretizer::mutate(TensorDomain*)`. -/
def mutateTensorDomain {Plan : Type} (q : IrQueries Plan) (st : IrState)
    (td : TensorDomain) : Except Error IrState :=
  match updateIdVec st.mutations_ td.root with
  | .error e => .error e
  | .ok (root_dom, mutated_root) =>
    match (if td.hasRFactor then updateIdVec st.mutations_ td.maybeRFactor
           else .ok ([], false)) with
    | .error e => .error e
    | .ok (rfactor_dom, mutated_rfactor) =>
      match updateIdVec st.mutations_ td.leaf with
      | .error e => .error e
      | .ok (domain, mutated_leaf) =>
        if !(mutated_root || mutated_rfactor || mutated_leaf) then
          .ok st
        else
          match updateContiguity (if td.hasRFactor then rfactor_dom else root_dom)
              td.maybeRFactor 0 td.contiguity with
          | .error e => .error e
          | .ok contig =>
            let mutated_val : TensorDomain :=
              { root := root_dom, rfactor := rfactor_dom, leaf := domain,
                contiguity := contig }
            registerConcretization q st (.tensorDomain td) (.tensorDomain mutated_val)

/-! ## Concretizer: propagation -/

/-- Copy of an axis with another kind, `IterDomainBuilder(id).iter_type(t).build()`:
the copy differs from the original in its kind only. -/
def IterDomain.withIterType (id : IterDomain) (iter_type : IterType) : IterDomain :=
  { id with iterType := iter_type }

/-- The loop of `propagateFromProducerToConsumer` over the producers of the
consumer, for one Symbolic root axis: the kind gathered so far is `id_type`. -/
def producerIterType {Plan : Type} (q : IrQueries Plan) (consumer : TensorView)
    (root_id : IterDomain) : List TensorView → Option IterType →
      Except Error (Option IterType)
  | [], id_type => .ok id_type
  | producer :: producers, id_type =>
    match q.mapConsumerToProducer producer consumer root_id with
    | none => .error (.noInputIdFound root_id.name)
    | some input_id =>
      if input_id.iterType == IterType.Symbolic then
        .error (.producerNotConcretized input_id.name)
      else
        match id_type with
        | some t =>
          producerIterType q consumer root_id producers
            (some (q.promoteIterType t input_id.iterType))
        | none =>
          producerIterType q consumer root_id producers (some input_id.iterType)

/-- The loop of `propagateFromProducerToConsumer` over the root axes of the
consumer; `is_concretized` tells whether an axis was concretized so far. -/
def propagateRootLoop {Plan : Type} (q : IrQueries Plan) (consumer : TensorView)
    (producers : List TensorView) :
    List IterDomain → IrState → Bool → Except Error (IrState × Bool)
  | [], st, is_concretized => .ok (st, is_concretized)
  | root_id :: root_domain, st, is_concretized =>
    if root_id.iterType != IterType.Symbolic then
      propagateRootLoop q consumer producers root_domain st is_concretized
    else
      match producerIterType q consumer root_id producers none with
      | .error e => .error e
      | .ok none => .error (.noIdType root_id.name)
      | .ok (some id_type) =>
        if id_type == IterType.Symbolic then
          .error (.failedToConcretize root_id.name)
        else
          let concretized_id := root_id.withIterType id_type
          match registerConcretization q st (.iterDomain root_id)
              (.iterDomain concretized_id) with
          | .error e => .error e
          | .ok st => propagateRootLoop q consumer producers root_domain st true

/-- The member function
`DynamicTransformConcretizer::propagateFromProducerToConsumer(consumer)`. -/
def propagateFromProducerToConsumer {Plan : Type} (q : IrQueries Plan) (st : IrState)
    (consumer : TensorView) : Except Error (IrState × Bool) :=
  match st.definition? consumer with
  | none => .ok (st, false)
  | some def_ =>
    if !consumer.domain.hasSymbolicAxis then
      .ok (st, false)
    else
      propagateRootLoop q consumer (st.tensorInputs def_) consumer.domain.root st false

/-- The loop of `mutate(TensorView*)` that determines the kind of the outputs
of an axis transform from the substitutes of its inputs, starting from
`iter_type`. -/
def outputIterType (promote : IterType → IterType → IterType)
    (mutations : List (IrVal × IrVal)) :
    List IterDomain → IterType → Except Error IterType
  | [], iter_type => .ok iter_type
  | inp_id :: inputs, iter_type =>
    match maybeMutatedId mutations inp_id with
    | .error e => .error e
    | .ok updated_id =>
      outputIterType promote mutations inputs (promote iter_type updated_id.iterType)

/-- The loop of `mutate(TensorView*)` that registers the substitute of every
output axis of an axis transform. -/
def registerOutputs {Plan : Type} (q : IrQueries Plan) (iter_type : IterType) :
    List IrVal → IrState → Except Error IrState
  | [], st => .ok st
  | .iterDomain out_id :: outputs, st =>
    match registerConcretization q st (.iterDomain out_id)
        (.iterDomain (out_id.withIterType iter_type)) with
    | .error e => .error e
    | .ok st => registerOutputs q iter_type outputs st
  | _ :: outputs, st => registerOutputs q iter_type outputs st

/-- An output of an axis transform is an axis. -/
def IrVal.isIterDomain : IrVal → Bool
  | .iterDomain _ => true
  | _ => false

/-- The loop of `mutate(TensorView*)` over the axis transforms between the
root and the derived domain.  The final `OptOutMutator::mutate(expr)` rebuilds
the operation node over the substituted axes; the state modelled here holds no
operation nodes of that kind, so it is left as it is. -/
def mutateIdExprs {Plan : Type} (q : IrQueries Plan) :
    List IdExpr → IrState → Except Error IrState
  | [], st => .ok st
  | expr :: exprs, st =>
    if !expr.outputs.all IrVal.isIterDomain then
      .error (.unexpectedOutput expr.name)
    else
      match outputIterType q.promoteIterType st.mutations_ expr.inputs
          IterType.Symbolic with
      | .error e => .error e
      | .ok iter_type =>
        if iter_type == IterType.Symbolic then
          .error (.failedOutputIterType expr.name)
        else
          match registerOutputs q iter_type expr.outputs st with
          | .error e => .error e
          | .ok st => mutateIdExprs q exprs st

/-- Modelled from the spec: `OptOutMutator::mutate(TensorView*)`, which gives
the tensor the domain registered as the substitute of its domain. -/
def IrState.setDomain (st : IrState) (tv : TensorView) : Except Error IrState :=
  match maybeMutated st.mutations_ (.tensorDomain tv.domain) with
  | .tensorDomain td =>
    .ok { st with vals := st.vals.map (fun t =>
      if t.name == tv.name then { t with domain := td } else t) }
  | _ => .error .invalidCast

/-- The member function `DynamicTransformConcretizer::mutate(TensorView*)`. -/
def mutateTensorView {Plan : Type} (q : IrQueries Plan) (st : IrState)
    (tv : TensorView) : Except Error IrState :=
  if !tv.domain.hasSymbolicAxis then
    .ok st
  else
    match propagateFromProducerToConsumer q st tv with
    | .error e => .error e
    | .ok (st, _) =>
      if tv.domain.leaf ≠ tv.getMaybeRFactorDomain then
        .error (.invalidTensor tv.name)
      else
        match (if tv.hasRFactor then mutateIdExprs q (q.getExprsBetween tv) st
               else .ok st) with
        | .error e => .error e
        | .ok st =>
          match mutateTensorDomain q st tv.domain with
          | .error e => .error e
          | .ok st => st.setDomain tv

/-! ## Concretizer: the three phases -/

/-- Modelled from the spec: `ir_utils::replaceValInExpr` for every use of the
old tensor, which redirects every consumer of `old_name` to `new_name`. -/
def IrState.replaceUses (st : IrState) (old_name new_name : Nat) : IrState :=
  { st with exprs := st.exprs.map (fun e =>
      { e with inputs := e.inputs.map (fun i =>
          if i = .tensorView old_name then .tensorView new_name else i) }) }

/-- Modelled from the spec: `Fusion::replaceOutput`, which substitutes the new
tensor for the old one at its positions among the declared outputs. -/
def IrState.replaceOutput (st : IrState) (old_name new_name : Nat) : IrState :=
  { st with outputs := st.outputs.map (fun o => if o = old_name then new_name else o) }

/-- Modelled from the spec: `Fusion::removeVal`, which removes the old tensor
together with the operation that defines it. -/
def IrState.removeVal (st : IrState) (name : Nat) : IrState :=
  { st with
    vals := st.vals.filter (fun tv => tv.name != name),
    exprs := st.exprs.filter (fun e => !e.outputs.contains name) }

/-- Body of the loop of `concretizeReshape` for one entry of the Info. -/
def concretizeReshapeStep {Plan : Type} (q : IrQueries Plan) (st : IrState)
    (kv : TensorView × Plan) : Except Error IrState :=
  let incomplete_out_tv := kv.1
  match st.producerTvsOf incomplete_out_tv with
  | [] => .error .outOfRange
  | inp_tv :: _ =>
    let created := q.reshape inp_tv kv.2
    let concrete_reshape_out_tv := created.out
    let st : IrState :=
      { st with vals := st.vals ++ created.newVals, exprs := st.exprs ++ created.newExprs }
    match checkConcretizedUses q st (.tensorView incomplete_out_tv)
        (.tensorView concrete_reshape_out_tv) with
    | .error e => .error e
    | .ok _ =>
      let st := st.replaceUses incomplete_out_tv.name concrete_reshape_out_tv.name
      let st :=
        if st.outputs.contains incomplete_out_tv.name then
          st.replaceOutput incomplete_out_tv.name concrete_reshape_out_tv.name
        else st
      .ok (st.removeVal incomplete_out_tv.name)

/-- The member function `DynamicTransformConcretizer::concretizeReshape`, over
the reshape results of the Info. -/
def concretizeReshape {Plan : Type} (q : IrQueries Plan) :
    List (TensorView × Plan) → IrState → Except Error IrState
  | [], st => .ok st
  | kv :: rest, st =>
    match concretizeReshapeStep q st kv with
    | .error e => .error e
    | .ok st => concretizeReshape q rest st

/-- Modelled from the spec: `IterDomain::resize` with a given kind, which
rebuilds the resized axis with the same extent definition and the resolved
kind. -/
def IterDomain.resize (id : IterDomain) (_def : Resize) (iter_type : IterType) :
    IterDomain :=
  id.withIterType iter_type

/-- The member function `DynamicTransformConcretizer::concretizeResize`, over
the resize results of the Info. -/
def concretizeResize {Plan : Type} (q : IrQueries Plan) :
    List (IterDomain × IterType) → IrState → Except Error IrState
  | [], st => .ok st
  | (id, iter_type) :: rest, st =>
    match q.definition id with
    | some (.resize def_) =>
      let new_id := id.resize def_ iter_type
      match registerConcretization q st (.iterDomain id) (.iterDomain new_id) with
      | .error e => .error e
      | .ok st => concretizeResize q rest st
    | _ => .error (.resizeWithoutDefinition id.name)

/-- Dispatch of `mutate(stmt)` on the kind of the statement.  A tensor is read
from the graph in its current state.  For a value of another kind the handlers
of `OptOutMutator` rebuild it only when one of its scalar members has a
substitute, and the Concretizer registers none for scalars. -/
def mutateStatement {Plan : Type} (q : IrQueries Plan) (st : IrState) :
    Statement → Except Error IrState
  | .tensorView name =>
    match st.tensorView? name with
    | none => .error .outOfRange
    | some tv => mutateTensorView q st tv
  | .tensorDomain td => mutateTensorDomain q st td
  | .other _ => .ok st

/-- The loop of `concretize` over the statements of the graph. -/
def mutateStatements {Plan : Type} (q : IrQueries Plan) :
    List Statement → IrState → Except Error IrState
  | [], st => .ok st
  | stmt :: stmts, st =>
    match mutateStatement q st stmt with
    | .error e => .error e
    | .ok st => mutateStatements q stmts st

/-- The member function `DynamicTransformConcretizer::concretize`. -/
def concretize {Plan : Type} (q : IrQueries Plan)
    (info : DynamicTransformConcretizationInfo Plan) (st : IrState) :
    Except Error IrState :=
  match concretizeReshape q info.reshape_transforms_ st with
  | .error e => .error e
  | .ok st =>
    match concretizeResize q info.resize_transforms_ st with
    | .error e => .error e
    | .ok st => mutateStatements q (q.getStmts st) st

/-- The function `DynamicTransform::concretizeFusion(fusion, info)`: the
constructor of the Concretizer checks that the Info belongs to the graph and
runs `concretize`.  The substitution table starts empty. -/
def concretizeFusion {Plan : Type} (q : IrQueries Plan) (st : IrState)
    (info : DynamicTransformConcretizationInfo Plan) : Except Error IrState :=
  if st.fusion ≠ info.fusion_ then
    .error .differentFusion
  else
    concretize q info { st with mutations_ := [] }

/-! ## Concretizer: what the substitution table holds -/

/-- A use-accepted substitution: every operation that uses the old value
accepts the new one. -/
def Accepted {Plan : Type} (q : IrQueries Plan) (old_val new_val : IrVal) : Prop :=
  ∀ use ∈ q.uses old_val, q.checkConcretization use old_val new_val = true

/-- The four ways an entry comes into the substitution table after the reshape
phase, `m` being the table before the entry: a resized axis of the Info, a
propagated root axis, an output of an axis transform, and a rebuilt domain. -/
inductive Registered {Plan : Type} (q : IrQueries Plan)
    (resizes : List (IterDomain × IterType)) (m : List (IrVal × IrVal)) :
    IrVal × IrVal → Prop where
  | resize (id : IterDomain) (iter_type : IterType) (def_ : Resize)
      (hmem : (id, iter_type) ∈ resizes)
      (hdef : q.definition id = some (.resize def_))
      (hacc : Accepted q (.iterDomain id) (.iterDomain (id.resize def_ iter_type))) :
      Registered q resizes m (.iterDomain id, .iterDomain (id.resize def_ iter_type))
  | root (consumer : TensorView) (producers : List TensorView) (root_id : IterDomain)
      (id_type : IterType)
      (hsym : root_id.iterType = IterType.Symbolic)
      (hfold : producerIterType q consumer root_id producers none = .ok (some id_type))
      (hne : id_type ≠ IterType.Symbolic)
      (hacc : Accepted q (.iterDomain root_id)
        (.iterDomain (root_id.withIterType id_type))) :
      Registered q resizes m
        (.iterDomain root_id, .iterDomain (root_id.withIterType id_type))
  | derived (table : List (IrVal × IrVal)) (inputs : List IterDomain)
      (out_id : IterDomain) (iter_type : IterType)
      (hfold : outputIterType q.promoteIterType table inputs IterType.Symbolic
        = .ok iter_type)
      (hne : iter_type ≠ IterType.Symbolic)
      (hacc : Accepted q (.iterDomain out_id)
        (.iterDomain (out_id.withIterType iter_type))) :
      Registered q resizes m
        (.iterDomain out_id, .iterDomain (out_id.withIterType iter_type))
  | domain (td : TensorDomain) (root_dom rfactor_dom domain : List IterDomain)
      (contig : List (Option Bool)) (mutated_root mutated_rfactor mutated_leaf : Bool)
      (hroot : updateIdVec m td.root = .ok (root_dom, mutated_root))
      (hrfactor : (if td.hasRFactor then updateIdVec m td.maybeRFactor
        else .ok ([], false)) = .ok (rfactor_dom, mutated_rfactor))
      (hleaf : updateIdVec m td.leaf = .ok (domain, mutated_leaf))
      (hmutated : (mutated_root || mutated_rfactor || mutated_leaf) = true)
      (hcontig : updateContiguity (if td.hasRFactor then rfactor_dom else root_dom)
        td.maybeRFactor 0 td.contiguity = .ok contig)
      (hacc : Accepted q (.tensorDomain td)
        (.tensorDomain { root := root_dom, rfactor := rfactor_dom, leaf := domain,
                         contiguity := contig })) :
      Registered q resizes m
        (.tensorDomain td,
         .tensorDomain { root := root_dom, rfactor := rfactor_dom, leaf := domain,
                         contiguity := contig })

/-- Every entry of the substitution table came into it in one of the four
ways, given the entries registered before it. -/
inductive TableOk {Plan : Type} (q : IrQueries Plan)
    (resizes : List (IterDomain × IterType)) : List (IrVal × IrVal) → Prop where
  | nil : TableOk q resizes []
  | cons (entry : IrVal × IrVal) (m : List (IrVal × IrVal))
      (hentry : Registered q resizes m entry) (htable : TableOk q resizes m) :
      TableOk q resizes (entry :: m)

/-- What a step of the passes after the reshape phase keeps: the graph
identity, the operations and the declared outputs; it only adds entries in
front of the substitution table. -/
def KeepsGraph (st st' : IrState) : Prop :=
  st'.fusion = st.fusion ∧ st'.exprs = st.exprs ∧ st'.outputs = st.outputs ∧
    ∃ added, st'.mutations_ = added ++ st.mutations_

/-- A step of the passes after the reshape phase keeps the graph and keeps
the substitution table justified entry by entry. -/
def StepOk {Plan : Type} (q : IrQueries Plan) (resizes : List (IterDomain × IterType))
    (st st' : IrState) : Prop :=
  KeepsGraph st st' ∧
    (TableOk q resizes st.mutations_ → TableOk q resizes st'.mutations_)

/-! ## Cloning an Initial Info -/

/-- The interface of `IrCloner` read when an Initial Info is cloned: the graph
that receives the copies, the old-to-new mapping `clone(node)` on reshape
operations, resize operations and scalars, and the clone of an evaluator. -/
structure IrCloner (E : Type) where
  container : Nat
  cloneViewOp : ViewOp → ViewOp
  cloneResize : Resize → Resize
  cloneVal : Val → Val
  cloneEvaluator : E → E

/-- Modelled from the spec: the constructor `DynamicTransformInitialInfo(Fusion*)`,
which is written in dynamic_transform.h and not in the sources at hand.  The
Info references the given graph and its lists and sets start empty: the
Builder, which starts from it, fills them by `push_back` and `insert`.
`expr_eval` is the evaluator the Info starts with. -/
def DynamicTransformInitialInfo.create {E : Type} (fusion : Nat) (expr_eval : E) :
    DynamicTransformInitialInfo E :=
  { fusion_ := fusion, dynamic_reshapes_ := [], dynamic_resizes_ := [],
    root_dynamic_vals_ := [], scalar_inputs_affecting_concretization_ := [],
    expr_eval_ := expr_eval }

/-- The member function `DynamicTransformInitialInfo::clone(ir_cloner)`: a new
Info for the container of the cloner, the two loops that push the clone of
every recorded operation (a recorded operation is never null), and the clone
of the evaluator.  The function has no statement for `root_dynamic_vals_` and
`scalar_inputs_affecting_concretization_`. -/
def DynamicTransformInitialInfo.clone {E : Type} (self : DynamicTransformInitialInfo E)
    (ir_cloner : IrCloner E) : DynamicTransformInitialInfo E :=
  let cloned_info : DynamicTransformInitialInfo E :=
    DynamicTransformInitialInfo.create ir_cloner.container
      (ir_cloner.cloneEvaluator self.expr_eval_)
  let cloned_info := self.dynamic_reshapes_.foldl
    (fun (acc : DynamicTransformInitialInfo E) op =>
      { acc with dynamic_reshapes_ := acc.dynamic_reshapes_ ++ [ir_cloner.cloneViewOp op] })
    cloned_info
  let cloned_info := self.dynamic_resizes_.foldl
    (fun (acc : DynamicTransformInitialInfo E) op =>
      { acc with dynamic_resizes_ := acc.dynamic_resizes_ ++ [ir_cloner.cloneResize op] })
    cloned_info
  cloned_info

/-! ## Optimization passes (csrc/optimization/opt_pass.cpp) -/

/-- The enumeration `OptimizationPassCategory`. -/
inductive OptimizationPassCategory where
  | PreSegmenter
  | Null
  deriving DecidableEq, Repr

/-- The class `OptimizationPass` of opt_pass.h: `func()` and `name()`.  A
`FusionPass` is a function that rewrites a graph of type `F` in place. -/
structure OptimizationPass (F : Type) where
  func : F → F
  name : String

/-- The struct `OptimizationRegistry::PassEntry`. -/
structure PassEntry (F : Type) where
  priority_ : Int
  pass_ : F → F
  name_ : String

/-- The state the functions of opt_pass.cpp work on: the flag
`pre_segmenter_flag` and the table `pass_categories_` of the registry, in
which a category without entry has the empty list. -/
structure OptimizationState (F : Type) where
  pre_segmenter_flag : Bool
  pass_categories_ : OptimizationPassCategory → List (PassEntry F)

/-- The function `setOptimizationFlag`. -/
def setOptimizationFlag {F : Type} (s : OptimizationState F)
    (flag : OptimizationPassCategory) (enabled : Bool) : OptimizationState F :=
  if flag = OptimizationPassCategory.PreSegmenter then
    { s with pre_segmenter_flag := enabled }
  else s

/-- The function `getOptimizationFlag`. -/
def getOptimizationFlag {F : Type} (s : OptimizationState F)
    (flag : OptimizationPassCategory) : Bool :=
  if flag = OptimizationPassCategory.PreSegmenter then s.pre_segmenter_flag else false

/-- The loop and the `emplace` of `OptimizationRegistry::registerPass`: the
entry is placed in front of the first entry of strictly lower priority, or at
the end. -/
def emplaceEntry {F : Type} (entry : PassEntry F) : List (PassEntry F) → List (PassEntry F)
  | [] => [entry]
  | e :: pass_entry_list =>
    if e.priority_ < entry.priority_ then entry :: e :: pass_entry_list
    else e :: emplaceEntry entry pass_entry_list

/-- The member function `OptimizationRegistry::registerPass`. -/
def OptimizationRegistry.registerPass {F : Type} (s : OptimizationState F)
    (cat : OptimizationPassCategory) (func : F → F) (name_ : String) (priority : Int) :
    OptimizationState F :=
  let pass_entry_list := s.pass_categories_ cat
  let emplaced :=
    emplaceEntry { priority_ := priority, pass_ := func, name_ := name_ } pass_entry_list
  { s with pass_categories_ := fun c => if c = cat then emplaced else s.pass_categories_ c }

/-- The member function `OptimizationRegistry::apply`: the passes of the
category are run on the graph, in list order. -/
def OptimizationRegistry.apply {F : Type} (s : OptimizationState F)
    (cat : OptimizationPassCategory) (fusion : F) : F :=
  (s.pass_categories_ cat).foldl (fun fusion entry => entry.pass_ fusion) fusion

/-- The function `registerOptimizationPass`. -/
def registerOptimizationPass {F : Type} (s : OptimizationState F)
    (category : OptimizationPassCategory) (pass : OptimizationPass F) (priority : Int) :
    OptimizationState F :=
  OptimizationRegistry.registerPass s category pass.func pass.name priority

/-- The function `applyOptimizationPass`. -/
def applyOptimizationPass {F : Type} (s : OptimizationState F)
    (category : OptimizationPassCategory) (fusion : F) : F :=
  if getOptimizationFlag s category then OptimizationRegistry.apply s category fusion
  else fusion

/-- The function `switchOptimizationPass`: the flag before the call, and the
state after it. -/
def switchOptimizationPass {F : Type} (s : OptimizationState F)
    (category : OptimizationPassCategory) (enable : Option Bool) :
    Bool × OptimizationState F :=
  let enabled := getOptimizationFlag s category
  match enable with
  | some value => (enabled, setOptimizationFlag s category value)
  | none => (enabled, s)

/-! ## Optimization groups (csrc/optimization/optimization_pass.h) -/

/-- The static member function `OptimizationGroup::flipEnabled`, on the value
of the static `enable_flag_`: the returned value and the flag after the call. -/
def OptimizationGroup.flipEnabled (enable_flag_ : Bool) (flip : Bool) : Bool × Bool :=
  let enable_flag_ := xor enable_flag_ flip
  (xor enable_flag_ flip, enable_flag_)

/-- The static member function `OptimizationGroup::setEnabled`: the returned
value and the flag after the call. -/
def OptimizationGroup.setEnabled (enable_flag_ : Bool) (enabled : Bool) : Bool × Bool :=
  let r := OptimizationGroup.flipEnabled enable_flag_ false
  let tmp := r.1
  if enabled != tmp then
    (tmp, (OptimizationGroup.flipEnabled r.2 true).2)
  else
    (tmp, r.2)

/-- The class `OptimizationGroupGuard`. -/
structure OptimizationGroupGuard where
  prev_status_ : Bool
  deriving DecidableEq, Repr

/-- The constructor `OptimizationGroupGuard(enabled)`: the guard and the flag
after the construction. -/
def OptimizationGroupGuard.create (enable_flag_ : Bool) (enabled : Bool) :
    OptimizationGroupGuard × Bool :=
  let r := OptimizationGroup.setEnabled enable_flag_ enabled
  ({ prev_status_ := r.1 }, r.2)

/-- The destructor of `OptimizationGroupGuard`: the flag after the
destruction. -/
def OptimizationGroupGuard.destroy (self : OptimizationGroupGuard) (enable_flag_ : Bool) :
    Bool :=
  (OptimizationGroup.setEnabled enable_flag_ self.prev_status_).2

/-! ## Rounding in the normalization scheduler (csrc/scheduler/normalization.cpp) -/

/-- Value of an `int64_t` computation: the integer brought back into the range
of the type. -/
def wrapInt64 (z : Int) : Int :=
  (z + 2 ^ 63) % 2 ^ 64 - 2 ^ 63

/-- The doubling of a power of two `p` while twice `p` does not exceed `x`,
at most `fuel` times. -/
def lastPow2Loop (x : Nat) : Nat → Nat → Nat
  | 0, p => p
  | fuel + 1, p => if 2 * p ≤ x then lastPow2Loop x fuel (2 * p) else p

/-- Modelled from the spec: `scheduler_utils::lastPow2`, which is not in the
sources at hand: the largest power of two that does not exceed `x`, and 1 for
`x` below 1. -/
def lastPow2 (x : Int) : Int :=
  (lastPow2Loop x.toNat x.toNat 1 : Nat)

/-- The function `roundUpPow2Or8` of normalization.cpp. -/
def roundUpPow2Or8 (x : Int) : Int :=
  let round_up_pow2 := lastPow2 x
  let round_up_pow2 :=
    if round_up_pow2 < x then wrapInt64 (round_up_pow2 * 2) else round_up_pow2
  let kEight : Int := 8
  let round_up_8 :=
    if Int.tmod x kEight = 0 then x else wrapInt64 (x + (kEight - Int.tmod x kEight))
  min round_up_8 round_up_pow2

/-- A tensor name is gone from the graph: no operation takes the tensor as an
input, no tensor of the graph has the name, and the name is not among the
declared outputs. -/
def IrState.Removed (st : IrState) (name : Nat) : Prop :=
  (∀ e ∈ st.exprs, ExprInput.tensorView name ∉ e.inputs) ∧
    (∀ tv ∈ st.vals, tv.name ≠ name) ∧ name ∉ st.outputs

/-! ## Lists prescribed by the spec for the Builder -/

/-- What the spec prescribes for the dynamic-reshape list: the reshape
operations the traversal visits whose output domain has a Symbolic axis, in
traversal order. -/
def specDynamicReshapes (stmts : List BuilderStatement) : List ViewOp :=
  stmts.filterMap (fun s =>
    match s with
    | .viewOp op => if op.out.domain.hasSymbolicAxis then some op else none
    | _ => none)

/-- What the spec prescribes for one tensor: the resize operations that define
a Symbolic axis of its derived-or-root domain, in axis order. -/
def specResizesOf (definition : IterDomain → Option IdDefinition)
    (rfd : List IterDomain) : List Resize :=
  rfd.filterMap (fun id =>
    if id.iterType = IterType.Symbolic then
      match definition id with
      | some (.resize op) => some op
      | _ => none
    else none)

/-- What the spec prescribes for the dynamic-resize list: the resize operations
of the tensors the traversal visits, in traversal order. -/
def specDynamicResizes (definition : IterDomain → Option IdDefinition)
    (stmts : List BuilderStatement) : List Resize :=
  stmts.flatMap (fun s =>
    match s with
    | .tensorView tv => specResizesOf definition tv.getMaybeRFactorDomain
    | _ => [])

/-- What the spec prescribes for the leaf set of one tensor: the extent of
every Symbolic axis of its derived-or-root domain that a resize operation
defines. -/
def specResizeLeaves (definition : IterDomain → Option IdDefinition)
    (rfd : List IterDomain) : List Val :=
  rfd.filterMap (fun id =>
    if id.iterType = IterType.Symbolic then
      match definition id with
      | some (.resize _) => some id.extent
      | _ => none
    else none)

/-- The leaf values of one statement, in the words of the spec with the
reduction axes of the input left out: for a reshape whose output has a Symbolic
axis, the extents of its non-reduction input axes and of its output axes that
the evaluator cannot evaluate; for a tensor, the extents of its resized
Symbolic axes; nothing otherwise. -/
def specLeafVals (evaluate : Val → Option EvaluatorValue)
    (definition : IterDomain → Option IdDefinition) : BuilderStatement → List Val
  | .viewOp op =>
    if op.out.domain.hasSymbolicAxis then
      ((TensorDomain.noReductions op.inp.getMaybeRFactorDomain ++
          op.out.getMaybeRFactorDomain).map (fun id => id.extent)).filter
        (fun v => (evaluate v).isNone)
    else []
  | .tensorView tv => specResizeLeaves definition tv.getMaybeRFactorDomain
  | .other _ => []

/-! ## Kinds prescribed by the spec for root propagation -/

/-- The kinds of the axes of the producers that correspond to a root axis of
the consumer, in producer order. -/
def producerKinds {Plan : Type} (q : IrQueries Plan) (consumer : TensorView)
    (root_id : IterDomain) (producers : List TensorView) : List IterType :=
  producers.filterMap (fun producer =>
    (q.mapConsumerToProducer producer consumer root_id).map (fun id => id.iterType))

/-- What the spec prescribes for the kind of a propagated root axis: the left
fold of the promotion rule over the kinds of the corresponding producer axes;
there is none without producer. -/
def specRootKind (promote : IterType → IterType → IterType) :
    List IterType → Option IterType
  | [] => none
  | k :: ks => some (ks.foldl promote k)

/-! ## Example data -/

/-- Example evaluator: the scalar with handle `v < 50` evaluates to the integer
`v - 10`, the scalar 50 to a double, and every other scalar is unknown. -/
def exampleEvaluate (v : Val) : Option EvaluatorValue :=
  if v < 50 then some (.int ((v : Int) - 10))
  else if v = 50 then some (.double 0)
  else none

/-- Example axis of the given kind, not partial. -/
def exampleAxis (name : Nat) (extent : Val) (iterType : IterType) : IterDomain :=
  { name := name, extent := extent, iterType := iterType, maybePartial := false }

/-- Example resize op whose output is the given axis. -/
def exampleResize (name : Nat) (out : IterDomain) : Resize :=
  { name := name, inp := exampleAxis 0 0 IterType.Iteration, out := out,
    leftExpand := 0, rightExpand := 0 }

/-- Example Initial Info recording the given dynamic ops. -/
def exampleInitialInfo (reshapes : List ViewOp) (resizes : List Resize) :
    DynamicTransformInitialInfo Unit :=
  { fusion_ := 0, dynamic_reshapes_ := reshapes, dynamic_resizes_ := resizes,
    root_dynamic_vals_ := [], scalar_inputs_affecting_concretization_ := [],
    expr_eval_ := () }

/-- Example Concretization Info of graph 0 with the given result lists. -/
def exampleInfo (Plan : Type) (reshapes : List (TensorView × Plan))
    (resizes : List (IterDomain × IterType)) : DynamicTransformConcretizationInfo Plan :=
  { fusion_ := 0, reshape_transforms_ := reshapes, resize_transforms_ := resizes }

/-- Example graph with address 0 and the given inputs. -/
def exampleFusion (inputs : List InputVal) : Fusion :=
  { addr := 0, inputs := inputs }

/-- Example tensor with the given root and derived axes. -/
def exampleTensor (name : Nat) (root rfactor : List IterDomain) : TensorView :=
  { name := name,
    domain :=
      { root := root, rfactor := rfactor,
        leaf := if rfactor.isEmpty then root else rfactor,
        contiguity := (if rfactor.isEmpty then root else rfactor).map (fun _ => some true) } }

/-- Example reshape: the input tensor has one Iteration axis per handle of
`inExtents`, the output tensor one Symbolic derived axis per handle of
`outExtents`. -/
def exampleReshape (name : Nat) (inExtents outExtents : List Val) : ViewOp :=
  { name := name,
    inp := exampleTensor (2 * name) (inExtents.map (fun v => exampleAxis v v IterType.Iteration)) [],
    out := exampleTensor (2 * name + 1)
      (inExtents.map (fun v => exampleAxis v v IterType.Iteration))
      (outExtents.map (fun v => exampleAxis (100 + v) v IterType.Symbolic)) }

/-- Example shape-algebra routine that returns the two shapes it is handed. -/
def exampleAnalyzeView (_inp_tv : TensorView) (inp_shape out_shape : List Int) :
    Except Error (List Int × List Int) :=
  .ok (inp_shape, out_shape)

/-- Example evaluator: the state is the list of bindings, newest first, and a
scalar evaluates to the integer it was last bound to. -/
def exampleEvaluator : ExpressionEvaluator (List (Val × Int)) :=
  { bind := fun e v x => (v, x) :: e,
    evaluate := fun e v => (e.lookup v).map EvaluatorValue.int }

/-- Example Initial Info without dynamic ops, carrying the empty example
evaluator. -/
def exampleBoundInfo : DynamicTransformInitialInfo (List (Val × Int)) :=
  { fusion_ := 0, dynamic_reshapes_ := [], dynamic_resizes_ := [],
    root_dynamic_vals_ := [], scalar_inputs_affecting_concretization_ := [],
    expr_eval_ := [] }

/-- Example declared inputs: an integral scalar, a tensor with two axes and a
scalar that is not integral. -/
def exampleInputs : List InputVal :=
  [InputVal.scalar 1 true,
   InputVal.tensorView (exampleTensor 5
     [exampleAxis 20 30 IterType.Iteration, exampleAxis 21 31 IterType.Iteration] []),
   InputVal.scalar 3 false]

/-- Example runtime arguments for `exampleInputs`: the integer 7, a tensor of
sizes 10, 11, ... and an argument of another type. -/
def exampleArgs : List ArgAbstract :=
  [ArgAbstract.long 7, ArgAbstract.tensor (fun j => 10 + (j : Int)), ArgAbstract.other 0]

/-- Example of `InputsOf::outputs`: the scalar 70 is computed from the scalar
62, and every other scalar is a root. -/
def exampleInputsOf (leaves : List Val) : List Val :=
  leaves.map (fun l => if l = 70 then 62 else l)

/-- Example graph with five scalar inputs 60, ..., 64. -/
def exampleFiveInputs : Fusion :=
  exampleFusion [InputVal.scalar 60 true, InputVal.scalar 61 true, InputVal.scalar 62 true,
    InputVal.scalar 63 true, InputVal.scalar 64 true]

/-- Example traversal: a reshape whose output extent 70 is computed from the
scalar 62, between its input and output tensors. -/
def exampleStatements : List BuilderStatement :=
  [BuilderStatement.tensorView (exampleReshape 1 [30, 31] [70, 31]).inp,
   BuilderStatement.viewOp (exampleReshape 1 [30, 31] [70, 31]),
   BuilderStatement.tensorView (exampleReshape 1 [30, 31] [70, 31]).out]

/-- Example promotion rule: Broadcast gives way to the other kind, Iteration
wins over Symbolic, and two equal kinds stay. -/
def examplePromote : IterType → IterType → IterType
  | .Broadcast, k => k
  | k, .Broadcast => k
  | .Iteration, _ => .Iteration
  | _, .Iteration => .Iteration
  | k, _ => k

/-- Example root-domain correspondence: the axis of the producer at the
position the root axis has in the consumer. -/
def exampleRootMap (producer consumer : TensorView) (root_id : IterDomain) :
    Option IterDomain :=
  producer.getMaybeRFactorDomain[consumer.domain.root.indexOf root_id]?

/-- Example collaborators: the uses of an axis or domain and the check of a
use are given; no axis has a defining operation, no tensor has axis
transforms, and the traversal visits the tensors of the graph in their order. -/
def exampleQueries (uses : IrVal → List Expr)
    (check : Expr → IrVal → IrVal → Bool) : IrQueries Unit :=
  { uses := uses,
    checkConcretization := check,
    promoteIterType := examplePromote,
    mapConsumerToProducer := exampleRootMap,
    getExprsBetween := fun _ => [],
    definition := fun _ => none,
    getStmts := fun st => st.vals.map (fun tv => Statement.tensorView tv.name),
    reshape := fun inp_tv _ => { out := inp_tv, newVals := [], newExprs := [] } }

/-- Example graph state with the given tensors and operations, no declared
output and an empty substitution table. -/
def exampleState (vals : List TensorView) (exprs : List Expr) : IrState :=
  { fusion := 0, vals := vals, exprs := exprs, outputs := [], mutations_ := [] }

/-- Example domain with two Symbolic root axes, both flagged contiguous. -/
def exampleSymbolicDomain : TensorDomain :=
  (exampleTensor 1
    [exampleAxis 1 11 IterType.Symbolic, exampleAxis 2 15 IterType.Symbolic] []).domain

/-- Example state whose substitution table concretizes the first axis of
`exampleSymbolicDomain` to Broadcast and the second to Iteration. -/
def exampleSubstitutedState : IrState :=
  { fusion := 0, vals := [], exprs := [], outputs := [],
    mutations_ :=
      [(IrVal.iterDomain (exampleAxis 1 11 IterType.Symbolic),
        IrVal.iterDomain (exampleAxis 1 11 IterType.Broadcast)),
       (IrVal.iterDomain (exampleAxis 2 15 IterType.Symbolic),
        IrVal.iterDomain (exampleAxis 2 15 IterType.Iteration))] }

/-- Example graph of a producer and a consumer: tensor 1 has a Broadcast and
an Iteration root axis, tensor 2 has two Symbolic root axes and is the output
of operation 9, which reads tensor 1. -/
def examplePipeline : IrState :=
  exampleState
    [exampleTensor 1
        [exampleAxis 1 11 IterType.Broadcast, exampleAxis 2 15 IterType.Iteration] [],
     exampleTensor 2
        [exampleAxis 3 11 IterType.Symbolic, exampleAxis 4 15 IterType.Symbolic] []]
    [{ name := 9, inputs := [ExprInput.tensorView 1], outputs := [2] }]

/-- Example collaborators that accept every substitution and report no use of
an axis or a domain. -/
def examplePermissive : IrQueries Unit :=
  exampleQueries (fun _ => []) (fun _ _ _ => true)

/-- Domain of the consumer of `examplePipeline`. -/
def exampleConsumerDomain : TensorDomain :=
  (exampleTensor 2
    [exampleAxis 3 11 IterType.Symbolic, exampleAxis 4 15 IterType.Symbolic] []).domain

/-- Domain of the consumer of `examplePipeline` once rebuilt: the first axis is
Broadcast with an absent flag, the second is Iteration. -/
def exampleRebuiltDomain : TensorDomain :=
  { root := [exampleAxis 3 11 IterType.Broadcast, exampleAxis 4 15 IterType.Iteration],
    rfactor := [],
    leaf := [exampleAxis 3 11 IterType.Broadcast, exampleAxis 4 15 IterType.Iteration],
    contiguity := [none, some true] }

/-- Example graph of one tensor with a Symbolic root axis and no defining
operation. -/
def exampleOrphan : IrState :=
  exampleState [exampleTensor 2 [exampleAxis 3 11 IterType.Symbolic] []] []

/-- Example graph of one tensor with a Symbolic root axis whose defining
operation reads a scalar only. -/
def exampleScalarFed : IrState :=
  exampleState [exampleTensor 2 [exampleAxis 3 11 IterType.Symbolic] []]
    [{ name := 9, inputs := [ExprInput.other 40], outputs := [2] }]

/-- Example static graph: one tensor with a Broadcast and an Iteration root
axis, and no operation. -/
def exampleStatic : IrState :=
  exampleState
    [exampleTensor 1
      [exampleAxis 1 11 IterType.Broadcast, exampleAxis 2 15 IterType.Iteration] []] []

/-- Example cloner into graph 1 whose old-to-new mapping keeps every node as
it is. -/
def exampleCloner : IrCloner (List (Val × Int)) :=
  { container := 1, cloneViewOp := fun op => op, cloneResize := fun op => op,
    cloneVal := fun v => v, cloneEvaluator := fun e => e }

/-- Example pass on a log of names: the pass appends its name to the log. -/
def exampleLoggingPass (name : String) : OptimizationPass (List String) :=
  { func := fun log => log ++ [name], name := name }

/-- Example state of the optimization passes: the flag is set and no pass is
registered. -/
def exampleNoPasses : OptimizationState (List String) :=
  { pre_segmenter_flag := true, pass_categories_ := fun _ => [] }

/-- Example registrations: `a` and `c` with priority 0, `b` and `d` with
priority 5, in the order a, b, c, d. -/
def exampleRegistrations : List (OptimizationPass (List String) × Int) :=
  [(exampleLoggingPass "a", 0), (exampleLoggingPass "b", 5),
   (exampleLoggingPass "c", 0), (exampleLoggingPass "d", 5)]

/-- Example consumer with two Symbolic root axes. -/
def exampleJoined : TensorView :=
  exampleTensor 3 [exampleAxis 5 11 IterType.Symbolic, exampleAxis 6 15 IterType.Symbolic] []

/-- Example graph of two producers and a consumer: tensor 1 has a Broadcast and
an Iteration root axis, tensor 2 two Broadcast root axes, and `exampleJoined`
is the output of operation 9, which reads tensors 1 and 2. -/
def exampleTwoProducers : IrState :=
  exampleState
    [exampleTensor 1
        [exampleAxis 1 11 IterType.Broadcast, exampleAxis 2 15 IterType.Iteration] [],
     exampleTensor 2
        [exampleAxis 3 11 IterType.Broadcast, exampleAxis 4 15 IterType.Broadcast] [],
     exampleJoined]
    [{ name := 9, inputs := [ExprInput.tensorView 1, ExprInput.tensorView 2],
       outputs := [3] }]

/-- Example consumer whose derived domain merges its two Broadcast root axes
into the Broadcast axis 7 and keeps its Symbolic root axis 6; the Broadcast
axis has no contiguity flag. -/
def exampleMerged : TensorView :=
  { name := 2,
    domain :=
      { root := [exampleAxis 4 10 IterType.Broadcast, exampleAxis 5 10 IterType.Broadcast,
                 exampleAxis 6 15 IterType.Symbolic],
        rfactor := [exampleAxis 7 10 IterType.Broadcast, exampleAxis 6 15 IterType.Symbolic],
        leaf := [exampleAxis 7 10 IterType.Broadcast, exampleAxis 6 15 IterType.Symbolic],
        contiguity := [none, some true] } }

/-- Example graph: tensor 1 has two Broadcast and an Iteration root axis, and
`exampleMerged` is the output of operation 9, which reads tensor 1. -/
def exampleBroadcastMerge : IrState :=
  exampleState
    [{ name := 1,
       domain :=
         { root := [exampleAxis 1 10 IterType.Broadcast, exampleAxis 2 10 IterType.Broadcast,
                    exampleAxis 3 15 IterType.Iteration],
           rfactor := [],
           leaf := [exampleAxis 1 10 IterType.Broadcast, exampleAxis 2 10 IterType.Broadcast,
                    exampleAxis 3 15 IterType.Iteration],
           contiguity := [none, none, some true] } },
     exampleMerged]
    [{ name := 9, inputs := [ExprInput.tensorView 1], outputs := [2] }]

/-- Example collaborators for `exampleBroadcastMerge`: as `examplePermissive`,
and the only axis transform of a tensor with a derived domain is the merge 20
of the axes 4 and 5 into the axis 7. -/
def exampleMergeQueries : IrQueries Unit :=
  { examplePermissive with
    getExprsBetween := fun tv =>
      if tv.hasRFactor then
        [{ name := 20,
           inputs := [exampleAxis 4 10 IterType.Broadcast, exampleAxis 5 10 IterType.Broadcast],
           outputs := [IrVal.iterDomain (exampleAxis 7 10 IterType.Broadcast)] }]
      else [] }

/-- Example old output of a dynamic reshape: tensor 2 with a Symbolic derived
axis. -/
def exampleReshapeOutput : TensorView :=
  exampleTensor 2 [exampleAxis 2 15 IterType.Iteration] [exampleAxis 3 16 IterType.Symbolic]

/-- Example graph with a dynamic reshape: operation 9 reshapes tensor 1 into
`exampleReshapeOutput`, operation 10 reads that tensor and writes tensor 3, and
the declared outputs are the tensors 2 and 3. -/
def exampleReshapeGraph : IrState :=
  { fusion := 0,
    vals := [exampleTensor 1 [exampleAxis 1 15 IterType.Iteration] [],
             exampleReshapeOutput,
             exampleTensor 3 [exampleAxis 4 16 IterType.Iteration] []],
    exprs := [{ name := 9, inputs := [ExprInput.tensorView 1], outputs := [2] },
              { name := 10, inputs := [ExprInput.tensorView 2], outputs := [3] }],
    outputs := [2, 3],
    mutations_ := [] }

/-- Example collaborators whose `reshape` creates tensor 50 and the operation
51 that computes it from the given tensor. -/
def exampleReshapeQueries : IrQueries Unit :=
  { examplePermissive with
    reshape := fun inp_tv _ =>
      { out := exampleTensor 50 [exampleAxis 5 16 IterType.Iteration] [],
        newVals := [exampleTensor 50 [exampleAxis 5 16 IterType.Iteration] []],
        newExprs := [{ name := 51, inputs := [ExprInput.tensorView inp_tv.name],
                       outputs := [50] }] } }

/-- Example dynamic reshape whose input tensor has an Iteration axis of extent
30 and a Reduction axis of extent 99, and whose output tensor has a Symbolic
derived axis of extent 70. -/
def exampleReducedReshape : ViewOp :=
  { name := 1,
    inp := exampleTensor 2
      [exampleAxis 30 30 IterType.Iteration, exampleAxis 99 99 IterType.Reduction] [],
    out := exampleTensor 3 [exampleAxis 30 30 IterType.Iteration]
      [exampleAxis 170 70 IterType.Symbolic] }

/-! ## Properties of analyzeResizes -/

/-- One iteration of the resize loop succeeds exactly when the output axis is
Symbolic and its extent evaluates to a positive integer; the entry is then the
axis paired with Broadcast for extent 1 and Iteration otherwise. -/
theorem analyzeResize_ok_iff (evaluate : Val → Option EvaluatorValue) (op : Resize)
    (entry : IterDomain × IterType) :
    analyzeResize evaluate op = .ok entry ↔
      op.out.iterType = IterType.Symbolic ∧
        ∃ x : Int, 0 < x ∧ evaluate op.out.extent = some (.int x) ∧
          entry = (op.out, if x = 1 then IterType.Broadcast else IterType.Iteration) := by
  unfold analyzeResize
  by_cases hs : op.out.iterType = IterType.Symbolic
  · simp only [hs, bne_self_eq_false, Bool.false_eq_true, ↓reduceIte, true_and]
    cases hv : evaluate op.out.extent with
    | none => simp
    | some v =>
      cases v with
      | int x =>
        by_cases hx : 0 < x
        · simp only [gt_iff_lt, hx, ↓reduceIte, Except.ok.injEq, Option.some.injEq,
            EvaluatorValue.int.injEq]
          constructor
          · intro h
            exact ⟨x, hx, rfl, h.symm⟩
          · rintro ⟨y, -, rfl, h⟩
            exact h.symm
        · simp only [gt_iff_lt, hx, ↓reduceIte, Option.some.injEq, EvaluatorValue.int.injEq,
            false_iff, not_exists, not_and, reduceCtorEq]
          intro y hy hxy
          omega
      | double b => simp
      | bool b => simp
  · simp [hs]

/-- The resize loop succeeds exactly when it appends one entry per op, each
the result of the loop body on the op at the same position. -/
theorem analyzeResizesLoop_ok_iff (evaluate : Val → Option EvaluatorValue)
    (ops : List Resize) (acc result : List (IterDomain × IterType)) :
    analyzeResizesLoop evaluate ops acc = .ok result ↔
      ∃ entries, result = acc ++ entries ∧
        List.Forall₂ (fun op entry => analyzeResize evaluate op = .ok entry) ops entries := by
  induction ops generalizing acc with
  | nil =>
    simp only [analyzeResizesLoop, Except.ok.injEq, List.forall₂_nil_left_iff]
    constructor
    · intro h
      exact ⟨[], by simp [h]⟩
    · rintro ⟨entries, h, rfl⟩
      simp [h]
  | cons op ops ih =>
    simp only [analyzeResizesLoop]
    cases hop : analyzeResize evaluate op with
    | error e =>
      simp only [reduceCtorEq, false_iff, not_exists, not_and]
      intro entries _ hall
      cases hall with
      | cons h _ => simp [hop] at h
    | ok entry =>
      simp only [ih]
      constructor
      · rintro ⟨entries, rfl, hall⟩
        exact ⟨entry :: entries, by simp, List.Forall₂.cons hop hall⟩
      · rintro ⟨entries, rfl, hall⟩
        cases hall with
        | cons h htl =>
          rw [hop] at h
          cases h
          exact ⟨_, by simp, htl⟩

/-- Related lists have the same length and are related position by position. -/
theorem forall2_getElem {α β : Type} {R : α → β → Prop} {l₁ : List α} {l₂ : List β}
    (h : List.Forall₂ R l₁ l₂) :
    l₂.length = l₁.length ∧
      ∀ (i : Nat) (a : α), l₁[i]? = some a → ∃ b, l₂[i]? = some b ∧ R a b := by
  induction h with
  | nil => simp
  | cons hab _ ih =>
    refine ⟨by simp [ih.1], ?_⟩
    intro i a hi
    cases i with
    | zero =>
      simp only [List.getElem?_cons_zero, Option.some.injEq] at hi
      subst hi
      exact ⟨_, by simp, hab⟩
    | succ i =>
      simp only [List.getElem?_cons_succ] at hi
      obtain ⟨b, hb, hr⟩ := ih.2 i a hi
      exact ⟨b, by simpa using hb, hr⟩

/-- Lists related at every member of the first can be built from a function
on the members. -/
theorem forall2_of_forall_mem {α β : Type} (R : α → β → Prop) (l₁ : List α)
    (h : ∀ a ∈ l₁, ∃ b, R a b) : ∃ l₂, List.Forall₂ R l₁ l₂ := by
  induction l₁ with
  | nil => exact ⟨[], List.Forall₂.nil⟩
  | cons a l ih =>
    obtain ⟨b, hb⟩ := h a (by simp)
    obtain ⟨l₂, hl⟩ := ih (fun x hx => h x (by simp [hx]))
    exact ⟨b :: l₂, List.Forall₂.cons hb hl⟩

/-- The member function succeeds exactly when the loop does, and then only
replaces `resize_transforms_`. -/
theorem analyzeResizes_ok_iff {Plan E : Type}
    (self result : DynamicTransformConcretizationInfo Plan)
    (info : DynamicTransformInitialInfo E) (evaluate : Val → Option EvaluatorValue) :
    self.analyzeResizes info evaluate = .ok result ↔
      ∃ entries, result = { self with resize_transforms_ := self.resize_transforms_ ++ entries } ∧
        List.Forall₂ (fun op entry => analyzeResize evaluate op = .ok entry)
          info.dynamic_resizes_ entries := by
  unfold DynamicTransformConcretizationInfo.analyzeResizes
  cases hl : analyzeResizesLoop evaluate info.dynamic_resizes_ self.resize_transforms_ with
  | error e =>
    simp only [reduceCtorEq, false_iff, not_exists, not_and]
    intro entries _ hall
    have := (analyzeResizesLoop_ok_iff evaluate info.dynamic_resizes_ self.resize_transforms_
      (self.resize_transforms_ ++ entries)).2 ⟨entries, rfl, hall⟩
    rw [hl] at this
    cases this
  | ok r =>
    obtain ⟨entries, rfl, hall⟩ := (analyzeResizesLoop_ok_iff _ _ _ _).1 hl
    simp only [Except.ok.injEq]
    constructor
    · intro h
      exact ⟨entries, h.symm, hall⟩
    · rintro ⟨entries2, rfl, hall2⟩
      have h2 := (analyzeResizesLoop_ok_iff evaluate info.dynamic_resizes_
        self.resize_transforms_ (self.resize_transforms_ ++ entries2)).2 ⟨entries2, rfl, hall2⟩
      rw [hl] at h2
      simp only [Except.ok.injEq] at h2
      rw [h2]

/-- C1: when `analyzeResizes` succeeds, the entries it appends to the resize-result
list (the whole list, for a freshly constructed Info) are exactly one per
recorded dynamic ResizeOp, in the order of the Initial Info; the extent of the
i-th op's output axis evaluates to a positive integer `x`, and the i-th entry
pairs that axis with Broadcast when `x = 1` and with Iteration when `x > 1`. -/
theorem analyzeResizes_classifies {Plan E : Type}
    (self result : DynamicTransformConcretizationInfo Plan)
    (info : DynamicTransformInitialInfo E) (evaluate : Val → Option EvaluatorValue)
    (hok : self.analyzeResizes info evaluate = .ok result) :
    ∃ entries : List (IterDomain × IterType),
      result.resize_transforms_ = self.resize_transforms_ ++ entries ∧
      entries.length = info.dynamic_resizes_.length ∧
      ∀ (i : Nat) (op : Resize), info.dynamic_resizes_[i]? = some op →
        ∃ x : Int, 0 < x ∧ evaluate op.out.extent = some (.int x) ∧
          (x = 1 → entries[i]? = some (op.out, IterType.Broadcast)) ∧
          (1 < x → entries[i]? = some (op.out, IterType.Iteration)) := by
  obtain ⟨entries, rfl, hall⟩ := (analyzeResizes_ok_iff self result info evaluate).1 hok
  obtain ⟨hlen, hget⟩ := forall2_getElem hall
  refine ⟨entries, rfl, hlen, ?_⟩
  intro i op hi
  obtain ⟨entry, hentry, hbody⟩ := hget i op hi
  obtain ⟨-, x, hx, hev, rfl⟩ := (analyzeResize_ok_iff evaluate op entry).1 hbody
  refine ⟨x, hx, hev, ?_, ?_⟩
  · intro h1
    simpa [h1] using hentry
  · intro h1
    have : x ≠ 1 := by omega
    simpa [this] using hentry

/-- Witness of C1: two recorded resizes whose output extents evaluate to 1 and 5
give the entries Broadcast and Iteration, in that order. -/
theorem analyzeResizes_classifies_witness :
    (exampleInfo Unit [] []).analyzeResizes
        (exampleInitialInfo []
          [exampleResize 1 (exampleAxis 1 11 IterType.Symbolic),
           exampleResize 2 (exampleAxis 2 15 IterType.Symbolic)])
        exampleEvaluate
      = .ok (exampleInfo Unit []
          [(exampleAxis 1 11 IterType.Symbolic, IterType.Broadcast),
           (exampleAxis 2 15 IterType.Symbolic, IterType.Iteration)]) ∧
    ∃ entries : List (IterDomain × IterType),
      (exampleInfo Unit []
          [(exampleAxis 1 11 IterType.Symbolic, IterType.Broadcast),
           (exampleAxis 2 15 IterType.Symbolic, IterType.Iteration)]).resize_transforms_
        = (exampleInfo Unit [] []).resize_transforms_ ++ entries ∧
      entries.length =
        (exampleInitialInfo []
          [exampleResize 1 (exampleAxis 1 11 IterType.Symbolic),
           exampleResize 2 (exampleAxis 2 15 IterType.Symbolic)]).dynamic_resizes_.length ∧
      ∀ (i : Nat) (op : Resize),
        (exampleInitialInfo []
          [exampleResize 1 (exampleAxis 1 11 IterType.Symbolic),
           exampleResize 2 (exampleAxis 2 15 IterType.Symbolic)]).dynamic_resizes_[i]? = some op →
        ∃ x : Int, 0 < x ∧ exampleEvaluate op.out.extent = some (.int x) ∧
          (x = 1 → entries[i]? = some (op.out, IterType.Broadcast)) ∧
          (1 < x → entries[i]? = some (op.out, IterType.Iteration)) :=
  ⟨rfl, analyzeResizes_classifies _ _ _ _ rfl⟩

/-- A computation that has no successful result has failed. -/
theorem exists_error_of_not_ok {α : Type} (r : Except Error α)
    (h : ∀ a, r ≠ .ok a) : ∃ e, r = .error e := by
  cases r with
  | error e => exact ⟨e, rfl⟩
  | ok a => exact absurd rfl (h a)

/-- The resize loop fails as soon as the body fails on one recorded op. -/
theorem analyzeResizes_error_of_mem {Plan E : Type}
    (self : DynamicTransformConcretizationInfo Plan)
    (info : DynamicTransformInitialInfo E) (evaluate : Val → Option EvaluatorValue)
    (op : Resize) (hop : op ∈ info.dynamic_resizes_)
    (hbad : ∀ entry, analyzeResize evaluate op ≠ .ok entry) :
    ∃ e, self.analyzeResizes info evaluate = .error e := by
  apply exists_error_of_not_ok
  intro result hok
  obtain ⟨entries, -, hall⟩ := (analyzeResizes_ok_iff self result info evaluate).1 hok
  obtain ⟨i, hi⟩ := List.getElem?_of_mem hop
  obtain ⟨entry, -, hbody⟩ := (forall2_getElem hall).2 i op hi
  exact hbad entry hbody

/-- The constructor fails whenever resize resolution fails from every state. -/
theorem create_error_of_resizes {Plan E : Type}
    (analyzeView : TensorView → List Int → List Int → Except Error Plan)
    (fusion : Fusion) (info : DynamicTransformInitialInfo E)
    (evaluate : Val → Option EvaluatorValue)
    (h : ∀ self : DynamicTransformConcretizationInfo Plan,
      ∃ e, self.analyzeResizes info evaluate = .error e) :
    ∃ e, DynamicTransformConcretizationInfo.create analyzeView fusion info evaluate
      = .error e := by
  unfold DynamicTransformConcretizationInfo.create
  simp only
  cases DynamicTransformConcretizationInfo.analyzeReshapes
      { fusion_ := fusion.addr, reshape_transforms_ := [], resize_transforms_ := [] }
      analyzeView info evaluate with
  | error e => exact ⟨e, rfl⟩
  | ok self => exact h self

/-- C2: if the output-axis extent of some recorded dynamic ResizeOp cannot be
evaluated, evaluates to a value that is not an integer, or evaluates to an
integer that is not strictly positive, then `analyzeResizes` fails and so does
building the Concretization Info (no Info is returned); conversely, if every
recorded resize has a Symbolic output axis whose extent evaluates to a strictly
positive integer, `analyzeResizes` succeeds. -/
theorem analyzeResizes_fails_or_succeeds {Plan E : Type}
    (info : DynamicTransformInitialInfo E) (evaluate : Val → Option EvaluatorValue) :
    (∀ op ∈ info.dynamic_resizes_,
        (evaluate op.out.extent = none ∨
          (∃ v, evaluate op.out.extent = some v ∧ ∀ x : Int, v ≠ .int x) ∨
          (∃ x : Int, x ≤ 0 ∧ evaluate op.out.extent = some (.int x))) →
        (∀ self : DynamicTransformConcretizationInfo Plan,
          ∃ e, self.analyzeResizes info evaluate = .error e) ∧
        (∀ (analyzeView : TensorView → List Int → List Int → Except Error Plan)
            (fusion : Fusion),
          ∃ e, getConcretizationInfo analyzeView fusion info evaluate = .error e)) ∧
    ((∀ op ∈ info.dynamic_resizes_,
        op.out.iterType = IterType.Symbolic ∧
          ∃ x : Int, 0 < x ∧ evaluate op.out.extent = some (.int x)) →
      ∀ self : DynamicTransformConcretizationInfo Plan,
        ∃ result, self.analyzeResizes info evaluate = .ok result) := by
  constructor
  · intro op hop hbad
    have hfail : ∀ self : DynamicTransformConcretizationInfo Plan,
        ∃ e, self.analyzeResizes info evaluate = .error e := by
      intro self
      apply analyzeResizes_error_of_mem self info evaluate op hop
      intro entry hentry
      obtain ⟨-, x, hx, hev, -⟩ := (analyzeResize_ok_iff evaluate op entry).1 hentry
      rcases hbad with h | ⟨v, hv, hne⟩ | ⟨y, hy, hv⟩
      · rw [h] at hev
        cases hev
      · rw [hv] at hev
        cases hev
        exact hne x rfl
      · rw [hv] at hev
        cases hev
        omega
    exact ⟨hfail, fun analyzeView fusion =>
      create_error_of_resizes analyzeView fusion info evaluate hfail⟩
  · intro hall self
    obtain ⟨entries, hentries⟩ :=
      forall2_of_forall_mem (fun op entry => analyzeResize evaluate op = .ok entry)
        info.dynamic_resizes_ (by
          intro op hop
          obtain ⟨hs, x, hx, hev⟩ := hall op hop
          exact ⟨_, (analyzeResize_ok_iff evaluate op _).2 ⟨hs, x, hx, hev, rfl⟩⟩)
    exact ⟨_, (analyzeResizes_ok_iff self _ info evaluate).2 ⟨entries, rfl, hentries⟩⟩

/-- Witness of C2: a recorded resize whose extent evaluates to -3 makes
`analyzeResizes` and the construction fail; resizes with extents 1 and 5
resolve. -/
theorem analyzeResizes_fails_or_succeeds_witness :
    ((∃ e, (exampleInfo Unit [] []).analyzeResizes
        (exampleInitialInfo []
          [exampleResize 1 (exampleAxis 1 11 IterType.Symbolic),
           exampleResize 2 (exampleAxis 2 7 IterType.Symbolic)])
        exampleEvaluate = .error e) ∧
      (∃ e, getConcretizationInfo (fun _ _ _ => Except.ok ()) (exampleFusion [])
        (exampleInitialInfo []
          [exampleResize 1 (exampleAxis 1 11 IterType.Symbolic),
           exampleResize 2 (exampleAxis 2 7 IterType.Symbolic)])
        exampleEvaluate = .error e)) ∧
    (∃ result, (exampleInfo Unit [] []).analyzeResizes
        (exampleInitialInfo []
          [exampleResize 1 (exampleAxis 1 11 IterType.Symbolic),
           exampleResize 2 (exampleAxis 2 15 IterType.Symbolic)])
        exampleEvaluate = .ok result) :=
  ⟨⟨((analyzeResizes_fails_or_succeeds
        (exampleInitialInfo []
          [exampleResize 1 (exampleAxis 1 11 IterType.Symbolic),
           exampleResize 2 (exampleAxis 2 7 IterType.Symbolic)])
        exampleEvaluate).1
        (exampleResize 2 (exampleAxis 2 7 IterType.Symbolic))
        (by simp [exampleInitialInfo])
        (Or.inr (Or.inr ⟨-3, by decide, by rfl⟩))).1 _,
      ((analyzeResizes_fails_or_succeeds
        (exampleInitialInfo []
          [exampleResize 1 (exampleAxis 1 11 IterType.Symbolic),
           exampleResize 2 (exampleAxis 2 7 IterType.Symbolic)])
        exampleEvaluate).1
        (exampleResize 2 (exampleAxis 2 7 IterType.Symbolic))
        (by simp [exampleInitialInfo])
        (Or.inr (Or.inr ⟨-3, by decide, by rfl⟩))).2 _ _⟩,
    (analyzeResizes_fails_or_succeeds
        (exampleInitialInfo []
          [exampleResize 1 (exampleAxis 1 11 IterType.Symbolic),
           exampleResize 2 (exampleAxis 2 15 IterType.Symbolic)])
        exampleEvaluate).2
      (by
        intro op hop
        simp only [exampleInitialInfo, List.mem_cons, List.mem_singleton, List.not_mem_nil,
          or_false] at hop
        rcases hop with rfl | rfl
        · exact ⟨rfl, 1, by decide, rfl⟩
        · exact ⟨rfl, 5, by decide, rfl⟩) _⟩

/-! ## Properties of analyzeReshapes -/

/-- The input loop succeeds exactly when no axis is partial and every extent
evaluates to a strictly positive integer; the shape is then the list of the
evaluated extents, in axis order. -/
theorem reshapeInputShape_ok_iff (evaluate : Val → Option EvaluatorValue)
    (inp_dom : List IterDomain) (inp_shape : List Int) :
    reshapeInputShape evaluate inp_dom = .ok inp_shape ↔
      List.Forall₂ (fun id x => id.maybePartial = false ∧
        evaluate id.extent = some (.int x) ∧ 0 < x) inp_dom inp_shape := by
  induction inp_dom generalizing inp_shape with
  | nil =>
    simp only [reshapeInputShape, Except.ok.injEq, List.forall₂_nil_left_iff]
    exact eq_comm
  | cons id dom ih =>
    simp only [reshapeInputShape]
    cases hp : id.maybePartial with
    | true =>
      simp only [↓reduceIte, reduceCtorEq, false_iff]
      intro h
      cases h with
      | cons h _ => simp [hp] at h
    | false =>
      simp only [Bool.false_eq_true, ↓reduceIte]
      cases hv : evaluate id.extent with
      | none =>
        simp only [reduceCtorEq, false_iff]
        intro h
        cases h with
        | cons h _ => simp [hv] at h
      | some v =>
        cases v with
        | int x =>
          by_cases hx : 0 < x
          · simp only [gt_iff_lt, hx, ↓reduceIte]
            cases hr : reshapeInputShape evaluate dom with
            | error e =>
              simp only [reduceCtorEq, false_iff]
              intro h
              cases h with
              | cons _ htl =>
                have := (ih _).2 htl
                rw [hr] at this
                cases this
            | ok shape =>
              have hsh := (ih shape).1 hr
              simp only [Except.ok.injEq]
              constructor
              · rintro rfl
                exact List.Forall₂.cons ⟨hp, hv, hx⟩ hsh
              · intro h
                cases h with
                | cons hhd htl =>
                  have h2 := (ih _).2 htl
                  rw [hr] at h2
                  simp only [Except.ok.injEq] at h2
                  obtain ⟨-, hev, -⟩ := hhd
                  rw [hv] at hev
                  simp only [Option.some.injEq, EvaluatorValue.int.injEq] at hev
                  rw [hev, h2]
          · simp only [gt_iff_lt, hx, ↓reduceIte, reduceCtorEq, false_iff]
            intro h
            cases h with
            | cons hhd _ =>
              obtain ⟨-, hev, hpos⟩ := hhd
              rw [hv] at hev
              simp only [Option.some.injEq, EvaluatorValue.int.injEq] at hev
              omega
        | double b =>
          simp only [reduceCtorEq, false_iff]
          intro h
          cases h with
          | cons h _ => simp [hv] at h
        | bool b =>
          simp only [reduceCtorEq, false_iff]
          intro h
          cases h with
          | cons h _ => simp [hv] at h

/-- The output loop, entered with the flag `extent_m1_found`, succeeds exactly
when every extent evaluates to an integer that is strictly positive or -1, and
the number of -1 among them, plus one if the flag is already set, is at most
one; the shape is then the list of the evaluated extents, in axis order. -/
theorem reshapeOutputShape_ok_iff_aux (evaluate : Val → Option EvaluatorValue)
    (out_tv : Nat) (out_dom : List IterDomain) (extent_m1_found : Bool)
    (out_shape : List Int) :
    reshapeOutputShape evaluate out_tv out_dom extent_m1_found = .ok out_shape ↔
      List.Forall₂ (fun id x => evaluate id.extent = some (.int x) ∧ (0 < x ∨ x = -1))
          out_dom out_shape ∧
        out_shape.count (-1) + (if extent_m1_found then 1 else 0) ≤ 1 := by
  induction out_dom generalizing out_shape extent_m1_found with
  | nil =>
    simp only [reshapeOutputShape, Except.ok.injEq, List.forall₂_nil_left_iff]
    constructor
    · rintro rfl
      refine ⟨rfl, ?_⟩
      cases extent_m1_found <;> simp
    · rintro ⟨rfl, -⟩
      rfl
  | cons id dom ih =>
    simp only [reshapeOutputShape]
    cases hv : evaluate id.extent with
    | none =>
      simp only [reduceCtorEq, false_iff, not_and]
      intro h
      cases h with
      | cons h _ => simp [hv] at h
    | some v =>
      cases v with
      | int x =>
        simp only
        by_cases hm : x = -1
        · subst hm
          simp only [↓reduceIte]
          cases extent_m1_found with
          | true =>
            simp only [↓reduceIte, reduceCtorEq, false_iff, not_and, not_le]
            intro h
            cases h with
            | cons hhd _ =>
              obtain ⟨hev, -⟩ := hhd
              rw [hv] at hev
              simp only [Option.some.injEq, EvaluatorValue.int.injEq] at hev
              subst hev
              simp
          | false =>
            simp only [Bool.false_eq_true, ↓reduceIte, add_zero]
            cases hr : reshapeOutputShape evaluate out_tv dom true with
            | error e =>
              simp only [reduceCtorEq, false_iff, not_and, not_le]
              intro h
              cases h with
              | cons hhd htl =>
                obtain ⟨hev, -⟩ := hhd
                rw [hv] at hev
                simp only [Option.some.injEq, EvaluatorValue.int.injEq] at hev
                subst hev
                rename_i l
                by_contra hc
                have hcc := List.count_cons_self (-1 : Int) l
                have := (ih true l).2 ⟨htl, by simp only [↓reduceIte]; omega⟩
                rw [hr] at this
                cases this
            | ok shape =>
              obtain ⟨hsh, hcnt⟩ := (ih true shape).1 hr
              simp only [Except.ok.injEq]
              constructor
              · rintro rfl
                exact ⟨List.Forall₂.cons ⟨hv, Or.inr rfl⟩ hsh, by simpa using hcnt⟩
              · rintro ⟨h, hc⟩
                cases h with
                | cons hhd htl =>
                  obtain ⟨hev, -⟩ := hhd
                  rw [hv] at hev
                  simp only [Option.some.injEq, EvaluatorValue.int.injEq] at hev
                  subst hev
                  rename_i l
                  have h2 := (ih true l).2 ⟨htl, by simpa using hc⟩
                  rw [hr] at h2
                  simp only [Except.ok.injEq] at h2
                  rw [h2]
        · simp only [hm, ↓reduceIte]
          by_cases hx : 0 < x
          · simp only [gt_iff_lt, hx, ↓reduceIte]
            cases hr : reshapeOutputShape evaluate out_tv dom extent_m1_found with
            | error e =>
              simp only [reduceCtorEq, false_iff, not_and, not_le]
              intro h
              cases h with
              | cons hhd htl =>
                obtain ⟨hev, -⟩ := hhd
                rw [hv] at hev
                simp only [Option.some.injEq, EvaluatorValue.int.injEq] at hev
                subst hev
                rename_i l
                by_contra hc
                have hne : ¬ ((-1 : Int) = x) := fun h => hm h.symm
                have := (ih extent_m1_found l).2
                  ⟨htl, by simpa [List.count_cons, hne] using hc⟩
                rw [hr] at this
                cases this
            | ok shape =>
              obtain ⟨hsh, hcnt⟩ := (ih extent_m1_found shape).1 hr
              have hne : ¬ ((-1 : Int) = x) := fun h => hm h.symm
              simp only [Except.ok.injEq]
              constructor
              · rintro rfl
                exact ⟨List.Forall₂.cons ⟨hv, Or.inl hx⟩ hsh,
                  by simpa [List.count_cons, hne] using hcnt⟩
              · rintro ⟨h, hc⟩
                cases h with
                | cons hhd htl =>
                  obtain ⟨hev, -⟩ := hhd
                  rw [hv] at hev
                  simp only [Option.some.injEq, EvaluatorValue.int.injEq] at hev
                  subst hev
                  rename_i l
                  have h2 := (ih extent_m1_found l).2
                    ⟨htl, by simpa [List.count_cons, hne] using hc⟩
                  rw [hr] at h2
                  simp only [Except.ok.injEq] at h2
                  rw [h2]
          · simp only [gt_iff_lt, hx, ↓reduceIte, reduceCtorEq, false_iff, not_and, not_le]
            intro h
            cases h with
            | cons hhd _ =>
              obtain ⟨hev, hpos⟩ := hhd
              rw [hv] at hev
              simp only [Option.some.injEq, EvaluatorValue.int.injEq] at hev
              subst hev
              rcases hpos with h | h
              · exact absurd h hx
              · exact absurd h hm
      | double b =>
        simp only [reduceCtorEq, false_iff, not_and]
        intro h
        cases h with
        | cons h _ => simp [hv] at h
      | bool b =>
        simp only [reduceCtorEq, false_iff, not_and]
        intro h
        cases h with
        | cons h _ => simp [hv] at h

/-- The output loop as `analyzeReshapes` enters it, with the flag cleared. -/
theorem reshapeOutputShape_ok_iff (evaluate : Val → Option EvaluatorValue)
    (out_tv : Nat) (out_dom : List IterDomain) (out_shape : List Int) :
    reshapeOutputShape evaluate out_tv out_dom false = .ok out_shape ↔
      List.Forall₂ (fun id x => evaluate id.extent = some (.int x) ∧ (0 < x ∨ x = -1))
          out_dom out_shape ∧
        out_shape.count (-1) ≤ 1 := by
  simpa using reshapeOutputShape_ok_iff_aux evaluate out_tv out_dom false out_shape

/-- The body of the reshape loop succeeds exactly when the output tensor has
a derived domain, both shape loops succeed, and the shape-algebra routine
accepts the two shapes; the entry is the output tensor with the returned plan. -/
theorem analyzeReshape_ok_iff {Plan : Type}
    (analyzeView : TensorView → List Int → List Int → Except Error Plan)
    (evaluate : Val → Option EvaluatorValue) (op : ViewOp) (entry : TensorView × Plan) :
    analyzeReshape analyzeView evaluate op = .ok entry ↔
      op.out.hasRFactor = true ∧
        ∃ inp_shape out_shape plan,
          reshapeInputShape evaluate
            (TensorDomain.noReductions op.inp.getMaybeRFactorDomain) = .ok inp_shape ∧
          reshapeOutputShape evaluate op.out.name op.out.getMaybeRFactorDomain false
            = .ok out_shape ∧
          analyzeView op.inp inp_shape out_shape = .ok plan ∧
          entry = (op.out, plan) := by
  unfold analyzeReshape
  cases hr : op.out.hasRFactor with
  | false => simp [hr]
  | true =>
    simp only [hr, Bool.not_true, Bool.false_eq_true, ↓reduceIte, true_and]
    cases hi : reshapeInputShape evaluate
        (TensorDomain.noReductions op.inp.getMaybeRFactorDomain) with
    | error e => simp
    | ok inp_shape =>
      cases ho : reshapeOutputShape evaluate op.out.name op.out.getMaybeRFactorDomain false with
      | error e => simp
      | ok out_shape =>
        cases hv : analyzeView op.inp inp_shape out_shape with
        | error e => simp [hv]
        | ok plan =>
          simp only [Except.ok.injEq, exists_and_left, exists_eq_left', hv]
          exact eq_comm

/-- When every op has an output with a Symbolic axis, the reshape loop
succeeds exactly when it appends one entry per op, each the result of the loop
body on the op at the same position. -/
theorem analyzeReshapesLoop_ok_iff {Plan : Type}
    (analyzeView : TensorView → List Int → List Int → Except Error Plan)
    (evaluate : Val → Option EvaluatorValue)
    (ops : List ViewOp) (hdyn : ∀ op ∈ ops, op.out.domain.hasSymbolicAxis = true)
    (acc result : List (TensorView × Plan)) :
    analyzeReshapesLoop analyzeView evaluate ops acc = .ok result ↔
      ∃ entries, result = acc ++ entries ∧
        List.Forall₂ (fun op entry => analyzeReshape analyzeView evaluate op = .ok entry)
          ops entries := by
  induction ops generalizing acc with
  | nil =>
    simp only [analyzeReshapesLoop, Except.ok.injEq, List.forall₂_nil_left_iff]
    constructor
    · intro h
      exact ⟨[], by simp [h]⟩
    · rintro ⟨entries, h, rfl⟩
      simp [h]
  | cons op ops ih =>
    have hop : op.out.domain.hasSymbolicAxis = true := hdyn op (by simp)
    have htl : ∀ o ∈ ops, o.out.domain.hasSymbolicAxis = true :=
      fun o ho => hdyn o (by simp [ho])
    simp only [analyzeReshapesLoop, hop, Bool.not_true, Bool.false_eq_true, ↓reduceIte]
    cases hb : analyzeReshape analyzeView evaluate op with
    | error e =>
      simp only [reduceCtorEq, false_iff, not_exists, not_and]
      intro entries _ hall
      cases hall with
      | cons h _ => simp [hb] at h
    | ok entry =>
      simp only [ih htl]
      constructor
      · rintro ⟨entries, rfl, hall⟩
        exact ⟨entry :: entries, by simp, List.Forall₂.cons hb hall⟩
      · rintro ⟨entries, rfl, hall⟩
        cases hall with
        | cons h htl2 =>
          rw [hb] at h
          cases h
          exact ⟨_, by simp, htl2⟩

/-- The member function `analyzeReshapes` succeeds exactly when the loop
does, and then only replaces `reshape_transforms_`. -/
theorem analyzeReshapes_ok_iff {Plan E : Type}
    (self result : DynamicTransformConcretizationInfo Plan)
    (analyzeView : TensorView → List Int → List Int → Except Error Plan)
    (info : DynamicTransformInitialInfo E) (evaluate : Val → Option EvaluatorValue)
    (hdyn : ∀ op ∈ info.dynamic_reshapes_, op.out.domain.hasSymbolicAxis = true) :
    self.analyzeReshapes analyzeView info evaluate = .ok result ↔
      ∃ entries,
        result = { self with reshape_transforms_ := self.reshape_transforms_ ++ entries } ∧
        List.Forall₂ (fun op entry => analyzeReshape analyzeView evaluate op = .ok entry)
          info.dynamic_reshapes_ entries := by
  unfold DynamicTransformConcretizationInfo.analyzeReshapes
  cases hl : analyzeReshapesLoop analyzeView evaluate info.dynamic_reshapes_
      self.reshape_transforms_ with
  | error e =>
    simp only [reduceCtorEq, false_iff, not_exists, not_and]
    intro entries _ hall
    have := (analyzeReshapesLoop_ok_iff analyzeView evaluate info.dynamic_reshapes_ hdyn
      self.reshape_transforms_ (self.reshape_transforms_ ++ entries)).2 ⟨entries, rfl, hall⟩
    rw [hl] at this
    cases this
  | ok r =>
    obtain ⟨entries, rfl, hall⟩ := (analyzeReshapesLoop_ok_iff _ _ _ hdyn _ _).1 hl
    simp only [Except.ok.injEq]
    constructor
    · intro h
      exact ⟨entries, h.symm, hall⟩
    · rintro ⟨entries2, rfl, hall2⟩
      have h2 := (analyzeReshapesLoop_ok_iff analyzeView evaluate info.dynamic_reshapes_ hdyn
        self.reshape_transforms_ (self.reshape_transforms_ ++ entries2)).2 ⟨entries2, rfl, hall2⟩
      rw [hl] at h2
      simp only [Except.ok.injEq] at h2
      rw [h2]

/-- Reshape resolution fails as soon as the loop body fails on one recorded
op, when every recorded op has an output with a Symbolic axis. -/
theorem analyzeReshapes_error_of_mem {Plan E : Type}
    (self : DynamicTransformConcretizationInfo Plan)
    (analyzeView : TensorView → List Int → List Int → Except Error Plan)
    (info : DynamicTransformInitialInfo E) (evaluate : Val → Option EvaluatorValue)
    (hdyn : ∀ op ∈ info.dynamic_reshapes_, op.out.domain.hasSymbolicAxis = true)
    (op : ViewOp) (hop : op ∈ info.dynamic_reshapes_)
    (hbad : ∀ entry, analyzeReshape analyzeView evaluate op ≠ .ok entry) :
    ∃ e, self.analyzeReshapes analyzeView info evaluate = .error e := by
  apply exists_error_of_not_ok
  intro result hok
  obtain ⟨entries, -, hall⟩ :=
    (analyzeReshapes_ok_iff self result analyzeView info evaluate hdyn).1 hok
  obtain ⟨i, hi⟩ := List.getElem?_of_mem hop
  obtain ⟨entry, -, hbody⟩ := (forall2_getElem hall).2 i op hi
  exact hbad entry hbody

/-- The Planner call fails whenever reshape resolution fails on the fresh Info. -/
theorem getConcretizationInfo_error_of_reshapes {Plan E : Type}
    (analyzeView : TensorView → List Int → List Int → Except Error Plan)
    (fusion : Fusion) (info : DynamicTransformInitialInfo E)
    (evaluate : Val → Option EvaluatorValue)
    (h : ∀ self : DynamicTransformConcretizationInfo Plan,
      ∃ e, self.analyzeReshapes analyzeView info evaluate = .error e) :
    ∃ e, getConcretizationInfo analyzeView fusion info evaluate = .error e := by
  unfold getConcretizationInfo DynamicTransformConcretizationInfo.create
  obtain ⟨e, he⟩ := h
    { fusion_ := fusion.addr, reshape_transforms_ := [], resize_transforms_ := [] }
  exact ⟨e, by simp only [he]⟩

/-- C3: for a recorded dynamic ReshapeOp, the output-shape validation of
`analyzeReshapes` passes with `out_shape` exactly when `out_shape` lists, in
axis order, the integers the output-domain extents evaluate to, each of them
strictly positive or -1 (left in place), with at most one -1; when no such
shape exists (an extent that is not evaluated or not an integer, a zero or
another negative extent, a second -1) reshape resolution and the Planner call
fail; and when the loop body succeeds, the plan it stores is the one the
shape-algebra routine returned for an output shape that passed validation. -/
theorem reshape_output_validation {Plan E : Type}
    (analyzeView : TensorView → List Int → List Int → Except Error Plan)
    (fusion : Fusion) (info : DynamicTransformInitialInfo E)
    (evaluate : Val → Option EvaluatorValue)
    (hdyn : ∀ op ∈ info.dynamic_reshapes_, op.out.domain.hasSymbolicAxis = true)
    (op : ViewOp) (hop : op ∈ info.dynamic_reshapes_) :
    (∀ out_shape : List Int,
      reshapeOutputShape evaluate op.out.name op.out.getMaybeRFactorDomain false
          = .ok out_shape ↔
        List.Forall₂ (fun id x => evaluate id.extent = some (.int x) ∧ (0 < x ∨ x = -1))
            op.out.getMaybeRFactorDomain out_shape ∧
          out_shape.count (-1) ≤ 1) ∧
    ((¬ ∃ out_shape : List Int,
        List.Forall₂ (fun id x => evaluate id.extent = some (.int x) ∧ (0 < x ∨ x = -1))
            op.out.getMaybeRFactorDomain out_shape ∧
          out_shape.count (-1) ≤ 1) →
      (∀ self : DynamicTransformConcretizationInfo Plan,
        ∃ e, self.analyzeReshapes analyzeView info evaluate = .error e) ∧
      ∃ e, getConcretizationInfo analyzeView fusion info evaluate = .error e) ∧
    (∀ entry : TensorView × Plan, analyzeReshape analyzeView evaluate op = .ok entry →
      ∃ inp_shape out_shape : List Int,
        analyzeView op.inp inp_shape out_shape = .ok entry.2 ∧
        List.Forall₂ (fun id x => evaluate id.extent = some (.int x) ∧ (0 < x ∨ x = -1))
            op.out.getMaybeRFactorDomain out_shape ∧
          out_shape.count (-1) ≤ 1) := by
  refine ⟨fun out_shape => reshapeOutputShape_ok_iff evaluate _ _ out_shape, ?_, ?_⟩
  · intro hnot
    have hfail : ∀ self : DynamicTransformConcretizationInfo Plan,
        ∃ e, self.analyzeReshapes analyzeView info evaluate = .error e := by
      intro self
      apply analyzeReshapes_error_of_mem self analyzeView info evaluate hdyn op hop
      intro entry hentry
      obtain ⟨-, inp_shape, out_shape, plan, -, hout, -, -⟩ :=
        (analyzeReshape_ok_iff analyzeView evaluate op entry).1 hentry
      exact hnot ⟨out_shape, (reshapeOutputShape_ok_iff evaluate _ _ out_shape).1 hout⟩
    exact ⟨hfail, getConcretizationInfo_error_of_reshapes analyzeView fusion info evaluate hfail⟩
  · intro entry hentry
    obtain ⟨-, inp_shape, out_shape, plan, -, hout, hview, rfl⟩ :=
      (analyzeReshape_ok_iff analyzeView evaluate op entry).1 hentry
    exact ⟨inp_shape, out_shape, hview,
      (reshapeOutputShape_ok_iff evaluate _ _ out_shape).1 hout⟩

/-- Witness of C3: output extents (-1, 4) pass validation and are handed over
unchanged; output extents (-1, -1) make the Planner call fail. -/
theorem reshape_output_validation_witness :
    (∀ op ∈ (exampleInitialInfo [exampleReshape 1 [12, 13, 14] [9, 14]] []).dynamic_reshapes_,
        op.out.domain.hasSymbolicAxis = true) ∧
      exampleReshape 1 [12, 13, 14] [9, 14] ∈
        (exampleInitialInfo [exampleReshape 1 [12, 13, 14] [9, 14]] []).dynamic_reshapes_ ∧
      reshapeOutputShape exampleEvaluate (exampleReshape 1 [12, 13, 14] [9, 14]).out.name
        (exampleReshape 1 [12, 13, 14] [9, 14]).out.getMaybeRFactorDomain false
        = .ok [-1, 4] ∧
      (∃ inp_shape out_shape : List Int,
        exampleAnalyzeView (exampleReshape 1 [12, 13, 14] [9, 14]).inp inp_shape out_shape
          = .ok ([2, 3, 4], [-1, 4]) ∧
        List.Forall₂
          (fun id x => exampleEvaluate id.extent = some (.int x) ∧ (0 < x ∨ x = -1))
            (exampleReshape 1 [12, 13, 14] [9, 14]).out.getMaybeRFactorDomain out_shape ∧
          out_shape.count (-1) ≤ 1) ∧
      ∃ e, getConcretizationInfo exampleAnalyzeView (exampleFusion [])
        (exampleInitialInfo [exampleReshape 2 [12, 13, 14] [9, 9]] []) exampleEvaluate
        = .error e :=
  ⟨by decide, by decide,
    ((reshape_output_validation exampleAnalyzeView (exampleFusion [])
      (exampleInitialInfo [exampleReshape 1 [12, 13, 14] [9, 14]] []) exampleEvaluate
      (by decide) (exampleReshape 1 [12, 13, 14] [9, 14]) (by decide)).1 [-1, 4]).2
      ⟨List.Forall₂.cons ⟨by rfl, Or.inr rfl⟩
        (List.Forall₂.cons ⟨by rfl, Or.inl (by decide)⟩ List.Forall₂.nil), by decide⟩,
    (reshape_output_validation exampleAnalyzeView (exampleFusion [])
      (exampleInitialInfo [exampleReshape 1 [12, 13, 14] [9, 14]] []) exampleEvaluate
      (by decide) (exampleReshape 1 [12, 13, 14] [9, 14]) (by decide)).2.2
      (exampleTensor 3 _ _, ([2, 3, 4], [-1, 4])) rfl,
    ((reshape_output_validation exampleAnalyzeView (exampleFusion [])
      (exampleInitialInfo [exampleReshape 2 [12, 13, 14] [9, 9]] []) exampleEvaluate
      (by decide) (exampleReshape 2 [12, 13, 14] [9, 9]) (by decide)).2.1
      (by
        rintro ⟨out_shape, hall, hcount⟩
        cases hall with
        | cons h1 htl =>
          cases htl with
          | cons h2 hnil =>
            cases hnil
            obtain ⟨h1, -⟩ := h1
            obtain ⟨h2, -⟩ := h2
            cases h1
            cases h2
            revert hcount
            decide)).2⟩

/-- C4: for a recorded dynamic ReshapeOp, if the extent of some non-reduction
input-domain axis cannot be evaluated, evaluates to a value that is not an
integer, or evaluates to an integer that is not strictly positive (the wildcard
-1 included), reshape resolution and the Planner call fail; the input-shape
validation passes with `inp_shape` exactly when no axis is partial and
`inp_shape` lists, in axis order, the strictly positive integers the extents
evaluate to; and when the loop body succeeds, the plan it stores is the one the
shape-algebra routine returned for that input shape. -/
theorem reshape_input_validation {Plan E : Type}
    (analyzeView : TensorView → List Int → List Int → Except Error Plan)
    (fusion : Fusion) (info : DynamicTransformInitialInfo E)
    (evaluate : Val → Option EvaluatorValue)
    (hdyn : ∀ op ∈ info.dynamic_reshapes_, op.out.domain.hasSymbolicAxis = true)
    (op : ViewOp) (hop : op ∈ info.dynamic_reshapes_) :
    (∀ id ∈ TensorDomain.noReductions op.inp.getMaybeRFactorDomain,
      (evaluate id.extent = none ∨
        (∃ v, evaluate id.extent = some v ∧ ∀ x : Int, v ≠ .int x) ∨
        (∃ x : Int, x ≤ 0 ∧ evaluate id.extent = some (.int x))) →
      (∀ self : DynamicTransformConcretizationInfo Plan,
        ∃ e, self.analyzeReshapes analyzeView info evaluate = .error e) ∧
      ∃ e, getConcretizationInfo analyzeView fusion info evaluate = .error e) ∧
    (∀ inp_shape : List Int,
      reshapeInputShape evaluate (TensorDomain.noReductions op.inp.getMaybeRFactorDomain)
          = .ok inp_shape ↔
        List.Forall₂ (fun id x => id.maybePartial = false ∧
            evaluate id.extent = some (.int x) ∧ 0 < x)
          (TensorDomain.noReductions op.inp.getMaybeRFactorDomain) inp_shape) ∧
    (∀ entry : TensorView × Plan, analyzeReshape analyzeView evaluate op = .ok entry →
      ∃ inp_shape out_shape : List Int,
        analyzeView op.inp inp_shape out_shape = .ok entry.2 ∧
        List.Forall₂ (fun id x => evaluate id.extent = some (.int x) ∧ 0 < x)
          (TensorDomain.noReductions op.inp.getMaybeRFactorDomain) inp_shape) := by
  refine ⟨?_, fun inp_shape => reshapeInputShape_ok_iff evaluate _ inp_shape, ?_⟩
  · intro id hid hbad
    have hfail : ∀ self : DynamicTransformConcretizationInfo Plan,
        ∃ e, self.analyzeReshapes analyzeView info evaluate = .error e := by
      intro self
      apply analyzeReshapes_error_of_mem self analyzeView info evaluate hdyn op hop
      intro entry hentry
      obtain ⟨-, inp_shape, out_shape, plan, hinp, -, -, -⟩ :=
        (analyzeReshape_ok_iff analyzeView evaluate op entry).1 hentry
      have hall := (reshapeInputShape_ok_iff evaluate _ inp_shape).1 hinp
      obtain ⟨i, hi⟩ := List.getElem?_of_mem hid
      obtain ⟨x, -, -, hev, hx⟩ := (forall2_getElem hall).2 i id hi
      rcases hbad with h | ⟨v, hv, hne⟩ | ⟨y, hy, hv⟩
      · rw [h] at hev
        cases hev
      · rw [hv] at hev
        cases hev
        exact hne x rfl
      · rw [hv] at hev
        cases hev
        omega
    exact ⟨hfail, getConcretizationInfo_error_of_reshapes analyzeView fusion info evaluate hfail⟩
  · intro entry hentry
    obtain ⟨-, inp_shape, out_shape, plan, hinp, -, hview, rfl⟩ :=
      (analyzeReshape_ok_iff analyzeView evaluate op entry).1 hentry
    refine ⟨inp_shape, out_shape, hview, ?_⟩
    exact ((reshapeInputShape_ok_iff evaluate _ inp_shape).1 hinp).imp
      (fun _ _ h => ⟨h.2.1, h.2.2⟩)

/-- Witness of C4: input extents (2, 3, 4) pass and are handed over in order;
an input extent evaluating to -1 makes the Planner call fail. -/
theorem reshape_input_validation_witness :
    (∀ op ∈ (exampleInitialInfo [exampleReshape 1 [12, 13, 14] [9, 14]] []).dynamic_reshapes_,
        op.out.domain.hasSymbolicAxis = true) ∧
      exampleReshape 1 [12, 13, 14] [9, 14] ∈
        (exampleInitialInfo [exampleReshape 1 [12, 13, 14] [9, 14]] []).dynamic_reshapes_ ∧
      reshapeInputShape exampleEvaluate (TensorDomain.noReductions
        (exampleReshape 1 [12, 13, 14] [9, 14]).inp.getMaybeRFactorDomain) = .ok [2, 3, 4] ∧
      (∃ inp_shape out_shape : List Int,
        exampleAnalyzeView (exampleReshape 1 [12, 13, 14] [9, 14]).inp inp_shape out_shape
          = .ok ([2, 3, 4], [-1, 4]) ∧
        List.Forall₂ (fun id x => exampleEvaluate id.extent = some (.int x) ∧ 0 < x)
          (TensorDomain.noReductions
            (exampleReshape 1 [12, 13, 14] [9, 14]).inp.getMaybeRFactorDomain) inp_shape) ∧
      ∃ e, getConcretizationInfo exampleAnalyzeView (exampleFusion [])
        (exampleInitialInfo [exampleReshape 2 [12, 9, 14] [9, 14]] []) exampleEvaluate
        = .error e :=
  ⟨by decide, by decide,
    ((reshape_input_validation exampleAnalyzeView (exampleFusion [])
      (exampleInitialInfo [exampleReshape 1 [12, 13, 14] [9, 14]] []) exampleEvaluate
      (by decide) (exampleReshape 1 [12, 13, 14] [9, 14]) (by decide)).2.1 [2, 3, 4]).2
      (List.Forall₂.cons ⟨rfl, by rfl, by decide⟩
        (List.Forall₂.cons ⟨rfl, by rfl, by decide⟩
          (List.Forall₂.cons ⟨rfl, by rfl, by decide⟩ List.Forall₂.nil))),
    (reshape_input_validation exampleAnalyzeView (exampleFusion [])
      (exampleInitialInfo [exampleReshape 1 [12, 13, 14] [9, 14]] []) exampleEvaluate
      (by decide) (exampleReshape 1 [12, 13, 14] [9, 14]) (by decide)).2.2
      (exampleTensor 3 _ _, ([2, 3, 4], [-1, 4])) rfl,
    ((reshape_input_validation exampleAnalyzeView (exampleFusion [])
      (exampleInitialInfo [exampleReshape 2 [12, 9, 14] [9, 14]] []) exampleEvaluate
      (by decide) (exampleReshape 2 [12, 9, 14] [9, 14]) (by decide)).1
      (exampleAxis 9 9 IterType.Iteration) (by decide)
      (Or.inr (Or.inr ⟨-1, by decide, by rfl⟩))).2⟩

/-- The guard at the head of the reshape loop: an op whose output has no
Symbolic axis ends the loop, and the entries gathered so far are returned. -/
theorem analyzeReshapesLoop_static_head {Plan : Type}
    (analyzeView : TensorView → List Int → List Int → Except Error Plan)
    (evaluate : Val → Option EvaluatorValue) (op : ViewOp) (ops : List ViewOp)
    (acc : List (TensorView × Plan)) (hstatic : op.out.domain.hasSymbolicAxis = false) :
    analyzeReshapesLoop analyzeView evaluate (op :: ops) acc = .ok acc := by
  simp [analyzeReshapesLoop, hstatic]

/-- C5: for an Initial Info whose recorded ReshapeOps are dynamic (each output
has a Symbolic axis), when `analyzeReshapes` returns without failure the
entries it appends to the reshape-result list (the whole list, for a freshly
constructed Info) are exactly one per recorded op, in the order of the Initial
Info; the i-th entry is keyed by the i-th op's output tensor and holds the plan
that the shape-algebra routine returned for the i-th op's input tensor, the
evaluated extents of its non-reduction input axes and the evaluated extents of
its output axes. -/
theorem analyzeReshapes_entries {Plan E : Type}
    (self result : DynamicTransformConcretizationInfo Plan)
    (analyzeView : TensorView → List Int → List Int → Except Error Plan)
    (info : DynamicTransformInitialInfo E) (evaluate : Val → Option EvaluatorValue)
    (hdyn : ∀ op ∈ info.dynamic_reshapes_, op.out.domain.hasSymbolicAxis = true)
    (hok : self.analyzeReshapes analyzeView info evaluate = .ok result) :
    ∃ entries : List (TensorView × Plan),
      result.reshape_transforms_ = self.reshape_transforms_ ++ entries ∧
      entries.length = info.dynamic_reshapes_.length ∧
      ∀ (i : Nat) (op : ViewOp), info.dynamic_reshapes_[i]? = some op →
        ∃ (inp_shape out_shape : List Int) (plan : Plan),
          List.Forall₂ (fun id x => evaluate id.extent = some (.int x))
            (TensorDomain.noReductions op.inp.getMaybeRFactorDomain) inp_shape ∧
          List.Forall₂ (fun id x => evaluate id.extent = some (.int x))
            op.out.getMaybeRFactorDomain out_shape ∧
          analyzeView op.inp inp_shape out_shape = .ok plan ∧
          entries[i]? = some (op.out, plan) := by
  obtain ⟨entries, rfl, hall⟩ :=
    (analyzeReshapes_ok_iff self result analyzeView info evaluate hdyn).1 hok
  obtain ⟨hlen, hget⟩ := forall2_getElem hall
  refine ⟨entries, rfl, hlen, ?_⟩
  intro i op hi
  obtain ⟨entry, hentry, hbody⟩ := hget i op hi
  obtain ⟨-, inp_shape, out_shape, plan, hinp, hout, hview, rfl⟩ :=
    (analyzeReshape_ok_iff analyzeView evaluate op entry).1 hbody
  refine ⟨inp_shape, out_shape, plan, ?_, ?_, hview, hentry⟩
  · exact ((reshapeInputShape_ok_iff evaluate _ inp_shape).1 hinp).imp
      (fun _ _ h => h.2.1)
  · exact ((reshapeOutputShape_ok_iff evaluate _ _ out_shape).1 hout).1.imp
      (fun _ _ h => h.1)

/-- Witness of C5: two recorded dynamic reshapes give two entries, keyed by
their output tensors and holding the plans for their evaluated shapes. -/
theorem analyzeReshapes_entries_witness :
    (∀ op ∈ (exampleInitialInfo
          [exampleReshape 1 [12, 13, 14] [9, 14], exampleReshape 2 [12, 13] [16]]
          []).dynamic_reshapes_,
        op.out.domain.hasSymbolicAxis = true) ∧
      (exampleInfo (List Int × List Int) [] []).analyzeReshapes exampleAnalyzeView
          (exampleInitialInfo
            [exampleReshape 1 [12, 13, 14] [9, 14], exampleReshape 2 [12, 13] [16]] [])
          exampleEvaluate
        = .ok (exampleInfo (List Int × List Int)
            [((exampleReshape 1 [12, 13, 14] [9, 14]).out, ([2, 3, 4], [-1, 4])),
             ((exampleReshape 2 [12, 13] [16]).out, ([2, 3], [6]))] []) ∧
      ∃ entries : List (TensorView × (List Int × List Int)),
        (exampleInfo (List Int × List Int)
            [((exampleReshape 1 [12, 13, 14] [9, 14]).out, ([2, 3, 4], [-1, 4])),
             ((exampleReshape 2 [12, 13] [16]).out, ([2, 3], [6]))] []).reshape_transforms_
          = (exampleInfo (List Int × List Int) [] []).reshape_transforms_ ++ entries ∧
        entries.length = (exampleInitialInfo
            [exampleReshape 1 [12, 13, 14] [9, 14], exampleReshape 2 [12, 13] [16]]
            []).dynamic_reshapes_.length ∧
        ∀ (i : Nat) (op : ViewOp),
          (exampleInitialInfo
            [exampleReshape 1 [12, 13, 14] [9, 14], exampleReshape 2 [12, 13] [16]]
            []).dynamic_reshapes_[i]? = some op →
          ∃ (inp_shape out_shape : List Int) (plan : List Int × List Int),
            List.Forall₂ (fun id x => exampleEvaluate id.extent = some (.int x))
              (TensorDomain.noReductions op.inp.getMaybeRFactorDomain) inp_shape ∧
            List.Forall₂ (fun id x => exampleEvaluate id.extent = some (.int x))
              op.out.getMaybeRFactorDomain out_shape ∧
            exampleAnalyzeView op.inp inp_shape out_shape = .ok plan ∧
            entries[i]? = some (op.out, plan) :=
  ⟨by decide, rfl, analyzeReshapes_entries _ _ _ _ _ (by decide) rfl⟩

/-! ## Wildcard resolution -/

/-- The right-hand members of related lists satisfy what the relation says of
them. -/
theorem forall2_right_mem {α β : Type} {R : α → β → Prop} {P : β → Prop}
    {l₁ : List α} {l₂ : List β} (h : List.Forall₂ R l₁ l₂)
    (hP : ∀ a b, R a b → P b) : ∀ b ∈ l₂, P b := by
  induction h with
  | nil => simp
  | cons hab _ ih =>
    intro b hb
    rcases List.mem_cons.1 hb with rfl | hb
    · exact hP _ _ hab
    · exact ih b hb

/-- The product of the known dimensions of a shape whose dimensions are
positive or -1 is positive. -/
theorem knownProduct_pos (out_shape : List Int)
    (h : ∀ x ∈ out_shape, 0 < x ∨ x = -1) : 0 < knownProduct out_shape := by
  unfold knownProduct
  apply List.prod_pos
  intro x hx
  obtain ⟨hmem, hne⟩ := List.mem_filter.1 hx
  rcases h x hmem with hpos | hm
  · exact hpos
  · simp [hm] at hne

/-- The modelled shape-algebra routine on a request with exactly one wildcard
among positive dimensions, when the known product divides the element count. -/
theorem analyzeViewSpec_wildcard (inp_tv : TensorView) (inp_shape out_shape : List Int)
    (hpos : ∀ x ∈ out_shape, 0 < x ∨ x = -1) (hone : out_shape.count (-1) = 1)
    (hdiv : inp_shape.prod % knownProduct out_shape = 0) :
    analyzeViewSpec inp_tv inp_shape out_shape =
      .ok { inputShape := inp_shape,
            outputShape := out_shape.map
              (fun d => if d = -1 then inp_shape.prod / knownProduct out_shape else d) } := by
  have hk : knownProduct out_shape ≠ 0 := (knownProduct_pos out_shape hpos).ne'
  simp [analyzeViewSpec, hone, hk, hdiv]

/-- The Planner on an Initial Info that records one dynamic reshape and no
resize, when the loop body succeeds on that reshape. -/
theorem getConcretizationInfo_single_reshape {Plan E : Type}
    (analyzeView : TensorView → List Int → List Int → Except Error Plan)
    (fusion : Fusion) (info : DynamicTransformInitialInfo E)
    (evaluate : Val → Option EvaluatorValue) (op : ViewOp) (entry : TensorView × Plan)
    (hreshapes : info.dynamic_reshapes_ = [op]) (hresizes : info.dynamic_resizes_ = [])
    (hsym : op.out.domain.hasSymbolicAxis = true)
    (hbody : analyzeReshape analyzeView evaluate op = .ok entry) :
    getConcretizationInfo analyzeView fusion info evaluate =
      .ok { fusion_ := fusion.addr, reshape_transforms_ := [entry],
            resize_transforms_ := [] } := by
  simp [getConcretizationInfo, DynamicTransformConcretizationInfo.create,
    DynamicTransformConcretizationInfo.analyzeReshapes,
    DynamicTransformConcretizationInfo.analyzeResizes, hreshapes, hresizes,
    analyzeReshapesLoop, analyzeResizesLoop, hsym, hbody]

/-- C6: with the shape-algebra routine modelled from the spec, a Planner call
on an Initial Info recording one dynamic reshape, whose input extents evaluate
to the positive integers `inp_shape` and whose output extents evaluate to
`out_shape`, positive integers but for a single -1, succeeds when the product
of the known output dimensions divides the input element count, and the stored
plan has the output shape in which the -1 is replaced by the input element
count divided by that product; for input extents (2,3,4) and requested output
extents (-1,4) the Planner succeeds and the plan concretizes the output shape
to (6,4). -/
theorem wildcard_resolution {E : Type}
    (fusion : Fusion) (info : DynamicTransformInitialInfo E)
    (evaluate : Val → Option EvaluatorValue) (op : ViewOp)
    (inp_shape out_shape : List Int)
    (hreshapes : info.dynamic_reshapes_ = [op]) (hresizes : info.dynamic_resizes_ = [])
    (hsym : op.out.domain.hasSymbolicAxis = true) (hrf : op.out.hasRFactor = true)
    (hinp : List.Forall₂ (fun id x => id.maybePartial = false ∧
        evaluate id.extent = some (.int x) ∧ 0 < x)
      (TensorDomain.noReductions op.inp.getMaybeRFactorDomain) inp_shape)
    (hout : List.Forall₂
      (fun id x => evaluate id.extent = some (.int x) ∧ (0 < x ∨ x = -1))
      op.out.getMaybeRFactorDomain out_shape)
    (hone : out_shape.count (-1) = 1) :
    (inp_shape.prod % knownProduct out_shape = 0 →
      getConcretizationInfo analyzeViewSpec fusion info evaluate =
        .ok { fusion_ := fusion.addr,
              reshape_transforms_ :=
                [(op.out,
                  { inputShape := inp_shape,
                    outputShape := out_shape.map (fun d =>
                      if d = -1 then inp_shape.prod / knownProduct out_shape else d) })],
              resize_transforms_ := [] }) ∧
    (inp_shape = [2, 3, 4] → out_shape = [-1, 4] →
      getConcretizationInfo analyzeViewSpec fusion info evaluate =
        .ok { fusion_ := fusion.addr,
              reshape_transforms_ :=
                [(op.out, { inputShape := [2, 3, 4], outputShape := [6, 4] })],
              resize_transforms_ := [] }) := by
  have hpos : ∀ x ∈ out_shape, 0 < x ∨ x = -1 :=
    forall2_right_mem hout (fun _ _ h => h.2)
  have hgen : inp_shape.prod % knownProduct out_shape = 0 →
      getConcretizationInfo analyzeViewSpec fusion info evaluate =
        .ok { fusion_ := fusion.addr,
              reshape_transforms_ :=
                [(op.out,
                  { inputShape := inp_shape,
                    outputShape := out_shape.map (fun d =>
                      if d = -1 then inp_shape.prod / knownProduct out_shape else d) })],
              resize_transforms_ := [] } := by
    intro hdiv
    apply getConcretizationInfo_single_reshape analyzeViewSpec fusion info evaluate op _
      hreshapes hresizes hsym
    exact (analyzeReshape_ok_iff analyzeViewSpec evaluate op _).2
      ⟨hrf, inp_shape, out_shape, _,
        (reshapeInputShape_ok_iff evaluate _ inp_shape).2 hinp,
        (reshapeOutputShape_ok_iff evaluate _ _ out_shape).2 ⟨hout, by omega⟩,
        analyzeViewSpec_wildcard op.inp inp_shape out_shape hpos hone hdiv, rfl⟩
  refine ⟨hgen, ?_⟩
  intro h1 h2
  subst h1 h2
  exact hgen (by decide)

/-- Witness of C6: the example reshape with input extents (2,3,4) and output
extents (-1,4) is planned with output shape (6,4). -/
theorem wildcard_resolution_witness :
    (exampleInitialInfo [exampleReshape 1 [12, 13, 14] [9, 14]] []).dynamic_reshapes_
        = [exampleReshape 1 [12, 13, 14] [9, 14]] ∧
      (exampleInitialInfo [exampleReshape 1 [12, 13, 14] [9, 14]] []).dynamic_resizes_ = [] ∧
      (exampleReshape 1 [12, 13, 14] [9, 14]).out.domain.hasSymbolicAxis = true ∧
      (exampleReshape 1 [12, 13, 14] [9, 14]).out.hasRFactor = true ∧
      List.count (-1) [(-1 : Int), 4] = 1 ∧
      getConcretizationInfo analyzeViewSpec (exampleFusion [])
          (exampleInitialInfo [exampleReshape 1 [12, 13, 14] [9, 14]] []) exampleEvaluate
        = .ok { fusion_ := (exampleFusion []).addr,
                reshape_transforms_ :=
                  [((exampleReshape 1 [12, 13, 14] [9, 14]).out,
                    { inputShape := [2, 3, 4], outputShape := [6, 4] })],
                resize_transforms_ := [] } :=
  ⟨rfl, rfl, by decide, by decide, by decide,
    (wildcard_resolution (exampleFusion [])
      (exampleInitialInfo [exampleReshape 1 [12, 13, 14] [9, 14]] []) exampleEvaluate
      (exampleReshape 1 [12, 13, 14] [9, 14]) [2, 3, 4] [-1, 4] rfl rfl
      (by decide) (by decide)
      (List.Forall₂.cons ⟨rfl, by rfl, by decide⟩
        (List.Forall₂.cons ⟨rfl, by rfl, by decide⟩
          (List.Forall₂.cons ⟨rfl, by rfl, by decide⟩ List.Forall₂.nil)))
      (List.Forall₂.cons ⟨by rfl, Or.inr rfl⟩
        (List.Forall₂.cons ⟨by rfl, Or.inl (by decide)⟩ List.Forall₂.nil))
      (by decide)).2 rfl rfl⟩

/-! ## Properties of getConcretizationInfo -/

/-- C7: when the number of runtime arguments differs from the number of
declared graph inputs, `getConcretizationInfo` fails with the count-mismatch
error, whatever the evaluator operations, the shape-algebra routine and the
Initial Info are: the failure comes before any binding and any analysis. -/
theorem getConcretizationInfo_count_mismatch {Plan E : Type}
    (analyzeView : TensorView → List Int → List Int → Except Error Plan)
    (ev : ExpressionEvaluator E)
    (fusion : Fusion) (info : DynamicTransformInitialInfo E) (args : List ArgAbstract)
    (hcount : args.length ≠ fusion.inputs.length) :
    getConcretizationInfoArgs analyzeView ev fusion info args =
      .error (.inputCountMismatch args.length fusion.inputs.length) := by
  simp [getConcretizationInfoArgs, hcount]

/-- Witness of C7: one argument for a graph with two declared inputs. -/
theorem getConcretizationInfo_count_mismatch_witness :
    [ArgAbstract.long 3].length ≠
        (exampleFusion [InputVal.scalar 1 true, InputVal.scalar 2 true]).inputs.length ∧
      getConcretizationInfoArgs exampleAnalyzeView
          { bind := fun (e : Unit) _ _ => e, evaluate := fun _ => exampleEvaluate }
          (exampleFusion [InputVal.scalar 1 true, InputVal.scalar 2 true])
          (exampleInitialInfo [] []) [ArgAbstract.long 3]
        = .error (.inputCountMismatch [ArgAbstract.long 3].length
            (exampleFusion [InputVal.scalar 1 true, InputVal.scalar 2 true]).inputs.length) :=
  ⟨by decide, getConcretizationInfo_count_mismatch _ _ _ _ _ (by decide)⟩

/-- The inner loop performs the tensor bindings of the spec, in axis order. -/
theorem bindTensorSizes_eq {E : Type} (ev : ExpressionEvaluator E) (getSize : Nat → Int)
    (dom : List IterDomain) (j : Nat) (expr_eval : E) :
    bindTensorSizes ev getSize dom j expr_eval =
      ((dom.enumFrom j).map (fun p => (p.2.extent, getSize p.1))).foldl
        (fun e b => ev.bind e b.1 b.2) expr_eval := by
  induction dom generalizing j expr_eval with
  | nil => simp [bindTensorSizes]
  | cons id dom ih => simp [bindTensorSizes, List.enumFrom_cons, ih]

/-- When every argument has the type its input asks for, the outer loop
performs the bindings of the spec, in input order. -/
theorem bindInputs_eq {E : Type} (ev : ExpressionEvaluator E)
    (inputs : List InputVal) (args : List ArgAbstract) (i : Nat) (expr_eval : E)
    (hmatch : ∀ p ∈ List.zip inputs args, argMatches p.1 p.2 = true) :
    bindInputs ev inputs args i expr_eval =
      .ok ((specBindings inputs args).foldl (fun e b => ev.bind e b.1 b.2) expr_eval) := by
  induction inputs generalizing args i expr_eval with
  | nil => cases args <;> simp [bindInputs, specBindings]
  | cons inpi inputs ih =>
    cases args with
    | nil => simp [bindInputs, specBindings]
    | cons argi args =>
      have hhd : argMatches inpi argi = true := hmatch (inpi, argi) (by simp)
      have htl : ∀ p ∈ List.zip inputs args, argMatches p.1 p.2 = true :=
        fun p hp => hmatch p (by simp [hp])
      cases inpi with
      | scalar v integral =>
        cases integral with
        | true =>
          cases argi with
          | long x => simp [bindInputs, specBindings, specInputBindings, ih _ _ _ htl]
          | tensor g => simp [argMatches] at hhd
          | other t => simp [argMatches] at hhd
        | false =>
          cases argi <;> simp [bindInputs, specBindings, specInputBindings, ih _ _ _ htl]
      | tensorView tv =>
        cases argi with
        | long x => simp [argMatches] at hhd
        | tensor g =>
          simp [bindInputs, specBindings, specInputBindings, specTensorBindings,
            ih _ _ _ htl, bindTensorSizes_eq, List.enum]
        | other t => simp [argMatches] at hhd

/-- When some argument does not have the type its input asks for, the outer
loop fails. -/
theorem bindInputs_error {E : Type} (ev : ExpressionEvaluator E)
    (inputs : List InputVal) (args : List ArgAbstract) (i : Nat) (expr_eval : E)
    (p : InputVal × ArgAbstract) (hp : p ∈ List.zip inputs args)
    (hbad : argMatches p.1 p.2 = false) :
    ∃ e, bindInputs ev inputs args i expr_eval = .error e := by
  induction inputs generalizing args i expr_eval with
  | nil => simp at hp
  | cons inpi inputs ih =>
    cases args with
    | nil => simp at hp
    | cons argi args =>
      simp only [List.zip_cons_cons, List.mem_cons] at hp
      by_cases hhd : argMatches inpi argi = true
      · have htl : p ∈ List.zip inputs args := by
          rcases hp with rfl | hp
          · simp [hhd] at hbad
          · exact hp
        cases inpi with
        | scalar v integral =>
          cases integral with
          | true =>
            cases argi with
            | long x => simpa [bindInputs] using ih args (i + 1) _ htl
            | tensor g => simp [argMatches] at hhd
            | other t => simp [argMatches] at hhd
          | false =>
            cases argi <;> simpa [bindInputs] using ih args (i + 1) _ htl
        | tensorView tv =>
          cases argi with
          | long x => simp [argMatches] at hhd
          | tensor g => simpa [bindInputs] using ih args (i + 1) _ htl
          | other t => simp [argMatches] at hhd
      · cases inpi with
        | scalar v integral =>
          cases integral with
          | true =>
            cases argi with
            | long x => simp [argMatches] at hhd
            | tensor g => exact ⟨_, by simp only [bindInputs]; rfl⟩
            | other t => exact ⟨_, by simp only [bindInputs]; rfl⟩
          | false => cases argi <;> simp [argMatches] at hhd
        | tensorView tv =>
          cases argi with
          | long x => exact ⟨_, by simp only [bindInputs]; rfl⟩
          | tensor g => simp [argMatches] at hhd
          | other t => exact ⟨_, by simp only [bindInputs]; rfl⟩

/-- A pair is at some position of a zip exactly when its components are at
that position of the two lists. -/
theorem mem_zip_iff_getElem {α β : Type} (l₁ : List α) (l₂ : List β) (p : α × β) :
    p ∈ List.zip l₁ l₂ ↔ ∃ i : Nat, l₁[i]? = some p.1 ∧ l₂[i]? = some p.2 := by
  constructor
  · intro h
    obtain ⟨i, hi⟩ := List.getElem?_of_mem h
    exact ⟨i, List.getElem?_zip_eq_some.1 hi⟩
  · rintro ⟨i, hi⟩
    exact List.getElem?_mem (List.getElem?_zip_eq_some.2 hi)

/-- The tensor bindings of the spec: the extent of axis `j` with the size the
argument reports at `j`. -/
theorem mem_specTensorBindings_iff (getSize : Nat → Int) (dom : List IterDomain)
    (b : Val × Int) :
    b ∈ specTensorBindings getSize dom ↔
      ∃ j id, dom[j]? = some id ∧ b = (id.extent, getSize j) := by
  unfold specTensorBindings
  simp only [List.mem_map]
  constructor
  · rintro ⟨p, hp, rfl⟩
    exact ⟨p.1, p.2, List.mem_enum_iff_getElem?.1 hp, rfl⟩
  · rintro ⟨j, id, hj, rfl⟩
    exact ⟨(j, id), List.mem_enum_iff_getElem?.2 hj, rfl⟩

/-- The bindings of the spec are those of its inputs, position by position. -/
theorem mem_specBindings_iff (inputs : List InputVal) (args : List ArgAbstract)
    (b : Val × Int) :
    b ∈ specBindings inputs args ↔
      ∃ p ∈ List.zip inputs args, b ∈ specInputBindings p.1 p.2 := by
  induction inputs generalizing args with
  | nil => cases args <;> simp [specBindings]
  | cons inpi inputs ih =>
    cases args with
    | nil => simp [specBindings]
    | cons argi args =>
      simp only [specBindings, List.mem_append, ih, List.zip_cons_cons, List.mem_cons,
        exists_eq_or_imp]

/-- C8: when `getConcretizationInfo` is given as many arguments as declared
inputs: the call fails if an integral scalar input meets an argument that is
not an integer, or a tensor input an argument that is not a tensor; otherwise
the evaluator used for the analysis is the Initial Info's evaluator on which
`bind` was called, in input order, for exactly these pairs: an integral scalar
input at position `i` with the integer value of argument `i`, and the extent
of axis `j` of a tensor input at position `i` with the size argument `i`
reports at `j`, for every axis `j`; inputs of any other kind bind nothing. -/
theorem getConcretizationInfo_binds {Plan E : Type}
    (analyzeView : TensorView → List Int → List Int → Except Error Plan)
    (ev : ExpressionEvaluator E)
    (fusion : Fusion) (info : DynamicTransformInitialInfo E) (args : List ArgAbstract)
    (hcount : args.length = fusion.inputs.length) :
    (∀ (i : Nat) (v : Val) (argi : ArgAbstract),
      fusion.inputs[i]? = some (.scalar v true) → args[i]? = some argi →
      (∀ x, argi ≠ .long x) →
      ∃ e, getConcretizationInfoArgs analyzeView ev fusion info args = .error e) ∧
    (∀ (i : Nat) (tv : TensorView) (argi : ArgAbstract),
      fusion.inputs[i]? = some (.tensorView tv) → args[i]? = some argi →
      (∀ getSize, argi ≠ .tensor getSize) →
      ∃ e, getConcretizationInfoArgs analyzeView ev fusion info args = .error e) ∧
    ((∀ (i : Nat) (inpi : InputVal) (argi : ArgAbstract),
        fusion.inputs[i]? = some inpi → args[i]? = some argi →
        argMatches inpi argi = true) →
      getConcretizationInfoArgs analyzeView ev fusion info args =
        DynamicTransformConcretizationInfo.create analyzeView fusion info
          (ev.evaluate ((specBindings fusion.inputs args).foldl
            (fun e b => ev.bind e b.1 b.2) info.expr_eval_))) ∧
    (∀ b : Val × Int, b ∈ specBindings fusion.inputs args ↔
      (∃ (i : Nat) (v : Val) (x : Int),
        fusion.inputs[i]? = some (.scalar v true) ∧ args[i]? = some (.long x) ∧
        b = (v, x)) ∨
      (∃ (i : Nat) (tv : TensorView) (getSize : Nat → Int) (j : Nat) (id : IterDomain),
        fusion.inputs[i]? = some (.tensorView tv) ∧ args[i]? = some (.tensor getSize) ∧
        tv.domain.maybeRFactor[j]? = some id ∧ b = (id.extent, getSize j))) := by
  have hne : ¬ args.length ≠ fusion.inputs.length := fun h => h hcount
  have herr : ∀ p ∈ List.zip fusion.inputs args, argMatches p.1 p.2 = false →
      ∃ e, getConcretizationInfoArgs analyzeView ev fusion info args = .error e := by
    intro p hp hbad
    obtain ⟨e, he⟩ := bindInputs_error ev fusion.inputs args 0 info.expr_eval_ p hp hbad
    exact ⟨e, by simp only [getConcretizationInfoArgs, hne, ↓reduceIte, he]⟩
  refine ⟨?_, ?_, ?_, ?_⟩
  · intro i v argi hi ha hnot
    apply herr (.scalar v true, argi) ((mem_zip_iff_getElem _ _ _).2 ⟨i, hi, ha⟩)
    cases argi with
    | long x => exact absurd rfl (hnot x)
    | tensor g => rfl
    | other t => rfl
  · intro i tv argi hi ha hnot
    apply herr (.tensorView tv, argi) ((mem_zip_iff_getElem _ _ _).2 ⟨i, hi, ha⟩)
    cases argi with
    | long x => rfl
    | tensor g => exact absurd rfl (hnot g)
    | other t => rfl
  · intro hall
    have hmatch : ∀ p ∈ List.zip fusion.inputs args, argMatches p.1 p.2 = true := by
      intro p hp
      obtain ⟨i, h1, h2⟩ := (mem_zip_iff_getElem _ _ _).1 hp
      exact hall i p.1 p.2 h1 h2
    simp only [getConcretizationInfoArgs, hne, ↓reduceIte,
      bindInputs_eq ev fusion.inputs args 0 info.expr_eval_ hmatch]
  · intro b
    rw [mem_specBindings_iff]
    constructor
    · rintro ⟨⟨inpi, argi⟩, hp, hb⟩
      obtain ⟨i, h1, h2⟩ := (mem_zip_iff_getElem _ _ _).1 hp
      simp only at h1 h2 hb
      cases inpi with
      | scalar v integral =>
        cases integral with
        | true =>
          cases argi with
          | long x =>
            simp only [specInputBindings, List.mem_singleton] at hb
            exact Or.inl ⟨i, v, x, h1, h2, hb⟩
          | tensor g => simp [specInputBindings] at hb
          | other t => simp [specInputBindings] at hb
        | false => cases argi <;> simp [specInputBindings] at hb
      | tensorView tv =>
        cases argi with
        | long x => simp [specInputBindings] at hb
        | tensor g =>
          simp only [specInputBindings] at hb
          obtain ⟨j, id, hj, rfl⟩ := (mem_specTensorBindings_iff g _ b).1 hb
          exact Or.inr ⟨i, tv, g, j, id, h1, h2, hj, rfl⟩
        | other t => simp [specInputBindings] at hb
    · rintro (⟨i, v, x, h1, h2, rfl⟩ | ⟨i, tv, g, j, id, h1, h2, hj, rfl⟩)
      · exact ⟨(.scalar v true, .long x), (mem_zip_iff_getElem _ _ _).2 ⟨i, h1, h2⟩,
          by simp [specInputBindings]⟩
      · exact ⟨(.tensorView tv, .tensor g), (mem_zip_iff_getElem _ _ _).2 ⟨i, h1, h2⟩,
          (mem_specTensorBindings_iff g _ _).2 ⟨j, id, hj, rfl⟩⟩

/-- Witness of C8: the example arguments fit the example inputs and yield the
bindings 1 to 7, extent 30 to 10 and extent 31 to 11; an argument of another
type in the place of an integer makes the call fail. -/
theorem getConcretizationInfo_binds_witness :
    exampleArgs.length = (exampleFusion exampleInputs).inputs.length ∧
      getConcretizationInfoArgs exampleAnalyzeView exampleEvaluator
          (exampleFusion exampleInputs) exampleBoundInfo exampleArgs
        = DynamicTransformConcretizationInfo.create exampleAnalyzeView
            (exampleFusion exampleInputs) exampleBoundInfo
            (exampleEvaluator.evaluate
              ((specBindings (exampleFusion exampleInputs).inputs exampleArgs).foldl
                (fun e b => exampleEvaluator.bind e b.1 b.2) exampleBoundInfo.expr_eval_)) ∧
      (specBindings (exampleFusion exampleInputs).inputs exampleArgs).foldl
          (fun e b => exampleEvaluator.bind e b.1 b.2) exampleBoundInfo.expr_eval_
        = [(31, 11), (30, 10), (1, 7)] ∧
      ∃ e, getConcretizationInfoArgs exampleAnalyzeView exampleEvaluator
        (exampleFusion [InputVal.scalar 1 true]) exampleBoundInfo [ArgAbstract.other 0]
        = .error e :=
  ⟨rfl,
    (getConcretizationInfo_binds exampleAnalyzeView exampleEvaluator
      (exampleFusion exampleInputs) exampleBoundInfo exampleArgs rfl).2.2.1
      (by
        intro i inpi argi h1 h2
        rcases i with _ | _ | _ | i
        · cases h1
          cases h2
          rfl
        · cases h1
          cases h2
          rfl
        · cases h1
          cases h2
          rfl
        · cases h1),
    by decide,
    (getConcretizationInfo_binds exampleAnalyzeView exampleEvaluator
      (exampleFusion [InputVal.scalar 1 true]) exampleBoundInfo [ArgAbstract.other 0] rfl).1
      0 1 (ArgAbstract.other 0) rfl rfl (fun x h => by cases h)⟩

/-! ## Properties of operator== and hash -/

/-- On vectors of the same size, the comparison loop succeeds exactly when the
entries compare equal position by position. -/
theorem transformsEqual_iff {α : Type} (entryEq : α → α → Bool) (l₁ l₂ : List α)
    (hlen : l₁.length = l₂.length) :
    transformsEqual entryEq l₁ l₂ = true ↔
      List.Forall₂ (fun x y => entryEq x y = true) l₁ l₂ := by
  induction l₁ generalizing l₂ with
  | nil =>
    cases l₂ with
    | nil => simp [transformsEqual]
    | cons y l₂ => simp at hlen
  | cons x l₁ ih =>
    cases l₂ with
    | nil => simp at hlen
    | cons y l₂ =>
      have hlen2 : l₁.length = l₂.length := by simpa using hlen
      cases hxy : entryEq x y with
      | false => simp [transformsEqual, hxy]
      | true => simp [transformsEqual, hxy, ih l₂ hlen2]

/-- Lists related position by position have the same length. -/
theorem forall2_length {α β : Type} {R : α → β → Prop} {l₁ : List α} {l₂ : List β}
    (h : List.Forall₂ R l₁ l₂) : l₁.length = l₂.length := by
  induction h with
  | nil => rfl
  | cons _ _ ih => simp [ih]

/-- A reflexive relation relates a list to itself. -/
theorem forall2_self {α : Type} {R : α → α → Prop} (hR : ∀ x, R x x) (l : List α) :
    List.Forall₂ R l l := by
  induction l with
  | nil => exact List.Forall₂.nil
  | cons x l ih => exact List.Forall₂.cons (hR x) ih

/-- A symmetric relation can be turned around on lists. -/
theorem forall2_symm {α : Type} {R : α → α → Prop} (hR : ∀ x y, R x y → R y x)
    {l₁ l₂ : List α} (h : List.Forall₂ R l₁ l₂) : List.Forall₂ R l₂ l₁ := by
  induction h with
  | nil => exact List.Forall₂.nil
  | cons hxy _ ih => exact List.Forall₂.cons (hR _ _ hxy) ih

/-- A transitive relation composes on lists. -/
theorem forall2_trans {α : Type} {R : α → α → Prop} (hR : ∀ x y z, R x y → R y z → R x z)
    {l₁ l₂ l₃ : List α} (h₁ : List.Forall₂ R l₁ l₂) (h₂ : List.Forall₂ R l₂ l₃) :
    List.Forall₂ R l₁ l₃ := by
  induction h₁ generalizing l₃ with
  | nil =>
    cases h₂
    exact List.Forall₂.nil
  | cons hxy _ ih =>
    cases h₂ with
    | cons hyz htl => exact List.Forall₂.cons (hR _ _ _ hxy hyz) (ih htl)

/-- For two distinct objects, `operator==` holds exactly when the graphs are
the same and both result lists agree entry by entry, in order. -/
theorem equals_iff_of_ne {Plan : Type} (planEq : Plan → Plan → Bool)
    (this_addr other_addr : Nat) (self other : DynamicTransformConcretizationInfo Plan)
    (hne : this_addr ≠ other_addr) :
    self.equals planEq this_addr other_addr other = true ↔
      self.fusion_ = other.fusion_ ∧
      List.Forall₂ (fun x y => reshapeEntryEq planEq x y = true)
        self.reshape_transforms_ other.reshape_transforms_ ∧
      List.Forall₂ (fun x y => resizeEntryEq x y = true)
        self.resize_transforms_ other.resize_transforms_ := by
  unfold DynamicTransformConcretizationInfo.equals
  simp only [hne, ↓reduceIte]
  by_cases hf : self.fusion_ = other.fusion_
  · by_cases hl1 : self.reshape_transforms_.length = other.reshape_transforms_.length
    · by_cases hl2 : self.resize_transforms_.length = other.resize_transforms_.length
      · simp only [ne_eq, hf, not_true_eq_false, ↓reduceIte, hl1, hl2, or_self, true_and,
          ← transformsEqual_iff _ _ _ hl1, ← transformsEqual_iff _ _ _ hl2]
        cases transformsEqual (reshapeEntryEq planEq) self.reshape_transforms_
            other.reshape_transforms_ <;>
          cases transformsEqual resizeEntryEq self.resize_transforms_
            other.resize_transforms_ <;> simp
      · simp only [ne_eq, hf, not_true_eq_false, ↓reduceIte, hl1, hl2, not_false_eq_true,
          or_true, Bool.false_eq_true, true_and, false_iff, not_and]
        intro _ h
        exact hl2 (forall2_length h)
    · simp only [ne_eq, hf, not_true_eq_false, ↓reduceIte, hl1, not_false_eq_true, true_or,
        Bool.false_eq_true, true_and, false_iff, not_and]
      intro h
      exact absurd (forall2_length h) hl1
  · simp [hf]

/-- Two reshape results compare equal when they are keyed by the same tensor
and their plans compare equal. -/
theorem reshapeEntryEq_iff {Plan : Type} (planEq : Plan → Plan → Bool)
    (x y : TensorView × Plan) :
    reshapeEntryEq planEq x y = true ↔ x.1 = y.1 ∧ planEq x.2 y.2 = true := by
  simp [reshapeEntryEq]

/-- Two resize results compare equal when they are the same axis with the same
kind. -/
theorem resizeEntryEq_iff (x y : IterDomain × IterType) :
    resizeEntryEq x y = true ↔ x = y := by
  simp [resizeEntryEq, Prod.ext_iff]

/-- C9: let `planEq`, the equality of view plans, be reflexive, symmetric and
transitive.  For two Concretization Infos `a` (at address `ta`) and `b` (at
address `tb`), `a == b` holds if and only if they reference the same graph,
their reshape-result lists have the same length and agree entry by entry in
order (same tensor, equal plans), and their resize-result lists have the same
length and agree entry by entry in order (same axis, same kind); and `==` is
reflexive, symmetric and transitive. -/
theorem equals_iff_same_content {Plan : Type} (planEq : Plan → Plan → Bool)
    (hrefl : ∀ p, planEq p p = true)
    (hsymm : ∀ p q, planEq p q = true → planEq q p = true)
    (htrans : ∀ p q r, planEq p q = true → planEq q r = true → planEq p r = true) :
    (∀ (ta tb : Nat) (a b : DynamicTransformConcretizationInfo Plan),
      (ta = tb → a = b) →
      (DynamicTransformConcretizationInfo.equals planEq ta a tb b = true ↔
        a.fusion_ = b.fusion_ ∧
        (a.reshape_transforms_.length = b.reshape_transforms_.length ∧
          List.Forall₂ (fun x y => x.1 = y.1 ∧ planEq x.2 y.2 = true)
            a.reshape_transforms_ b.reshape_transforms_) ∧
        (a.resize_transforms_.length = b.resize_transforms_.length ∧
          List.Forall₂ (fun x y => x = y) a.resize_transforms_ b.resize_transforms_))) ∧
    (∀ (ta : Nat) (a : DynamicTransformConcretizationInfo Plan),
      DynamicTransformConcretizationInfo.equals planEq ta a ta a = true) ∧
    (∀ (ta tb : Nat) (a b : DynamicTransformConcretizationInfo Plan),
      DynamicTransformConcretizationInfo.equals planEq ta a tb b = true →
      DynamicTransformConcretizationInfo.equals planEq tb b ta a = true) ∧
    (∀ (ta tb tc : Nat) (a b c : DynamicTransformConcretizationInfo Plan),
      (ta = tb → a = b) → (tb = tc → b = c) →
      DynamicTransformConcretizationInfo.equals planEq ta a tb b = true →
      DynamicTransformConcretizationInfo.equals planEq tb b tc c = true →
      DynamicTransformConcretizationInfo.equals planEq ta a tc c = true) := by
  have hcontent : ∀ (ta tb : Nat) (a b : DynamicTransformConcretizationInfo Plan),
      ta ≠ tb →
      (DynamicTransformConcretizationInfo.equals planEq ta a tb b = true ↔
        a.fusion_ = b.fusion_ ∧
        List.Forall₂ (fun x y => x.1 = y.1 ∧ planEq x.2 y.2 = true)
          a.reshape_transforms_ b.reshape_transforms_ ∧
        List.Forall₂ (fun x y => x = y) a.resize_transforms_ b.resize_transforms_) := by
    intro ta tb a b hne
    rw [equals_iff_of_ne planEq ta tb a b hne]
    simp only [reshapeEntryEq_iff, resizeEntryEq_iff]
  have hsame : ∀ (ta : Nat) (a b : DynamicTransformConcretizationInfo Plan),
      DynamicTransformConcretizationInfo.equals planEq ta a ta b = true := by
    intro ta a b
    simp [DynamicTransformConcretizationInfo.equals]
  refine ⟨?_, fun ta a => hsame ta a a, ?_, ?_⟩
  · intro ta tb a b hab
    by_cases h : ta = tb
    · subst h
      obtain rfl := hab rfl
      rw [hsame]
      exact iff_of_true rfl ⟨rfl, ⟨rfl, forall2_self (fun x => ⟨rfl, hrefl x.2⟩) _⟩,
        ⟨rfl, forall2_self (fun _ => rfl) _⟩⟩
    · rw [hcontent ta tb a b h]
      constructor
      · rintro ⟨hf, h1, h2⟩
        exact ⟨hf, ⟨forall2_length h1, h1⟩, ⟨forall2_length h2, h2⟩⟩
      · rintro ⟨hf, ⟨-, h1⟩, ⟨-, h2⟩⟩
        exact ⟨hf, h1, h2⟩
  · intro ta tb a b hab
    by_cases h : ta = tb
    · subst h
      exact hsame ta b a
    · obtain ⟨hf, h1, h2⟩ := (hcontent ta tb a b h).1 hab
      exact (hcontent tb ta b a (fun h' => h h'.symm)).2
        ⟨hf.symm, forall2_symm (fun x y hxy => ⟨hxy.1.symm, hsymm _ _ hxy.2⟩) h1,
          forall2_symm (fun x y hxy => hxy.symm) h2⟩
  · intro ta tb tc a b c hab hbc h1 h2
    by_cases hac : ta = tc
    · subst hac
      exact hsame ta a c
    · by_cases h : ta = tb
      · subst h
        obtain rfl := hab rfl
        exact h2
      · by_cases h' : tb = tc
        · subst h'
          obtain rfl := hbc rfl
          exact h1
        · obtain ⟨hf1, hr1, hz1⟩ := (hcontent ta tb a b h).1 h1
          obtain ⟨hf2, hr2, hz2⟩ := (hcontent tb tc b c h').1 h2
          exact (hcontent ta tc a c hac).2
            ⟨hf1.trans hf2,
              forall2_trans (fun x y z hxy hyz =>
                ⟨hxy.1.trans hyz.1, htrans _ _ _ hxy.2 hyz.2⟩) hr1 hr2,
              forall2_trans (fun x y z hxy hyz => hxy.trans hyz) hz1 hz2⟩

/-- Witness of C9: with plans compared by their value, two distinct objects
with the same graph and the same entries are equal under `operator==`. -/
theorem equals_iff_same_content_witness :
    (∀ p : Nat, (p == p) = true) ∧
      (∀ p q : Nat, (p == q) = true → (q == p) = true) ∧
      (∀ p q r : Nat, (p == q) = true → (q == r) = true → (p == r) = true) ∧
      DynamicTransformConcretizationInfo.equals (fun p q : Nat => p == q)
        1 (exampleInfo Nat [(exampleTensor 3 [] [], 7)]
          [(exampleAxis 1 11 IterType.Symbolic, IterType.Broadcast)])
        2 (exampleInfo Nat [(exampleTensor 3 [] [], 7)]
          [(exampleAxis 1 11 IterType.Symbolic, IterType.Broadcast)]) = true :=
  ⟨by simp, by simp, by simp,
    ((equals_iff_same_content (fun p q : Nat => p == q) (by simp)
      (fun p q h => by
        simp only [beq_iff_eq] at h ⊢
        exact h.symm)
      (fun p q r h₁ h₂ => by simp_all)).1 1 2
      (exampleInfo Nat [(exampleTensor 3 [] [], 7)]
        [(exampleAxis 1 11 IterType.Symbolic, IterType.Broadcast)])
      (exampleInfo Nat [(exampleTensor 3 [] [], 7)]
        [(exampleAxis 1 11 IterType.Symbolic, IterType.Broadcast)])
      (fun _ => rfl)).2
      ⟨rfl, ⟨rfl, List.Forall₂.cons ⟨rfl, by simp⟩ List.Forall₂.nil⟩,
        ⟨rfl, List.Forall₂.cons rfl List.Forall₂.nil⟩⟩⟩

/-- The running sum of the hash loop, reduced modulo the size of `size_t`. -/
theorem hash_foldl_mod {Plan : Type} (planHash : Plan → Nat)
    (l : List (TensorView × Plan)) (init : Nat) :
    (l.foldl (fun hash kv => (hash + planHash kv.2) % sizeModulus) init) % sizeModulus =
      (init + (l.map (fun kv => planHash kv.2)).sum) % sizeModulus := by
  induction l generalizing init with
  | nil => rfl
  | cons kv l ih =>
    simp only [List.foldl_cons, List.map_cons, List.sum_cons]
    rw [ih, Nat.add_mod, Nat.mod_mod, ← Nat.add_mod, Nat.add_assoc]

/-- The running sum of the hash loop stays a `size_t`. -/
theorem hash_foldl_lt {Plan : Type} (planHash : Plan → Nat)
    (l : List (TensorView × Plan)) (init : Nat) (hinit : init < sizeModulus) :
    l.foldl (fun hash kv => (hash + planHash kv.2) % sizeModulus) init < sizeModulus := by
  induction l generalizing init with
  | nil => exact hinit
  | cons kv l ih =>
    simp only [List.foldl_cons]
    exact ih _ (Nat.mod_lt _ (by decide))

/-- The hash is the sum of the plan hashes modulo the size of `size_t`. -/
theorem hash_eq_sum {Plan : Type} (planHash : Plan → Nat)
    (a : DynamicTransformConcretizationInfo Plan) :
    a.hash planHash =
      (a.reshape_transforms_.map (fun kv => planHash kv.2)).sum % sizeModulus := by
  have h1 := hash_foldl_mod planHash a.reshape_transforms_ 0
  have h2 := hash_foldl_lt planHash a.reshape_transforms_ 0 (by decide)
  rw [Nat.mod_eq_of_lt h2, Nat.zero_add] at h1
  exact h1

/-- Resize-result lists that agree entry by entry are the same list. -/
theorem forall2_resizeEntryEq {l₁ l₂ : List (IterDomain × IterType)}
    (h : List.Forall₂ (fun x y => resizeEntryEq x y = true) l₁ l₂) : l₁ = l₂ := by
  induction h with
  | nil => rfl
  | cons hxy _ ih => rw [(resizeEntryEq_iff _ _).1 hxy, ih]

/-- C10: the hash of a Concretization Info is the sum, modulo 2^64 (the
number of values of `size_t`), of the structural hashes of the plans of its
reshape-result list; it is 0 when that list is empty; two Infos with the same
plans have the same hash, whatever their graphs, tensors and resize results;
and two Infos with the same reshape results whose resize results differ are
unequal under `operator==` although their hashes collide. -/
theorem hash_sums_reshape_plans {Plan : Type} (planHash : Plan → Nat) :
    (∀ a : DynamicTransformConcretizationInfo Plan,
      a.hash planHash =
        (a.reshape_transforms_.map (fun kv => planHash kv.2)).sum % 2 ^ 64) ∧
    (∀ a : DynamicTransformConcretizationInfo Plan,
      a.reshape_transforms_ = [] → a.hash planHash = 0) ∧
    (∀ a b : DynamicTransformConcretizationInfo Plan,
      a.reshape_transforms_.map (fun kv => kv.2) = b.reshape_transforms_.map (fun kv => kv.2) →
      a.hash planHash = b.hash planHash) ∧
    (∀ (planEq : Plan → Plan → Bool) (ta tb : Nat)
        (a b : DynamicTransformConcretizationInfo Plan),
      (ta = tb → a = b) →
      a.reshape_transforms_ = b.reshape_transforms_ →
      a.resize_transforms_ ≠ b.resize_transforms_ →
      DynamicTransformConcretizationInfo.equals planEq ta a tb b = false ∧
        a.hash planHash = b.hash planHash) := by
  refine ⟨fun a => hash_eq_sum planHash a, ?_, ?_, ?_⟩
  · intro a ha
    simp [DynamicTransformConcretizationInfo.hash, ha]
  · intro a b hab
    rw [hash_eq_sum, hash_eq_sum]
    have h1 : a.reshape_transforms_.map (fun kv => planHash kv.2) =
        (a.reshape_transforms_.map (fun kv => kv.2)).map planHash := by simp
    have h2 : b.reshape_transforms_.map (fun kv => planHash kv.2) =
        (b.reshape_transforms_.map (fun kv => kv.2)).map planHash := by simp
    rw [h1, h2, hab]
  · intro planEq ta tb a b hsame hreshape hresize
    have hne : ta ≠ tb := by
      intro h
      exact hresize (by rw [hsame h])
    refine ⟨?_, by simp [DynamicTransformConcretizationInfo.hash, hreshape]⟩
    cases heq : DynamicTransformConcretizationInfo.equals planEq ta a tb b with
    | false => rfl
    | true =>
      obtain ⟨-, -, h⟩ := (equals_iff_of_ne planEq ta tb a b hne).1 heq
      exact absurd (forall2_resizeEntryEq h) hresize

/-- Witness of C10: two Infos of one graph without reshape results, whose
single resize result is Broadcast in one and Iteration in the other, are
unequal under `operator==` and both hash to 0. -/
theorem hash_sums_reshape_plans_witness :
    DynamicTransformConcretizationInfo.equals (fun p q : Nat => p == q)
        1 (exampleInfo Nat [] [(exampleAxis 1 11 IterType.Symbolic, IterType.Broadcast)])
        2 (exampleInfo Nat [] [(exampleAxis 1 11 IterType.Symbolic, IterType.Iteration)])
        = false ∧
      (exampleInfo Nat [] [(exampleAxis 1 11 IterType.Symbolic, IterType.Broadcast)]).hash
          (fun p => p)
        = (exampleInfo Nat [] [(exampleAxis 1 11 IterType.Symbolic, IterType.Iteration)]).hash
          (fun p => p) ∧
      (exampleInfo Nat [] [(exampleAxis 1 11 IterType.Symbolic, IterType.Broadcast)]).hash
          (fun p => p) = 0 :=
  ⟨((hash_sums_reshape_plans (fun p : Nat => p)).2.2.2 (fun p q : Nat => p == q) 1 2
      (exampleInfo Nat [] [(exampleAxis 1 11 IterType.Symbolic, IterType.Broadcast)])
      (exampleInfo Nat [] [(exampleAxis 1 11 IterType.Symbolic, IterType.Iteration)])
      (fun h => absurd h (by decide)) rfl (by decide)).1,
    ((hash_sums_reshape_plans (fun p : Nat => p)).2.2.2 (fun p q : Nat => p == q) 1 2
      (exampleInfo Nat [] [(exampleAxis 1 11 IterType.Symbolic, IterType.Broadcast)])
      (exampleInfo Nat [] [(exampleAxis 1 11 IterType.Symbolic, IterType.Iteration)])
      (fun h => absurd h (by decide)) rfl (by decide)).2,
    (hash_sums_reshape_plans (fun p : Nat => p)).2.1 _ rfl⟩

/-! ## Hash and equality together -/

/-- Reshape-result lists that agree entry by entry have the same list of plan
hashes, when plans that compare equal have equal hashes. -/
theorem planHashes_eq_of_forall2 {Plan : Type} (planEq : Plan → Plan → Bool)
    (planHash : Plan → Nat)
    (hhash : ∀ p q, planEq p q = true → planHash p = planHash q)
    {l₁ l₂ : List (TensorView × Plan)}
    (h : List.Forall₂ (fun x y => reshapeEntryEq planEq x y = true) l₁ l₂) :
    l₁.map (fun kv => planHash kv.2) = l₂.map (fun kv => planHash kv.2) := by
  induction h with
  | nil => rfl
  | cons hxy _ ih =>
    simp only [List.map_cons, ih]
    rw [hhash _ _ ((reshapeEntryEq_iff planEq _ _).1 hxy).2]

/-- C11: the hash is consistent with equality.  When view plans that compare
equal under `planEq` have equal structural hashes, two Concretization Infos
`a` (at address `ta`) and `b` (at address `tb`) with `a == b` have the same
hash. -/
theorem hash_eq_of_equals {Plan : Type} (planEq : Plan → Plan → Bool)
    (planHash : Plan → Nat)
    (hhash : ∀ p q, planEq p q = true → planHash p = planHash q)
    (ta tb : Nat) (a b : DynamicTransformConcretizationInfo Plan)
    (hsame : ta = tb → a = b)
    (heq : DynamicTransformConcretizationInfo.equals planEq ta a tb b = true) :
    a.hash planHash = b.hash planHash := by
  by_cases h : ta = tb
  · rw [hsame h]
  · obtain ⟨-, hreshape, -⟩ := (equals_iff_of_ne planEq ta tb a b h).1 heq
    rw [hash_eq_sum, hash_eq_sum, planHashes_eq_of_forall2 planEq planHash hhash hreshape]

/-- Witness of C11: plans are compared and hashed by their parity; two distinct
Infos whose plans 7 and 9 compare equal are equal under `operator==` and have
the same hash. -/
theorem hash_eq_of_equals_witness :
    (∀ p q : Nat, (p % 2 == q % 2) = true → p % 2 = q % 2) ∧
      DynamicTransformConcretizationInfo.equals (fun p q : Nat => p % 2 == q % 2)
        1 (exampleInfo Nat [(exampleTensor 3 [] [], 7)] [])
        2 (exampleInfo Nat [(exampleTensor 3 [] [], 9)] []) = true ∧
      (exampleInfo Nat [(exampleTensor 3 [] [], 7)] []).hash (fun n : Nat => n % 2)
        = (exampleInfo Nat [(exampleTensor 3 [] [], 9)] []).hash (fun n : Nat => n % 2) :=
  ⟨fun p q h => by simpa using h, by decide,
    hash_eq_of_equals (fun p q : Nat => p % 2 == q % 2) (fun n : Nat => n % 2)
      (fun p q h => by simpa using h) 1 2
      (exampleInfo Nat [(exampleTensor 3 [] [], 7)] [])
      (exampleInfo Nat [(exampleTensor 3 [] [], 9)] [])
      (fun h => absurd h (by decide)) (by decide)⟩

/-- Two distinct Infos with the same content compare equal, when the equality
of plans is reflexive. -/
theorem equals_self_content {Plan : Type} (planEq : Plan → Plan → Bool)
    (hrefl : ∀ p, planEq p p = true) (ta tb : Nat)
    (a : DynamicTransformConcretizationInfo Plan) :
    DynamicTransformConcretizationInfo.equals planEq ta a tb a = true := by
  by_cases h : ta = tb
  · simp [DynamicTransformConcretizationInfo.equals, h]
  · exact (equals_iff_of_ne planEq ta tb a a h).2
      ⟨rfl, forall2_self (fun x => (reshapeEntryEq_iff planEq x x).2 ⟨rfl, hrefl x.2⟩) _,
        forall2_self (fun x => (resizeEntryEq_iff x x).2 rfl) _⟩

/-- C12: determinism of the Planner.  Two runs of `getConcretizationInfo` on
the same graph, the same Initial Info and the same argument values (with the
same evaluator operations and shape-algebra routine, and a reflexive equality
of plans) either both fail, with the same error, or both succeed, and the two
Infos, wherever they are stored, compare equal under `operator==` and have
equal hashes.  The same holds for the overload that takes a bound evaluator. -/
theorem planner_deterministic {Plan E : Type} (planEq : Plan → Plan → Bool)
    (planHash : Plan → Nat) (hrefl : ∀ p, planEq p p = true)
    (analyzeView : TensorView → List Int → List Int → Except Error Plan)
    (ev : ExpressionEvaluator E) (fusion : Fusion) (info : DynamicTransformInitialInfo E)
    (args : List ArgAbstract) (evaluate : Val → Option EvaluatorValue) :
    (∀ run₁ run₂ : Except Error (DynamicTransformConcretizationInfo Plan),
      run₁ = getConcretizationInfoArgs analyzeView ev fusion info args →
      run₂ = getConcretizationInfoArgs analyzeView ev fusion info args →
      (∃ e, run₁ = .error e ∧ run₂ = .error e) ∨
      (∃ a b, run₁ = .ok a ∧ run₂ = .ok b ∧
        (∀ ta tb : Nat,
          DynamicTransformConcretizationInfo.equals planEq ta a tb b = true) ∧
        a.hash planHash = b.hash planHash)) ∧
    (∀ run₁ run₂ : Except Error (DynamicTransformConcretizationInfo Plan),
      run₁ = getConcretizationInfo analyzeView fusion info evaluate →
      run₂ = getConcretizationInfo analyzeView fusion info evaluate →
      (∃ e, run₁ = .error e ∧ run₂ = .error e) ∨
      (∃ a b, run₁ = .ok a ∧ run₂ = .ok b ∧
        (∀ ta tb : Nat,
          DynamicTransformConcretizationInfo.equals planEq ta a tb b = true) ∧
        a.hash planHash = b.hash planHash)) := by
  have key : ∀ r run₁ run₂ : Except Error (DynamicTransformConcretizationInfo Plan),
      run₁ = r → run₂ = r →
      (∃ e, run₁ = .error e ∧ run₂ = .error e) ∨
      (∃ a b, run₁ = .ok a ∧ run₂ = .ok b ∧
        (∀ ta tb : Nat,
          DynamicTransformConcretizationInfo.equals planEq ta a tb b = true) ∧
        a.hash planHash = b.hash planHash) := by
    intro r run₁ run₂ h₁ h₂
    subst h₁ h₂
    cases run₂ with
    | error e => exact Or.inl ⟨e, rfl, rfl⟩
    | ok a =>
      exact Or.inr ⟨a, a, rfl, rfl, fun ta tb => equals_self_content planEq hrefl ta tb a, rfl⟩
  exact ⟨fun run₁ run₂ => key _ run₁ run₂, fun run₁ run₂ => key _ run₁ run₂⟩

/-- Witness of C12: two runs on the example inputs and arguments succeed with
Infos that are equal under `operator==` at the addresses 1 and 2. -/
theorem planner_deterministic_witness :
    (∀ p : List Int × List Int, (p == p) = true) ∧
      ∃ a b,
        getConcretizationInfoArgs exampleAnalyzeView exampleEvaluator
          (exampleFusion exampleInputs) exampleBoundInfo exampleArgs = .ok a ∧
        getConcretizationInfoArgs exampleAnalyzeView exampleEvaluator
          (exampleFusion exampleInputs) exampleBoundInfo exampleArgs = .ok b ∧
        DynamicTransformConcretizationInfo.equals (fun p q => p == q) 1 a 2 b = true :=
  ⟨fun p => by simp,
    match (planner_deterministic (fun p q : List Int × List Int => p == q) (fun _ => 0)
        (fun p => by simp) exampleAnalyzeView exampleEvaluator
        (exampleFusion exampleInputs) exampleBoundInfo exampleArgs exampleEvaluate).1
        _ _ rfl rfl with
    | Or.inl ⟨_, h, _⟩ => by cases h
    | Or.inr ⟨a, b, h₁, h₂, heq, _⟩ => ⟨a, b, h₁, h₂, heq 1 2⟩⟩

/-! ## Properties of the Initial Info Builder -/

/-- Membership in the result of the loop over the declared inputs. -/
theorem mem_affectingInputs_iff (dyn_vals : List Val) (inputs : List InputVal)
    (i n : Nat) :
    n ∈ affectingInputs dyn_vals inputs i ↔
      ∃ (k : Nat) (v : Val) (integral : Bool),
        n = i + k ∧ inputs[k]? = some (.scalar v integral) ∧ v ∈ dyn_vals := by
  induction inputs generalizing i with
  | nil => simp [affectingInputs]
  | cons input inputs ih =>
    have hstep : (∃ (k : Nat) (v : Val) (integral : Bool),
          n = i + 1 + k ∧ inputs[k]? = some (.scalar v integral) ∧ v ∈ dyn_vals) ↔
        ∃ (k : Nat) (v : Val) (integral : Bool),
          n = i + (k + 1) ∧ (input :: inputs)[k + 1]? = some (.scalar v integral) ∧
            v ∈ dyn_vals := by
      constructor
      · rintro ⟨k, v, b, hn, hk, hv⟩
        exact ⟨k, v, b, by omega, by simpa using hk, hv⟩
      · rintro ⟨k, v, b, hn, hk, hv⟩
        exact ⟨k, v, b, by omega, by simpa using hk, hv⟩
    have hsplit : (∃ (k : Nat) (v : Val) (integral : Bool),
          n = i + k ∧ (input :: inputs)[k]? = some (.scalar v integral) ∧ v ∈ dyn_vals) ↔
        (∃ (v : Val) (integral : Bool),
          n = i ∧ input = .scalar v integral ∧ v ∈ dyn_vals) ∨
        ∃ (k : Nat) (v : Val) (integral : Bool),
          n = i + (k + 1) ∧ (input :: inputs)[k + 1]? = some (.scalar v integral) ∧
            v ∈ dyn_vals := by
      constructor
      · rintro ⟨k, v, b, hn, hk, hv⟩
        cases k with
        | zero => exact Or.inl ⟨v, b, by omega, by simpa using hk, hv⟩
        | succ k => exact Or.inr ⟨k, v, b, hn, hk, hv⟩
      · rintro (⟨v, b, hn, hk, hv⟩ | ⟨k, v, b, hn, hk, hv⟩)
        · exact ⟨0, v, b, by omega, by simp [hk], hv⟩
        · exact ⟨k + 1, v, b, hn, hk, hv⟩
    rw [hsplit, ← hstep, ← ih (i + 1)]
    cases input with
    | scalar v b =>
      by_cases hv : v ∈ dyn_vals
      · simp only [affectingInputs, hv, ↓reduceIte, List.mem_cons, InputVal.scalar.injEq]
        constructor
        · rintro (h | h)
          · exact Or.inl ⟨v, b, h, ⟨rfl, rfl⟩, hv⟩
          · exact Or.inr h
        · rintro (⟨_, _, h, _, _⟩ | h)
          · exact Or.inl h
          · exact Or.inr h
      · simp only [affectingInputs, hv, ↓reduceIte, InputVal.scalar.injEq]
        constructor
        · intro h
          exact Or.inr h
        · rintro (⟨w, c, _, ⟨rfl, rfl⟩, hw⟩ | h)
          · exact absurd hw hv
          · exact h
    | tensorView tv =>
      simp only [affectingInputs, reduceCtorEq, false_and, and_false, exists_false,
        false_or]

/-- The positions delivered by the loop over the declared inputs increase
strictly, so no position is listed twice. -/
theorem affectingInputs_sorted (dyn_vals : List Val) (inputs : List InputVal) (i : Nat) :
    (affectingInputs dyn_vals inputs i).Sorted (· < ·) := by
  induction inputs generalizing i with
  | nil => simp [affectingInputs]
  | cons input inputs ih =>
    cases input with
    | scalar v b =>
      by_cases hv : v ∈ dyn_vals
      · simp only [affectingInputs, hv, ↓reduceIte, List.sorted_cons]
        refine ⟨?_, ih (i + 1)⟩
        intro n hn
        obtain ⟨k, _, _, hk, _, _⟩ := (mem_affectingInputs_iff dyn_vals inputs (i + 1) n).1 hn
        omega
      · simpa [affectingInputs, hv] using ih (i + 1)
    | tensorView tv => simpa [affectingInputs] using ih (i + 1)

/-- C14: let `InputsOf::outputs` deliver, for a list of leaf scalars, exactly
the root values on which some leaf transitively depends.  Then the
affecting-input index set of the Initial Info holds exactly the positions `i`
whose declared input is a scalar that is a root value on which some leaf
dynamic scalar transitively depends; every such position is listed once, in
increasing order; and for five scalar inputs of which only the one at position 2
is among the root dynamic values, the set is exactly {2}. -/
theorem affecting_inputs_exact {E : Type} (ev : ExpressionEvaluator E) (expr_eval : E)
    (definition : IterDomain → Option IdDefinition) (inputsOf : List Val → List Val)
    (stmts : List BuilderStatement) (fusion : Fusion)
    (isRoot : Val → Prop) (dependsOn : Val → Val → Prop)
    (hInputsOf : ∀ (leaves : List Val) (v : Val),
      v ∈ inputsOf leaves ↔
        isRoot v ∧ ∃ l ∈ leaves, Relation.ReflTransGen dependsOn l v) :
    (∀ i : Nat,
      i ∈ (getInitialInfo ev expr_eval definition inputsOf stmts
          fusion).scalar_inputs_affecting_concretization_ ↔
        ∃ (v : Val) (integral : Bool),
          fusion.inputs[i]? = some (.scalar v integral) ∧ isRoot v ∧
          ∃ l ∈ (DynamicTransformInitialInfoBuilder.traverse (ev.evaluate expr_eval)
              definition stmts
              { dynamic_reshapes_ := [], dynamic_resizes_ := [],
                leaf_dynamic_vals_ := [] }).leaf_dynamic_vals_,
            Relation.ReflTransGen dependsOn l v) ∧
    (getInitialInfo ev expr_eval definition inputsOf stmts
        fusion).scalar_inputs_affecting_concretization_.Sorted (· < ·) ∧
    (∀ (v₀ v₁ v₂ v₃ v₄ : Val) (b₀ b₁ b₂ b₃ b₄ : Bool),
      fusion.inputs = [.scalar v₀ b₀, .scalar v₁ b₁, .scalar v₂ b₂, .scalar v₃ b₃,
        .scalar v₄ b₄] →
      v₂ ∈ (getInitialInfo ev expr_eval definition inputsOf stmts fusion).root_dynamic_vals_ →
      (∀ v ∈ [v₀, v₁, v₃, v₄],
        v ∉ (getInitialInfo ev expr_eval definition inputsOf stmts
          fusion).root_dynamic_vals_) →
      (getInitialInfo ev expr_eval definition inputsOf stmts
        fusion).scalar_inputs_affecting_concretization_ = [2]) := by
  refine ⟨?_, ?_, ?_⟩
  · intro i
    simp only [getInitialInfo]
    rw [mem_affectingInputs_iff]
    constructor
    · rintro ⟨k, v, b, hk, hin, hv⟩
      have hik : i = k := by omega
      subst hik
      exact ⟨v, b, hin, (hInputsOf _ v).1 hv⟩
    · rintro ⟨v, b, hin, hv⟩
      exact ⟨i, v, b, by omega, hin, (hInputsOf _ v).2 hv⟩
  · exact affectingInputs_sorted _ _ _
  · intro v₀ v₁ v₂ v₃ v₄ b₀ b₁ b₂ b₃ b₄ hin h2 hnot
    simp only [getInitialInfo] at h2 hnot ⊢
    have h0 := hnot v₀ (by simp)
    have h1 := hnot v₁ (by simp)
    have h3 := hnot v₃ (by simp)
    have h4 := hnot v₄ (by simp)
    simp [hin, affectingInputs, h0, h1, h2, h3, h4]

/-- Witness of C14: in the example graph with five scalar inputs, the output
extent 70 of the dynamic reshape is computed from the input at position 2, and
the affecting-input index set is {2}. -/
theorem affecting_inputs_exact_witness :
    (∀ (leaves : List Val) (v : Val),
      v ∈ exampleInputsOf leaves ↔
        v ≠ 70 ∧ ∃ l ∈ leaves, Relation.ReflTransGen (fun a b => a = 70 ∧ b = 62) l v) ∧
      (getInitialInfo exampleEvaluator [] (fun _ => none) exampleInputsOf exampleStatements
        exampleFiveInputs).scalar_inputs_affecting_concretization_ = [2] :=
  have hInputsOf : ∀ (leaves : List Val) (v : Val),
      v ∈ exampleInputsOf leaves ↔
        v ≠ 70 ∧ ∃ l ∈ leaves, Relation.ReflTransGen (fun a b => a = 70 ∧ b = 62) l v := by
    intro leaves v
    simp only [exampleInputsOf, List.mem_map]
    constructor
    · rintro ⟨l, hl, rfl⟩
      by_cases h : l = 70
      · subst h
        exact ⟨by decide, 70, hl, Relation.ReflTransGen.single ⟨rfl, rfl⟩⟩
      · simp only [h, ↓reduceIte]
        exact ⟨h, l, hl, Relation.ReflTransGen.refl⟩
    · rintro ⟨hv, l, hl, hdep⟩
      refine ⟨l, hl, ?_⟩
      cases hdep.cases_head with
      | inl h =>
        subst h
        simp [hv]
      | inr h =>
        obtain ⟨c, ⟨h1, h2⟩, hrest⟩ := h
        subst h1 h2
        cases hrest.cases_head with
        | inl h => simp [← h]
        | inr h =>
          obtain ⟨_, ⟨h1, _⟩, _⟩ := h
          exact absurd h1 (by decide)
  ⟨hInputsOf,
    (affecting_inputs_exact exampleEvaluator [] (fun _ => none) exampleInputsOf
      exampleStatements exampleFiveInputs (fun v => v ≠ 70) (fun a b => a = 70 ∧ b = 62)
      hInputsOf).2.2 60 61 62 63 64 true true true true true rfl (by decide) (by decide)⟩

/-! ## Properties of the Concretizer: registration -/

/-- The check of the uses passes exactly when every use accepts. -/
theorem checkConcretizedUsesLoop_ok_iff (check : Expr → IrVal → IrVal → Bool)
    (old_val new_val : IrVal) (uses : List Expr) :
    checkConcretizedUsesLoop check old_val new_val uses = .ok () ↔
      ∀ use ∈ uses, check use old_val new_val = true := by
  induction uses with
  | nil => simp [checkConcretizedUsesLoop]
  | cons use uses ih =>
    cases h : check use old_val new_val with
    | true => simp [checkConcretizedUsesLoop, h, ih]
    | false => simp [checkConcretizedUsesLoop, h]

/-- A registration succeeds exactly when every use of the old value accepts
the new one, and then adds the substitution at the head of the table. -/
theorem registerConcretization_ok_iff {Plan : Type} (q : IrQueries Plan)
    (st st' : IrState) (old_val new_val : IrVal) :
    registerConcretization q st old_val new_val = .ok st' ↔
      (∀ use ∈ st.uses q old_val, q.checkConcretization use old_val new_val = true) ∧
        st' = st.registerMutation old_val new_val := by
  unfold registerConcretization checkConcretizedUses
  cases h : checkConcretizedUsesLoop q.checkConcretization old_val new_val
      (st.uses q old_val) with
  | error e =>
    simp only [reduceCtorEq, false_iff, not_and]
    intro hall
    rw [(checkConcretizedUsesLoop_ok_iff _ _ _ _).2 hall] at h
    cases h
  | ok u =>
    have hall := (checkConcretizedUsesLoop_ok_iff _ _ _ _).1 h
    simp only [Except.ok.injEq]
    constructor
    · intro heq
      exact ⟨hall, heq.symm⟩
    · rintro ⟨-, heq⟩
      exact heq.symm

/-- A registration fails when some use of the old value rejects the new one. -/
theorem registerConcretization_error {Plan : Type} (q : IrQueries Plan)
    (st : IrState) (old_val new_val : IrVal) (use : Expr)
    (huse : use ∈ st.uses q old_val)
    (hrej : q.checkConcretization use old_val new_val = false) :
    ∃ e, registerConcretization q st old_val new_val = .error e := by
  apply exists_error_of_not_ok
  intro st' hok
  have := ((registerConcretization_ok_iff q st st' old_val new_val).1 hok).1 use huse
  rw [hrej] at this
  cases this

/-- The uses of an axis are those the collaborators report. -/
theorem uses_iterDomain {Plan : Type} (q : IrQueries Plan) (st : IrState)
    (id : IterDomain) : st.uses q (.iterDomain id) = q.uses (.iterDomain id) := rfl

/-- The uses of a domain are those the collaborators report. -/
theorem uses_tensorDomain {Plan : Type} (q : IrQueries Plan) (st : IrState)
    (td : TensorDomain) : st.uses q (.tensorDomain td) = q.uses (.tensorDomain td) := rfl

/-- A step that changes nothing is a good step. -/
theorem StepOk.refl {Plan : Type} (q : IrQueries Plan)
    (resizes : List (IterDomain × IterType)) (st : IrState) : StepOk q resizes st st :=
  ⟨⟨rfl, rfl, rfl, [], rfl⟩, fun h => h⟩

/-- Good steps compose. -/
theorem StepOk.trans {Plan : Type} {q : IrQueries Plan}
    {resizes : List (IterDomain × IterType)} {st₁ st₂ st₃ : IrState}
    (h₁ : StepOk q resizes st₁ st₂) (h₂ : StepOk q resizes st₂ st₃) :
    StepOk q resizes st₁ st₃ := by
  obtain ⟨⟨hf₁, he₁, ho₁, a₁, hm₁⟩, ht₁⟩ := h₁
  obtain ⟨⟨hf₂, he₂, ho₂, a₂, hm₂⟩, ht₂⟩ := h₂
  refine ⟨⟨hf₂.trans hf₁, he₂.trans he₁, ho₂.trans ho₁, a₂ ++ a₁, ?_⟩, fun h => ht₂ (ht₁ h)⟩
  rw [hm₂, hm₁, List.append_assoc]

/-- A successful registration of an entry that is justified by the table
before it is a good step, and leaves the tensors as they are. -/
theorem registerConcretization_step {Plan : Type} (q : IrQueries Plan)
    (resizes : List (IterDomain × IterType)) (st st' : IrState) (old_val new_val : IrVal)
    (hok : registerConcretization q st old_val new_val = .ok st')
    (hentry : (∀ use ∈ st.uses q old_val,
        q.checkConcretization use old_val new_val = true) →
      Registered q resizes st.mutations_ (old_val, new_val)) :
    StepOk q resizes st st' ∧ st'.vals = st.vals ∧
      st'.mutations_ = (old_val, new_val) :: st.mutations_ := by
  obtain ⟨hacc, rfl⟩ := (registerConcretization_ok_iff q st st' old_val new_val).1 hok
  refine ⟨⟨⟨rfl, rfl, rfl, [(old_val, new_val)], rfl⟩, fun h => ?_⟩, rfl, rfl⟩
  exact TableOk.cons _ _ (hentry hacc) h

/-- The resize phase is a good step and leaves the tensors as they are. -/
theorem concretizeResize_step {Plan : Type} (q : IrQueries Plan)
    (resizes : List (IterDomain × IterType)) (l : List (IterDomain × IterType))
    (hl : ∀ e ∈ l, e ∈ resizes) (st st' : IrState)
    (hok : concretizeResize q l st = .ok st') :
    StepOk q resizes st st' ∧ st'.vals = st.vals := by
  induction l generalizing st with
  | nil =>
    simp only [concretizeResize, Except.ok.injEq] at hok
    subst hok
    exact ⟨StepOk.refl q resizes st, rfl⟩
  | cons e l ih =>
    obtain ⟨id, iter_type⟩ := e
    simp only [concretizeResize] at hok
    cases hdef : q.definition id with
    | none => simp [hdef] at hok
    | some d =>
      cases d with
      | other n => simp [hdef] at hok
      | resize def_ =>
        simp only [hdef] at hok
        cases hreg : registerConcretization q st (.iterDomain id)
            (.iterDomain (id.resize def_ iter_type)) with
        | error e => simp [hreg] at hok
        | ok st₁ =>
          simp only [hreg] at hok
          obtain ⟨hstep, hvals, -⟩ := registerConcretization_step q resizes st st₁ _ _ hreg
            (fun hacc => Registered.resize id iter_type def_ (hl _ (by simp)) hdef hacc)
          obtain ⟨hstep₂, hvals₂⟩ := ih (fun e he => hl e (by simp [he])) st₁ hok
          exact ⟨hstep.trans hstep₂, hvals₂.trans hvals⟩

/-- Registering the outputs of an axis transform is a good step and leaves
the tensors as they are. -/
theorem registerOutputs_step {Plan : Type} (q : IrQueries Plan)
    (resizes : List (IterDomain × IterType)) (table : List (IrVal × IrVal))
    (inputs : List IterDomain) (iter_type : IterType)
    (hfold : outputIterType q.promoteIterType table inputs IterType.Symbolic
      = .ok iter_type)
    (hne : iter_type ≠ IterType.Symbolic)
    (outputs : List IrVal) (st st' : IrState)
    (hok : registerOutputs q iter_type outputs st = .ok st') :
    StepOk q resizes st st' ∧ st'.vals = st.vals := by
  induction outputs generalizing st with
  | nil =>
    simp only [registerOutputs, Except.ok.injEq] at hok
    subst hok
    exact ⟨StepOk.refl q resizes st, rfl⟩
  | cons out outputs ih =>
    cases out with
    | iterDomain out_id =>
      simp only [registerOutputs] at hok
      cases hreg : registerConcretization q st (.iterDomain out_id)
          (.iterDomain (out_id.withIterType iter_type)) with
      | error e => simp [hreg] at hok
      | ok st₁ =>
        simp only [hreg] at hok
        obtain ⟨hstep, hvals, -⟩ := registerConcretization_step q resizes st st₁ _ _ hreg
          (fun hacc => Registered.derived table inputs out_id iter_type hfold hne hacc)
        obtain ⟨hstep₂, hvals₂⟩ := ih st₁ hok
        exact ⟨hstep.trans hstep₂, hvals₂.trans hvals⟩
    | tensorDomain td =>
      simp only [registerOutputs] at hok
      exact ih st hok
    | tensorView tv =>
      simp only [registerOutputs] at hok
      exact ih st hok

/-- The pass over the axis transforms of a tensor is a good step and leaves
the tensors as they are. -/
theorem mutateIdExprs_step {Plan : Type} (q : IrQueries Plan)
    (resizes : List (IterDomain × IterType)) (exprs : List IdExpr) (st st' : IrState)
    (hok : mutateIdExprs q exprs st = .ok st') :
    StepOk q resizes st st' ∧ st'.vals = st.vals := by
  induction exprs generalizing st with
  | nil =>
    simp only [mutateIdExprs, Except.ok.injEq] at hok
    subst hok
    exact ⟨StepOk.refl q resizes st, rfl⟩
  | cons expr exprs ih =>
    simp only [mutateIdExprs] at hok
    split at hok
    · cases hok
    · cases hfold : outputIterType q.promoteIterType st.mutations_ expr.inputs
          IterType.Symbolic with
      | error e => simp [hfold] at hok
      | ok iter_type =>
        simp only [hfold] at hok
        split at hok
        · cases hok
        · rename_i hne
          cases hreg : registerOutputs q iter_type expr.outputs st with
          | error e => simp [hreg] at hok
          | ok st₁ =>
            simp only [hreg] at hok
            obtain ⟨hstep, hvals⟩ := registerOutputs_step q resizes st.mutations_
              expr.inputs iter_type hfold (by simpa using hne) expr.outputs st st₁ hreg
            obtain ⟨hstep₂, hvals₂⟩ := ih st₁ hok
            exact ⟨hstep.trans hstep₂, hvals₂.trans hvals⟩

/-- The loop of root propagation over the root axes is a good step and leaves
the tensors as they are. -/
theorem propagateRootLoop_step {Plan : Type} (q : IrQueries Plan)
    (resizes : List (IterDomain × IterType)) (consumer : TensorView)
    (producers : List TensorView) (root_domain : List IterDomain) (st : IrState)
    (b : Bool) (st' : IrState) (b' : Bool)
    (hok : propagateRootLoop q consumer producers root_domain st b = .ok (st', b')) :
    StepOk q resizes st st' ∧ st'.vals = st.vals := by
  induction root_domain generalizing st b with
  | nil =>
    simp only [propagateRootLoop, Except.ok.injEq, Prod.mk.injEq] at hok
    obtain ⟨rfl, -⟩ := hok
    exact ⟨StepOk.refl q resizes st, rfl⟩
  | cons root_id root_domain ih =>
    simp only [propagateRootLoop] at hok
    split at hok
    · exact ih st b hok
    · rename_i hsym
      cases hfold : producerIterType q consumer root_id producers none with
      | error e => simp [hfold] at hok
      | ok r =>
        cases r with
        | none => simp [hfold] at hok
        | some id_type =>
          simp only [hfold] at hok
          split at hok
          · cases hok
          · rename_i hne
            cases hreg : registerConcretization q st (.iterDomain root_id)
                (.iterDomain (root_id.withIterType id_type)) with
            | error e => simp [hreg] at hok
            | ok st₁ =>
              simp only [hreg] at hok
              obtain ⟨hstep, hvals, -⟩ := registerConcretization_step q resizes st st₁ _ _ hreg
                (fun hacc => Registered.root consumer producers root_id id_type
                  (by simpa using hsym) hfold (by simpa using hne) hacc)
              obtain ⟨hstep₂, hvals₂⟩ := ih st₁ true hok
              exact ⟨hstep.trans hstep₂, hvals₂.trans hvals⟩

/-- Root propagation is a good step and leaves the tensors as they are. -/
theorem propagateFromProducerToConsumer_step {Plan : Type} (q : IrQueries Plan)
    (resizes : List (IterDomain × IterType)) (st : IrState) (consumer : TensorView)
    (st' : IrState) (b' : Bool)
    (hok : propagateFromProducerToConsumer q st consumer = .ok (st', b')) :
    StepOk q resizes st st' ∧ st'.vals = st.vals := by
  unfold propagateFromProducerToConsumer at hok
  cases hdef : st.definition? consumer with
  | none =>
    simp only [hdef, Except.ok.injEq, Prod.mk.injEq] at hok
    obtain ⟨rfl, -⟩ := hok
    exact ⟨StepOk.refl q resizes st, rfl⟩
  | some def_ =>
    simp only [hdef] at hok
    split at hok
    · simp only [Except.ok.injEq, Prod.mk.injEq] at hok
      obtain ⟨rfl, -⟩ := hok
      exact ⟨StepOk.refl q resizes st, rfl⟩
    · exact propagateRootLoop_step q resizes consumer _ _ st false st' b' hok

/-- What `mutate(TensorDomain*)` does: either no axis has a differing
substitute and the state is unchanged, or the domain rebuilt from the
substitutes is registered as the substitute of the domain. -/
theorem mutateTensorDomain_cases {Plan : Type} (q : IrQueries Plan) (st st' : IrState)
    (td : TensorDomain) (hok : mutateTensorDomain q st td = .ok st') :
    ∃ (root_dom rfactor_dom domain : List IterDomain)
      (mutated_root mutated_rfactor mutated_leaf : Bool),
      updateIdVec st.mutations_ td.root = .ok (root_dom, mutated_root) ∧
      (if td.hasRFactor then updateIdVec st.mutations_ td.maybeRFactor
        else .ok ([], false)) = .ok (rfactor_dom, mutated_rfactor) ∧
      updateIdVec st.mutations_ td.leaf = .ok (domain, mutated_leaf) ∧
      (((mutated_root || mutated_rfactor || mutated_leaf) = false ∧ st' = st) ∨
        ((mutated_root || mutated_rfactor || mutated_leaf) = true ∧
          ∃ contig,
            updateContiguity (if td.hasRFactor then rfactor_dom else root_dom)
              td.maybeRFactor 0 td.contiguity = .ok contig ∧
            registerConcretization q st (.tensorDomain td)
              (.tensorDomain { root := root_dom, rfactor := rfactor_dom, leaf := domain,
                               contiguity := contig }) = .ok st')) := by
  unfold mutateTensorDomain at hok
  cases hroot : updateIdVec st.mutations_ td.root with
  | error e => simp [hroot] at hok
  | ok r =>
    obtain ⟨root_dom, mutated_root⟩ := r
    simp only [hroot] at hok
    cases hrf : (if td.hasRFactor then updateIdVec st.mutations_ td.maybeRFactor
        else .ok ([], false)) with
    | error e => simp [hrf] at hok
    | ok r =>
      obtain ⟨rfactor_dom, mutated_rfactor⟩ := r
      simp only [hrf] at hok
      cases hleaf : updateIdVec st.mutations_ td.leaf with
      | error e => simp [hleaf] at hok
      | ok r =>
        obtain ⟨domain, mutated_leaf⟩ := r
        simp only [hleaf] at hok
        refine ⟨root_dom, rfactor_dom, domain, mutated_root, mutated_rfactor, mutated_leaf,
          rfl, rfl, rfl, ?_⟩
        cases hm : (mutated_root || mutated_rfactor || mutated_leaf) with
        | false =>
          simp only [hm, Bool.not_false, ↓reduceIte, Except.ok.injEq] at hok
          exact Or.inl ⟨rfl, hok.symm⟩
        | true =>
          simp only [hm, Bool.not_true, Bool.false_eq_true, ↓reduceIte] at hok
          cases hc : updateContiguity (if td.hasRFactor then rfactor_dom else root_dom)
              td.maybeRFactor 0 td.contiguity with
          | error e => simp [hc] at hok
          | ok contig =>
            simp only [hc] at hok
            exact Or.inr ⟨rfl, contig, rfl, hok⟩

/-- The rebuilding of a domain is a good step and leaves the tensors as they
are. -/
theorem mutateTensorDomain_step {Plan : Type} (q : IrQueries Plan)
    (resizes : List (IterDomain × IterType)) (st st' : IrState) (td : TensorDomain)
    (hok : mutateTensorDomain q st td = .ok st') :
    StepOk q resizes st st' ∧ st'.vals = st.vals := by
  obtain ⟨root_dom, rfactor_dom, domain, b₁, b₂, b₃, hroot, hrf, hleaf, hcase⟩ :=
    mutateTensorDomain_cases q st st' td hok
  rcases hcase with ⟨-, rfl⟩ | ⟨hm, contig, hc, hreg⟩
  · exact ⟨StepOk.refl q resizes _, rfl⟩
  · obtain ⟨hstep, hvals, -⟩ := registerConcretization_step q resizes st st' _ _ hreg
      (fun hacc => Registered.domain td root_dom rfactor_dom domain contig b₁ b₂ b₃
        hroot hrf hleaf hm hc hacc)
    exact ⟨hstep, hvals⟩

/-- Giving a tensor its substituted domain is a good step. -/
theorem setDomain_step {Plan : Type} (q : IrQueries Plan)
    (resizes : List (IterDomain × IterType)) (st st' : IrState) (tv : TensorView)
    (hok : st.setDomain tv = .ok st') : StepOk q resizes st st' := by
  unfold IrState.setDomain at hok
  split at hok
  · simp only [Except.ok.injEq] at hok
    subst hok
    exact ⟨⟨rfl, rfl, rfl, [], rfl⟩, fun h => h⟩
  · cases hok

/-- The handling of a tensor by the propagation pass is a good step. -/
theorem mutateTensorView_step {Plan : Type} (q : IrQueries Plan)
    (resizes : List (IterDomain × IterType)) (st st' : IrState) (tv : TensorView)
    (hok : mutateTensorView q st tv = .ok st') : StepOk q resizes st st' := by
  unfold mutateTensorView at hok
  split at hok
  · simp only [Except.ok.injEq] at hok
    subst hok
    exact StepOk.refl q resizes st
  · cases hp : propagateFromProducerToConsumer q st tv with
    | error e => simp [hp] at hok
    | ok r =>
      obtain ⟨st₁, b⟩ := r
      simp only [hp] at hok
      split at hok
      · cases hok
      · cases he : (if tv.hasRFactor then mutateIdExprs q (q.getExprsBetween tv) st₁
            else .ok st₁) with
        | error e => simp [he] at hok
        | ok st₂ =>
          simp only [he] at hok
          cases hd : mutateTensorDomain q st₂ tv.domain with
          | error e => simp [hd] at hok
          | ok st₃ =>
            simp only [hd] at hok
            have h₁ := (propagateFromProducerToConsumer_step q resizes st tv st₁ b hp).1
            have h₂ : StepOk q resizes st₁ st₂ := by
              split at he
              · exact (mutateIdExprs_step q resizes _ st₁ st₂ he).1
              · simp only [Except.ok.injEq] at he
                subst he
                exact StepOk.refl q resizes st₁
            have h₃ := (mutateTensorDomain_step q resizes st₂ st₃ tv.domain hd).1
            have h₄ := setDomain_step q resizes st₃ st' tv hok
            exact h₁.trans (h₂.trans (h₃.trans h₄))

/-- The handling of one statement by the propagation pass is a good step. -/
theorem mutateStatement_step {Plan : Type} (q : IrQueries Plan)
    (resizes : List (IterDomain × IterType)) (st st' : IrState) (stmt : Statement)
    (hok : mutateStatement q st stmt = .ok st') : StepOk q resizes st st' := by
  cases stmt with
  | tensorView name =>
    simp only [mutateStatement] at hok
    cases htv : st.tensorView? name with
    | none => simp [htv] at hok
    | some tv =>
      simp only [htv] at hok
      exact mutateTensorView_step q resizes st st' tv hok
  | tensorDomain td =>
    exact (mutateTensorDomain_step q resizes st st' td hok).1
  | other name =>
    simp only [mutateStatement, Except.ok.injEq] at hok
    subst hok
    exact StepOk.refl q resizes st

/-- The propagation pass over a list of statements is a good step. -/
theorem mutateStatements_step {Plan : Type} (q : IrQueries Plan)
    (resizes : List (IterDomain × IterType)) (stmts : List Statement) (st st' : IrState)
    (hok : mutateStatements q stmts st = .ok st') : StepOk q resizes st st' := by
  induction stmts generalizing st with
  | nil =>
    simp only [mutateStatements, Except.ok.injEq] at hok
    subst hok
    exact StepOk.refl q resizes st
  | cons stmt stmts ih =>
    simp only [mutateStatements] at hok
    cases hs : mutateStatement q st stmt with
    | error e => simp [hs] at hok
    | ok st₁ =>
      simp only [hs] at hok
      exact (mutateStatement_step q resizes st st₁ stmt hs).trans (ih st₁ hok)

/-- A step of the reshape phase leaves the substitution table and the graph
identity as they are. -/
theorem concretizeReshapeStep_mutations {Plan : Type} (q : IrQueries Plan)
    (st st' : IrState) (kv : TensorView × Plan)
    (hok : concretizeReshapeStep q st kv = .ok st') :
    st'.mutations_ = st.mutations_ ∧ st'.fusion = st.fusion := by
  unfold concretizeReshapeStep at hok
  cases hp : st.producerTvsOf kv.1 with
  | nil => simp [hp] at hok
  | cons inp_tv rest =>
    simp only [hp] at hok
    split at hok
    · cases hok
    · simp only [Except.ok.injEq] at hok
      subst hok
      split <;> exact ⟨rfl, rfl⟩

/-- The reshape phase leaves the substitution table and the graph identity as
they are. -/
theorem concretizeReshape_mutations {Plan : Type} (q : IrQueries Plan)
    (l : List (TensorView × Plan)) (st st' : IrState)
    (hok : concretizeReshape q l st = .ok st') :
    st'.mutations_ = st.mutations_ ∧ st'.fusion = st.fusion := by
  induction l generalizing st with
  | nil =>
    simp only [concretizeReshape, Except.ok.injEq] at hok
    subst hok
    exact ⟨rfl, rfl⟩
  | cons kv l ih =>
    simp only [concretizeReshape] at hok
    cases hs : concretizeReshapeStep q st kv with
    | error e => simp [hs] at hok
    | ok st₁ =>
      simp only [hs] at hok
      obtain ⟨h₁, h₂⟩ := concretizeReshapeStep_mutations q st st₁ kv hs
      obtain ⟨h₃, h₄⟩ := ih st₁ hok
      exact ⟨h₃.trans h₁, h₄.trans h₂⟩

/-- After a successful `concretizeFusion`, every entry of the substitution
table came into it in one of the four ways. -/
theorem concretizeFusion_table {Plan : Type} (q : IrQueries Plan) (st st' : IrState)
    (info : DynamicTransformConcretizationInfo Plan)
    (hok : concretizeFusion q st info = .ok st') :
    TableOk q info.resize_transforms_ st'.mutations_ := by
  unfold concretizeFusion at hok
  split at hok
  · cases hok
  · unfold concretize at hok
    cases h₁ : concretizeReshape q info.reshape_transforms_ { st with mutations_ := [] } with
    | error e => simp [h₁] at hok
    | ok st₁ =>
      simp only [h₁] at hok
      cases h₂ : concretizeResize q info.resize_transforms_ st₁ with
      | error e => simp [h₂] at hok
      | ok st₂ =>
        simp only [h₂] at hok
        have hm := (concretizeReshape_mutations q _ _ st₁ h₁).1
        have hs₂ := (concretizeResize_step q info.resize_transforms_ info.resize_transforms_
          (fun _ h => h) st₁ st₂ h₂).1
        have hs₃ := mutateStatements_step q info.resize_transforms_ _ st₂ st' hok
        apply hs₃.2
        apply hs₂.2
        rw [hm]
        exact TableOk.nil

/-- An entry that came into the table in one of the four ways is keyed by an
axis or a domain and was accepted by every use of the old value. -/
theorem Registered.accepted {Plan : Type} {q : IrQueries Plan}
    {resizes : List (IterDomain × IterType)} {m : List (IrVal × IrVal)}
    {entry : IrVal × IrVal} (h : Registered q resizes m entry) (st : IrState) :
    ∀ use ∈ st.uses q entry.1, q.checkConcretization use entry.1 entry.2 = true := by
  cases h with
  | resize id iter_type def_ hmem hdef hacc => exact hacc
  | root consumer producers root_id id_type hsym hfold hne hacc => exact hacc
  | derived table inputs out_id iter_type hfold hne hacc => exact hacc
  | domain td root_dom rfactor_dom domain contig b₁ b₂ b₃ hroot hrf hleaf hm hc hacc =>
    exact hacc

/-- Every entry of a justified table was justified by the entries before it. -/
theorem TableOk.mem {Plan : Type} {q : IrQueries Plan}
    {resizes : List (IterDomain × IterType)} {m : List (IrVal × IrVal)}
    (h : TableOk q resizes m) (entry : IrVal × IrVal) (hmem : entry ∈ m) :
    ∃ before, Registered q resizes before entry ∧ TableOk q resizes before ∧
      ∃ after, m = after ++ entry :: before := by
  induction h with
  | nil => simp at hmem
  | cons e m hentry htable ih =>
    rcases List.mem_cons.1 hmem with rfl | hmem
    · exact ⟨m, hentry, htable, [], rfl⟩
    · obtain ⟨before, hreg, htab, after, hafter⟩ := ih hmem
      exact ⟨before, hreg, htab, e :: after, by rw [hafter]; rfl⟩

/-- C20: a substitution is registered by `registerConcretization` exactly when
every operation that uses the old value accepts it, and it is then added to the
table; if a use rejects it the registration fails and nothing is registered.
In the reshape phase the new tensor replaces the old one only after every use
of the old tensor accepted it.  After a successful `concretizeFusion`, every
entry of the substitution table (a resized axis, a propagated axis, an output
of an axis transform, a rebuilt domain) was accepted by every use of its old
value. -/
theorem substitutions_are_checked {Plan : Type} (q : IrQueries Plan) :
    (∀ (st st' : IrState) (old_val new_val : IrVal),
      registerConcretization q st old_val new_val = .ok st' ↔
        (∀ use ∈ st.uses q old_val, q.checkConcretization use old_val new_val = true) ∧
          st' = st.registerMutation old_val new_val) ∧
    (∀ (st : IrState) (old_val new_val : IrVal) (use : Expr),
      use ∈ st.uses q old_val → q.checkConcretization use old_val new_val = false →
      ∃ e, registerConcretization q st old_val new_val = .error e) ∧
    (∀ (st st' : IrState) (kv : TensorView × Plan),
      concretizeReshapeStep q st kv = .ok st' →
      ∃ inp_tv rest, st.producerTvsOf kv.1 = inp_tv :: rest ∧
        ∀ use ∈ IrState.uses q
            { st with vals := st.vals ++ (q.reshape inp_tv kv.2).newVals,
                      exprs := st.exprs ++ (q.reshape inp_tv kv.2).newExprs }
            (.tensorView kv.1),
          q.checkConcretization use (.tensorView kv.1)
            (.tensorView (q.reshape inp_tv kv.2).out) = true) ∧
    (∀ (st st' : IrState) (info : DynamicTransformConcretizationInfo Plan),
      concretizeFusion q st info = .ok st' →
      ∀ entry ∈ st'.mutations_, ∀ use ∈ st'.uses q entry.1,
        q.checkConcretization use entry.1 entry.2 = true) := by
  refine ⟨fun st st' old_val new_val => registerConcretization_ok_iff q st st' old_val new_val,
    fun st old_val new_val use huse hrej =>
      registerConcretization_error q st old_val new_val use huse hrej, ?_, ?_⟩
  · intro st st' kv hok
    unfold concretizeReshapeStep at hok
    cases hp : st.producerTvsOf kv.1 with
    | nil => simp [hp] at hok
    | cons inp_tv rest =>
      simp only [hp] at hok
      refine ⟨inp_tv, rest, rfl, ?_⟩
      split at hok
      · cases hok
      · rename_i u hcheck
        exact (checkConcretizedUsesLoop_ok_iff _ _ _ _).1 hcheck
  · intro st st' info hok entry hentry
    obtain ⟨before, hreg, -, -⟩ := (concretizeFusion_table q st st' info hok).mem entry hentry
    exact hreg.accepted st'

/-- Witness of C20: an axis whose only use accepts the substitution is
registered, and the substitution becomes the head of the table; with a use that
rejects it the registration fails. -/
theorem substitutions_are_checked_witness :
    registerConcretization
        (exampleQueries (fun _ => [{ name := 9, inputs := [], outputs := [] }])
          (fun _ _ _ => true))
        (exampleState [] [])
        (.iterDomain (exampleAxis 1 11 IterType.Symbolic))
        (.iterDomain (exampleAxis 1 11 IterType.Broadcast))
      = .ok ((exampleState [] []).registerMutation
          (.iterDomain (exampleAxis 1 11 IterType.Symbolic))
          (.iterDomain (exampleAxis 1 11 IterType.Broadcast))) ∧
    ∃ e, registerConcretization
        (exampleQueries (fun _ => [{ name := 9, inputs := [], outputs := [] }])
          (fun _ _ _ => false))
        (exampleState [] [])
        (.iterDomain (exampleAxis 1 11 IterType.Symbolic))
        (.iterDomain (exampleAxis 1 11 IterType.Broadcast)) = .error e :=
  ⟨((substitutions_are_checked
        (exampleQueries (fun _ => [{ name := 9, inputs := [], outputs := [] }])
          (fun _ _ _ => true))).1 _ _ _ _).2 ⟨fun _ _ => rfl, rfl⟩,
    (substitutions_are_checked
        (exampleQueries (fun _ => [{ name := 9, inputs := [], outputs := [] }])
          (fun _ _ _ => false))).2.1 _ _ _
      { name := 9, inputs := [], outputs := [] } (by decide) rfl⟩

/-! ## Properties of the Concretizer: contiguity -/

/-- The list of substitutes has one entry per axis. -/
theorem updateIdVec_length (mutations : List (IrVal × IrVal)) (ids updated : List IterDomain)
    (mutated : Bool) (h : updateIdVec mutations ids = .ok (updated, mutated)) :
    updated.length = ids.length := by
  induction ids generalizing updated mutated with
  | nil =>
    simp only [updateIdVec, Except.ok.injEq, Prod.mk.injEq] at h
    rw [← h.1]
  | cons id ids ih =>
    simp only [updateIdVec] at h
    cases h₁ : maybeMutatedId mutations id with
    | error e => simp [h₁] at h
    | ok u =>
      simp only [h₁] at h
      cases h₂ : updateIdVec mutations ids with
      | error e => simp [h₂] at h
      | ok r =>
        obtain ⟨us, m⟩ := r
        simp only [h₂, Except.ok.injEq, Prod.mk.injEq] at h
        rw [← h.1]
        simp [ih us m h₂]

/-- The contiguity loop, entered at position `i`: when every remaining
Symbolic axis has a present flag and a substitute, the loop succeeds, keeps the
length of the flags, clears the flag of every remaining Symbolic axis whose
substitute is Broadcast and keeps every other flag. -/
theorem updateContiguity_spec (updated : List IterDomain) (originals : List IterDomain)
    (i : Nat) (contig : List (Option Bool))
    (hflag : ∀ (k : Nat) (id : IterDomain), originals[k]? = some id →
      id.iterType = IterType.Symbolic → ∃ b, contig[i + k]? = some (some b))
    (hupd : ∀ (k : Nat) (id : IterDomain), originals[k]? = some id →
      id.iterType = IterType.Symbolic → ∃ u, updated[i + k]? = some u) :
    ∃ contig', updateContiguity updated originals i contig = .ok contig' ∧
      contig'.length = contig.length ∧
      (∀ (k : Nat) (id u : IterDomain), originals[k]? = some id →
        updated[i + k]? = some u → id.iterType = IterType.Symbolic →
        u.iterType = IterType.Broadcast → contig'[i + k]? = some none) ∧
      (∀ j : Nat,
        (¬ ∃ (k : Nat) (id u : IterDomain), j = i + k ∧ originals[k]? = some id ∧
          updated[j]? = some u ∧ id.iterType = IterType.Symbolic ∧
          u.iterType = IterType.Broadcast) →
        contig'[j]? = contig[j]?) := by
  induction originals generalizing i contig with
  | nil =>
    refine ⟨contig, rfl, rfl, ?_, fun _ _ => rfl⟩
    intro k id u h
    simp at h
  | cons original originals ih =>
    have hflag' : ∀ (flags : List (Option Bool)),
        (∀ j, i < j → flags[j]? = contig[j]?) →
        ∀ (k : Nat) (id : IterDomain), originals[k]? = some id →
          id.iterType = IterType.Symbolic → ∃ b, flags[i + 1 + k]? = some (some b) := by
      intro flags hc k id hk hs
      obtain ⟨b, hb⟩ := hflag (k + 1) id (by simpa using hk) hs
      refine ⟨b, ?_⟩
      rw [hc (i + 1 + k) (by omega)]
      rw [← hb]
      congr 1
      omega
    have hupd' : ∀ (k : Nat) (id : IterDomain), originals[k]? = some id →
        id.iterType = IterType.Symbolic → ∃ u, updated[i + 1 + k]? = some u := by
      intro k id hk hs
      obtain ⟨u, hu⟩ := hupd (k + 1) id (by simpa using hk) hs
      refine ⟨u, ?_⟩
      rw [← hu]
      congr 1
      omega
    by_cases hs : original.iterType = IterType.Symbolic
    · obtain ⟨b, hb⟩ := hflag 0 original (by simp) hs
      obtain ⟨u, hu⟩ := hupd 0 original (by simp) hs
      simp only [Nat.add_zero] at hb hu
      by_cases hbc : u.iterType = IterType.Broadcast
      · obtain ⟨contig', hok, hlen, hclear, hkeep⟩ := ih (i + 1) (contig.set i none)
          (hflag' _ (fun j hj => by
            rw [List.getElem?_set_ne (by omega)])) hupd'
        refine ⟨contig', ?_, ?_, ?_, ?_⟩
        · simp [updateContiguity, hs, hb, hu, hbc, hok]
        · simpa using hlen
        · intro k id v hk hv hsym hbr
          cases k with
          | zero =>
            have hi := hkeep i (by
              rintro ⟨k, _, _, hk, _⟩
              omega)
            rw [Nat.add_zero, hi]
            have hlt : i < contig.length := by
              by_contra hge
              rw [List.getElem?_eq_none (by omega)] at hb
              cases hb
            rw [List.getElem?_set_self hlt]
          | succ k =>
            have := hclear k id v (by simpa using hk)
              (by rw [← hv]; congr 1; omega) hsym hbr
            rw [← this]
            congr 1
            omega
        · intro j hj
          by_cases hji : j = i
          · subst hji
            exfalso
            exact hj ⟨0, original, u, rfl, by simp, hu, hs, hbc⟩
          · have := hkeep j (by
              rintro ⟨k, id, v, hk, hok', hv, hsym, hbr⟩
              exact hj ⟨k + 1, id, v, by omega, by simpa using hok', hv, hsym, hbr⟩)
            rw [this, List.getElem?_set_ne (fun h => hji h.symm)]
      · obtain ⟨contig', hok, hlen, hclear, hkeep⟩ := ih (i + 1) contig
          (hflag' _ (fun _ _ => rfl)) hupd'
        refine ⟨contig', ?_, hlen, ?_, ?_⟩
        · simp [updateContiguity, hs, hb, hu, hbc, hok]
        · intro k id v hk hv hsym hbr
          cases k with
          | zero =>
            simp only [List.getElem?_cons_zero, Option.some.injEq] at hk
            subst hk
            rw [Nat.add_zero, hu] at hv
            cases hv
            exact absurd hbr hbc
          | succ k =>
            have := hclear k id v (by simpa using hk)
              (by rw [← hv]; congr 1; omega) hsym hbr
            rw [← this]
            congr 1
            omega
        · intro j hj
          apply hkeep j
          rintro ⟨k, id, v, hk, hok', hv, hsym, hbr⟩
          exact hj ⟨k + 1, id, v, by omega, by simpa using hok', hv, hsym, hbr⟩
    · obtain ⟨contig', hok, hlen, hclear, hkeep⟩ := ih (i + 1) contig
        (hflag' _ (fun _ _ => rfl)) hupd'
      refine ⟨contig', ?_, hlen, ?_, ?_⟩
      · simp [updateContiguity, hs, hok]
      · intro k id v hk hv hsym hbr
        cases k with
        | zero =>
          simp only [List.getElem?_cons_zero, Option.some.injEq] at hk
          subst hk
          exact absurd hsym hs
        | succ k =>
          have := hclear k id v (by simpa using hk)
            (by rw [← hv]; congr 1; omega) hsym hbr
          rw [← this]
          congr 1
          omega
      · intro j hj
        apply hkeep j
        rintro ⟨k, id, v, hk, hok', hv, hsym, hbr⟩
        exact hj ⟨k + 1, id, v, by omega, by simpa using hok', hv, hsym, hbr⟩

/-- The contiguity loop fails when a remaining Symbolic axis has an absent
flag. -/
theorem updateContiguity_error (updated : List IterDomain) (originals : List IterDomain)
    (i : Nat) (contig : List (Option Bool)) (k : Nat) (id : IterDomain)
    (hk : originals[k]? = some id) (hs : id.iterType = IterType.Symbolic)
    (habs : contig[i + k]? = some none) :
    ∃ e, updateContiguity updated originals i contig = .error e := by
  induction originals generalizing i contig k with
  | nil => simp at hk
  | cons original originals ih =>
    cases k with
    | zero =>
      simp only [List.getElem?_cons_zero, Option.some.injEq] at hk
      subst hk
      rw [Nat.add_zero] at habs
      exact ⟨.nonContigSymbolic original.name, by simp [updateContiguity, hs, habs]⟩
    | succ k =>
      have hk' : originals[k]? = some id := by simpa using hk
      have habs' : contig[i + 1 + k]? = some none := by
        rw [← habs]
        congr 1
        omega
      by_cases hso : original.iterType = IterType.Symbolic
      · simp only [updateContiguity, hso, bne_self_eq_false, Bool.false_eq_true, ↓reduceIte]
        cases hc : contig[i]? with
        | none => exact ⟨_, rfl⟩
        | some flag =>
          cases flag with
          | none => exact ⟨_, rfl⟩
          | some b =>
            simp only
            cases hu : updated[i]? with
            | none => exact ⟨_, rfl⟩
            | some u =>
              simp only
              split
              · apply ih (i + 1) (contig.set i none) k hk'
                rw [List.getElem?_set_ne (by omega)]
                exact habs'
              · exact ih (i + 1) contig k hk' habs'
      · simp only [updateContiguity, bne_iff_ne, ne_eq, hso, not_false_eq_true, ↓reduceIte]
        exact ih (i + 1) contig k hk' habs'

/-- C18: take a tensor domain in which at least one axis has a differing
substitute, `root_dom`, `rfactor_dom` and `domain` being the substitutes of its
root, derived and leaf axes.  If every originally Symbolic axis of the
derived-or-root domain has a present contiguity flag, the domain is rebuilt from
the substitutes with a contiguity list of the same length as the original, in
which the flag at position `i` is absent when the original axis at `i` was
Symbolic and its substitute is Broadcast, and is the original flag at `i`
otherwise; the rebuilt domain is what is submitted for registration.  If an
originally Symbolic axis has an absent contiguity flag, the rebuild fails. -/
theorem contiguity_clearing {Plan : Type} (q : IrQueries Plan) (st : IrState)
    (td : TensorDomain) (root_dom rfactor_dom domain : List IterDomain)
    (mutated_root mutated_rfactor mutated_leaf : Bool)
    (hroot : updateIdVec st.mutations_ td.root = .ok (root_dom, mutated_root))
    (hrfactor : (if td.hasRFactor then updateIdVec st.mutations_ td.maybeRFactor
      else .ok ([], false)) = .ok (rfactor_dom, mutated_rfactor))
    (hleaf : updateIdVec st.mutations_ td.leaf = .ok (domain, mutated_leaf))
    (hmutated : (mutated_root || mutated_rfactor || mutated_leaf) = true) :
    ((∀ (i : Nat) (id : IterDomain), td.maybeRFactor[i]? = some id →
        id.iterType = IterType.Symbolic → ∃ b, td.contiguity[i]? = some (some b)) →
      ∃ contig : List (Option Bool),
        mutateTensorDomain q st td =
          registerConcretization q st (.tensorDomain td)
            (.tensorDomain { root := root_dom, rfactor := rfactor_dom, leaf := domain,
                             contiguity := contig }) ∧
        contig.length = td.contiguity.length ∧
        (∀ (i : Nat) (id u : IterDomain), td.maybeRFactor[i]? = some id →
          (if td.hasRFactor then rfactor_dom else root_dom)[i]? = some u →
          id.iterType = IterType.Symbolic → u.iterType = IterType.Broadcast →
          contig[i]? = some none) ∧
        (∀ i : Nat,
          (¬ ∃ id u : IterDomain, td.maybeRFactor[i]? = some id ∧
            (if td.hasRFactor then rfactor_dom else root_dom)[i]? = some u ∧
            id.iterType = IterType.Symbolic ∧ u.iterType = IterType.Broadcast) →
          contig[i]? = td.contiguity[i]?)) ∧
    ((∃ (i : Nat) (id : IterDomain), td.maybeRFactor[i]? = some id ∧
        id.iterType = IterType.Symbolic ∧ td.contiguity[i]? = some none) →
      ∃ e, mutateTensorDomain q st td = .error e) := by
  have hlen : (if td.hasRFactor then rfactor_dom else root_dom).length
      = td.maybeRFactor.length := by
    by_cases hr : td.hasRFactor = true
    · simp only [hr, ↓reduceIte] at hrfactor ⊢
      exact updateIdVec_length _ _ _ _ hrfactor
    · simp only [hr, Bool.false_eq_true, ↓reduceIte, TensorDomain.maybeRFactor]
      exact updateIdVec_length _ _ _ _ hroot
  constructor
  · intro hflag
    obtain ⟨contig, hok, hclen, hclear, hkeep⟩ := updateContiguity_spec
      (if td.hasRFactor then rfactor_dom else root_dom) td.maybeRFactor 0 td.contiguity
      (fun k id hk hs => by simpa using hflag k id hk hs)
      (fun k id hk hs => by
        have hlt : k < td.maybeRFactor.length := by
          by_contra hge
          rw [List.getElem?_eq_none (by omega)] at hk
          cases hk
        rw [Nat.zero_add]
        exact ⟨_, List.getElem?_eq_getElem (by omega)⟩)
    refine ⟨contig, ?_, hclen, ?_, ?_⟩
    · simp only [mutateTensorDomain, hroot, hrfactor, hleaf, hmutated, hok, Bool.not_true,
        Bool.false_eq_true, ↓reduceIte]
    · intro i id u hi hu hs hb
      have := hclear i id u hi (by simpa using hu) hs hb
      simpa using this
    · intro i hi
      apply hkeep i
      rintro ⟨k, id, u, hk, hid, hu, hs, hb⟩
      have hik : i = k := by omega
      subst hik
      exact hi ⟨id, u, hid, hu, hs, hb⟩
  · rintro ⟨i, id, hi, hs, habs⟩
    obtain ⟨e, he⟩ := updateContiguity_error
      (if td.hasRFactor then rfactor_dom else root_dom) td.maybeRFactor 0 td.contiguity
      i id hi hs (by simpa using habs)
    exact ⟨e, by
      simp only [mutateTensorDomain, hroot, hrfactor, hleaf, hmutated, he, Bool.not_true,
        Bool.false_eq_true, ↓reduceIte]⟩

/-- Witness of C18: the first axis of the example domain concretizes to
Broadcast and loses its flag, the second concretizes to Iteration and keeps
it. -/
theorem contiguity_clearing_witness :
    updateIdVec exampleSubstitutedState.mutations_ exampleSymbolicDomain.root
        = .ok ([exampleAxis 1 11 IterType.Broadcast, exampleAxis 2 15 IterType.Iteration],
            true) ∧
      mutateTensorDomain (exampleQueries (fun _ => []) (fun _ _ _ => true))
          exampleSubstitutedState exampleSymbolicDomain
        = .ok (exampleSubstitutedState.registerMutation
            (.tensorDomain exampleSymbolicDomain)
            (.tensorDomain
              { root := [exampleAxis 1 11 IterType.Broadcast,
                         exampleAxis 2 15 IterType.Iteration],
                rfactor := [],
                leaf := [exampleAxis 1 11 IterType.Broadcast,
                         exampleAxis 2 15 IterType.Iteration],
                contiguity := [none, some true] })) ∧
      ∃ contig : List (Option Bool),
        mutateTensorDomain (exampleQueries (fun _ => []) (fun _ _ _ => true))
            exampleSubstitutedState exampleSymbolicDomain
          = registerConcretization (exampleQueries (fun _ => []) (fun _ _ _ => true))
              exampleSubstitutedState (.tensorDomain exampleSymbolicDomain)
              (.tensorDomain
                { root := [exampleAxis 1 11 IterType.Broadcast,
                           exampleAxis 2 15 IterType.Iteration],
                  rfactor := [],
                  leaf := [exampleAxis 1 11 IterType.Broadcast,
                           exampleAxis 2 15 IterType.Iteration],
                  contiguity := contig }) ∧
          contig.length = exampleSymbolicDomain.contiguity.length :=
  ⟨rfl, rfl,
    match (contiguity_clearing (exampleQueries (fun _ => []) (fun _ _ _ => true))
        exampleSubstitutedState exampleSymbolicDomain
        [exampleAxis 1 11 IterType.Broadcast, exampleAxis 2 15 IterType.Iteration] []
        [exampleAxis 1 11 IterType.Broadcast, exampleAxis 2 15 IterType.Iteration]
        true false true rfl rfl rfl rfl).1
        (by
          intro i id hi _
          rcases i with _ | _ | i
          · exact ⟨true, rfl⟩
          · exact ⟨true, rfl⟩
          · cases hi) with
    | ⟨contig, h₁, h₂, _⟩ => ⟨contig, h₁, h₂⟩⟩

/-! ## Properties of the Concretizer: kinds of the substitutes -/

/-- A kind that is neither Symbolic nor Reduction is Iteration or Broadcast. -/
theorem iterType_concrete (t : IterType) (hs : t ≠ IterType.Symbolic)
    (hr : t ≠ IterType.Reduction) : t = IterType.Iteration ∨ t = IterType.Broadcast := by
  cases t
  · exact Or.inl rfl
  · exact absurd rfl hr
  · exact Or.inr rfl
  · exact absurd rfl hs

/-- The kind gathered from the producers is not Reduction, when the promotion
rule never yields Reduction and no producer axis that corresponds to a consumer
axis is a reduction. -/
theorem producerIterType_not_reduction {Plan : Type} (q : IrQueries Plan)
    (hprom : ∀ a b, q.promoteIterType a b ≠ IterType.Reduction)
    (hmap : ∀ p c r id, q.mapConsumerToProducer p c r = some id →
      id.iterType ≠ IterType.Reduction)
    (consumer : TensorView) (root_id : IterDomain) (producers : List TensorView)
    (acc : Option IterType) (hacc : ∀ t, acc = some t → t ≠ IterType.Reduction)
    (t : IterType)
    (h : producerIterType q consumer root_id producers acc = .ok (some t)) :
    t ≠ IterType.Reduction := by
  induction producers generalizing acc with
  | nil =>
    simp only [producerIterType, Except.ok.injEq] at h
    exact hacc t h
  | cons producer producers ih =>
    simp only [producerIterType] at h
    cases hm : q.mapConsumerToProducer producer consumer root_id with
    | none => simp [hm] at h
    | some input_id =>
      simp only [hm] at h
      split at h
      · cases h
      · cases acc with
        | none =>
          simp only at h
          exact ih (some input_id.iterType)
            (fun t ht => by
              cases ht
              exact hmap _ _ _ _ hm) h
        | some a =>
          simp only at h
          exact ih (some (q.promoteIterType a input_id.iterType))
            (fun t ht => by
              cases ht
              exact hprom _ _) h

/-- The kind computed for the outputs of an axis transform is not Reduction,
when the promotion rule never yields Reduction. -/
theorem outputIterType_not_reduction (promote : IterType → IterType → IterType)
    (hprom : ∀ a b, promote a b ≠ IterType.Reduction)
    (table : List (IrVal × IrVal)) (inputs : List IterDomain) (acc t : IterType)
    (hacc : acc ≠ IterType.Reduction)
    (h : outputIterType promote table inputs acc = .ok t) : t ≠ IterType.Reduction := by
  induction inputs generalizing acc with
  | nil =>
    simp only [outputIterType, Except.ok.injEq] at h
    rw [← h]
    exact hacc
  | cons inp inputs ih =>
    simp only [outputIterType] at h
    cases hm : maybeMutatedId table inp with
    | error e => simp [hm] at h
    | ok u =>
      simp only [hm] at h
      exact ih _ (hprom _ _) h

/-- The kind of the substitute of an axis, for an entry that came into the
table in one of the four ways: never Symbolic when the Info classifies no
resized axis as Symbolic. -/
theorem Registered.kind {Plan : Type} {q : IrQueries Plan}
    {resizes : List (IterDomain × IterType)} {m : List (IrVal × IrVal)}
    {entry : IrVal × IrVal} (h : Registered q resizes m entry)
    (hres : ∀ e ∈ resizes, e.2 ≠ IterType.Symbolic)
    (old : IterDomain) (hold : entry.1 = .iterDomain old) :
    ∃ t : IterType, entry.2 = .iterDomain (old.withIterType t) ∧ t ≠ IterType.Symbolic ∧
      ((old.iterType = IterType.Symbolic ∨ (old, t) ∈ resizes) ∨
        ∃ table inputs, outputIterType q.promoteIterType table inputs IterType.Symbolic
          = .ok t) ∧
      ((∀ e ∈ resizes, e.2 ≠ IterType.Reduction) →
        (∀ a b, q.promoteIterType a b ≠ IterType.Reduction) →
        (∀ p c r id, q.mapConsumerToProducer p c r = some id →
          id.iterType ≠ IterType.Reduction) →
        t ≠ IterType.Reduction) := by
  cases h with
  | resize id iter_type def_ hmem hdef hacc =>
    cases hold
    exact ⟨iter_type, rfl, hres _ hmem, Or.inl (Or.inr hmem), fun h _ _ => h _ hmem⟩
  | root consumer producers root_id id_type hsym hfold hne hacc =>
    cases hold
    exact ⟨id_type, rfl, hne, Or.inl (Or.inl hsym), fun _ hprom hmap =>
      producerIterType_not_reduction q hprom hmap consumer old producers none
        (fun _ h => by cases h) id_type hfold⟩
  | derived table inputs out_id iter_type hfold hne hacc =>
    cases hold
    exact ⟨iter_type, rfl, hne, Or.inr ⟨table, inputs, hfold⟩, fun _ hprom _ =>
      outputIterType_not_reduction _ hprom table inputs _ _ (by decide) hfold⟩
  | domain td root_dom rfactor_dom domain contig b₁ b₂ b₃ hroot hrf hleaf hm hc hacc =>
    cases hold

/-- Reshape resolution leaves the resize results as they are. -/
theorem analyzeReshapes_resize_transforms {Plan E : Type}
    (self result : DynamicTransformConcretizationInfo Plan)
    (analyzeView : TensorView → List Int → List Int → Except Error Plan)
    (info : DynamicTransformInitialInfo E) (evaluate : Val → Option EvaluatorValue)
    (hok : self.analyzeReshapes analyzeView info evaluate = .ok result) :
    result.resize_transforms_ = self.resize_transforms_ := by
  unfold DynamicTransformConcretizationInfo.analyzeReshapes at hok
  cases hl : analyzeReshapesLoop analyzeView evaluate info.dynamic_reshapes_
      self.reshape_transforms_ with
  | error e => simp [hl] at hok
  | ok r =>
    simp only [hl, Except.ok.injEq] at hok
    rw [← hok]

/-- Every resize result of an Info returned by the Planner pairs an axis that
is Symbolic with the kind Broadcast or Iteration. -/
theorem getConcretizationInfo_resize_kinds {Plan E : Type}
    (analyzeView : TensorView → List Int → List Int → Except Error Plan)
    (fusion : Fusion) (info : DynamicTransformInitialInfo E)
    (evaluate : Val → Option EvaluatorValue)
    (result : DynamicTransformConcretizationInfo Plan)
    (hok : getConcretizationInfo analyzeView fusion info evaluate = .ok result) :
    ∀ e ∈ result.resize_transforms_,
      e.1.iterType = IterType.Symbolic ∧
        (e.2 = IterType.Broadcast ∨ e.2 = IterType.Iteration) := by
  unfold getConcretizationInfo DynamicTransformConcretizationInfo.create at hok
  simp only at hok
  cases h₁ : DynamicTransformConcretizationInfo.analyzeReshapes
      { fusion_ := fusion.addr, reshape_transforms_ := [], resize_transforms_ := [] }
      analyzeView info evaluate with
  | error e => simp [h₁] at hok
  | ok self =>
    simp only [h₁] at hok
    have hnil := analyzeReshapes_resize_transforms _ self analyzeView info evaluate h₁
    obtain ⟨entries, rfl, hall⟩ := (analyzeResizes_ok_iff self result info evaluate).1 hok
    intro e he
    simp only [hnil, List.nil_append] at he
    obtain ⟨i, hi⟩ := List.getElem?_of_mem he
    have hflip : List.Forall₂ (fun entry op => analyzeResize evaluate op = .ok entry)
        entries info.dynamic_resizes_ := List.Forall₂.flip hall
    obtain ⟨op, -, hop⟩ := (forall2_getElem hflip).2 i e hi
    obtain ⟨hs, x, -, -, rfl⟩ := (analyzeResize_ok_iff evaluate op e).1 hop
    refine ⟨hs, ?_⟩
    by_cases hx : x = 1
    · exact Or.inl (by simp [hx])
    · exact Or.inr (by simp [hx])

/-- C16: an axis never reverts to Symbolic.  Every resize result of an Info
returned by the Planner has kind Broadcast or Iteration.  After a successful
`concretizeFusion` with an Info whose resize results have kind Broadcast or
Iteration, every axis entry of the substitution table (a resized axis, a
propagated root axis, an output of an axis transform) replaces an axis by a
copy whose kind is not Symbolic; the kind is Iteration or Broadcast when the
promotion rule never yields Reduction and no producer axis that corresponds to
a consumer axis is a reduction. -/
theorem replacements_never_symbolic {Plan E : Type} (q : IrQueries Plan) :
    (∀ (analyzeView : TensorView → List Int → List Int → Except Error Plan)
        (fusion : Fusion) (info : DynamicTransformInitialInfo E)
        (evaluate : Val → Option EvaluatorValue)
        (result : DynamicTransformConcretizationInfo Plan),
      getConcretizationInfo analyzeView fusion info evaluate = .ok result →
      ∀ e ∈ result.resize_transforms_,
        e.2 = IterType.Broadcast ∨ e.2 = IterType.Iteration) ∧
    (∀ (st st' : IrState) (info : DynamicTransformConcretizationInfo Plan),
      (∀ e ∈ info.resize_transforms_,
        e.2 = IterType.Broadcast ∨ e.2 = IterType.Iteration) →
      concretizeFusion q st info = .ok st' →
      ∀ entry ∈ st'.mutations_, ∀ old : IterDomain, entry.1 = .iterDomain old →
        ∃ t : IterType, entry.2 = .iterDomain (old.withIterType t) ∧
          t ≠ IterType.Symbolic ∧
          ((∀ a b, q.promoteIterType a b ≠ IterType.Reduction) →
            (∀ p c r id, q.mapConsumerToProducer p c r = some id →
              id.iterType ≠ IterType.Reduction) →
            t = IterType.Iteration ∨ t = IterType.Broadcast)) := by
  constructor
  · intro analyzeView fusion info evaluate result hok e he
    exact (getConcretizationInfo_resize_kinds analyzeView fusion info evaluate result hok
      e he).2
  · intro st st' info hinfo hok entry hentry old hold
    obtain ⟨before, hreg, -, -⟩ := (concretizeFusion_table q st st' info hok).mem entry hentry
    obtain ⟨t, ht, hne, -, hred⟩ := hreg.kind
      (fun e he => by rcases hinfo e he with h | h <;> simp [h]) old hold
    refine ⟨t, ht, hne, fun hprom hmap => ?_⟩
    exact iterType_concrete t hne
      (hred (fun e he => by rcases hinfo e he with h | h <;> simp [h]) hprom hmap)

/-- Witness of C16: in the example pipeline the two Symbolic root axes of the
consumer are replaced by a Broadcast and an Iteration copy, and every axis
entry of the resulting table has a kind that is not Symbolic. -/
theorem replacements_never_symbolic_witness :
    ∃ st' : IrState,
      concretizeFusion examplePermissive examplePipeline (exampleInfo Unit [] []) = .ok st' ∧
      (IrVal.iterDomain (exampleAxis 3 11 IterType.Symbolic),
        IrVal.iterDomain (exampleAxis 3 11 IterType.Broadcast)) ∈ st'.mutations_ ∧
      ∀ entry ∈ st'.mutations_, ∀ old : IterDomain, entry.1 = .iterDomain old →
        ∃ t : IterType, entry.2 = .iterDomain (old.withIterType t) ∧
          t ≠ IterType.Symbolic ∧
          ((∀ a b, examplePermissive.promoteIterType a b ≠ IterType.Reduction) →
            (∀ p c r id, examplePermissive.mapConsumerToProducer p c r = some id →
              id.iterType ≠ IterType.Reduction) →
            t = IterType.Iteration ∨ t = IterType.Broadcast) :=
  ⟨_, rfl, by decide,
    (@replacements_never_symbolic Unit Unit examplePermissive).2 examplePipeline _
      (exampleInfo Unit [] []) (fun _ he => absurd he (List.not_mem_nil _)) rfl⟩

/-! ## Properties of the Concretizer: substitutes of the axes of a domain -/

/-- A successful lookup in an association list returns the value of an entry
of the list. -/
theorem lookup_mem {α β : Type} [BEq α] [LawfulBEq α] (m : List (α × β)) (k : α) (v : β)
    (h : m.lookup k = some v) : (k, v) ∈ m := by
  induction m with
  | nil => simp at h
  | cons e m ih =>
    obtain ⟨k', v'⟩ := e
    by_cases hk : (k == k') = true
    · have hkk : k = k' := eq_of_beq hk
      subst hkk
      simp only [List.lookup_cons, beq_self_eq_true, Option.some.injEq] at h
      subst h
      exact List.mem_cons_self _ _
    · have hk' : (k == k') = false := by simpa using hk
      simp only [List.lookup_cons, hk'] at h
      exact List.mem_cons_of_mem _ (ih h)

/-- A lookup that finds nothing means no entry of the list has the key. -/
theorem lookup_none {α β : Type} [BEq α] [LawfulBEq α] (m : List (α × β)) (k : α)
    (h : m.lookup k = none) : ∀ v, (k, v) ∉ m := by
  induction m with
  | nil => simp
  | cons e m ih =>
    obtain ⟨k', v'⟩ := e
    intro v hv
    by_cases hk : (k == k') = true
    · simp [List.lookup_cons, hk] at h
    · have hk' : (k == k') = false := by simpa using hk
      simp only [List.lookup_cons, hk'] at h
      rcases List.mem_cons.1 hv with heq | hmem
      · simp only [Prod.mk.injEq] at heq
        rw [heq.1] at hk
        simp at hk
      · exact ih h v hmem

/-- The substitutes computed for a list of axes are, position by position, the
substitutes of the axes. -/
theorem updateIdVec_forall2 (mutations : List (IrVal × IrVal)) (ids updated : List IterDomain)
    (mutated : Bool) (h : updateIdVec mutations ids = .ok (updated, mutated)) :
    List.Forall₂ (fun id u => maybeMutatedId mutations id = .ok u) ids updated := by
  induction ids generalizing updated mutated with
  | nil =>
    simp only [updateIdVec, Except.ok.injEq, Prod.mk.injEq] at h
    rw [← h.1]
    exact List.Forall₂.nil
  | cons id ids ih =>
    simp only [updateIdVec] at h
    cases h₁ : maybeMutatedId mutations id with
    | error e => simp [h₁] at h
    | ok u =>
      simp only [h₁] at h
      cases h₂ : updateIdVec mutations ids with
      | error e => simp [h₂] at h
      | ok r =>
        obtain ⟨us, b⟩ := r
        simp only [h₂, Except.ok.injEq, Prod.mk.injEq] at h
        rw [← h.1]
        exact List.Forall₂.cons h₁ (ih us b h₂)

/-- An entry keyed by an axis replaces the axis by a copy with another kind. -/
theorem Registered.value {Plan : Type} {q : IrQueries Plan}
    {resizes : List (IterDomain × IterType)} {m : List (IrVal × IrVal)}
    {entry : IrVal × IrVal} (h : Registered q resizes m entry)
    (old : IterDomain) (hold : entry.1 = .iterDomain old) :
    ∃ t : IterType, entry.2 = .iterDomain (old.withIterType t) := by
  cases h with
  | resize id iter_type def_ hmem hdef hacc =>
    cases hold
    exact ⟨iter_type, rfl⟩
  | root consumer producers root_id id_type hsym hfold hne hacc =>
    cases hold
    exact ⟨id_type, rfl⟩
  | derived table inputs out_id iter_type hfold hne hacc =>
    cases hold
    exact ⟨iter_type, rfl⟩
  | domain td root_dom rfactor_dom domain contig b₁ b₂ b₃ hroot hrf hleaf hm hc hacc =>
    cases hold

/-- The substitute of an axis under a justified table: the axis itself when
the table has no entry for it, and otherwise the copy of a justified entry. -/
theorem maybeMutatedId_cases {Plan : Type} {q : IrQueries Plan}
    {resizes : List (IterDomain × IterType)} {m : List (IrVal × IrVal)}
    (htable : TableOk q resizes m) (id : IterDomain) :
    (m.lookup (.iterDomain id) = none ∧ maybeMutatedId m id = .ok id) ∨
    ∃ (t : IterType) (before : List (IrVal × IrVal)),
      maybeMutatedId m id = .ok (id.withIterType t) ∧
      (IrVal.iterDomain id, IrVal.iterDomain (id.withIterType t)) ∈ m ∧
      Registered q resizes before (.iterDomain id, .iterDomain (id.withIterType t)) := by
  cases hl : m.lookup (.iterDomain id) with
  | none =>
    left
    exact ⟨rfl, by simp [maybeMutatedId, maybeMutated, hl]⟩
  | some v =>
    right
    have hmem := lookup_mem m _ v hl
    obtain ⟨before, hreg, -, -⟩ := htable.mem _ hmem
    obtain ⟨t, ht⟩ := hreg.value id rfl
    simp only at ht
    subst ht
    exact ⟨t, before, by simp [maybeMutatedId, maybeMutated, hl], hmem, hreg⟩

/-- What a successful run of the contiguity loop, entered at position `i`,
returns: a list of the same length in which every flag is the original one or
absent, and the flag of every remaining Symbolic axis whose substitute is
Broadcast is absent. -/
theorem updateContiguity_ok (updated : List IterDomain) (originals : List IterDomain)
    (i : Nat) (contig contig' : List (Option Bool))
    (h : updateContiguity updated originals i contig = .ok contig') :
    contig'.length = contig.length ∧
      (∀ j : Nat, contig'[j]? = contig[j]? ∨ contig'[j]? = some none) ∧
      (∀ (k : Nat) (id u : IterDomain), originals[k]? = some id →
        updated[i + k]? = some u → id.iterType = IterType.Symbolic →
        u.iterType = IterType.Broadcast → contig'[i + k]? = some none) := by
  induction originals generalizing i contig with
  | nil =>
    simp only [updateContiguity, Except.ok.injEq] at h
    subst h
    exact ⟨rfl, fun _ => Or.inl rfl, fun k id u hk => by simp at hk⟩
  | cons original originals ih =>
    by_cases hs : original.iterType = IterType.Symbolic
    · simp only [updateContiguity, hs, bne_self_eq_false, Bool.false_eq_true,
        ↓reduceIte] at h
      cases hc : contig[i]? with
      | none => simp [hc] at h
      | some flag =>
        cases flag with
        | none => simp [hc] at h
        | some b =>
          simp only [hc] at h
          cases hu : updated[i]? with
          | none => simp [hu] at h
          | some u =>
            simp only [hu] at h
            have hlt : i < contig.length := by
              by_contra hge
              rw [List.getElem?_eq_none (by omega)] at hc
              cases hc
            by_cases hb : u.iterType = IterType.Broadcast
            · simp only [hb, beq_self_eq_true, ↓reduceIte] at h
              obtain ⟨hlen, hkeep, hclear⟩ := ih (i + 1) (contig.set i none) h
              have hat : contig'[i]? = some none := by
                rcases hkeep i with hk | hk
                · rw [hk, List.getElem?_set_self hlt]
                · exact hk
              refine ⟨by simpa using hlen, ?_, ?_⟩
              · intro j
                by_cases hji : j = i
                · subst hji
                  exact Or.inr hat
                · rcases hkeep j with hk | hk
                  · left
                    rw [hk, List.getElem?_set_ne (fun h => hji h.symm)]
                  · exact Or.inr hk
              · intro k id v hk hv hsym hbr
                cases k with
                | zero => exact hat
                | succ k =>
                  have := hclear k id v (by simpa using hk)
                    (by rw [← hv]; congr 1; omega) hsym hbr
                  rw [← this]
                  congr 1
                  omega
            · have hb' : (u.iterType == IterType.Broadcast) = false := by simpa using hb
              simp only [hb', Bool.false_eq_true, ↓reduceIte] at h
              obtain ⟨hlen, hkeep, hclear⟩ := ih (i + 1) contig h
              refine ⟨hlen, hkeep, ?_⟩
              intro k id v hk hv hsym hbr
              cases k with
              | zero =>
                simp only [Nat.add_zero, hu, Option.some.injEq] at hv
                subst hv
                exact absurd hbr hb
              | succ k =>
                have := hclear k id v (by simpa using hk)
                  (by rw [← hv]; congr 1; omega) hsym hbr
                rw [← this]
                congr 1
                omega
    · have hs' : (original.iterType != IterType.Symbolic) = true := by simpa using hs
      simp only [updateContiguity, hs', ↓reduceIte] at h
      obtain ⟨hlen, hkeep, hclear⟩ := ih (i + 1) contig h
      refine ⟨hlen, hkeep, ?_⟩
      intro k id v hk hv hsym hbr
      cases k with
      | zero =>
        simp only [List.getElem?_cons_zero, Option.some.injEq] at hk
        subst hk
        exact absurd hsym hs
      | succ k =>
        have := hclear k id v (by simpa using hk)
          (by rw [← hv]; congr 1; omega) hsym hbr
        rw [← this]
        congr 1
        omega

/-- The kind folded from a kind other than Broadcast is not Broadcast, when the
promotion rule yields Broadcast for two Broadcast kinds only. -/
theorem outputIterType_not_broadcast (promote : IterType → IterType → IterType)
    (hB : ∀ a b, promote a b = IterType.Broadcast →
      a = IterType.Broadcast ∧ b = IterType.Broadcast)
    (table : List (IrVal × IrVal)) (inputs : List IterDomain) (acc t : IterType)
    (hacc : acc ≠ IterType.Broadcast)
    (h : outputIterType promote table inputs acc = .ok t) : t ≠ IterType.Broadcast := by
  induction inputs generalizing acc with
  | nil =>
    simp only [outputIterType, Except.ok.injEq] at h
    rw [← h]
    exact hacc
  | cons inp inputs ih =>
    simp only [outputIterType] at h
    cases hm : maybeMutatedId table inp with
    | error e => simp [hm] at h
    | ok u =>
      simp only [hm] at h
      exact ih _ (fun hp => hacc (hB _ _ hp).1) h

/-- An entry that gives an axis the kind Broadcast is keyed by a Symbolic
axis, when the promotion rule yields Broadcast for two Broadcast kinds only
and the resized axes of the Info are Symbolic. -/
theorem Registered.broadcast {Plan : Type} {q : IrQueries Plan}
    {resizes : List (IterDomain × IterType)} {m : List (IrVal × IrVal)}
    {entry : IrVal × IrVal} (h : Registered q resizes m entry)
    (hB : ∀ a b, q.promoteIterType a b = IterType.Broadcast →
      a = IterType.Broadcast ∧ b = IterType.Broadcast)
    (hres : ∀ e ∈ resizes, e.1.iterType = IterType.Symbolic)
    (old : IterDomain) (t : IterType)
    (hentry : entry = (.iterDomain old, .iterDomain (old.withIterType t)))
    (ht : t = IterType.Broadcast) : old.iterType = IterType.Symbolic := by
  cases h with
  | resize id iter_type def_ hmem hdef hacc =>
    cases hentry
    exact hres _ hmem
  | root consumer producers root_id id_type hsym hfold hne hacc =>
    cases hentry
    exact hsym
  | derived table inputs out_id iter_type hfold hne hacc =>
    simp only [Prod.mk.injEq, IrVal.iterDomain.injEq] at hentry
    have hk : iter_type = t := by
      have := congrArg IterDomain.iterType hentry.2
      simpa [IterDomain.withIterType] using this
    subst hk
    exact absurd ht
      (outputIterType_not_broadcast _ hB table inputs _ _ (by decide) hfold)
  | domain td root_dom rfactor_dom domain contig b₁ b₂ b₃ hroot hrf hleaf hm hc hacc =>
    cases hentry

/-- An entry keyed by a domain rebuilds the domain from the substitutes of its
axes under the entries registered before it. -/
theorem Registered.domain_inv {Plan : Type} {q : IrQueries Plan}
    {resizes : List (IterDomain × IterType)} {m : List (IrVal × IrVal)}
    {td td' : TensorDomain}
    (h : Registered q resizes m (.tensorDomain td, .tensorDomain td')) :
    ∃ (mutated_root mutated_rfactor mutated_leaf : Bool),
      updateIdVec m td.root = .ok (td'.root, mutated_root) ∧
      (if td.hasRFactor then updateIdVec m td.maybeRFactor else .ok ([], false))
        = .ok (td'.rfactor, mutated_rfactor) ∧
      updateIdVec m td.leaf = .ok (td'.leaf, mutated_leaf) ∧
      (mutated_root || mutated_rfactor || mutated_leaf) = true ∧
      updateContiguity (if td.hasRFactor then td'.rfactor else td'.root)
        td.maybeRFactor 0 td.contiguity = .ok td'.contiguity := by
  generalize he : (IrVal.tensorDomain td, IrVal.tensorDomain td') = entry at h
  cases h with
  | resize id iter_type def_ hmem hdef hacc => cases he
  | root consumer producers root_id id_type hsym hfold hne hacc => cases he
  | derived table inputs out_id iter_type hfold hne hacc => cases he
  | domain td₀ root_dom rfactor_dom domain contig b₁ b₂ b₃ hroot hrf hleaf hm hc hacc =>
    cases he
    exact ⟨b₁, b₂, b₃, hroot, hrf, hleaf, hm, hc⟩

/-- The derived-or-root domain of a rebuilt domain is the list of substitutes
of the derived-or-root domain of the original. -/
theorem rebuilt_maybeRFactor (m : List (IrVal × IrVal)) (td td' : TensorDomain)
    (mutated_root mutated_rfactor : Bool)
    (hroot : updateIdVec m td.root = .ok (td'.root, mutated_root))
    (hrfactor : (if td.hasRFactor then updateIdVec m td.maybeRFactor else .ok ([], false))
      = .ok (td'.rfactor, mutated_rfactor)) :
    td'.hasRFactor = td.hasRFactor ∧
      td'.maybeRFactor = (if td.hasRFactor then td'.rfactor else td'.root) ∧
      List.Forall₂ (fun id u => maybeMutatedId m id = .ok u) td.maybeRFactor
        td'.maybeRFactor := by
  by_cases hr : td.hasRFactor = true
  · simp only [hr, ↓reduceIte] at hrfactor ⊢
    have hlen := updateIdVec_length _ _ _ _ hrfactor
    have hr' : td'.hasRFactor = true := by
      have hne : td.rfactor ≠ [] := by
        simpa [TensorDomain.hasRFactor] using hr
      have : td'.rfactor ≠ [] := by
        intro h0
        rw [h0] at hlen
        simp only [TensorDomain.maybeRFactor, hr, ↓reduceIte, List.length_nil] at hlen
        exact hne (List.length_eq_zero.1 hlen.symm)
      simpa [TensorDomain.hasRFactor] using this
    refine ⟨hr', by simp [TensorDomain.maybeRFactor, hr'], ?_⟩
    have := updateIdVec_forall2 _ _ _ _ hrfactor
    simpa [TensorDomain.maybeRFactor, hr'] using this
  · have hr₀ : td.hasRFactor = false := by simpa using hr
    simp only [hr₀, Bool.false_eq_true, ↓reduceIte, Except.ok.injEq, Prod.mk.injEq]
      at hrfactor ⊢
    have hr' : td'.hasRFactor = false := by
      simp [TensorDomain.hasRFactor, ← hrfactor.1]
    refine ⟨hr', by simp [TensorDomain.maybeRFactor, hr'], ?_⟩
    have := updateIdVec_forall2 _ _ _ _ hroot
    simpa [TensorDomain.maybeRFactor, hr', hr₀] using this

/-- C17: Broadcast contiguity invariant.  Let the promotion rule yield
Broadcast for two Broadcast kinds only, and let the resized axes of the Info be
Symbolic.  After a successful `concretizeFusion`, take any domain `td` that the
Concretizer rebuilt into `td'`.  If every Broadcast axis of the derived-or-root
domain of `td` has an absent contiguity flag, then the flags of `td'` are as
many as those of `td` and every Broadcast axis of the derived-or-root domain of
`td'` has an absent flag; an axis that was not Symbolic is Broadcast in `td'`
only if it is unchanged, whatever propagation recomputed its kind. -/
theorem broadcast_contiguity_invariant {Plan : Type} (q : IrQueries Plan)
    (st st' : IrState) (info : DynamicTransformConcretizationInfo Plan)
    (hB : ∀ a b, q.promoteIterType a b = IterType.Broadcast →
      a = IterType.Broadcast ∧ b = IterType.Broadcast)
    (hres : ∀ e ∈ info.resize_transforms_, e.1.iterType = IterType.Symbolic)
    (hok : concretizeFusion q st info = .ok st')
    (td td' : TensorDomain)
    (hentry : (IrVal.tensorDomain td, IrVal.tensorDomain td') ∈ st'.mutations_)
    (habs : ∀ (i : Nat) (id : IterDomain), td.maybeRFactor[i]? = some id →
      id.iterType = IterType.Broadcast → td.contiguity[i]? = some none) :
    td'.contiguity.length = td.contiguity.length ∧
    (∀ (i : Nat) (id : IterDomain), td'.maybeRFactor[i]? = some id →
      id.iterType = IterType.Broadcast → td'.contiguity[i]? = some none) ∧
    (∀ (i : Nat) (id new_id : IterDomain), td.maybeRFactor[i]? = some id →
      td'.maybeRFactor[i]? = some new_id → id.iterType ≠ IterType.Symbolic →
      new_id.iterType = IterType.Broadcast → new_id = id) := by
  obtain ⟨before, hreg, htable, -⟩ := (concretizeFusion_table q st st' info hok).mem _ hentry
  obtain ⟨b₁, b₂, b₃, hroot, hrf, -, -, hc⟩ := hreg.domain_inv
  obtain ⟨-, hmaybe, hall⟩ := rebuilt_maybeRFactor before td td' b₁ b₂ hroot hrf
  rw [← hmaybe] at hc
  obtain ⟨hlen, hkeep, hclear⟩ := updateContiguity_ok _ _ _ _ _ hc
  have hback := (forall2_getElem (List.Forall₂.flip hall)).2
  have hkind : ∀ (i : Nat) (id new_id : IterDomain), td.maybeRFactor[i]? = some id →
      td'.maybeRFactor[i]? = some new_id → new_id.iterType = IterType.Broadcast →
      new_id = id ∨ id.iterType = IterType.Symbolic := by
    intro i id new_id hi hi' hb
    obtain ⟨id₀, hid₀, hm⟩ := hback i new_id hi'
    rw [hi, Option.some.injEq] at hid₀
    subst hid₀
    rcases maybeMutatedId_cases htable id with ⟨-, hsame⟩ | ⟨t, before', hm', -, hreg'⟩
    · rw [hsame, Except.ok.injEq] at hm
      exact Or.inl hm.symm
    · rw [hm', Except.ok.injEq] at hm
      subst hm
      exact Or.inr (hreg'.broadcast hB hres id t rfl hb)
  refine ⟨hlen, ?_, ?_⟩
  · intro i new_id hi' hb
    obtain ⟨id, hm, -⟩ := hback i new_id hi'
    rcases hkind i id new_id hm hi' hb with hsame | hsym
    · subst hsame
      rcases hkeep i with hk | hk
      · rw [hk]
        exact habs i new_id hm hb
      · exact hk
    · have := hclear i id new_id hm (by simpa using hi') hsym hb
      simpa using this
  · intro i id new_id hi hi' hns hb
    rcases hkind i id new_id hi hi' hb with hsame | hsym
    · exact hsame
    · exact absurd hsym hns

/-- Witness of C17: in the example pipeline the domain of the consumer is
rebuilt with a Broadcast first axis, whose flag is absent. -/
theorem broadcast_contiguity_invariant_witness :
    ∃ st' : IrState,
      concretizeFusion examplePermissive examplePipeline (exampleInfo Unit [] []) = .ok st' ∧
      (IrVal.tensorDomain exampleConsumerDomain, IrVal.tensorDomain exampleRebuiltDomain)
        ∈ st'.mutations_ ∧
      exampleRebuiltDomain.contiguity.length = exampleConsumerDomain.contiguity.length ∧
      (∀ (i : Nat) (id : IterDomain), exampleRebuiltDomain.maybeRFactor[i]? = some id →
        id.iterType = IterType.Broadcast → exampleRebuiltDomain.contiguity[i]? = some none) ∧
      (∀ (i : Nat) (id new_id : IterDomain), exampleConsumerDomain.maybeRFactor[i]? = some id →
        exampleRebuiltDomain.maybeRFactor[i]? = some new_id →
        id.iterType ≠ IterType.Symbolic →
        new_id.iterType = IterType.Broadcast → new_id = id) :=
  ⟨_, rfl, by decide,
    broadcast_contiguity_invariant examplePermissive examplePipeline _
      (exampleInfo Unit [] [])
      (fun a b => by cases a <;> cases b <;> simp [examplePermissive, exampleQueries,
        examplePromote])
      (fun _ he => absurd he (List.not_mem_nil _)) rfl
      exampleConsumerDomain exampleRebuiltDomain (by decide)
      (fun i id hi hb => by
        have hmem := List.getElem?_mem hi
        have hall : ∀ x ∈ exampleConsumerDomain.maybeRFactor,
            x.iterType ≠ IterType.Broadcast := by decide
        exact absurd hb (hall id hmem))⟩

/-! ## Properties of the Concretizer: tensors without producer -/

/-- The tensor found under a name has that name. -/
theorem tensorView?_name (st : IrState) (name : Nat) (tv : TensorView)
    (h : st.tensorView? name = some tv) : tv.name = name := by
  unfold IrState.tensorView? at h
  have := List.find?_some h
  simpa using this

/-- Without producers, the loop over the root axes fails at the first Symbolic
root axis. -/
theorem propagateRootLoop_no_producer {Plan : Type} (q : IrQueries Plan)
    (consumer : TensorView) (root_domain : List IterDomain) (st : IrState) (b : Bool)
    (hsym : ∃ id ∈ root_domain, id.iterType = IterType.Symbolic) :
    ∃ id ∈ root_domain, id.iterType = IterType.Symbolic ∧
      propagateRootLoop q consumer [] root_domain st b = .error (.noIdType id.name) := by
  induction root_domain with
  | nil =>
    obtain ⟨id, hid, -⟩ := hsym
    simp at hid
  | cons root_id root_domain ih =>
    by_cases hs : root_id.iterType = IterType.Symbolic
    · refine ⟨root_id, List.mem_cons_self _ _, hs, ?_⟩
      simp [propagateRootLoop, hs, producerIterType]
    · obtain ⟨id, hid, hids⟩ := hsym
      have hid' : id ∈ root_domain := by
        rcases List.mem_cons.1 hid with rfl | h
        · exact absurd hids hs
        · exact h
      obtain ⟨id', hmem, hs', herr⟩ := ih ⟨id, hid', hids⟩
      refine ⟨id', List.mem_cons_of_mem _ hmem, hs', ?_⟩
      have hs'' : (root_id.iterType != IterType.Symbolic) = true := by simpa using hs
      simp only [propagateRootLoop, hs'', ↓reduceIte]
      exact herr

/-- A domain with a Symbolic root axis has a Symbolic axis. -/
theorem hasSymbolicAxis_of_root (td : TensorDomain)
    (hsym : ∃ id ∈ td.root, id.iterType = IterType.Symbolic) :
    td.hasSymbolicAxis = true := by
  obtain ⟨id, hid, hs⟩ := hsym
  simp only [TensorDomain.hasSymbolicAxis, Bool.or_eq_true, List.any_eq_true, beq_iff_eq]
  exact Or.inl ⟨id, hid, hs⟩

/-- The handling of a tensor that has a Symbolic root axis and a defining
operation without tensor inputs fails: no kind is found for its first Symbolic
root axis. -/
theorem mutateTensorView_no_producer {Plan : Type} (q : IrQueries Plan) (st : IrState)
    (tv : TensorView) (def_ : Expr) (hdef : st.definition? tv = some def_)
    (hin : st.tensorInputs def_ = [])
    (hsym : ∃ id ∈ tv.domain.root, id.iterType = IterType.Symbolic) :
    ∃ id ∈ tv.domain.root, id.iterType = IterType.Symbolic ∧
      mutateTensorView q st tv = .error (.noIdType id.name) := by
  obtain ⟨id, hid, hs, herr⟩ := propagateRootLoop_no_producer q tv tv.domain.root st false hsym
  refine ⟨id, hid, hs, ?_⟩
  have hany := hasSymbolicAxis_of_root tv.domain hsym
  simp [mutateTensorView, propagateFromProducerToConsumer, hany, hdef, hin, herr]

/-! ## Properties of the Concretizer: what the handling of a tensor changes -/

/-- What `OptOutMutator::mutate(TensorView*)` does when it succeeds: every
tensor with the name of the handled one gets the substitute of its domain. -/
theorem setDomain_cases (st st' : IrState) (tv : TensorView)
    (hok : st.setDomain tv = .ok st') :
    ∃ td : TensorDomain,
      maybeMutated st.mutations_ (.tensorDomain tv.domain) = .tensorDomain td ∧
      st' = { st with vals := st.vals.map (fun t =>
        if t.name == tv.name then { t with domain := td } else t) } := by
  unfold IrState.setDomain at hok
  split at hok
  · rename_i td htd
    simp only [Except.ok.injEq] at hok
    exact ⟨td, htd, hok.symm⟩
  · cases hok

/-- The stages of a successful `mutate(TensorView*)`: nothing for a tensor
without Symbolic axis; otherwise root propagation, the check of the leaf
domain, derived-domain propagation, the rebuild of the domain and the update
of the tensor. -/
theorem mutateTensorView_cases {Plan : Type} (q : IrQueries Plan) (st st' : IrState)
    (tv : TensorView) (hok : mutateTensorView q st tv = .ok st') :
    (tv.domain.hasSymbolicAxis = false ∧ st' = st) ∨
    (tv.domain.hasSymbolicAxis = true ∧
      ∃ (st₁ : IrState) (b : Bool) (st₂ st₃ : IrState),
        propagateFromProducerToConsumer q st tv = .ok (st₁, b) ∧
        tv.domain.leaf = tv.getMaybeRFactorDomain ∧
        (if tv.hasRFactor then mutateIdExprs q (q.getExprsBetween tv) st₁ else .ok st₁)
          = .ok st₂ ∧
        mutateTensorDomain q st₂ tv.domain = .ok st₃ ∧
        st₃.setDomain tv = .ok st') := by
  unfold mutateTensorView at hok
  by_cases hs : tv.domain.hasSymbolicAxis = true
  · right
    simp only [hs, Bool.not_true, Bool.false_eq_true, ↓reduceIte] at hok
    cases hp : propagateFromProducerToConsumer q st tv with
    | error e => simp [hp] at hok
    | ok r =>
      obtain ⟨st₁, b⟩ := r
      simp only [hp] at hok
      by_cases hleaf : tv.domain.leaf = tv.getMaybeRFactorDomain
      · simp only [hleaf, ne_eq, not_true_eq_false, ↓reduceIte] at hok
        cases he : (if tv.hasRFactor then mutateIdExprs q (q.getExprsBetween tv) st₁
            else .ok st₁) with
        | error e => simp [he] at hok
        | ok st₂ =>
          simp only [he] at hok
          cases hd : mutateTensorDomain q st₂ tv.domain with
          | error e => simp [hd] at hok
          | ok st₃ =>
            simp only [hd] at hok
            exact ⟨hs, st₁, b, st₂, st₃, rfl, hleaf, he, hd, hok⟩
      · simp [hleaf] at hok
  · left
    have hs' : tv.domain.hasSymbolicAxis = false := by simpa using hs
    simp only [hs', Bool.not_false, ↓reduceIte, Except.ok.injEq] at hok
    exact ⟨hs', hok.symm⟩

/-- A successful `mutate(TensorView*)` keeps the operations, and changes at
most the domain of the tensors that have the name of the handled one. -/
theorem mutateTensorView_frame {Plan : Type} (q : IrQueries Plan) (st st' : IrState)
    (tv : TensorView) (hok : mutateTensorView q st tv = .ok st') :
    st'.exprs = st.exprs ∧
    ∃ f : TensorView → TensorView, (∀ t, (f t).name = t.name) ∧
      (∀ t, t.name ≠ tv.name → f t = t) ∧ st'.vals = st.vals.map f := by
  refine ⟨(mutateTensorView_step q [] st st' tv hok).1.2.1, ?_⟩
  rcases mutateTensorView_cases q st st' tv hok with ⟨-, rfl⟩ | ⟨-, st₁, b, st₂, st₃, hp, -,
    he, hd, hset⟩
  · exact ⟨fun t => t, fun _ => rfl, fun _ _ => rfl, by simp⟩
  · have h₁ := (propagateFromProducerToConsumer_step q [] st tv st₁ b hp).2
    have h₂ : st₂.vals = st₁.vals := by
      by_cases hr : tv.hasRFactor = true
      · simp only [hr, ↓reduceIte] at he
        exact (mutateIdExprs_step q [] _ st₁ st₂ he).2
      · simp only [hr, Bool.false_eq_true, ↓reduceIte, Except.ok.injEq] at he
        rw [he]
    have h₃ := (mutateTensorDomain_step q [] st₂ st₃ tv.domain hd).2
    obtain ⟨td, -, rfl⟩ := setDomain_cases st₃ st' tv hset
    refine ⟨fun t => if t.name == tv.name then { t with domain := td } else t, ?_, ?_, ?_⟩
    · intro t
      by_cases h : (t.name == tv.name) = true <;> simp [h]
    · intro t hne
      have : (t.name == tv.name) = false := by simpa using hne
      simp [this]
    · simp only [h₃, h₂, h₁]

/-- A successful step of the propagation pass keeps the operations, and
changes at most the domain of the tensors named by the statement. -/
theorem mutateStatement_frame {Plan : Type} (q : IrQueries Plan) (st st' : IrState)
    (stmt : Statement) (hok : mutateStatement q st stmt = .ok st') :
    st'.exprs = st.exprs ∧
    ∃ f : TensorView → TensorView, (∀ t, (f t).name = t.name) ∧
      (∀ t, stmt ≠ .tensorView t.name → f t = t) ∧ st'.vals = st.vals.map f := by
  cases stmt with
  | tensorView name =>
    simp only [mutateStatement] at hok
    cases htv : st.tensorView? name with
    | none => simp [htv] at hok
    | some tv =>
      simp only [htv] at hok
      obtain ⟨hex, f, hname, hother, hvals⟩ := mutateTensorView_frame q st st' tv hok
      have hn := tensorView?_name st name tv htv
      refine ⟨hex, f, hname, ?_, hvals⟩
      intro t ht
      apply hother
      intro heq
      apply ht
      rw [heq, hn]
  | tensorDomain td =>
    have h := mutateTensorDomain_step q [] st st' td hok
    exact ⟨h.1.1.2.1, fun t => t, fun _ => rfl, fun _ _ => rfl, by simp [h.2]⟩
  | other name =>
    simp only [mutateStatement, Except.ok.injEq] at hok
    subst hok
    exact ⟨rfl, fun t => t, fun _ => rfl, fun _ _ => rfl, by simp⟩

/-- The tensor found under a name after a change of domains that keeps the
names is the changed version of the tensor found before. -/
theorem find?_map_name (vals : List TensorView) (f : TensorView → TensorView)
    (hname : ∀ t, (f t).name = t.name) (name : Nat) :
    (vals.map f).find? (fun tv => tv.name == name)
      = (vals.find? (fun tv => tv.name == name)).map f := by
  induction vals with
  | nil => rfl
  | cons t vals ih =>
    by_cases h : (t.name == name) = true
    · simp [List.find?_cons, hname, h]
    · have h' : (t.name == name) = false := by simpa using h
      simp only [List.map_cons, List.find?_cons, hname, h']
      exact ih

/-- An operation has no tensor input in the graph exactly when none of the
tensor names among its inputs is the name of a tensor of the graph. -/
theorem tensorInputs_eq_nil_iff (st : IrState) (e : Expr) :
    st.tensorInputs e = [] ↔
      ∀ name, ExprInput.tensorView name ∈ e.inputs → st.tensorView? name = none := by
  unfold IrState.tensorInputs
  rw [List.filterMap_eq_nil_iff]
  constructor
  · intro h name hmem
    exact h _ hmem
  · intro h i hmem
    cases i with
    | tensorView name => exact h name hmem
    | other v => rfl

/-- The propagation pass fails when it visits a tensor that has a Symbolic
root axis and a defining operation without tensor inputs. -/
theorem mutateStatements_no_producer {Plan : Type} (q : IrQueries Plan)
    (tv : TensorView) (def_ : Expr)
    (hsym : ∃ id ∈ tv.domain.root, id.iterType = IterType.Symbolic)
    (stmts : List Statement) (st : IrState)
    (hfind : st.tensorView? tv.name = some tv)
    (hdef : st.definition? tv = some def_)
    (hin : st.tensorInputs def_ = [])
    (hvisit : Statement.tensorView tv.name ∈ stmts) :
    ∃ e, mutateStatements q stmts st = .error e := by
  induction stmts generalizing st with
  | nil => simp at hvisit
  | cons stmt stmts ih =>
    simp only [mutateStatements]
    cases hs : mutateStatement q st stmt with
    | error e => exact ⟨e, rfl⟩
    | ok st₁ =>
      simp only
      by_cases hst : stmt = .tensorView tv.name
      · subst hst
        obtain ⟨id, -, -, herr⟩ := mutateTensorView_no_producer q st tv def_ hdef hin hsym
        simp [mutateStatement, hfind, herr] at hs
      · have hvisit' : Statement.tensorView tv.name ∈ stmts := by
          rcases List.mem_cons.1 hvisit with h | h
          · exact absurd h.symm hst
          · exact h
        obtain ⟨hex, f, hname, hother, hvals⟩ := mutateStatement_frame q st st₁ stmt hs
        have hfind₁ : ∀ name, st₁.tensorView? name = (st.tensorView? name).map f := by
          intro name
          unfold IrState.tensorView?
          rw [hvals]
          exact find?_map_name st.vals f hname name
        apply ih st₁
        · rw [hfind₁, hfind, Option.map_some', hother tv hst]
        · unfold IrState.definition? at hdef ⊢
          rw [hex]
          exact hdef
        · rw [tensorInputs_eq_nil_iff] at hin ⊢
          intro name hmem
          rw [hfind₁, hin name hmem]
          rfl
        · exact hvisit'

/-- Counterexample of C19: the example graph holds one tensor with a Symbolic
root axis, no defining operation and so no producer tensor; the pass visits
the tensor, and `concretizeFusion` returns the graph as it was. -/
theorem orphan_symbolic_root_passes :
    exampleOrphan.tensorView? 2
      = some (exampleTensor 2 [exampleAxis 3 11 IterType.Symbolic] []) ∧
    exampleOrphan.definition? (exampleTensor 2 [exampleAxis 3 11 IterType.Symbolic] [])
      = none ∧
    exampleOrphan.producerTvsOf (exampleTensor 2 [exampleAxis 3 11 IterType.Symbolic] [])
      = [] ∧
    (exampleTensor 2 [exampleAxis 3 11 IterType.Symbolic] []).domain.root
      = [exampleAxis 3 11 IterType.Symbolic] ∧
    examplePermissive.getStmts exampleOrphan = [Statement.tensorView 2] ∧
    concretizeFusion examplePermissive exampleOrphan (exampleInfo Unit [] [])
      = .ok exampleOrphan :=
  ⟨rfl, rfl, rfl, rfl, rfl, rfl⟩

/-- C19, amended: take the graph as the reshape phase leaves it, and in it a
tensor that has a Symbolic root axis and a defining operation without tensor
inputs.  The handling of the tensor fails, no kind being found for its first
Symbolic root axis, and when the propagation pass visits the tensor the call
of `concretizeFusion` fails. -/
theorem no_producer_is_fatal {Plan : Type} (q : IrQueries Plan) (st st₁ : IrState)
    (info : DynamicTransformConcretizationInfo Plan) (tv : TensorView) (def_ : Expr)
    (hreshape : concretizeReshape q info.reshape_transforms_ { st with mutations_ := [] }
      = .ok st₁)
    (hfind : st₁.tensorView? tv.name = some tv)
    (hdef : st₁.definition? tv = some def_)
    (hin : st₁.tensorInputs def_ = [])
    (hsym : ∃ id ∈ tv.domain.root, id.iterType = IterType.Symbolic)
    (hvisit : ∀ st₂ : IrState, st₂.vals = st₁.vals → st₂.exprs = st₁.exprs →
      Statement.tensorView tv.name ∈ q.getStmts st₂) :
    (∃ id ∈ tv.domain.root, id.iterType = IterType.Symbolic ∧
      mutateTensorView q st₁ tv = .error (.noIdType id.name)) ∧
    ∃ e, concretizeFusion q st info = .error e := by
  refine ⟨mutateTensorView_no_producer q st₁ tv def_ hdef hin hsym, ?_⟩
  unfold concretizeFusion
  split
  · exact ⟨_, rfl⟩
  · unfold concretize
    simp only [hreshape]
    cases h₂ : concretizeResize q info.resize_transforms_ st₁ with
    | error e => exact ⟨e, rfl⟩
    | ok st₂ =>
      simp only
      have hstep := concretizeResize_step q info.resize_transforms_ info.resize_transforms_
        (fun _ h => h) st₁ st₂ h₂
      have hvals : st₂.vals = st₁.vals := hstep.2
      have hexprs : st₂.exprs = st₁.exprs := hstep.1.1.2.1
      apply mutateStatements_no_producer q tv def_ hsym _ st₂
      · unfold IrState.tensorView? at hfind ⊢
        rw [hvals]
        exact hfind
      · unfold IrState.definition? at hdef ⊢
        rw [hexprs]
        exact hdef
      · rw [tensorInputs_eq_nil_iff] at hin ⊢
        intro name hmem
        have := hin name hmem
        unfold IrState.tensorView? at this ⊢
        rw [hvals]
        exact this
      · exact hvisit st₂ hvals hexprs

/-- Witness of C19, amended: the tensor of the example graph has a Symbolic
root axis and a defining operation that reads a scalar only, and the call
fails. -/
theorem no_producer_is_fatal_witness :
    (∃ id ∈ (exampleTensor 2 [exampleAxis 3 11 IterType.Symbolic] []).domain.root,
      id.iterType = IterType.Symbolic ∧
      mutateTensorView examplePermissive exampleScalarFed
        (exampleTensor 2 [exampleAxis 3 11 IterType.Symbolic] [])
        = .error (.noIdType id.name)) ∧
    ∃ e, concretizeFusion examplePermissive exampleScalarFed (exampleInfo Unit [] [])
      = .error e :=
  no_producer_is_fatal examplePermissive exampleScalarFed exampleScalarFed
    (exampleInfo Unit [] []) (exampleTensor 2 [exampleAxis 3 11 IterType.Symbolic] [])
    { name := 9, inputs := [ExprInput.other 40], outputs := [2] }
    rfl rfl rfl rfl ⟨exampleAxis 3 11 IterType.Symbolic, by decide, rfl⟩
    (fun st₂ hv _ => by
      simp only [examplePermissive, exampleQueries, hv]
      decide)

/-! ## Properties of the Concretizer: propagation reaches every Symbolic axis -/

/-- A key of an entry of an association list is found by the lookup. -/
theorem mem_lookup_some {α β : Type} [BEq α] [LawfulBEq α] (m : List (α × β)) (k : α)
    (v : β) (h : (k, v) ∈ m) : ∃ w, m.lookup k = some w := by
  cases hl : m.lookup k with
  | none => exact absurd h (lookup_none m k hl v)
  | some w => exact ⟨w, rfl⟩

/-- The registration of the outputs of an axis transform keeps the entries of
the table and leaves an entry for every output axis. -/
theorem registerOutputs_keys {Plan : Type} (q : IrQueries Plan) (iter_type : IterType)
    (outputs : List IrVal) (st st' : IrState)
    (hok : registerOutputs q iter_type outputs st = .ok st') :
    (∀ entry ∈ st.mutations_, entry ∈ st'.mutations_) ∧
    ∀ id : IterDomain, IrVal.iterDomain id ∈ outputs →
      ∃ v, (IrVal.iterDomain id, v) ∈ st'.mutations_ := by
  induction outputs generalizing st with
  | nil =>
    simp only [registerOutputs, Except.ok.injEq] at hok
    subst hok
    exact ⟨fun _ h => h, fun id h => by simp at h⟩
  | cons out outputs ih =>
    cases out with
    | iterDomain out_id =>
      simp only [registerOutputs] at hok
      cases hr : registerConcretization q st (.iterDomain out_id)
          (.iterDomain (out_id.withIterType iter_type)) with
      | error e => simp [hr] at hok
      | ok st₁ =>
        simp only [hr] at hok
        obtain ⟨hkeep, hkeys⟩ := ih st₁ hok
        have hst₁ := ((registerConcretization_ok_iff q st st₁ _ _).1 hr).2
        have hhead : (IrVal.iterDomain out_id,
            IrVal.iterDomain (out_id.withIterType iter_type)) ∈ st₁.mutations_ := by
          rw [hst₁]
          exact List.mem_cons_self _ _
        have hold : ∀ entry ∈ st.mutations_, entry ∈ st₁.mutations_ := by
          intro entry he
          rw [hst₁]
          exact List.mem_cons_of_mem _ he
        refine ⟨fun entry he => hkeep entry (hold entry he), ?_⟩
        intro id hid
        rcases List.mem_cons.1 hid with heq | hmem
        · cases heq
          exact ⟨_, hkeep _ hhead⟩
        · exact hkeys id hmem
    | tensorDomain td =>
      simp only [registerOutputs] at hok
      obtain ⟨hkeep, hkeys⟩ := ih st hok
      refine ⟨hkeep, ?_⟩
      intro id hid
      rcases List.mem_cons.1 hid with heq | hmem
      · cases heq
      · exact hkeys id hmem
    | tensorView tv =>
      simp only [registerOutputs] at hok
      obtain ⟨hkeep, hkeys⟩ := ih st hok
      refine ⟨hkeep, ?_⟩
      intro id hid
      rcases List.mem_cons.1 hid with heq | hmem
      · cases heq
      · exact hkeys id hmem

/-- Derived-domain propagation keeps the entries of the table and leaves an
entry for every output axis of every axis transform. -/
theorem mutateIdExprs_keys {Plan : Type} (q : IrQueries Plan) (exprs : List IdExpr)
    (st st' : IrState) (hok : mutateIdExprs q exprs st = .ok st') :
    (∀ entry ∈ st.mutations_, entry ∈ st'.mutations_) ∧
    ∀ e ∈ exprs, ∀ id : IterDomain, IrVal.iterDomain id ∈ e.outputs →
      ∃ v, (IrVal.iterDomain id, v) ∈ st'.mutations_ := by
  induction exprs generalizing st with
  | nil =>
    simp only [mutateIdExprs, Except.ok.injEq] at hok
    subst hok
    exact ⟨fun _ h => h, fun e he => by simp at he⟩
  | cons expr exprs ih =>
    simp only [mutateIdExprs] at hok
    split at hok
    · cases hok
    · cases ho : outputIterType q.promoteIterType st.mutations_ expr.inputs
          IterType.Symbolic with
      | error e => simp [ho] at hok
      | ok iter_type =>
        simp only [ho] at hok
        split at hok
        · cases hok
        · cases hr : registerOutputs q iter_type expr.outputs st with
          | error e => simp [hr] at hok
          | ok st₁ =>
            simp only [hr] at hok
            obtain ⟨hkeep₁, hkeys₁⟩ := registerOutputs_keys q iter_type _ st st₁ hr
            obtain ⟨hkeep, hkeys⟩ := ih st₁ hok
            refine ⟨fun entry he => hkeep entry (hkeep₁ entry he), ?_⟩
            intro e he id hid
            rcases List.mem_cons.1 he with rfl | hmem
            · obtain ⟨v, hv⟩ := hkeys₁ id hid
              exact ⟨v, hkeep _ hv⟩
            · exact hkeys e hmem id hid

/-- Root propagation keeps the entries of the table and leaves an entry for
every Symbolic root axis. -/
theorem propagateRootLoop_keys {Plan : Type} (q : IrQueries Plan) (consumer : TensorView)
    (producers : List TensorView) (root_domain : List IterDomain) (st : IrState)
    (b : Bool) (st' : IrState) (b' : Bool)
    (hok : propagateRootLoop q consumer producers root_domain st b = .ok (st', b')) :
    (∀ entry ∈ st.mutations_, entry ∈ st'.mutations_) ∧
    ∀ id ∈ root_domain, id.iterType = IterType.Symbolic →
      ∃ v, (IrVal.iterDomain id, v) ∈ st'.mutations_ := by
  induction root_domain generalizing st b with
  | nil =>
    simp only [propagateRootLoop, Except.ok.injEq, Prod.mk.injEq] at hok
    rw [← hok.1]
    exact ⟨fun _ h => h, fun id h => by simp at h⟩
  | cons root_id root_domain ih =>
    by_cases hs : root_id.iterType = IterType.Symbolic
    · simp only [propagateRootLoop, hs, bne_self_eq_false, Bool.false_eq_true,
        ↓reduceIte] at hok
      cases hp : producerIterType q consumer root_id producers none with
      | error e => simp [hp] at hok
      | ok r =>
        cases r with
        | none => simp [hp] at hok
        | some id_type =>
          simp only [hp] at hok
          split at hok
          · cases hok
          · cases hr : registerConcretization q st (.iterDomain root_id)
                (.iterDomain (root_id.withIterType id_type)) with
            | error e => simp [hr] at hok
            | ok st₁ =>
              simp only [hr] at hok
              obtain ⟨hkeep, hkeys⟩ := ih st₁ true hok
              have hst₁ := ((registerConcretization_ok_iff q st st₁ _ _).1 hr).2
              have hhead : (IrVal.iterDomain root_id,
                  IrVal.iterDomain (root_id.withIterType id_type)) ∈ st₁.mutations_ := by
                rw [hst₁]
                exact List.mem_cons_self _ _
              have hold : ∀ entry ∈ st.mutations_, entry ∈ st₁.mutations_ := by
                intro entry he
                rw [hst₁]
                exact List.mem_cons_of_mem _ he
              refine ⟨fun entry he => hkeep entry (hold entry he), ?_⟩
              intro id hid hsym
              rcases List.mem_cons.1 hid with rfl | hmem
              · exact ⟨_, hkeep _ hhead⟩
              · exact hkeys id hmem hsym
    · have hs' : (root_id.iterType != IterType.Symbolic) = true := by simpa using hs
      simp only [propagateRootLoop, hs', ↓reduceIte] at hok
      obtain ⟨hkeep, hkeys⟩ := ih st b hok
      refine ⟨hkeep, ?_⟩
      intro id hid hsym
      rcases List.mem_cons.1 hid with rfl | hmem
      · exact absurd hsym hs
      · exact hkeys id hmem hsym

/-- The substitute of an axis under a justified table is not Symbolic when the
axis is not Symbolic or has an entry, no resize result being Symbolic; the
substitute of a Symbolic axis that has an entry differs from the axis. -/
theorem maybeMutatedId_concrete {Plan : Type} {q : IrQueries Plan}
    {resizes : List (IterDomain × IterType)} {m : List (IrVal × IrVal)}
    (htable : TableOk q resizes m)
    (hres : ∀ e ∈ resizes, e.2 ≠ IterType.Symbolic)
    (id u : IterDomain) (hu : maybeMutatedId m id = .ok u)
    (hkey : id.iterType = IterType.Symbolic → ∃ v, (IrVal.iterDomain id, v) ∈ m) :
    u.iterType ≠ IterType.Symbolic ∧
      (id.iterType = IterType.Symbolic → u.sameAs id = false) := by
  have hconc : u.iterType ≠ IterType.Symbolic := by
    rcases maybeMutatedId_cases htable id with ⟨hnone, hsame⟩ | ⟨t, before, hm, -, hreg⟩
    · rw [hsame, Except.ok.injEq] at hu
      subst hu
      intro hs
      obtain ⟨v, hv⟩ := hkey hs
      exact lookup_none m _ hnone v hv
    · rw [hm, Except.ok.injEq] at hu
      subst hu
      obtain ⟨t', ht', hne, -⟩ := hreg.kind hres id rfl
      simp only [IrVal.iterDomain.injEq] at ht'
      have hk : t = t' := by
        have := congrArg IterDomain.iterType ht'
        simpa [IterDomain.withIterType] using this
      subst hk
      exact hne
  refine ⟨hconc, ?_⟩
  intro hs
  have hne : u.iterType ≠ id.iterType := by
    rw [hs]
    exact hconc
  have hk : (u.iterType == id.iterType) = false := by simpa using hne
  simp [IterDomain.sameAs, hk]

/-- The substitutes of a list of axes under a justified table: when every
Symbolic axis of the list has an entry, no substitute is Symbolic, and the
list counts as changed when it has a Symbolic axis. -/
theorem updateIdVec_concrete {Plan : Type} {q : IrQueries Plan}
    {resizes : List (IterDomain × IterType)} {m : List (IrVal × IrVal)}
    (htable : TableOk q resizes m)
    (hres : ∀ e ∈ resizes, e.2 ≠ IterType.Symbolic)
    (ids updated : List IterDomain) (mutated : Bool)
    (h : updateIdVec m ids = .ok (updated, mutated))
    (hkey : ∀ id ∈ ids, id.iterType = IterType.Symbolic →
      ∃ v, (IrVal.iterDomain id, v) ∈ m) :
    (∀ u ∈ updated, u.iterType ≠ IterType.Symbolic) ∧
      ((∃ id ∈ ids, id.iterType = IterType.Symbolic) → mutated = true) := by
  induction ids generalizing updated mutated with
  | nil =>
    simp only [updateIdVec, Except.ok.injEq, Prod.mk.injEq] at h
    rw [← h.1]
    exact ⟨fun u hu => by simp at hu, fun ⟨id, hid, _⟩ => by simp at hid⟩
  | cons id ids ih =>
    simp only [updateIdVec] at h
    cases h₁ : maybeMutatedId m id with
    | error e => simp [h₁] at h
    | ok u =>
      simp only [h₁] at h
      cases h₂ : updateIdVec m ids with
      | error e => simp [h₂] at h
      | ok r =>
        obtain ⟨us, b⟩ := r
        simp only [h₂, Except.ok.injEq, Prod.mk.injEq] at h
        obtain ⟨hall, hmut⟩ := ih us b h₂ (fun x hx => hkey x (List.mem_cons_of_mem _ hx))
        obtain ⟨hu, hdiff⟩ := maybeMutatedId_concrete htable hres id u h₁
          (hkey id (List.mem_cons_self _ _))
        rw [← h.1, ← h.2]
        constructor
        · intro x hx
          rcases List.mem_cons.1 hx with rfl | hmem
          · exact hu
          · exact hall x hmem
        · rintro ⟨x, hx, hxs⟩
          rcases List.mem_cons.1 hx with rfl | hmem
          · simp [hdiff hxs]
          · simp [hmut ⟨x, hmem, hxs⟩]

/-- No axis of a list is Symbolic exactly when the test for a Symbolic axis
fails on the list. -/
theorem any_symbolic_eq_false (ids : List IterDomain) :
    ids.any (fun id => id.iterType == IterType.Symbolic) = false ↔
      ∀ id ∈ ids, id.iterType ≠ IterType.Symbolic := by
  simp [List.any_eq_false]

/-- The handling of a tensor that has a Symbolic axis and a defining operation,
when it succeeds under a justified table: every tensor with the name of the
handled one gets a domain without Symbolic axis, provided every Symbolic axis
of the derived domain is a root axis or an output of one of the axis
transforms between the root and the derived domain, and no resize result is
Symbolic. -/
theorem mutateTensorView_concretizes {Plan : Type} (q : IrQueries Plan)
    (resizes : List (IterDomain × IterType))
    (hres : ∀ e ∈ resizes, e.2 ≠ IterType.Symbolic)
    (st st' : IrState) (tv : TensorView)
    (htable : TableOk q resizes st.mutations_)
    (hok : mutateTensorView q st tv = .ok st')
    (hsym : tv.domain.hasSymbolicAxis = true)
    (hdef : st.definition? tv ≠ none)
    (hcover : ∀ id ∈ tv.domain.maybeRFactor, id.iterType = IterType.Symbolic →
      id ∈ tv.domain.root ∨
        ∃ e ∈ q.getExprsBetween tv, IrVal.iterDomain id ∈ e.outputs) :
    ∃ td : TensorDomain, td.hasSymbolicAxis = false ∧
      st'.vals = st.vals.map (fun t =>
        if t.name == tv.name then { t with domain := td } else t) := by
  rcases mutateTensorView_cases q st st' tv hok with ⟨hns, -⟩ | ⟨-, st₁, b, st₂, st₃, hp, -,
    he, hd, hset⟩
  · rw [hsym] at hns
    cases hns
  have hstep₁ := propagateFromProducerToConsumer_step q resizes st tv st₁ b hp
  unfold propagateFromProducerToConsumer at hp
  cases hdf : st.definition? tv with
  | none => exact absurd hdf hdef
  | some def_ =>
    simp only [hdf, hsym, Bool.not_true, Bool.false_eq_true, ↓reduceIte] at hp
    obtain ⟨-, hkeys₁⟩ := propagateRootLoop_keys q tv _ _ st false st₁ b hp
    have htable₁ := hstep₁.1.2 htable
    -- the state after derived-domain propagation
    have hst₂ : TableOk q resizes st₂.mutations_ ∧ st₂.vals = st.vals ∧
        (∀ id ∈ tv.domain.root, id.iterType = IterType.Symbolic →
          ∃ v, (IrVal.iterDomain id, v) ∈ st₂.mutations_) ∧
        (∀ id ∈ tv.domain.maybeRFactor, id.iterType = IterType.Symbolic →
          ∃ v, (IrVal.iterDomain id, v) ∈ st₂.mutations_) := by
      by_cases hr : tv.hasRFactor = true
      · simp only [hr, ↓reduceIte] at he
        have hstep₂ := mutateIdExprs_step q resizes _ st₁ st₂ he
        obtain ⟨hkeep₂, hkeys₂⟩ := mutateIdExprs_keys q _ st₁ st₂ he
        have hrootkeys : ∀ id ∈ tv.domain.root, id.iterType = IterType.Symbolic →
            ∃ v, (IrVal.iterDomain id, v) ∈ st₂.mutations_ := by
          intro id hid hs
          obtain ⟨v, hv⟩ := hkeys₁ id hid hs
          exact ⟨v, hkeep₂ _ hv⟩
        refine ⟨hstep₂.1.2 htable₁, by rw [hstep₂.2, hstep₁.2], hrootkeys, ?_⟩
        intro id hid hs
        rcases hcover id hid hs with hroot | ⟨e, hmem, hout⟩
        · exact hrootkeys id hroot hs
        · exact hkeys₂ e hmem id hout
      · simp only [hr, Bool.false_eq_true, ↓reduceIte, Except.ok.injEq] at he
        subst he
        have hr' : tv.domain.hasRFactor = false := by
          simpa [TensorView.hasRFactor] using hr
        refine ⟨htable₁, hstep₁.2, hkeys₁, ?_⟩
        intro id hid hs
        simp only [TensorDomain.maybeRFactor, hr', Bool.false_eq_true, ↓reduceIte] at hid
        exact hkeys₁ id hid hs
    obtain ⟨htable₂, hvals₂, hrootkeys, hrfkeys⟩ := hst₂
    obtain ⟨root_dom, rfactor_dom, domain, b₁, b₂, b₃, hroot, hrf, hleaf, hcases⟩ :=
      mutateTensorDomain_cases q st₂ st₃ tv.domain hd
    obtain ⟨hallroot, hmutroot⟩ := updateIdVec_concrete htable₂ hres _ _ _ hroot hrootkeys
    have hrfall : (∀ u ∈ rfactor_dom, u.iterType ≠ IterType.Symbolic) ∧
        (tv.domain.hasRFactor = true →
          (∃ id ∈ tv.domain.maybeRFactor, id.iterType = IterType.Symbolic) → b₂ = true) := by
      by_cases hr : tv.domain.hasRFactor = true
      · simp only [hr, ↓reduceIte] at hrf
        obtain ⟨h₁, h₂⟩ := updateIdVec_concrete htable₂ hres _ _ _ hrf hrfkeys
        exact ⟨h₁, fun _ => h₂⟩
      · simp only [hr, Bool.false_eq_true, ↓reduceIte, Except.ok.injEq,
          Prod.mk.injEq] at hrf
        rw [← hrf.1]
        exact ⟨fun u hu => by simp at hu, fun h => absurd h hr⟩
    obtain ⟨hallrf, hmutrf⟩ := hrfall
    have hmutated : (b₁ || b₂ || b₃) = true := by
      simp only [TensorDomain.hasSymbolicAxis, Bool.or_eq_true, List.any_eq_true,
        beq_iff_eq] at hsym
      rcases hsym with ⟨id, hid, hs⟩ | ⟨id, hid, hs⟩
      · simp [hmutroot ⟨id, hid, hs⟩]
      · by_cases hr : tv.domain.hasRFactor = true
        · simp [hmutrf hr ⟨id, hid, hs⟩]
        · have hr' : tv.domain.hasRFactor = false := by simpa using hr
          simp only [TensorDomain.maybeRFactor, hr', Bool.false_eq_true, ↓reduceIte] at hid
          simp [hmutroot ⟨id, hid, hs⟩]
    rcases hcases with ⟨hfalse, -⟩ | ⟨-, contig, hcontig, hreg⟩
    · rw [hmutated] at hfalse
      cases hfalse
    have hst₃ := ((registerConcretization_ok_iff q st₂ st₃ _ _).1 hreg).2
    obtain ⟨td, hlook, hst'⟩ := setDomain_cases st₃ st' tv hset
    have htd : td =
        { root := root_dom, rfactor := rfactor_dom, leaf := domain, contiguity := contig } := by
      rw [hst₃] at hlook
      simp only [IrState.registerMutation, maybeMutated, List.lookup_cons,
        beq_self_eq_true, IrVal.tensorDomain.injEq] at hlook
      exact hlook.symm
    refine ⟨td, ?_, ?_⟩
    · obtain ⟨-, hmaybe, -⟩ := rebuilt_maybeRFactor st₂.mutations_ tv.domain
        { root := root_dom, rfactor := rfactor_dom, leaf := domain, contiguity := contig }
        b₁ b₂ hroot hrf
      rw [htd]
      simp only [TensorDomain.hasSymbolicAxis, Bool.or_eq_false_iff]
      rw [hmaybe]
      constructor
      · exact (any_symbolic_eq_false _).2 hallroot
      · by_cases hr : tv.domain.hasRFactor = true
        · simp only [hr, ↓reduceIte]
          exact (any_symbolic_eq_false _).2 hallrf
        · simp only [hr, Bool.false_eq_true, ↓reduceIte]
          exact (any_symbolic_eq_false _).2 hallroot
    · rw [hst']
      simp only
      rw [hst₃]
      simp only [IrState.registerMutation]
      rw [hvals₂]

/-- A step of the propagation pass keeps a tensor without Symbolic axis as it
is. -/
theorem mutateStatement_done {Plan : Type} (q : IrQueries Plan) (st st₁ : IrState)
    (stmt : Statement) (hok : mutateStatement q st stmt = .ok st₁) (name : Nat)
    (hdone : ∃ tv, st.tensorView? name = some tv ∧ tv.domain.hasSymbolicAxis = false) :
    ∃ tv, st₁.tensorView? name = some tv ∧ tv.domain.hasSymbolicAxis = false := by
  obtain ⟨tv, hfind, hns⟩ := hdone
  by_cases hst : stmt = .tensorView name
  · subst hst
    simp only [mutateStatement, hfind] at hok
    rcases mutateTensorView_cases q st st₁ tv hok with ⟨-, rfl⟩ | ⟨hs, -⟩
    · exact ⟨tv, hfind, hns⟩
    · rw [hns] at hs
      cases hs
  · obtain ⟨-, f, hname, hother, hvals⟩ := mutateStatement_frame q st st₁ stmt hok
    have hn := tensorView?_name st name tv hfind
    refine ⟨tv, ?_, hns⟩
    unfold IrState.tensorView? at hfind ⊢
    rw [hvals, find?_map_name st.vals f hname name, hfind, Option.map_some',
      hother tv (by rw [hn]; exact hst)]

/-- The propagation pass keeps a tensor without Symbolic axis as it is. -/
theorem mutateStatements_done {Plan : Type} (q : IrQueries Plan) (stmts : List Statement)
    (st st' : IrState) (hok : mutateStatements q stmts st = .ok st') (name : Nat)
    (hdone : ∃ tv, st.tensorView? name = some tv ∧ tv.domain.hasSymbolicAxis = false) :
    ∃ tv, st'.tensorView? name = some tv ∧ tv.domain.hasSymbolicAxis = false := by
  induction stmts generalizing st with
  | nil =>
    simp only [mutateStatements, Except.ok.injEq] at hok
    subst hok
    exact hdone
  | cons stmt stmts ih =>
    simp only [mutateStatements] at hok
    cases hs : mutateStatement q st stmt with
    | error e => simp [hs] at hok
    | ok st₁ =>
      simp only [hs] at hok
      exact ih st₁ hok (mutateStatement_done q st st₁ stmt hs name hdone)

/-- The propagation pass, when it succeeds from a justified table, leaves
without Symbolic axis every tensor that it visits and that has a defining
operation, provided every Symbolic axis of the derived domain of the tensor is
a root axis or an output of one of its axis transforms, and no resize result
is Symbolic. -/
theorem mutateStatements_concretizes {Plan : Type} (q : IrQueries Plan)
    (resizes : List (IterDomain × IterType))
    (hres : ∀ e ∈ resizes, e.2 ≠ IterType.Symbolic)
    (tv : TensorView)
    (hcover : ∀ id ∈ tv.domain.maybeRFactor, id.iterType = IterType.Symbolic →
      id ∈ tv.domain.root ∨
        ∃ e ∈ q.getExprsBetween tv, IrVal.iterDomain id ∈ e.outputs)
    (stmts : List Statement) (st st' : IrState)
    (htable : TableOk q resizes st.mutations_)
    (hok : mutateStatements q stmts st = .ok st')
    (hfind : st.tensorView? tv.name = some tv)
    (hvisit : Statement.tensorView tv.name ∈ stmts)
    (hdef : st.definition? tv ≠ none) :
    ∃ tv', st'.tensorView? tv.name = some tv' ∧ tv'.domain.hasSymbolicAxis = false := by
  induction stmts generalizing st with
  | nil => simp at hvisit
  | cons stmt stmts ih =>
    simp only [mutateStatements] at hok
    cases hs : mutateStatement q st stmt with
    | error e => simp [hs] at hok
    | ok st₁ =>
      simp only [hs] at hok
      have htable₁ := (mutateStatement_step q resizes st st₁ stmt hs).2 htable
      by_cases hst : stmt = .tensorView tv.name
      · subst hst
        apply mutateStatements_done q stmts st₁ st' hok
        simp only [mutateStatement, hfind] at hs
        by_cases hsym : tv.domain.hasSymbolicAxis = true
        · obtain ⟨td, htd, hvals⟩ := mutateTensorView_concretizes q resizes hres st st₁ tv
            htable hs hsym hdef hcover
          refine ⟨{ tv with domain := td }, ?_, htd⟩
          unfold IrState.tensorView? at hfind ⊢
          rw [hvals, find?_map_name st.vals _ (fun t => by
            by_cases h : (t.name == tv.name) = true <;> simp [h]) tv.name, hfind]
          simp
        · have hns : tv.domain.hasSymbolicAxis = false := by simpa using hsym
          rcases mutateTensorView_cases q st st₁ tv hs with ⟨-, rfl⟩ | ⟨hs', -⟩
          · exact ⟨tv, hfind, hns⟩
          · exact absurd hs' hsym
      · have hvisit' : Statement.tensorView tv.name ∈ stmts := by
          rcases List.mem_cons.1 hvisit with h | h
          · exact absurd h.symm hst
          · exact h
        obtain ⟨hex, f, hname, hother, hvals⟩ := mutateStatement_frame q st st₁ stmt hs
        apply ih st₁ htable₁ hok
        · unfold IrState.tensorView? at hfind ⊢
          rw [hvals, find?_map_name st.vals f hname tv.name, hfind, Option.map_some',
            hother tv hst]
        · exact hvisit'
        · unfold IrState.definition? at hdef ⊢
          rw [hex]
          exact hdef

/-- Counterexample of C15: `concretizeFusion` returns for the example graph,
whose only tensor has no defining operation, and the tensor of the returned
graph still has a Symbolic axis. -/
theorem symbolic_axis_survives :
    ∃ st' : IrState,
      concretizeFusion examplePermissive exampleOrphan (exampleInfo Unit [] []) = .ok st' ∧
      st'.vals = [exampleTensor 2 [exampleAxis 3 11 IterType.Symbolic] []] ∧
      (exampleTensor 2 [exampleAxis 3 11 IterType.Symbolic] []).domain.hasSymbolicAxis
        = true :=
  ⟨exampleOrphan, rfl, rfl, rfl⟩

/-- C15, amended: whenever `concretizeFusion` returns without failure for an
Info without Symbolic resize result, the reshape and the resize phase have
succeeded, and every tensor of the graph that the propagation pass visits and
that has a defining operation has no Symbolic axis in the returned graph,
provided every Symbolic axis of its derived domain is a root axis or an output
of one of the axis transforms between its root and its derived domain. -/
theorem propagation_completeness {Plan : Type} (q : IrQueries Plan) (st st' : IrState)
    (info : DynamicTransformConcretizationInfo Plan)
    (hres : ∀ e ∈ info.resize_transforms_, e.2 ≠ IterType.Symbolic)
    (hok : concretizeFusion q st info = .ok st') :
    ∃ st₁ st₂ : IrState,
      concretizeReshape q info.reshape_transforms_ { st with mutations_ := [] } = .ok st₁ ∧
      concretizeResize q info.resize_transforms_ st₁ = .ok st₂ ∧
      st₂.vals = st₁.vals ∧ st₂.exprs = st₁.exprs ∧
      mutateStatements q (q.getStmts st₂) st₂ = .ok st' ∧
      ∀ tv : TensorView, st₂.tensorView? tv.name = some tv →
        Statement.tensorView tv.name ∈ q.getStmts st₂ →
        st₂.definition? tv ≠ none →
        (∀ id ∈ tv.domain.maybeRFactor, id.iterType = IterType.Symbolic →
          id ∈ tv.domain.root ∨
            ∃ e ∈ q.getExprsBetween tv, IrVal.iterDomain id ∈ e.outputs) →
        ∃ tv', st'.tensorView? tv.name = some tv' ∧
          tv'.domain.hasSymbolicAxis = false := by
  unfold concretizeFusion at hok
  split at hok
  · cases hok
  · unfold concretize at hok
    cases h₁ : concretizeReshape q info.reshape_transforms_ { st with mutations_ := [] } with
    | error e => simp [h₁] at hok
    | ok st₁ =>
      simp only [h₁] at hok
      cases h₂ : concretizeResize q info.resize_transforms_ st₁ with
      | error e => simp [h₂] at hok
      | ok st₂ =>
        simp only [h₂] at hok
        have hm := (concretizeReshape_mutations q _ _ st₁ h₁).1
        have hs₂ := concretizeResize_step q info.resize_transforms_ info.resize_transforms_
          (fun _ h => h) st₁ st₂ h₂
        have htable : TableOk q info.resize_transforms_ st₂.mutations_ := by
          apply hs₂.1.2
          rw [hm]
          exact TableOk.nil
        refine ⟨st₁, st₂, rfl, h₂, hs₂.2, hs₂.1.1.2.1, hok, ?_⟩
        intro tv hfind hvisit hdef hcover
        exact mutateStatements_concretizes q info.resize_transforms_ hres tv hcover _ st₂ st'
          htable hok hfind hvisit hdef

/-- Witness of C15, amended: in the example pipeline the consumer has a
defining operation and two Symbolic root axes; after the pass it has no
Symbolic axis. -/
theorem propagation_completeness_witness :
    ∃ st' : IrState,
      concretizeFusion examplePermissive examplePipeline (exampleInfo Unit [] []) = .ok st' ∧
      st'.tensorView? 2 = some { name := 2, domain := exampleRebuiltDomain } ∧
      ∃ st₁ st₂ : IrState,
        concretizeReshape examplePermissive (exampleInfo Unit [] []).reshape_transforms_
          { examplePipeline with mutations_ := [] } = .ok st₁ ∧
        concretizeResize examplePermissive (exampleInfo Unit [] []).resize_transforms_ st₁
          = .ok st₂ ∧
        st₂.vals = st₁.vals ∧ st₂.exprs = st₁.exprs ∧
        mutateStatements examplePermissive (examplePermissive.getStmts st₂) st₂ = .ok st' ∧
        ∀ tv : TensorView, st₂.tensorView? tv.name = some tv →
          Statement.tensorView tv.name ∈ examplePermissive.getStmts st₂ →
          st₂.definition? tv ≠ none →
          (∀ id ∈ tv.domain.maybeRFactor, id.iterType = IterType.Symbolic →
            id ∈ tv.domain.root ∨
              ∃ e ∈ examplePermissive.getExprsBetween tv, IrVal.iterDomain id ∈ e.outputs) →
          ∃ tv', st'.tensorView? tv.name = some tv' ∧
            tv'.domain.hasSymbolicAxis = false :=
  ⟨_, rfl, rfl,
    propagation_completeness examplePermissive examplePipeline _ (exampleInfo Unit [] [])
      (fun _ he => absurd he (List.not_mem_nil _)) rfl⟩

/-! ## Static graphs -/

/-- The handler of a tensor records nothing when no axis of the list is
Symbolic. -/
theorem handleTensorViewLoop_static (definition : IterDomain → Option IdDefinition)
    (rfd : List IterDomain) (self : DynamicTransformInitialInfoBuilder)
    (h : ∀ id ∈ rfd, id.iterType ≠ IterType.Symbolic) :
    handleTensorViewLoop definition rfd self = self := by
  induction rfd with
  | nil => rfl
  | cons id rfd ih =>
    have hid : (id.iterType != IterType.Symbolic) = true := by
      simpa using h id (List.mem_cons_self _ _)
    have hrest := ih (fun x hx => h x (List.mem_cons_of_mem _ hx))
    simp only [handleTensorViewLoop, hid, ↓reduceIte, hrest]
    cases definition id <;> rfl

/-- A domain without Symbolic axis has no Symbolic axis in its derived-or-root
domain nor in its root domain. -/
theorem hasSymbolicAxis_false (td : TensorDomain) (h : td.hasSymbolicAxis = false) :
    (∀ id ∈ td.root, id.iterType ≠ IterType.Symbolic) ∧
      (∀ id ∈ td.maybeRFactor, id.iterType ≠ IterType.Symbolic) := by
  simp only [TensorDomain.hasSymbolicAxis, Bool.or_eq_false_iff] at h
  exact ⟨(any_symbolic_eq_false _).1 h.1, (any_symbolic_eq_false _).1 h.2⟩

/-- The traversal of the builder records nothing when no reshape output and no
tensor it visits has a Symbolic axis. -/
theorem traverse_static (evaluate : Val → Option EvaluatorValue)
    (definition : IterDomain → Option IdDefinition) (stmts : List BuilderStatement)
    (self : DynamicTransformInitialInfoBuilder)
    (hview : ∀ op, BuilderStatement.viewOp op ∈ stmts →
      op.out.domain.hasSymbolicAxis = false)
    (htv : ∀ tv, BuilderStatement.tensorView tv ∈ stmts →
      tv.domain.hasSymbolicAxis = false) :
    DynamicTransformInitialInfoBuilder.traverse evaluate definition stmts self = self := by
  induction stmts generalizing self with
  | nil => rfl
  | cons stmt stmts ih =>
    have hrest := fun s => ih s
      (fun op hop => hview op (List.mem_cons_of_mem _ hop))
      (fun tv h => htv tv (List.mem_cons_of_mem _ h))
    cases stmt with
    | viewOp op =>
      have hop := hview op (List.mem_cons_self _ _)
      simp only [DynamicTransformInitialInfoBuilder.traverse,
        DynamicTransformInitialInfoBuilder.handleViewOp, hop, Bool.false_eq_true,
        ↓reduceIte]
      exact hrest self
    | tensorView tv =>
      have h := htv tv (List.mem_cons_self _ _)
      simp only [DynamicTransformInitialInfoBuilder.traverse,
        DynamicTransformInitialInfoBuilder.handleTensorView]
      have hloop : handleTensorViewLoop definition tv.getMaybeRFactorDomain self = self :=
        handleTensorViewLoop_static definition _ self (hasSymbolicAxis_false tv.domain h).2
      rw [hloop]
      exact hrest self
    | other name =>
      simp only [DynamicTransformInitialInfoBuilder.traverse]
      exact hrest self

/-- Without root dynamic values no declared input affects concretization. -/
theorem affectingInputs_nil (inputs : List InputVal) (i : Nat) :
    affectingInputs [] inputs i = [] := by
  induction inputs generalizing i with
  | nil => rfl
  | cons input inputs ih =>
    cases input with
    | scalar v b => simp [affectingInputs, ih]
    | tensorView tv => simp [affectingInputs, ih]

/-- An axis is the same as itself. -/
theorem sameAs_self (id : IterDomain) : id.sameAs id = true := by
  simp [IterDomain.sameAs]

/-- Under the empty table every axis is its own substitute and no list of axes
counts as changed. -/
theorem updateIdVec_nil (ids : List IterDomain) : updateIdVec [] ids = .ok (ids, false) := by
  induction ids with
  | nil => rfl
  | cons id ids ih =>
    simp [updateIdVec, maybeMutatedId, maybeMutated, ih, sameAs_self]

/-- Under the empty table the rebuild of a domain changes nothing. -/
theorem mutateTensorDomain_nil {Plan : Type} (q : IrQueries Plan) (st : IrState)
    (td : TensorDomain) (hm : st.mutations_ = []) : mutateTensorDomain q st td = .ok st := by
  unfold mutateTensorDomain
  rw [hm]
  simp only [updateIdVec_nil]
  by_cases hr : td.hasRFactor = true <;> simp [hr]

/-- The propagation pass changes nothing when the table is empty and every
tensor it visits is a tensor of the graph without Symbolic axis. -/
theorem mutateStatements_static {Plan : Type} (q : IrQueries Plan) (stmts : List Statement)
    (st : IrState) (hm : st.mutations_ = [])
    (hstatic : ∀ tv ∈ st.vals, tv.domain.hasSymbolicAxis = false)
    (hstmts : ∀ name, Statement.tensorView name ∈ stmts → ∃ tv ∈ st.vals, tv.name = name) :
    mutateStatements q stmts st = .ok st := by
  induction stmts with
  | nil => rfl
  | cons stmt stmts ih =>
    have hrest := ih (fun name h => hstmts name (List.mem_cons_of_mem _ h))
    have hstep : mutateStatement q st stmt = .ok st := by
      cases stmt with
      | tensorView name =>
        obtain ⟨tv, htv, hname⟩ := hstmts name (List.mem_cons_self _ _)
        cases hfind : st.tensorView? name with
        | none =>
          unfold IrState.tensorView? at hfind
          have := List.find?_eq_none.1 hfind tv htv
          simp [hname] at this
        | some tv' =>
          have hmem : tv' ∈ st.vals := by
            unfold IrState.tensorView? at hfind
            exact List.mem_of_find?_eq_some hfind
          simp [mutateStatement, hfind, mutateTensorView, hstatic tv' hmem]
      | tensorDomain td => exact mutateTensorDomain_nil q st td hm
      | other name => rfl
    simp only [mutateStatements, hstep]
    exact hrest

/-- C13: static no-op.  Take a graph in which no tensor domain has a Symbolic
axis: no reshape output and no tensor met by the traversal of the Builder has
one, and no tensor of the graph state has one.  Then `getInitialInfo` returns
empty dynamic-reshape and dynamic-resize lists and an empty list of affecting
inputs, the Planner returns the Info with empty result lists, and
`concretizeFusion` with that Info returns the graph with its tensors,
operations and outputs as they were and an empty substitution table. -/
theorem static_graph_is_noop {Plan E : Type} (q : IrQueries Plan)
    (ev : ExpressionEvaluator E) (expr_eval : E)
    (definition : IterDomain → Option IdDefinition) (inputsOf : List Val → List Val)
    (builder_stmts : List BuilderStatement) (fusion : Fusion)
    (analyzeView : TensorView → List Int → List Int → Except Error Plan)
    (evaluate : Val → Option EvaluatorValue) (st : IrState)
    (hinputsOf : inputsOf [] = [])
    (hview : ∀ op, BuilderStatement.viewOp op ∈ builder_stmts →
      op.out.domain.hasSymbolicAxis = false)
    (htv : ∀ tv, BuilderStatement.tensorView tv ∈ builder_stmts →
      tv.domain.hasSymbolicAxis = false)
    (haddr : st.fusion = fusion.addr)
    (hstatic : ∀ tv ∈ st.vals, tv.domain.hasSymbolicAxis = false)
    (hstmts : ∀ name, Statement.tensorView name ∈ q.getStmts { st with mutations_ := [] } →
      ∃ tv ∈ st.vals, tv.name = name) :
    (getInitialInfo ev expr_eval definition inputsOf builder_stmts fusion).dynamic_reshapes_
      = [] ∧
    (getInitialInfo ev expr_eval definition inputsOf builder_stmts fusion).dynamic_resizes_
      = [] ∧
    (getInitialInfo ev expr_eval definition inputsOf builder_stmts
      fusion).scalar_inputs_affecting_concretization_ = [] ∧
    getConcretizationInfo analyzeView fusion
      (getInitialInfo ev expr_eval definition inputsOf builder_stmts fusion) evaluate
      = .ok { fusion_ := fusion.addr, reshape_transforms_ := [], resize_transforms_ := [] } ∧
    concretizeFusion q st
      ({ fusion_ := fusion.addr, reshape_transforms_ := [], resize_transforms_ := [] } :
        DynamicTransformConcretizationInfo Plan)
      = .ok { st with mutations_ := [] } := by
  have htrav := traverse_static (ev.evaluate expr_eval) definition builder_stmts
    { dynamic_reshapes_ := [], dynamic_resizes_ := [], leaf_dynamic_vals_ := [] } hview htv
  have h₁ : (getInitialInfo ev expr_eval definition inputsOf builder_stmts
      fusion).dynamic_reshapes_ = [] := by
    simp only [getInitialInfo, htrav]
  have h₂ : (getInitialInfo ev expr_eval definition inputsOf builder_stmts
      fusion).dynamic_resizes_ = [] := by
    simp only [getInitialInfo, htrav]
  refine ⟨h₁, h₂, ?_, ?_, ?_⟩
  · simp only [getInitialInfo, htrav, hinputsOf]
    exact affectingInputs_nil _ _
  · simp only [getConcretizationInfo, DynamicTransformConcretizationInfo.create,
      DynamicTransformConcretizationInfo.analyzeReshapes,
      DynamicTransformConcretizationInfo.analyzeResizes, h₁, h₂, analyzeReshapesLoop,
      analyzeResizesLoop]
  · have hpass := mutateStatements_static q (q.getStmts { st with mutations_ := [] })
      { st with mutations_ := [] } rfl hstatic hstmts
    have hne : ¬ (st.fusion ≠ fusion.addr) := fun h => h haddr
    simp only [concretizeFusion, hne, ↓reduceIte, concretize, concretizeReshape,
      concretizeResize]
    exact hpass

/-- Witness of C13: the example static graph gives empty lists in the Builder
and in the Planner, and the Concretizer returns it as it was. -/
theorem static_graph_is_noop_witness :
    (getInitialInfo exampleEvaluator [] (fun _ => none) exampleInputsOf
      [BuilderStatement.tensorView (exampleTensor 1
        [exampleAxis 1 11 IterType.Broadcast, exampleAxis 2 15 IterType.Iteration] [])]
      exampleFiveInputs).dynamic_reshapes_ = [] ∧
    (getInitialInfo exampleEvaluator [] (fun _ => none) exampleInputsOf
      [BuilderStatement.tensorView (exampleTensor 1
        [exampleAxis 1 11 IterType.Broadcast, exampleAxis 2 15 IterType.Iteration] [])]
      exampleFiveInputs).dynamic_resizes_ = [] ∧
    (getInitialInfo exampleEvaluator [] (fun _ => none) exampleInputsOf
      [BuilderStatement.tensorView (exampleTensor 1
        [exampleAxis 1 11 IterType.Broadcast, exampleAxis 2 15 IterType.Iteration] [])]
      exampleFiveInputs).scalar_inputs_affecting_concretization_ = [] ∧
    getConcretizationInfo (fun _ _ _ => Except.ok ()) exampleFiveInputs
      (getInitialInfo exampleEvaluator [] (fun _ => none) exampleInputsOf
        [BuilderStatement.tensorView (exampleTensor 1
          [exampleAxis 1 11 IterType.Broadcast, exampleAxis 2 15 IterType.Iteration] [])]
        exampleFiveInputs) exampleEvaluate
      = .ok { fusion_ := exampleFiveInputs.addr, reshape_transforms_ := [],
              resize_transforms_ := [] } ∧
    concretizeFusion examplePermissive exampleStatic
      ({ fusion_ := exampleFiveInputs.addr, reshape_transforms_ := [],
         resize_transforms_ := [] } : DynamicTransformConcretizationInfo Unit)
      = .ok { exampleStatic with mutations_ := [] } :=
  static_graph_is_noop examplePermissive exampleEvaluator [] (fun _ => none) exampleInputsOf
    [BuilderStatement.tensorView (exampleTensor 1
      [exampleAxis 1 11 IterType.Broadcast, exampleAxis 2 15 IterType.Iteration] [])]
    exampleFiveInputs (fun _ _ _ => Except.ok ()) exampleEvaluate exampleStatic
    rfl
    (fun op h => by simp at h)
    (fun tv h => by
      simp only [List.mem_singleton, BuilderStatement.tensorView.injEq] at h
      subst h
      rfl)
    rfl
    (by decide)
    (fun name h => by
      simp only [examplePermissive, exampleQueries, List.mem_map] at h
      obtain ⟨tv, hmem, heq⟩ := h
      exact ⟨tv, hmem, by simpa using heq⟩)

/-! ## Properties of concretizeFusion: the graph check -/

/-- C21: when the graph handed to `concretizeFusion` is not the graph the Info
references, the call fails with the failure of the constructor's assertion,
whatever the collaborators, the Info and the graph hold: the assertion comes
before `concretize`, so no phase runs and no graph other than the given one
comes into being.  When the graph is the referenced one, the call is
`concretize` on the given graph with an empty substitution table. -/
theorem concretizeFusion_wrong_graph {Plan : Type} (st : IrState)
    (info : DynamicTransformConcretizationInfo Plan) (h : st.fusion ≠ info.fusion_) :
    (∀ q : IrQueries Plan, concretizeFusion q st info = .error .differentFusion) ∧
    (∀ (q : IrQueries Plan) (reshapes : List (TensorView × Plan))
        (resizes : List (IterDomain × IterType)) (vals : List TensorView)
        (exprs : List Expr),
      concretizeFusion q { st with vals := vals, exprs := exprs }
        { info with reshape_transforms_ := reshapes, resize_transforms_ := resizes }
        = .error .differentFusion) ∧
    (∀ (q : IrQueries Plan) (st₀ : IrState), st₀.fusion = info.fusion_ →
      concretizeFusion q st₀ info = concretize q info { st₀ with mutations_ := [] }) := by
  refine ⟨fun q => ?_, fun q reshapes resizes vals exprs => ?_, fun q st₀ h₀ => ?_⟩
  · simp [concretizeFusion, h]
  · simp [concretizeFusion, h]
  · simp [concretizeFusion, h₀]

/-- Witness of C21: the example pipeline is graph 0 and the Info references
graph 1; the call fails at the assertion of the constructor. -/
theorem concretizeFusion_wrong_graph_witness :
    examplePipeline.fusion ≠ 1 ∧
    concretizeFusion examplePermissive examplePipeline
        { fusion_ := 1, reshape_transforms_ := [], resize_transforms_ := [] }
      = .error .differentFusion :=
  ⟨by decide,
    (concretizeFusion_wrong_graph examplePipeline
      { fusion_ := 1, reshape_transforms_ := [], resize_transforms_ := [] }
      (by decide)).1 examplePermissive⟩

/-! ## Properties of clone -/

/-- The first loop of `clone` pushes the image of every recorded reshape, in
order, and touches nothing else. -/
theorem clone_reshapes_foldl {E : Type} (f : ViewOp → ViewOp) (ops : List ViewOp)
    (acc : DynamicTransformInitialInfo E) :
    ops.foldl (fun (acc : DynamicTransformInitialInfo E) op =>
        { acc with dynamic_reshapes_ := acc.dynamic_reshapes_ ++ [f op] }) acc
      = { acc with dynamic_reshapes_ := acc.dynamic_reshapes_ ++ ops.map f } := by
  induction ops generalizing acc with
  | nil => simp
  | cons op ops ih => simp [List.foldl_cons, ih]

/-- The second loop of `clone` pushes the image of every recorded resize, in
order, and touches nothing else. -/
theorem clone_resizes_foldl {E : Type} (f : Resize → Resize) (ops : List Resize)
    (acc : DynamicTransformInitialInfo E) :
    ops.foldl (fun (acc : DynamicTransformInitialInfo E) op =>
        { acc with dynamic_resizes_ := acc.dynamic_resizes_ ++ [f op] }) acc
      = { acc with dynamic_resizes_ := acc.dynamic_resizes_ ++ ops.map f } := by
  induction ops generalizing acc with
  | nil => simp
  | cons op ops ih => simp [List.foldl_cons, ih]

/-- What `clone` returns: the Info of the container of the cloner whose
dynamic-reshape and dynamic-resize lists are the images of the original lists,
whose evaluator is the clone of the original evaluator, and whose root dynamic
values and affecting-input indices are empty. -/
theorem clone_eq {E : Type} (self : DynamicTransformInitialInfo E) (ir_cloner : IrCloner E) :
    self.clone ir_cloner =
      { fusion_ := ir_cloner.container,
        dynamic_reshapes_ := self.dynamic_reshapes_.map ir_cloner.cloneViewOp,
        dynamic_resizes_ := self.dynamic_resizes_.map ir_cloner.cloneResize,
        root_dynamic_vals_ := [],
        scalar_inputs_affecting_concretization_ := [],
        expr_eval_ := ir_cloner.cloneEvaluator self.expr_eval_ } := by
  simp [DynamicTransformInitialInfo.clone, DynamicTransformInitialInfo.create,
    clone_reshapes_foldl, clone_resizes_foldl]

/-- The clone of C22 at a failing input: the Initial Info built for the example
graph has the root dynamic values 30, 31 and 62 and the affecting-input index
2, and its clone under the cloner that keeps every node has the same dynamic
reshape but no root dynamic value and no affecting-input index. -/
theorem clone_loses_root_values :
    (getInitialInfo exampleEvaluator [] (fun _ => none) exampleInputsOf exampleStatements
      exampleFiveInputs).root_dynamic_vals_ = [30, 31, 62, 31] ∧
    (getInitialInfo exampleEvaluator [] (fun _ => none) exampleInputsOf exampleStatements
      exampleFiveInputs).scalar_inputs_affecting_concretization_ = [2] ∧
    ((getInitialInfo exampleEvaluator [] (fun _ => none) exampleInputsOf exampleStatements
      exampleFiveInputs).clone exampleCloner).dynamic_reshapes_
      = [exampleReshape 1 [30, 31] [70, 31]] ∧
    ((getInitialInfo exampleEvaluator [] (fun _ => none) exampleInputsOf exampleStatements
      exampleFiveInputs).clone exampleCloner).root_dynamic_vals_ = [] ∧
    ((getInitialInfo exampleEvaluator [] (fun _ => none) exampleInputsOf exampleStatements
      exampleFiveInputs).clone exampleCloner).scalar_inputs_affecting_concretization_
      = [] := by
  refine ⟨by decide, by decide, ?_, ?_, ?_⟩
  · rw [clone_eq]
    decide
  · rw [clone_eq]
  · rw [clone_eq]

/-! ## Properties of the registry of optimization passes -/

/-- Where `registerPass` places an entry: after the leading entries whose
priority is not lower than its own, in front of the rest. -/
theorem emplaceEntry_eq {F : Type} (entry : PassEntry F) (l : List (PassEntry F)) :
    emplaceEntry entry l
      = l.takeWhile (fun e => decide (entry.priority_ ≤ e.priority_)) ++
          entry :: l.dropWhile (fun e => decide (entry.priority_ ≤ e.priority_)) := by
  induction l with
  | nil => rfl
  | cons e l ih =>
    by_cases h : e.priority_ < entry.priority_
    · have h' : ¬ entry.priority_ ≤ e.priority_ := by omega
      simp [emplaceEntry, h, List.takeWhile_cons, List.dropWhile_cons, h']
    · have h' : entry.priority_ ≤ e.priority_ := by omega
      simp [emplaceEntry, h, List.takeWhile_cons, List.dropWhile_cons, h', ih]

/-- The entries of the list after `registerPass` are the new entry and the
entries of the list before. -/
theorem emplaceEntry_perm {F : Type} (entry : PassEntry F) (l : List (PassEntry F)) :
    (emplaceEntry entry l).Perm (l ++ [entry]) := by
  induction l with
  | nil => exact List.Perm.refl _
  | cons e l ih =>
    by_cases h : e.priority_ < entry.priority_
    · simp only [emplaceEntry, h, ↓reduceIte]
      have : (entry :: (e :: l)).Perm ((e :: l) ++ [entry]) := by
        simpa using (List.perm_append_singleton entry (e :: l)).symm
      exact this
    · simp only [emplaceEntry, h, ↓reduceIte, List.cons_append]
      exact List.Perm.cons e ih

/-- A list of non-increasing priority stays so under `registerPass`. -/
theorem emplaceEntry_sorted {F : Type} (entry : PassEntry F) (l : List (PassEntry F))
    (hs : l.Pairwise (fun a b => b.priority_ ≤ a.priority_)) :
    (emplaceEntry entry l).Pairwise (fun a b => b.priority_ ≤ a.priority_) := by
  induction l with
  | nil => simp [emplaceEntry]
  | cons e l ih =>
    obtain ⟨hhead, htail⟩ := List.pairwise_cons.1 hs
    by_cases h : e.priority_ < entry.priority_
    · simp only [emplaceEntry, h, ↓reduceIte]
      refine List.pairwise_cons.2 ⟨?_, hs⟩
      intro b hb
      rcases List.mem_cons.1 hb with rfl | hb
      · omega
      · have := hhead b hb
        omega
    · simp only [emplaceEntry, h, ↓reduceIte]
      refine List.pairwise_cons.2 ⟨?_, ih htail⟩
      intro b hb
      have hb' := (emplaceEntry_perm entry l).subset hb
      rcases List.mem_append.1 hb' with hb' | hb'
      · exact hhead b hb'
      · simp only [List.mem_singleton] at hb'
        subst hb'
        omega

/-- In a list of non-increasing priority, `registerPass` places the entry
after every entry of the same priority: the entries of any one priority are
those of before, followed by the new entry when it has that priority. -/
theorem emplaceEntry_filter {F : Type} (entry : PassEntry F) (l : List (PassEntry F))
    (hs : l.Pairwise (fun a b => b.priority_ ≤ a.priority_)) (p : Int) :
    (emplaceEntry entry l).filter (fun e => decide (e.priority_ = p))
      = l.filter (fun e => decide (e.priority_ = p)) ++
          [entry].filter (fun e => decide (e.priority_ = p)) := by
  induction l with
  | nil => simp [emplaceEntry]
  | cons e l ih =>
    obtain ⟨hhead, htail⟩ := List.pairwise_cons.1 hs
    by_cases h : e.priority_ < entry.priority_
    · simp only [emplaceEntry, h, ↓reduceIte]
      by_cases hp : entry.priority_ = p
      · have hnone : (e :: l).filter (fun x => decide (x.priority_ = p)) = [] := by
          rw [List.filter_eq_nil_iff]
          intro x hx
          have hxle : x.priority_ ≤ e.priority_ := by
            rcases List.mem_cons.1 hx with rfl | hx
            · exact le_refl _
            · exact hhead x hx
          simp only [decide_eq_true_eq]
          omega
        rw [List.filter_cons, hnone]
        simp [hp]
      · rw [List.filter_cons]
        simp [hp]
    · simp only [emplaceEntry, h, ↓reduceIte]
      rw [List.filter_cons, List.filter_cons, ih htail]
      by_cases hp : e.priority_ = p <;> simp [hp]

/-- One registration changes the list of its category by `registerPass` and
leaves the flag and the other categories as they are. -/
theorem registerOptimizationPass_eq {F : Type} (s : OptimizationState F)
    (category : OptimizationPassCategory) (pass : OptimizationPass F) (priority : Int) :
    (registerOptimizationPass s category pass priority).pass_categories_ category
      = emplaceEntry { priority_ := priority, pass_ := pass.func, name_ := pass.name }
          (s.pass_categories_ category) ∧
    (registerOptimizationPass s category pass priority).pre_segmenter_flag
      = s.pre_segmenter_flag ∧
    ∀ c, c ≠ category →
      (registerOptimizationPass s category pass priority).pass_categories_ c
        = s.pass_categories_ c := by
  refine ⟨by simp [registerOptimizationPass, OptimizationRegistry.registerPass], rfl, ?_⟩
  intro c hc
  simp [registerOptimizationPass, OptimizationRegistry.registerPass, hc]

/-- A sequence of registrations on one category, from a list of non-increasing
priority: the list stays of non-increasing priority, holds the old entries and
the registered ones, keeps for every priority the old entries followed by the
registered ones in registration order, and the flag is unchanged. -/
theorem registerAll_spec {F : Type} (category : OptimizationPassCategory)
    (regs : List (OptimizationPass F × Int)) (s : OptimizationState F)
    (hs : (s.pass_categories_ category).Pairwise (fun a b => b.priority_ ≤ a.priority_)) :
    ((regs.foldl (fun s r => registerOptimizationPass s category r.1 r.2)
        s).pass_categories_ category).Pairwise (fun a b => b.priority_ ≤ a.priority_) ∧
    ((regs.foldl (fun s r => registerOptimizationPass s category r.1 r.2)
        s).pass_categories_ category).Perm
      (s.pass_categories_ category ++ regs.map (fun r =>
        ({ priority_ := r.2, pass_ := r.1.func, name_ := r.1.name } : PassEntry F))) ∧
    (∀ p : Int,
      ((regs.foldl (fun s r => registerOptimizationPass s category r.1 r.2)
          s).pass_categories_ category).filter (fun e => decide (e.priority_ = p))
        = (s.pass_categories_ category).filter (fun e => decide (e.priority_ = p)) ++
          (regs.map (fun r =>
            ({ priority_ := r.2, pass_ := r.1.func, name_ := r.1.name } : PassEntry F))).filter
              (fun e => decide (e.priority_ = p))) ∧
    (regs.foldl (fun s r => registerOptimizationPass s category r.1 r.2)
        s).pre_segmenter_flag = s.pre_segmenter_flag := by
  induction regs generalizing s with
  | nil => simp [hs]
  | cons r regs ih =>
    obtain ⟨hlist, hflag, -⟩ := registerOptimizationPass_eq s category r.1 r.2
    have hs₁ : ((registerOptimizationPass s category r.1 r.2).pass_categories_
        category).Pairwise (fun a b => b.priority_ ≤ a.priority_) := by
      rw [hlist]
      exact emplaceEntry_sorted _ _ hs
    obtain ⟨h₁, h₂, h₃, h₄⟩ := ih (registerOptimizationPass s category r.1 r.2) hs₁
    simp only [List.foldl_cons, List.map_cons]
    refine ⟨h₁, ?_, ?_, by rw [h₄, hflag]⟩
    · refine h₂.trans ?_
      rw [hlist]
      have := (emplaceEntry_perm
        ({ priority_ := r.2, pass_ := r.1.func, name_ := r.1.name } : PassEntry F)
        (s.pass_categories_ category)).append_right (regs.map (fun r =>
          ({ priority_ := r.2, pass_ := r.1.func, name_ := r.1.name } : PassEntry F)))
      simpa using this
    · intro p
      rw [h₃ p, hlist, emplaceEntry_filter _ _ hs p, List.filter_cons]
      by_cases hp : r.2 = p <;> simp [hp]

/-- In a list of non-increasing priority the leading entries whose priority is
not lower than `c` are all the entries whose priority is not lower than `c`,
and the rest are the entries of lower priority. -/
theorem takeWhile_priority {F : Type} (c : Int) (l : List (PassEntry F))
    (hs : l.Pairwise (fun a b => b.priority_ ≤ a.priority_)) :
    l.takeWhile (fun e => decide (c ≤ e.priority_))
        = l.filter (fun e => decide (c ≤ e.priority_)) ∧
      l.dropWhile (fun e => decide (c ≤ e.priority_))
        = l.filter (fun e => decide (e.priority_ < c)) := by
  induction l with
  | nil => simp
  | cons e l ih =>
    obtain ⟨hhead, htail⟩ := List.pairwise_cons.1 hs
    obtain ⟨ih₁, ih₂⟩ := ih htail
    by_cases h : c ≤ e.priority_
    · have h' : ¬ e.priority_ < c := by omega
      simp [List.takeWhile_cons, List.dropWhile_cons, List.filter_cons, h, h', ih₁, ih₂]
    · have h' : e.priority_ < c := by omega
      have hlow : ∀ x ∈ l, x.priority_ < c := by
        intro x hx
        have := hhead x hx
        omega
      have h₁ : l.filter (fun e => decide (c ≤ e.priority_)) = [] := by
        rw [List.filter_eq_nil_iff]
        intro x hx
        have := hlow x hx
        simp only [decide_eq_true_eq]
        omega
      have h₂ : l.filter (fun e => decide (e.priority_ < c)) = l := by
        rw [List.filter_eq_self]
        intro x hx
        simpa using hlow x hx
      simp [List.takeWhile_cons, List.dropWhile_cons, List.filter_cons, h, h', h₁, h₂]

/-- C23: take a category without registered pass and any sequence `regs` of
`registerOptimizationPass` calls on it.  The pass list of the category is then
of non-increasing priority, holds exactly the registered passes, and keeps the
passes of any one priority in registration order.  A further registration
places the new pass after every pass whose priority is greater than or equal to
its own and before every pass of strictly lower priority.
`applyOptimizationPass` runs the passes of the list on the graph one after the
other in list order when the flag of the category is set, and leaves the graph
as it is otherwise. -/
theorem passes_run_by_priority {F : Type} (category : OptimizationPassCategory)
    (regs : List (OptimizationPass F × Int)) (s : OptimizationState F)
    (hempty : s.pass_categories_ category = []) :
    ((regs.foldl (fun s r => registerOptimizationPass s category r.1 r.2)
        s).pass_categories_ category).Pairwise (fun a b => b.priority_ ≤ a.priority_) ∧
    ((regs.foldl (fun s r => registerOptimizationPass s category r.1 r.2)
        s).pass_categories_ category).Perm
      (regs.map (fun r =>
        ({ priority_ := r.2, pass_ := r.1.func, name_ := r.1.name } : PassEntry F))) ∧
    (∀ p : Int,
      ((regs.foldl (fun s r => registerOptimizationPass s category r.1 r.2)
          s).pass_categories_ category).filter (fun e => decide (e.priority_ = p))
        = (regs.map (fun r =>
            ({ priority_ := r.2, pass_ := r.1.func, name_ := r.1.name } : PassEntry F))).filter
              (fun e => decide (e.priority_ = p))) ∧
    (∀ (pass : OptimizationPass F) (priority : Int),
      (registerOptimizationPass
          (regs.foldl (fun s r => registerOptimizationPass s category r.1 r.2) s)
          category pass priority).pass_categories_ category
        = ((regs.foldl (fun s r => registerOptimizationPass s category r.1 r.2)
              s).pass_categories_ category).filter (fun e => decide (priority ≤ e.priority_))
          ++ { priority_ := priority, pass_ := pass.func, name_ := pass.name } ::
            ((regs.foldl (fun s r => registerOptimizationPass s category r.1 r.2)
              s).pass_categories_ category).filter
                (fun e => decide (e.priority_ < priority))) ∧
    (∀ fusion : F,
      applyOptimizationPass
          (regs.foldl (fun s r => registerOptimizationPass s category r.1 r.2) s)
          category fusion
        = if category = OptimizationPassCategory.PreSegmenter ∧ s.pre_segmenter_flag = true
          then
            ((regs.foldl (fun s r => registerOptimizationPass s category r.1 r.2)
              s).pass_categories_ category).foldl (fun fusion entry => entry.pass_ fusion)
              fusion
          else fusion) := by
  have hs : (s.pass_categories_ category).Pairwise
      (fun a b => b.priority_ ≤ a.priority_) := by
    rw [hempty]
    exact List.Pairwise.nil
  obtain ⟨h₁, h₂, h₃, h₄⟩ := registerAll_spec category regs s hs
  refine ⟨h₁, by simpa [hempty] using h₂, fun p => by simpa [hempty] using h₃ p, ?_, ?_⟩
  · intro pass priority
    rw [(registerOptimizationPass_eq _ category pass priority).1, emplaceEntry_eq]
    obtain ⟨ht, hd⟩ := takeWhile_priority priority _ h₁
    rw [ht, hd]
  · intro fusion
    unfold applyOptimizationPass getOptimizationFlag OptimizationRegistry.apply
    rw [h₄]
    by_cases hc : category = OptimizationPassCategory.PreSegmenter
    · by_cases hf : s.pre_segmenter_flag = true <;> simp [hc, hf]
    · simp [hc]

/-- Witness of C23: passes a and c are registered with priority 0, b and d
with priority 5, in the order a, b, c, d; the passes run in the order b, d, a,
c. -/
theorem passes_run_by_priority_witness :
    ((exampleRegistrations.foldl
        (fun s r => registerOptimizationPass s OptimizationPassCategory.PreSegmenter r.1 r.2)
        exampleNoPasses).pass_categories_ OptimizationPassCategory.PreSegmenter).map
          (fun e => (e.name_, e.priority_))
      = [("b", 5), ("d", 5), ("a", 0), ("c", 0)] ∧
    applyOptimizationPass
        (exampleRegistrations.foldl
          (fun s r => registerOptimizationPass s OptimizationPassCategory.PreSegmenter r.1 r.2)
          exampleNoPasses)
        OptimizationPassCategory.PreSegmenter []
      = ["b", "d", "a", "c"] ∧
    ((exampleRegistrations.foldl
        (fun s r => registerOptimizationPass s OptimizationPassCategory.PreSegmenter r.1 r.2)
        exampleNoPasses).pass_categories_ OptimizationPassCategory.PreSegmenter).Pairwise
          (fun a b => b.priority_ ≤ a.priority_) :=
  ⟨by decide, by decide,
    (passes_run_by_priority OptimizationPassCategory.PreSegmenter exampleRegistrations
      exampleNoPasses rfl).1⟩

/-! ## Properties of the optimization groups -/

/-- C29: for every value `f` of the flag and all booleans `b` and `e`:
`flipEnabled(b)` returns `f` and leaves the flag equal to `f` xor `b`;
`setEnabled(e)` returns `f` and leaves the flag equal to `e`; a guard
constructed with `e` remembers `f` and sets the flag to `e`, and its
destruction sets the flag back to `f`. -/
theorem optimization_group_flag (f b e : Bool) :
    OptimizationGroup.flipEnabled f b = (f, xor f b) ∧
    OptimizationGroup.setEnabled f e = (f, e) ∧
    (OptimizationGroupGuard.create f e).1.prev_status_ = f ∧
    (OptimizationGroupGuard.create f e).2 = e ∧
    (OptimizationGroupGuard.create f e).1.destroy (OptimizationGroupGuard.create f e).2
      = f := by
  cases f <;> cases b <;> cases e <;> decide

/-! ## Properties of roundUpPow2Or8 -/

/-- The doubling loop, started at a power of two that does not exceed `x` with
enough fuel, ends at the power of two `2 ^ k` with `2 ^ k ≤ x < 2 ^ (k + 1)`. -/
theorem lastPow2Loop_spec (x : Nat) (fuel p j : Nat) (hp : p = 2 ^ j) (hle : p ≤ x)
    (hfuel : x < p * 2 ^ fuel) :
    ∃ k : Nat, lastPow2Loop x fuel p = 2 ^ k ∧ 2 ^ k ≤ x ∧ x < 2 ^ (k + 1) := by
  induction fuel generalizing p j with
  | zero =>
    simp only [pow_zero, mul_one] at hfuel
    omega
  | succ fuel ih =>
    by_cases h : 2 * p ≤ x
    · simp only [lastPow2Loop, h, ↓reduceIte]
      apply ih (2 * p) (j + 1)
      · rw [hp, pow_succ]
        omega
      · exact h
      · rw [pow_succ] at hfuel
        calc x < p * (2 ^ fuel * 2) := hfuel
          _ = 2 * p * 2 ^ fuel := by ring
    · simp only [lastPow2Loop, h, ↓reduceIte]
      refine ⟨j, hp, by rw [← hp]; exact hle, ?_⟩
      rw [pow_succ, ← hp]
      omega

/-- For `x ≥ 1`, `lastPow2 x` is the power of two `2 ^ k` with
`2 ^ k ≤ x < 2 ^ (k + 1)`: the largest power of two that does not exceed `x`. -/
theorem lastPow2_spec (x : Int) (hx : 1 ≤ x) :
    ∃ k : Nat, lastPow2 x = 2 ^ k ∧ (2 : Int) ^ k ≤ x ∧ x < 2 ^ (k + 1) := by
  obtain ⟨n, rfl⟩ := Int.eq_ofNat_of_zero_le (by omega : 0 ≤ x)
  have hn : 1 ≤ n := by exact_mod_cast hx
  obtain ⟨k, hk, hle, hlt⟩ := lastPow2Loop_spec n n 1 0 rfl hn
    (by simpa using Nat.lt_two_pow n)
  refine ⟨k, ?_, by exact_mod_cast hle, by exact_mod_cast hlt⟩
  simp only [lastPow2, Int.toNat_ofNat, hk]
  push_cast
  rfl

/-- A power of two that is not below `x` is not below the least power of two
that is not below `x`. -/
theorem pow2_ge_of_ge (x : Int) (k j : Nat) (hle : (2 : Int) ^ k ≤ x)
    (hj : x ≤ (2 : Int) ^ j) :
    (if (2 : Int) ^ k < x then (2 : Int) ^ k * 2 else 2 ^ k) ≤ 2 ^ j := by
  by_cases hjk : j ≤ k
  · have h : (2 : Int) ^ j ≤ 2 ^ k := by
      exact_mod_cast Nat.pow_le_pow_right (by decide : 2 > 0) hjk
    have hnot : ¬ (2 : Int) ^ k < x := by omega
    simp only [hnot, ↓reduceIte]
    omega
  · have h : (2 : Int) ^ (k + 1) ≤ 2 ^ j := by
      exact_mod_cast Nat.pow_le_pow_right (by decide : 2 > 0) (by omega : k + 1 ≤ j)
    rw [pow_succ] at h
    split <;> omega

/-- C30: for every `x` with `1 ≤ x ≤ 2 ^ 62`, so that no `int64_t` operation
overflows, `roundUpPow2Or8 x` is the smallest integer not below `x` that is a
multiple of 8 or a power of two: it is not below `x`, it is a multiple of 8
or a power of two, every such integer not below `x` is not below it, it is `x`
when `x` is itself a multiple of 8 or a power of two, and it is below
`x + 8`. -/
theorem roundUpPow2Or8_least (x : Int) (hx : 1 ≤ x) (hmax : x ≤ 2 ^ 62) :
    x ≤ roundUpPow2Or8 x ∧
    (8 ∣ roundUpPow2Or8 x ∨ ∃ k : Nat, roundUpPow2Or8 x = 2 ^ k) ∧
    (∀ y : Int, x ≤ y → (8 ∣ y ∨ ∃ k : Nat, y = 2 ^ k) → roundUpPow2Or8 x ≤ y) ∧
    ((8 ∣ x ∨ ∃ k : Nat, x = 2 ^ k) → roundUpPow2Or8 x = x) ∧
    roundUpPow2Or8 x < x + 8 := by
  obtain ⟨k, hk, hle, hlt⟩ := lastPow2_spec x hx
  have htmod : Int.tmod x 8 = x % 8 := Int.tmod_eq_emod (by omega) (by decide)
  have hpos : (1 : Int) ≤ 2 ^ k := by
    exact_mod_cast Nat.one_le_two_pow
  rw [pow_succ] at hlt
  -- the two candidates, without wrap-around
  have hr : roundUpPow2Or8 x
      = min (if x % 8 = 0 then x else x + (8 - x % 8))
          (if (2 : Int) ^ k < x then (2 : Int) ^ k * 2 else 2 ^ k) := by
    have hw₁ : wrapInt64 (x + (8 - x % 8)) = x + (8 - x % 8) := by
      unfold wrapInt64
      omega
    have hw₂ : (2 : Int) ^ k < x → wrapInt64 ((2 : Int) ^ k * 2) = 2 ^ k * 2 := by
      intro h
      unfold wrapInt64
      omega
    unfold roundUpPow2Or8
    simp only [hk, htmod, hw₁]
    by_cases h : (2 : Int) ^ k < x
    · simp only [h, ↓reduceIte, hw₂ h]
    · simp only [h, ↓reduceIte]
  have hpow : ∃ j : Nat,
      (if (2 : Int) ^ k < x then (2 : Int) ^ k * 2 else 2 ^ k) = 2 ^ j := by
    by_cases h : (2 : Int) ^ k < x
    · exact ⟨k + 1, by simp only [h, ↓reduceIte, pow_succ]⟩
    · exact ⟨k, by simp only [h, ↓reduceIte]⟩
  have hge₈ : x ≤ (if x % 8 = 0 then x else x + (8 - x % 8)) := by
    split <;> omega
  have hlt₈ : (if x % 8 = 0 then x else x + (8 - x % 8)) < x + 8 := by
    split <;> omega
  have hdvd₈ : (8 : Int) ∣ (if x % 8 = 0 then x else x + (8 - x % 8)) := by
    split <;> omega
  have hgep : x ≤ (if (2 : Int) ^ k < x then (2 : Int) ^ k * 2 else 2 ^ k) := by
    split <;> omega
  have hleast : ∀ y : Int, x ≤ y → (8 ∣ y ∨ ∃ j : Nat, y = 2 ^ j) →
      roundUpPow2Or8 x ≤ y := by
    intro y hy hkind
    rw [hr]
    rcases hkind with h₈ | ⟨j, rfl⟩
    · refine le_trans (min_le_left _ _) ?_
      split <;> omega
    · exact le_trans (min_le_right _ _) (pow2_ge_of_ge x k j hle hy)
  have hge : x ≤ roundUpPow2Or8 x := by
    rw [hr]
    exact le_min hge₈ hgep
  refine ⟨hge, ?_, hleast, ?_, ?_⟩
  · rw [hr]
    rcases le_total (if x % 8 = 0 then x else x + (8 - x % 8))
        (if (2 : Int) ^ k < x then (2 : Int) ^ k * 2 else 2 ^ k) with h | h
    · rw [min_eq_left h]
      exact Or.inl hdvd₈
    · rw [min_eq_right h]
      exact Or.inr hpow
  · intro hkind
    exact le_antisymm (hleast x (le_refl x) hkind) hge
  · rw [hr]
    exact lt_of_le_of_lt (min_le_left _ _) hlt₈

/-- Witness of C30: 17 is rounded up to 24, the multiple of 8 below the next
power of two 32. -/
theorem roundUpPow2Or8_least_witness :
    roundUpPow2Or8 17 = 24 ∧
    (17 : Int) ≤ roundUpPow2Or8 17 ∧
    (8 ∣ roundUpPow2Or8 17 ∨ ∃ k : Nat, roundUpPow2Or8 17 = 2 ^ k) ∧
    (∀ y : Int, 17 ≤ y → (8 ∣ y ∨ ∃ k : Nat, y = 2 ^ k) → roundUpPow2Or8 17 ≤ y) ∧
    ((8 ∣ (17 : Int) ∨ ∃ k : Nat, (17 : Int) = 2 ^ k) → roundUpPow2Or8 17 = 17) ∧
    roundUpPow2Or8 17 < 17 + 8 :=
  ⟨by decide, roundUpPow2Or8_least 17 (by decide) (by decide)⟩

/-! ## Properties of the Initial Info Builder: the recorded operations -/

/-- The extents a loop of `handle(ViewOp*)` collects are the extents of the
domain that the evaluator cannot evaluate, in axis order. -/
theorem unevaluatedExtents_eq (evaluate : Val → Option EvaluatorValue)
    (dom : List IterDomain) :
    unevaluatedExtents evaluate dom
      = (dom.map (fun id => id.extent)).filter (fun v => (evaluate v).isNone) := by
  induction dom with
  | nil => rfl
  | cons id dom ih =>
    simp only [unevaluatedExtents, List.map_cons, List.filter_cons]
    cases h : evaluate id.extent with
    | none => simp [ih]
    | some v => simp [ih]

/-- The loop of `handle(TensorView*)` records the resize operations and the
extents the spec prescribes, and leaves the dynamic reshapes as they are. -/
theorem handleTensorViewLoop_eq (definition : IterDomain → Option IdDefinition)
    (rfd : List IterDomain) (self : DynamicTransformInitialInfoBuilder) :
    handleTensorViewLoop definition rfd self
      = { dynamic_reshapes_ := self.dynamic_reshapes_,
          dynamic_resizes_ := self.dynamic_resizes_ ++ specResizesOf definition rfd,
          leaf_dynamic_vals_ := self.leaf_dynamic_vals_ ++
            specResizeLeaves definition rfd } := by
  induction rfd generalizing self with
  | nil => simp [handleTensorViewLoop, specResizesOf, specResizeLeaves]
  | cons id rfd ih =>
    simp only [handleTensorViewLoop, specResizesOf, specResizeLeaves, List.filterMap_cons]
    cases hd : definition id with
    | none =>
      rw [ih]
      by_cases hs : id.iterType = IterType.Symbolic <;>
        simp [hs, specResizesOf, specResizeLeaves]
    | some d =>
      by_cases hs : id.iterType = IterType.Symbolic
      · cases d with
        | resize op =>
          simp only [hs, bne_self_eq_false, Bool.false_eq_true, ↓reduceIte]
          rw [ih]
          simp [specResizesOf, specResizeLeaves]
        | other name =>
          simp only [hs, bne_self_eq_false, Bool.false_eq_true, ↓reduceIte]
          rw [ih]
          simp [specResizesOf, specResizeLeaves]
      · have hs' : (id.iterType != IterType.Symbolic) = true := by simpa using hs
        simp only [hs', ↓reduceIte, hs]
        rw [ih]
        simp [specResizesOf, specResizeLeaves]

/-- The traversal of the Builder appends to its three lists what the spec
prescribes for the statements it visits. -/
theorem traverse_eq (evaluate : Val → Option EvaluatorValue)
    (definition : IterDomain → Option IdDefinition) (stmts : List BuilderStatement)
    (self : DynamicTransformInitialInfoBuilder) :
    DynamicTransformInitialInfoBuilder.traverse evaluate definition stmts self
      = { dynamic_reshapes_ := self.dynamic_reshapes_ ++ specDynamicReshapes stmts,
          dynamic_resizes_ := self.dynamic_resizes_ ++ specDynamicResizes definition stmts,
          leaf_dynamic_vals_ := self.leaf_dynamic_vals_ ++
            stmts.flatMap (specLeafVals evaluate definition) } := by
  induction stmts generalizing self with
  | nil => simp [DynamicTransformInitialInfoBuilder.traverse, specDynamicReshapes,
      specDynamicResizes]
  | cons stmt stmts ih =>
    cases stmt with
    | viewOp op =>
      simp only [DynamicTransformInitialInfoBuilder.traverse]
      rw [ih]
      by_cases hs : op.out.domain.hasSymbolicAxis = true
      · simp [DynamicTransformInitialInfoBuilder.handleViewOp, hs, specDynamicReshapes,
          specDynamicResizes, specLeafVals, unevaluatedExtents_eq, List.flatMap_cons]
      · simp [DynamicTransformInitialInfoBuilder.handleViewOp, hs, specDynamicReshapes,
          specDynamicResizes, specLeafVals, List.flatMap_cons]
    | tensorView tv =>
      simp only [DynamicTransformInitialInfoBuilder.traverse,
        DynamicTransformInitialInfoBuilder.handleTensorView]
      rw [ih, handleTensorViewLoop_eq]
      simp [specDynamicReshapes, specDynamicResizes, specLeafVals, List.flatMap_cons]
    | other name =>
      simp only [DynamicTransformInitialInfoBuilder.traverse]
      rw [ih]
      simp [specDynamicReshapes, specDynamicResizes, specLeafVals, List.flatMap_cons]

/-- The reshape operations the spec prescribes, seen as statements, are the
statements of the traversal that are reshape operations with a Symbolic output
axis: each as often as it is visited, in traversal order. -/
theorem specDynamicReshapes_filter (stmts : List BuilderStatement) :
    (specDynamicReshapes stmts).map BuilderStatement.viewOp
      = stmts.filter (fun s =>
          match s with
          | .viewOp op => op.out.domain.hasSymbolicAxis
          | _ => false) := by
  induction stmts with
  | nil => rfl
  | cons stmt stmts ih =>
    unfold specDynamicReshapes at ih ⊢
    cases stmt with
    | viewOp op =>
      by_cases hs : op.out.domain.hasSymbolicAxis = true
      · simp [List.filterMap_cons, List.filter_cons, hs, ih]
      · simp [List.filterMap_cons, List.filter_cons, hs, ih]
    | tensorView tv => simp [List.filterMap_cons, List.filter_cons, ih]
    | other name => simp [List.filterMap_cons, List.filter_cons, ih]

/-- Counterexample of C27: the input tensor of the example reshape has a
Reduction axis whose extent 99 the evaluator cannot evaluate; the reshape is
recorded, and the leaf values are the extents 30 and 70 only. -/
theorem reduction_extent_not_collected :
    exampleAxis 99 99 IterType.Reduction ∈ exampleReducedReshape.inp.getMaybeRFactorDomain ∧
    exampleEvaluator.evaluate [] 99 = none ∧
    exampleReducedReshape.out.domain.hasSymbolicAxis = true ∧
    DynamicTransformInitialInfoBuilder.traverse (exampleEvaluator.evaluate [])
        (fun _ => none) [BuilderStatement.viewOp exampleReducedReshape]
        { dynamic_reshapes_ := [], dynamic_resizes_ := [], leaf_dynamic_vals_ := [] }
      = { dynamic_reshapes_ := [exampleReducedReshape], dynamic_resizes_ := [],
          leaf_dynamic_vals_ := [30, 70] } ∧
    (99 : Val) ∉ [30, 70] := by
  refine ⟨by decide, by decide, by decide, by decide, by decide⟩

/-- C27, amended: the dynamic-reshape list built by `getInitialInfo` is the
list of the reshape operations visited by the traversal whose output domain has
a Symbolic axis, each as often as it is visited and in traversal order.  The
handler leaves the Builder as it is for a reshape whose output has no Symbolic
axis; for a recorded one it appends to the leaf values the extents of the
non-reduction input axes and of the output axes, and such an extent is appended
if and only if the evaluator cannot evaluate it.  Over the whole traversal the
leaf values are those of `specLeafVals`, statement by statement. -/
theorem dynamic_reshapes_recorded {E : Type} (ev : ExpressionEvaluator E) (expr_eval : E)
    (definition : IterDomain → Option IdDefinition) (inputsOf : List Val → List Val)
    (stmts : List BuilderStatement) (fusion : Fusion) :
    (getInitialInfo ev expr_eval definition inputsOf stmts fusion).dynamic_reshapes_
      = specDynamicReshapes stmts ∧
    ((getInitialInfo ev expr_eval definition inputsOf stmts fusion).dynamic_reshapes_.map
        BuilderStatement.viewOp
      = stmts.filter (fun s =>
          match s with
          | .viewOp op => op.out.domain.hasSymbolicAxis
          | _ => false)) ∧
    (∀ op : ViewOp,
      op ∈ (getInitialInfo ev expr_eval definition inputsOf stmts fusion).dynamic_reshapes_ ↔
        BuilderStatement.viewOp op ∈ stmts ∧ op.out.domain.hasSymbolicAxis = true) ∧
    (∀ (self : DynamicTransformInitialInfoBuilder) (op : ViewOp),
      op.out.domain.hasSymbolicAxis = false →
      self.handleViewOp (ev.evaluate expr_eval) op = self) ∧
    (∀ (self : DynamicTransformInitialInfoBuilder) (op : ViewOp),
      op.out.domain.hasSymbolicAxis = true →
      ∃ added : List Val,
        self.handleViewOp (ev.evaluate expr_eval) op
          = { dynamic_reshapes_ := self.dynamic_reshapes_ ++ [op],
              dynamic_resizes_ := self.dynamic_resizes_,
              leaf_dynamic_vals_ := self.leaf_dynamic_vals_ ++ added } ∧
        ∀ v : Val, v ∈ added ↔
          (∃ id ∈ TensorDomain.noReductions op.inp.getMaybeRFactorDomain ++
              op.out.getMaybeRFactorDomain, id.extent = v) ∧
            ev.evaluate expr_eval v = none) ∧
    (DynamicTransformInitialInfoBuilder.traverse (ev.evaluate expr_eval) definition stmts
        { dynamic_reshapes_ := [], dynamic_resizes_ := [],
          leaf_dynamic_vals_ := [] }).leaf_dynamic_vals_
      = stmts.flatMap (specLeafVals (ev.evaluate expr_eval) definition) := by
  have hlist : (getInitialInfo ev expr_eval definition inputsOf stmts
      fusion).dynamic_reshapes_ = specDynamicReshapes stmts := by
    simp [getInitialInfo, traverse_eq]
  refine ⟨hlist, ?_, ?_, ?_, ?_, ?_⟩
  · rw [hlist]
    exact specDynamicReshapes_filter stmts
  · intro op
    rw [hlist]
    simp only [specDynamicReshapes, List.mem_filterMap]
    constructor
    · rintro ⟨s, hs, hop⟩
      cases s with
      | viewOp op' =>
        by_cases h : op'.out.domain.hasSymbolicAxis = true
        · simp only [h, ↓reduceIte, Option.some.injEq] at hop
          subst hop
          exact ⟨hs, h⟩
        · simp [h] at hop
      | tensorView tv => simp at hop
      | other name => simp at hop
    · rintro ⟨hs, h⟩
      exact ⟨_, hs, by simp [h]⟩
  · intro self op h
    simp [DynamicTransformInitialInfoBuilder.handleViewOp, h]
  · intro self op h
    refine ⟨unevaluatedExtents (ev.evaluate expr_eval)
        (TensorDomain.noReductions op.inp.getMaybeRFactorDomain) ++
      unevaluatedExtents (ev.evaluate expr_eval) op.out.getMaybeRFactorDomain, ?_, ?_⟩
    · simp [DynamicTransformInitialInfoBuilder.handleViewOp, h, List.append_assoc]
    · intro v
      simp only [unevaluatedExtents_eq, ← List.filter_append, ← List.map_append,
        List.mem_filter, List.mem_map, Option.isNone_iff_eq_none]
  · simp [traverse_eq]

/-- C28: the dynamic-resize list built by `getInitialInfo` is what the spec
prescribes, and it contains a resize operation exactly when the operation
defines a Symbolic axis of the derived-or-root domain of a tensor the
traversal visits.  The handler leaves the Builder as it is for a tensor each
of whose axes is not Symbolic, has no definition, or is defined by an
operation of another kind.  For every recorded resize the extent of the axis
it defines is among the leaf values, whatever the evaluator says about it. -/
theorem dynamic_resizes_recorded {E : Type} (ev : ExpressionEvaluator E) (expr_eval : E)
    (definition : IterDomain → Option IdDefinition) (inputsOf : List Val → List Val)
    (stmts : List BuilderStatement) (fusion : Fusion) :
    (getInitialInfo ev expr_eval definition inputsOf stmts fusion).dynamic_resizes_
      = specDynamicResizes definition stmts ∧
    (∀ op : Resize,
      op ∈ (getInitialInfo ev expr_eval definition inputsOf stmts fusion).dynamic_resizes_ ↔
        ∃ tv, BuilderStatement.tensorView tv ∈ stmts ∧
          ∃ id ∈ tv.getMaybeRFactorDomain,
            id.iterType = IterType.Symbolic ∧ definition id = some (.resize op)) ∧
    (∀ (self : DynamicTransformInitialInfoBuilder) (tv : TensorView),
      (∀ id ∈ tv.getMaybeRFactorDomain,
        id.iterType ≠ IterType.Symbolic ∨ definition id = none ∨
          ∃ name, definition id = some (.other name)) →
      self.handleTensorView definition tv = self) ∧
    (∀ (evaluate : Val → Option EvaluatorValue) (tv : TensorView) (id : IterDomain)
        (op : Resize),
      BuilderStatement.tensorView tv ∈ stmts → id ∈ tv.getMaybeRFactorDomain →
      id.iterType = IterType.Symbolic → definition id = some (.resize op) →
      id.extent ∈ (DynamicTransformInitialInfoBuilder.traverse evaluate definition stmts
        { dynamic_reshapes_ := [], dynamic_resizes_ := [],
          leaf_dynamic_vals_ := [] }).leaf_dynamic_vals_) := by
  have hlist : (getInitialInfo ev expr_eval definition inputsOf stmts
      fusion).dynamic_resizes_ = specDynamicResizes definition stmts := by
    simp [getInitialInfo, traverse_eq]
  refine ⟨hlist, ?_, ?_, ?_⟩
  · intro op
    rw [hlist]
    simp only [specDynamicResizes, List.mem_flatMap]
    constructor
    · rintro ⟨s, hs, hop⟩
      cases s with
      | viewOp op' => simp at hop
      | tensorView tv =>
        simp only [specResizesOf, List.mem_filterMap] at hop
        obtain ⟨id, hid, hdef⟩ := hop
        by_cases hsym : id.iterType = IterType.Symbolic
        · simp only [hsym, ↓reduceIte] at hdef
          cases hd : definition id with
          | none => simp [hd] at hdef
          | some d =>
            cases d with
            | resize op' =>
              simp only [hd, Option.some.injEq] at hdef
              subst hdef
              exact ⟨tv, hs, id, hid, hsym, hd⟩
            | other name => simp [hd] at hdef
        · simp [hsym] at hdef
      | other name => simp at hop
    · rintro ⟨tv, hs, id, hid, hsym, hd⟩
      refine ⟨_, hs, ?_⟩
      simp only [specResizesOf, List.mem_filterMap]
      exact ⟨id, hid, by simp [hsym, hd]⟩
  · intro self tv h
    have h₁ : specResizesOf definition tv.getMaybeRFactorDomain = [] := by
      simp only [specResizesOf, List.filterMap_eq_nil_iff]
      intro id hid
      rcases h id hid with hs | hd | ⟨name, hd⟩
      · simp [hs]
      · simp [hd]
      · simp [hd]
    have h₂ : specResizeLeaves definition tv.getMaybeRFactorDomain = [] := by
      simp only [specResizeLeaves, List.filterMap_eq_nil_iff]
      intro id hid
      rcases h id hid with hs | hd | ⟨name, hd⟩
      · simp [hs]
      · simp [hd]
      · simp [hd]
    simp [DynamicTransformInitialInfoBuilder.handleTensorView, handleTensorViewLoop_eq,
      h₁, h₂]
  · intro evaluate tv id op hs hid hsym hd
    rw [traverse_eq]
    simp only [List.nil_append, List.mem_flatMap]
    refine ⟨_, hs, ?_⟩
    simp only [specLeafVals, specResizeLeaves, List.mem_filterMap]
    exact ⟨id, hid, by simp [hsym, hd]⟩

/-! ## Properties of the Concretizer: root propagation -/

/-- The loop over the producers, when every producer has a concrete axis that
corresponds to the root axis: the kind gathered so far is promoted with the
kinds of these axes, from left to right. -/
theorem producerIterType_some {Plan : Type} (q : IrQueries Plan) (consumer : TensorView)
    (root_id : IterDomain) (producers : List TensorView) (t : IterType)
    (hmap : ∀ p ∈ producers, ∃ id, q.mapConsumerToProducer p consumer root_id = some id ∧
      id.iterType ≠ IterType.Symbolic) :
    producerIterType q consumer root_id producers (some t)
      = .ok (some ((producerKinds q consumer root_id producers).foldl
          q.promoteIterType t)) := by
  induction producers generalizing t with
  | nil => rfl
  | cons p producers ih =>
    obtain ⟨id, hid, hs⟩ := hmap p (List.mem_cons_self _ _)
    have hs' : (id.iterType == IterType.Symbolic) = false := by simpa using hs
    simp only [producerIterType, hid, hs', Bool.false_eq_true, ↓reduceIte, producerKinds,
      List.filterMap_cons, Option.map_some', List.foldl_cons]
    exact ih _ (fun p' hp' => hmap p' (List.mem_cons_of_mem _ hp'))

/-- The loop over the producers computes the kind the spec prescribes, when
every producer has a concrete axis that corresponds to the root axis. -/
theorem producerIterType_eq_spec {Plan : Type} (q : IrQueries Plan) (consumer : TensorView)
    (root_id : IterDomain) (producers : List TensorView)
    (hmap : ∀ p ∈ producers, ∃ id, q.mapConsumerToProducer p consumer root_id = some id ∧
      id.iterType ≠ IterType.Symbolic) :
    producerIterType q consumer root_id producers none
      = .ok (specRootKind q.promoteIterType (producerKinds q consumer root_id producers)) ∧
    (producerKinds q consumer root_id producers).length = producers.length ∧
    ∀ k ∈ producerKinds q consumer root_id producers, k ≠ IterType.Symbolic := by
  refine ⟨?_, ?_, ?_⟩
  · cases producers with
    | nil => rfl
    | cons p producers =>
      obtain ⟨id, hid, hs⟩ := hmap p (List.mem_cons_self _ _)
      have hs' : (id.iterType == IterType.Symbolic) = false := by simpa using hs
      simp only [producerIterType, hid, hs', Bool.false_eq_true, ↓reduceIte, producerKinds,
        List.filterMap_cons, Option.map_some', specRootKind]
      exact producerIterType_some q consumer root_id producers _
        (fun p' hp' => hmap p' (List.mem_cons_of_mem _ hp'))
  · induction producers with
    | nil => rfl
    | cons p producers ih =>
      obtain ⟨id, hid, -⟩ := hmap p (List.mem_cons_self _ _)
      simp only [producerKinds, List.filterMap_cons, hid, Option.map_some', List.length_cons]
      rw [← ih (fun p' hp' => hmap p' (List.mem_cons_of_mem _ hp'))]
      rfl
  · intro k hk
    simp only [producerKinds, List.mem_filterMap] at hk
    obtain ⟨p, hp, hk⟩ := hk
    obtain ⟨id, hid, hs⟩ := hmap p hp
    simp only [hid, Option.map_some', Option.some.injEq] at hk
    rw [← hk]
    exact hs

/-- The fold of a promotion rule that keeps concrete kinds concrete, from a
concrete kind over concrete kinds, is concrete. -/
theorem foldl_promote_concrete (promote : IterType → IterType → IterType)
    (hprom : ∀ a b, a ≠ IterType.Symbolic → b ≠ IterType.Symbolic →
      promote a b ≠ IterType.Symbolic)
    (ks : List IterType) (k : IterType) (hk : k ≠ IterType.Symbolic)
    (hks : ∀ x ∈ ks, x ≠ IterType.Symbolic) :
    ks.foldl promote k ≠ IterType.Symbolic := by
  induction ks generalizing k with
  | nil => exact hk
  | cons x ks ih =>
    simp only [List.foldl_cons]
    exact ih _ (hprom k x hk (hks x (List.mem_cons_self _ _)))
      (fun y hy => hks y (List.mem_cons_of_mem _ hy))

/-- Under the rule "Broadcast gives way to the other kind, Iteration with
Iteration is Iteration", the fold over kinds that are Iteration or Broadcast is
Broadcast when all of them are Broadcast and Iteration otherwise. -/
theorem foldl_promote_rule (promote : IterType → IterType → IterType)
    (hleft : ∀ k, promote IterType.Broadcast k = k)
    (hright : ∀ k, promote k IterType.Broadcast = k)
    (hiter : promote IterType.Iteration IterType.Iteration = IterType.Iteration)
    (ks : List IterType) (k : IterType)
    (hk : k = IterType.Iteration ∨ k = IterType.Broadcast)
    (hks : ∀ x ∈ ks, x = IterType.Iteration ∨ x = IterType.Broadcast) :
    ks.foldl promote k
      = if (k :: ks).all (fun x => x == IterType.Broadcast) then IterType.Broadcast
        else IterType.Iteration := by
  induction ks generalizing k with
  | nil => rcases hk with rfl | rfl <;> simp
  | cons x ks ih =>
    have hx := hks x (List.mem_cons_self _ _)
    have hrest : ∀ y ∈ ks, y = IterType.Iteration ∨ y = IterType.Broadcast :=
      fun y hy => hks y (List.mem_cons_of_mem _ hy)
    simp only [List.foldl_cons]
    rcases hk with rfl | rfl
    · have hp : promote IterType.Iteration x = IterType.Iteration := by
        rcases hx with rfl | rfl
        · exact hiter
        · exact hright _
      rw [hp, ih _ (Or.inl rfl) hrest]
      simp
    · rw [hleft, ih _ hx hrest]
      simp

/-- Root propagation succeeds when the consumer has a producer, every producer
has a concrete axis that corresponds to each Symbolic root axis, the promotion
rule keeps concrete kinds concrete and every use accepts the copies: the table
gets, in front, one entry per Symbolic root axis, which replaces the axis by
its copy with the kind the spec prescribes. -/
theorem propagateRootLoop_ok {Plan : Type} (q : IrQueries Plan) (consumer : TensorView)
    (producers : List TensorView) (hprod : producers ≠ [])
    (hprom : ∀ a b, a ≠ IterType.Symbolic → b ≠ IterType.Symbolic →
      q.promoteIterType a b ≠ IterType.Symbolic)
    (root_domain : List IterDomain) (st : IrState) (b : Bool)
    (hmap : ∀ r ∈ root_domain, r.iterType = IterType.Symbolic →
      ∀ p ∈ producers, ∃ id, q.mapConsumerToProducer p consumer r = some id ∧
        id.iterType ≠ IterType.Symbolic)
    (hacc : ∀ r ∈ root_domain, ∀ t, ∀ use ∈ q.uses (.iterDomain r),
      q.checkConcretization use (.iterDomain r) (.iterDomain (r.withIterType t)) = true) :
    ∃ (st' : IrState) (b' : Bool) (added : List (IrVal × IrVal)),
      propagateRootLoop q consumer producers root_domain st b = .ok (st', b') ∧
      st'.mutations_ = added ++ st.mutations_ ∧
      (∀ e ∈ added, ∃ r ∈ root_domain, r.iterType = IterType.Symbolic ∧
        ∃ t, specRootKind q.promoteIterType (producerKinds q consumer r producers) = some t ∧
          e = (IrVal.iterDomain r, IrVal.iterDomain (r.withIterType t))) ∧
      (∀ r ∈ root_domain, r.iterType = IterType.Symbolic →
        ∃ t, specRootKind q.promoteIterType (producerKinds q consumer r producers) = some t ∧
          t ≠ IterType.Symbolic ∧
          (IrVal.iterDomain r, IrVal.iterDomain (r.withIterType t)) ∈ added) := by
  induction root_domain generalizing st b with
  | nil =>
    exact ⟨st, b, [], rfl, rfl, fun e he => by simp at he, fun r hr => by simp at hr⟩
  | cons r₀ root_domain ih =>
    have hmap' : ∀ r ∈ root_domain, r.iterType = IterType.Symbolic →
        ∀ p ∈ producers, ∃ id, q.mapConsumerToProducer p consumer r = some id ∧
          id.iterType ≠ IterType.Symbolic :=
      fun r hr => hmap r (List.mem_cons_of_mem _ hr)
    have hacc' : ∀ r ∈ root_domain, ∀ t, ∀ use ∈ q.uses (.iterDomain r),
        q.checkConcretization use (.iterDomain r) (.iterDomain (r.withIterType t)) = true :=
      fun r hr => hacc r (List.mem_cons_of_mem _ hr)
    by_cases hs : r₀.iterType = IterType.Symbolic
    · obtain ⟨hfold, hlen, hconc⟩ := producerIterType_eq_spec q consumer r₀ producers
        (hmap r₀ (List.mem_cons_self _ _) hs)
      -- the kinds are not empty, so the spec prescribes a kind, which is concrete
      obtain ⟨t, ht, htne⟩ : ∃ t, specRootKind q.promoteIterType
          (producerKinds q consumer r₀ producers) = some t ∧ t ≠ IterType.Symbolic := by
        cases hk : producerKinds q consumer r₀ producers with
        | nil =>
          rw [hk] at hlen
          exact absurd (List.length_eq_zero.1 hlen.symm) hprod
        | cons k ks =>
          rw [hk] at hconc
          exact ⟨_, rfl, foldl_promote_concrete _ hprom ks k
            (hconc k (List.mem_cons_self _ _))
            (fun x hx => hconc x (List.mem_cons_of_mem _ hx))⟩
      rw [ht] at hfold
      have hreg : registerConcretization q st (.iterDomain r₀)
          (.iterDomain (r₀.withIterType t))
          = .ok (st.registerMutation (.iterDomain r₀) (.iterDomain (r₀.withIterType t))) :=
        (registerConcretization_ok_iff q st _ _ _).2
          ⟨fun use huse => hacc r₀ (List.mem_cons_self _ _) t use huse, rfl⟩
      obtain ⟨st', b', added, hok, hmut, hadded, hall⟩ :=
        ih (st.registerMutation (.iterDomain r₀) (.iterDomain (r₀.withIterType t))) true
          hmap' hacc'
      have htne' : (t == IterType.Symbolic) = false := by simpa using htne
      refine ⟨st', b', added ++ [(.iterDomain r₀, .iterDomain (r₀.withIterType t))], ?_, ?_,
        ?_, ?_⟩
      · simp only [propagateRootLoop, hs, bne_self_eq_false, Bool.false_eq_true, ↓reduceIte,
          hfold, htne', hreg]
        exact hok
      · rw [hmut]
        simp [IrState.registerMutation]
      · intro e he
        rcases List.mem_append.1 he with he | he
        · obtain ⟨r, hr, hrs, t', ht', heq⟩ := hadded e he
          exact ⟨r, List.mem_cons_of_mem _ hr, hrs, t', ht', heq⟩
        · simp only [List.mem_singleton] at he
          exact ⟨r₀, List.mem_cons_self _ _, hs, t, ht, he⟩
      · intro r hr hrs
        rcases List.mem_cons.1 hr with rfl | hr
        · exact ⟨t, ht, htne, List.mem_append_right _ (List.mem_singleton.2 rfl)⟩
        · obtain ⟨t', ht', htne', hmem⟩ := hall r hr hrs
          exact ⟨t', ht', htne', List.mem_append_left _ hmem⟩
    · have hs' : (r₀.iterType != IterType.Symbolic) = true := by simpa using hs
      obtain ⟨st', b', added, hok, hmut, hadded, hall⟩ := ih st b hmap' hacc'
      refine ⟨st', b', added, ?_, hmut, ?_, ?_⟩
      · simp only [propagateRootLoop, hs', ↓reduceIte]
        exact hok
      · intro e he
        obtain ⟨r, hr, hrs, t', ht', heq⟩ := hadded e he
        exact ⟨r, List.mem_cons_of_mem _ hr, hrs, t', ht', heq⟩
      · intro r hr hrs
        rcases List.mem_cons.1 hr with rfl | hr
        · exact absurd hrs hs
        · exact hall r hr hrs

/-- A lookup returns the value all entries with the key agree on. -/
theorem lookup_eq_some_of_unique {α β : Type} [BEq α] [LawfulBEq α] (m : List (α × β))
    (k : α) (v : β) (hex : ∃ w, (k, w) ∈ m) (huniq : ∀ w, (k, w) ∈ m → w = v) :
    m.lookup k = some v := by
  obtain ⟨w, hw⟩ := hex
  obtain ⟨w', hw'⟩ := mem_lookup_some m k w hw
  rw [hw', huniq w' (lookup_mem m k w' hw')]

/-- C24: root propagation.  Take a consumer whose defining operation has at
least one producer tensor, each producer having a concrete axis that
corresponds to every Symbolic root axis of the consumer; let the promotion
rule keep concrete kinds concrete and every use accept the copies.  Then
`propagateFromProducerToConsumer` succeeds and the substitute of every Symbolic
root axis is its copy that differs in kind only, the new kind being the left
fold of the promotion rule over the kinds of the corresponding producer axes
in producer order.  Under the rule "Broadcast gives way to the other kind,
Iteration with Iteration is Iteration" the fold over kinds that are Iteration
or Broadcast is Broadcast exactly when every kind is Broadcast and Iteration
otherwise, whatever the order of the kinds. -/
theorem root_propagation {Plan : Type} (q : IrQueries Plan) (st : IrState)
    (consumer : TensorView) (def_ : Expr)
    (hdef : st.definition? consumer = some def_)
    (hprod : st.tensorInputs def_ ≠ [])
    (hmap : ∀ r ∈ consumer.domain.root, r.iterType = IterType.Symbolic →
      ∀ p ∈ st.tensorInputs def_, ∃ id, q.mapConsumerToProducer p consumer r = some id ∧
        id.iterType ≠ IterType.Symbolic)
    (hprom : ∀ a b, a ≠ IterType.Symbolic → b ≠ IterType.Symbolic →
      q.promoteIterType a b ≠ IterType.Symbolic)
    (hacc : ∀ r ∈ consumer.domain.root, ∀ t, ∀ use ∈ q.uses (.iterDomain r),
      q.checkConcretization use (.iterDomain r) (.iterDomain (r.withIterType t)) = true) :
    (∃ (st' : IrState) (b : Bool),
      propagateFromProducerToConsumer q st consumer = .ok (st', b) ∧
      ∀ r ∈ consumer.domain.root, r.iterType = IterType.Symbolic →
        ∃ t, specRootKind q.promoteIterType
            (producerKinds q consumer r (st.tensorInputs def_)) = some t ∧
          t ≠ IterType.Symbolic ∧
          maybeMutated st'.mutations_ (.iterDomain r)
            = .iterDomain { name := r.name, extent := r.extent, iterType := t,
                            maybePartial := r.maybePartial }) ∧
    ((∀ k, q.promoteIterType IterType.Broadcast k = k) →
      (∀ k, q.promoteIterType k IterType.Broadcast = k) →
      q.promoteIterType IterType.Iteration IterType.Iteration = IterType.Iteration →
      ∀ kinds : List IterType, kinds ≠ [] →
        (∀ k ∈ kinds, k = IterType.Iteration ∨ k = IterType.Broadcast) →
        specRootKind q.promoteIterType kinds
            = some (if kinds.all (fun k => k == IterType.Broadcast) then IterType.Broadcast
                    else IterType.Iteration) ∧
          ∀ kinds' : List IterType, kinds'.Perm kinds →
            specRootKind q.promoteIterType kinds' = specRootKind q.promoteIterType kinds) := by
  have hrule : (∀ k, q.promoteIterType IterType.Broadcast k = k) →
      (∀ k, q.promoteIterType k IterType.Broadcast = k) →
      q.promoteIterType IterType.Iteration IterType.Iteration = IterType.Iteration →
      ∀ kinds : List IterType, kinds ≠ [] →
        (∀ k ∈ kinds, k = IterType.Iteration ∨ k = IterType.Broadcast) →
        specRootKind q.promoteIterType kinds
            = some (if kinds.all (fun k => k == IterType.Broadcast) then IterType.Broadcast
                    else IterType.Iteration) := by
    intro hleft hright hiter kinds hne hkinds
    cases kinds with
    | nil => exact absurd rfl hne
    | cons k ks =>
      simp only [specRootKind]
      rw [foldl_promote_rule _ hleft hright hiter ks k (hkinds k (List.mem_cons_self _ _))
        (fun x hx => hkinds x (List.mem_cons_of_mem _ hx))]
  constructor
  · by_cases hsym : consumer.domain.hasSymbolicAxis = true
    · obtain ⟨st', b', added, hok, hmut, hadded, hall⟩ := propagateRootLoop_ok q consumer
        (st.tensorInputs def_) hprod hprom consumer.domain.root st false hmap hacc
      refine ⟨st', b', ?_, ?_⟩
      · simp only [propagateFromProducerToConsumer, hdef, hsym, Bool.not_true,
          Bool.false_eq_true, ↓reduceIte]
        exact hok
      · intro r hr hrs
        obtain ⟨t, ht, htne, hmem⟩ := hall r hr hrs
        refine ⟨t, ht, htne, ?_⟩
        have hlook : added.lookup (IrVal.iterDomain r)
            = some (IrVal.iterDomain (r.withIterType t)) := by
          apply lookup_eq_some_of_unique _ _ _ ⟨_, hmem⟩
          intro w hw
          obtain ⟨r', -, -, t', ht', heq⟩ := hadded _ hw
          simp only [Prod.mk.injEq, IrVal.iterDomain.injEq] at heq
          obtain ⟨hr', hw'⟩ := heq
          subst hr'
          rw [ht] at ht'
          simp only [Option.some.injEq] at ht'
          rw [hw', ht']
        simp only [maybeMutated, hmut, List.lookup_append, hlook, Option.or_some]
        rfl
    · have hns : consumer.domain.hasSymbolicAxis = false := by simpa using hsym
      refine ⟨st, false, by simp [propagateFromProducerToConsumer, hdef, hns], ?_⟩
      intro r hr hrs
      exact absurd hrs ((hasSymbolicAxis_false _ hns).1 r hr)
  · intro hleft hright hiter kinds hne hkinds
    refine ⟨hrule hleft hright hiter kinds hne hkinds, ?_⟩
    intro kinds' hperm
    have hne' : kinds' ≠ [] := by
      intro h
      rw [h] at hperm
      exact hne hperm.symm.eq_nil
    have hkinds' : ∀ k ∈ kinds', k = IterType.Iteration ∨ k = IterType.Broadcast :=
      fun k hk => hkinds k (hperm.mem_iff.1 hk)
    rw [hrule hleft hright hiter kinds hne hkinds,
      hrule hleft hright hiter kinds' hne' hkinds']
    have hall : kinds'.all (fun k => k == IterType.Broadcast)
        = kinds.all (fun k => k == IterType.Broadcast) := by
      rw [Bool.eq_iff_iff]
      simp only [List.all_eq_true]
      exact ⟨fun h x hx => h x (hperm.mem_iff.2 hx), fun h x hx => h x (hperm.mem_iff.1 hx)⟩
    rw [hall]

/-- Witness of C24: the consumer of the example graph has two producers; its
first root axis corresponds to two Broadcast axes and becomes Broadcast, its
second to an Iteration and a Broadcast axis and becomes Iteration. -/
theorem root_propagation_witness :
    ∃ (st' : IrState) (b : Bool),
      propagateFromProducerToConsumer examplePermissive exampleTwoProducers exampleJoined
        = .ok (st', b) ∧
      ∀ r ∈ exampleJoined.domain.root, r.iterType = IterType.Symbolic →
        ∃ t, specRootKind examplePermissive.promoteIterType
            (producerKinds examplePermissive exampleJoined r
              (exampleTwoProducers.tensorInputs
                { name := 9, inputs := [ExprInput.tensorView 1, ExprInput.tensorView 2],
                  outputs := [3] })) = some t ∧
          t ≠ IterType.Symbolic ∧
          maybeMutated st'.mutations_ (.iterDomain r)
            = .iterDomain { name := r.name, extent := r.extent, iterType := t,
                            maybePartial := r.maybePartial } :=
  (root_propagation examplePermissive exampleTwoProducers exampleJoined
    { name := 9, inputs := [ExprInput.tensorView 1, ExprInput.tensorView 2],
      outputs := [3] }
    rfl (by decide)
    (by decide)
    (fun a b ha hb => by
      cases a <;> cases b <;> simp_all [examplePermissive, exampleQueries, examplePromote])
    (fun r _ t use huse => by
      simp [examplePermissive, exampleQueries] at huse)).1

/-! ## Properties of the Concretizer: derived-domain propagation -/

/-- The kind `mutate(TensorView*)` computes for the outputs of an axis
transform is the fold of the promotion rule over the kinds of the substitutes
of the inputs, started from the given kind. -/
theorem outputIterType_eq_foldl (promote : IterType → IterType → IterType)
    (table : List (IrVal × IrVal)) (inputs updated : List IterDomain) (acc : IterType)
    (h : List.Forall₂ (fun id u => maybeMutatedId table id = .ok u) inputs updated) :
    outputIterType promote table inputs acc
      = .ok ((updated.map (fun u => u.iterType)).foldl promote acc) := by
  induction h generalizing acc with
  | nil => rfl
  | cons hab _ ih =>
    simp only [outputIterType, hab, List.map_cons, List.foldl_cons]
    exact ih _

/-- Under a promotion rule in which Broadcast gives way to the other kind, the
kind computed for a transform whose inputs all have a Broadcast substitute is
Symbolic, and derived-domain propagation fails at the transform. -/
theorem mutateIdExprs_all_broadcast {Plan : Type} (q : IrQueries Plan)
    (hright : ∀ k, q.promoteIterType k IterType.Broadcast = k)
    (expr : IdExpr) (exprs : List IdExpr) (st : IrState) (updated : List IterDomain)
    (hout : expr.outputs.all IrVal.isIterDomain = true)
    (hupd : List.Forall₂ (fun id u => maybeMutatedId st.mutations_ id = .ok u)
      expr.inputs updated)
    (hall : ∀ u ∈ updated, u.iterType = IterType.Broadcast) :
    outputIterType q.promoteIterType st.mutations_ expr.inputs IterType.Symbolic
      = .ok IterType.Symbolic ∧
    mutateIdExprs q (expr :: exprs) st = .error (.failedOutputIterType expr.name) := by
  have hfold : ∀ (ks : List IterType), (∀ k ∈ ks, k = IterType.Broadcast) →
      ks.foldl q.promoteIterType IterType.Symbolic = IterType.Symbolic := by
    intro ks
    induction ks with
    | nil => intro _; rfl
    | cons k ks ih =>
      intro hks
      simp only [List.foldl_cons]
      rw [hks k (List.mem_cons_self _ _), hright]
      exact ih (fun x hx => hks x (List.mem_cons_of_mem _ hx))
  have hkind : outputIterType q.promoteIterType st.mutations_ expr.inputs IterType.Symbolic
      = .ok IterType.Symbolic := by
    rw [outputIterType_eq_foldl _ _ _ updated _ hupd, hfold]
    intro k hk
    simp only [List.mem_map] at hk
    obtain ⟨u, hu, rfl⟩ := hk
    exact hall u hu
  refine ⟨hkind, ?_⟩
  simp [mutateIdExprs, hout, hkind]

/-- The code at a failing input of C25: the consumer of the example graph
merges its two Broadcast root axes into one derived axis; with the example
promotion rule, in which Broadcast gives way to the other kind, the kind
computed for the merge is Symbolic, not Broadcast, and `concretizeFusion`
fails at the merge. -/
theorem derived_broadcast_merge_fails :
    (∀ k, examplePromote IterType.Broadcast k = k) ∧
    (∀ k, examplePromote k IterType.Broadcast = k) ∧
    examplePromote IterType.Iteration IterType.Iteration = IterType.Iteration ∧
    exampleMergeQueries.getExprsBetween exampleMerged
      = [{ name := 20,
           inputs := [exampleAxis 4 10 IterType.Broadcast, exampleAxis 5 10 IterType.Broadcast],
           outputs := [IrVal.iterDomain (exampleAxis 7 10 IterType.Broadcast)] }] ∧
    outputIterType examplePromote []
        [exampleAxis 4 10 IterType.Broadcast, exampleAxis 5 10 IterType.Broadcast]
        IterType.Symbolic = .ok IterType.Symbolic ∧
    concretizeFusion exampleMergeQueries exampleBroadcastMerge (exampleInfo Unit [] [])
      = .error (.failedOutputIterType 20) := by
  refine ⟨fun k => by cases k <;> rfl, fun k => by cases k <;> rfl, rfl, rfl, rfl, rfl⟩

/-! ## Properties of the Concretizer: the reshape phase -/

/-- Substituting a name that does not occur in a list of names changes
nothing. -/
theorem map_swap_of_not_mem (outputs : List Nat) (old_name new_name : Nat)
    (h : outputs.contains old_name = false) :
    outputs.map (fun o => if o = old_name then new_name else o) = outputs := by
  induction outputs with
  | nil => rfl
  | cons o outputs ih =>
    simp only [List.contains_cons, Bool.or_eq_false_iff, beq_eq_false_iff_ne, ne_eq] at h
    have ho : o ≠ old_name := fun heq => h.1 heq.symm
    simp only [List.map_cons, ho, ↓reduceIte, ih h.2]

/-- The first producer of a tensor is a tensor of the graph. -/
theorem producerTvsOf_head_mem (st : IrState) (tv inp : TensorView) (rest : List TensorView)
    (h : st.producerTvsOf tv = inp :: rest) : inp ∈ st.vals := by
  unfold IrState.producerTvsOf at h
  cases hd : st.definition? tv with
  | none => simp [hd] at h
  | some e =>
    simp only [hd] at h
    have hmem : inp ∈ st.tensorInputs e := by
      rw [h]
      exact List.mem_cons_self _ _
    unfold IrState.tensorInputs at hmem
    simp only [List.mem_filterMap] at hmem
    obtain ⟨i, -, hi⟩ := hmem
    cases i with
    | tensorView name =>
      simp only at hi
      unfold IrState.tensorView? at hi
      exact List.mem_of_find?_eq_some hi
    | other v => simp at hi

/-- What one step of the reshape phase does when it succeeds: the new tensor is
built from the plan applied to the first producer of the old output; every
operation of the graph, the created ones included, takes the new tensor where
it took the old one; the declared outputs have the new tensor where the old
one stood; the old tensor and the operation that defines it are removed. -/
theorem concretizeReshapeStep_cases {Plan : Type} (q : IrQueries Plan) (st st' : IrState)
    (kv : TensorView × Plan) (hok : concretizeReshapeStep q st kv = .ok st') :
    ∃ (inp_tv : TensorView) (rest : List TensorView),
      st.producerTvsOf kv.1 = inp_tv :: rest ∧ inp_tv ∈ st.vals ∧
      st'.fusion = st.fusion ∧ st'.mutations_ = st.mutations_ ∧
      st'.outputs = st.outputs.map (fun o =>
        if o = kv.1.name then (q.reshape inp_tv kv.2).out.name else o) ∧
      st'.vals = (st.vals ++ (q.reshape inp_tv kv.2).newVals).filter
        (fun tv => tv.name != kv.1.name) ∧
      st'.exprs = (((st.exprs ++ (q.reshape inp_tv kv.2).newExprs).map (fun e =>
          { e with inputs := e.inputs.map (fun i =>
              if i = .tensorView kv.1.name then
                .tensorView (q.reshape inp_tv kv.2).out.name
              else i) })).filter (fun e => !e.outputs.contains kv.1.name)) := by
  unfold concretizeReshapeStep at hok
  cases hp : st.producerTvsOf kv.1 with
  | nil => simp [hp] at hok
  | cons inp_tv rest =>
    simp only [hp] at hok
    refine ⟨inp_tv, rest, rfl, producerTvsOf_head_mem st kv.1 inp_tv rest hp, ?_⟩
    split at hok
    · cases hok
    · simp only [Except.ok.injEq] at hok
      subst hok
      by_cases hc : st.outputs.contains kv.1.name = true
      · simp only [IrState.replaceUses, IrState.replaceOutput, IrState.removeVal, hc,
          ↓reduceIte]
        simp
      · have hc' : st.outputs.contains kv.1.name = false := by simpa using hc
        have hmap := map_swap_of_not_mem st.outputs kv.1.name
          (q.reshape inp_tv kv.2).out.name hc'
        simp only [IrState.replaceUses, IrState.replaceOutput, IrState.removeVal, hc',
          Bool.false_eq_true, ↓reduceIte, hmap]
        simp

/-- One step of the reshape phase removes the old output from the graph and
keeps removed every name that was removed before, when the created tensors
have names other than the given ones and the created operations read the
producer and the created tensors only. -/
theorem concretizeReshapeStep_removed {Plan : Type} (q : IrQueries Plan)
    (names : List Nat) (st st' : IrState) (kv : TensorView × Plan)
    (hkv : kv.1.name ∈ names)
    (hfresh : ∀ inp plan, (q.reshape inp plan).out.name ∉ names ∧
      ∀ tv ∈ (q.reshape inp plan).newVals, tv.name ∉ names)
    (hreads : ∀ inp plan, ∀ e ∈ (q.reshape inp plan).newExprs, ∀ n,
      ExprInput.tensorView n ∈ e.inputs →
        n = inp.name ∨ n = (q.reshape inp plan).out.name ∨
          ∃ tv ∈ (q.reshape inp plan).newVals, tv.name = n)
    (hok : concretizeReshapeStep q st kv = .ok st') :
    st'.Removed kv.1.name ∧ ∀ o ∈ names, st.Removed o → st'.Removed o := by
  obtain ⟨inp_tv, rest, -, hinp, -, -, hout, hvals, hexprs⟩ :=
    concretizeReshapeStep_cases q st st' kv hok
  obtain ⟨hnew, hnewvals⟩ := hfresh inp_tv kv.2
  have hne : (q.reshape inp_tv kv.2).out.name ≠ kv.1.name := fun h => hnew (h ▸ hkv)
  -- an input of an operation of the new graph, traced back
  have hinput : ∀ e' ∈ st'.exprs, ∀ n, ExprInput.tensorView n ∈ e'.inputs →
      n ≠ kv.1.name ∧ (n = (q.reshape inp_tv kv.2).out.name ∨
        (∃ e ∈ st.exprs, ExprInput.tensorView n ∈ e.inputs) ∨
        ∃ e ∈ (q.reshape inp_tv kv.2).newExprs, ExprInput.tensorView n ∈ e.inputs) := by
    intro e' he' n hn
    rw [hexprs] at he'
    simp only [List.mem_filter, List.mem_map, List.mem_append] at he'
    obtain ⟨⟨e, he, rfl⟩, -⟩ := he'
    simp only [List.mem_map] at hn
    obtain ⟨i, hi, hswap⟩ := hn
    by_cases hio : i = ExprInput.tensorView kv.1.name
    · simp only [hio, ↓reduceIte, ExprInput.tensorView.injEq] at hswap
      subst hswap
      exact ⟨hne, Or.inl rfl⟩
    · simp only [hio, ↓reduceIte] at hswap
      subst hswap
      refine ⟨fun h => hio (by rw [h]), Or.inr ?_⟩
      rcases he with he | he
      · exact Or.inl ⟨e, he, hi⟩
      · exact Or.inr ⟨e, he, hi⟩
  have hval : ∀ tv ∈ st'.vals, tv.name ≠ kv.1.name ∧
      (tv ∈ st.vals ∨ tv ∈ (q.reshape inp_tv kv.2).newVals) := by
    intro tv htv
    rw [hvals] at htv
    simp only [List.mem_filter, List.mem_append, bne_iff_ne, ne_eq] at htv
    exact ⟨htv.2, htv.1⟩
  have houtput : ∀ o ∈ st'.outputs, o ≠ kv.1.name ∧
      (o = (q.reshape inp_tv kv.2).out.name ∨ o ∈ st.outputs) := by
    intro o ho
    rw [hout] at ho
    simp only [List.mem_map] at ho
    obtain ⟨o', ho', hswap⟩ := ho
    by_cases h : o' = kv.1.name
    · simp only [h, ↓reduceIte] at hswap
      subst hswap
      exact ⟨hne, Or.inl rfl⟩
    · simp only [h, ↓reduceIte] at hswap
      subst hswap
      exact ⟨h, Or.inr ho'⟩
  constructor
  · exact ⟨fun e he hn => (hinput e he _ hn).1 rfl, fun tv htv => (hval tv htv).1,
      fun ho => (houtput _ ho).1 rfl⟩
  · intro o ho ⟨hre, hrv, hro⟩
    refine ⟨?_, ?_, ?_⟩
    · intro e he hn
      rcases (hinput e he o hn).2 with h | ⟨e₀, he₀, hn₀⟩ | ⟨e₀, he₀, hn₀⟩
      · exact hnew (h ▸ ho)
      · exact hre e₀ he₀ hn₀
      · rcases hreads inp_tv kv.2 e₀ he₀ o hn₀ with h | h | ⟨tv, htv, h⟩
        · exact hrv inp_tv hinp h.symm
        · exact hnew (h ▸ ho)
        · exact hnewvals tv htv (h ▸ ho)
    · intro tv htv
      rcases (hval tv htv).2 with h | h
      · exact hrv tv h
      · exact fun heq => hnewvals tv h (heq ▸ ho)
    · intro hmem
      rcases (houtput o hmem).2 with h | h
      · exact hnew (h ▸ ho)
      · exact hro h

/-- The reshape phase removes the old output of every entry from the graph,
under the conditions of `concretizeReshapeStep_removed`. -/
theorem concretizeReshape_removed {Plan : Type} (q : IrQueries Plan)
    (names : List Nat)
    (hfresh : ∀ inp plan, (q.reshape inp plan).out.name ∉ names ∧
      ∀ tv ∈ (q.reshape inp plan).newVals, tv.name ∉ names)
    (hreads : ∀ inp plan, ∀ e ∈ (q.reshape inp plan).newExprs, ∀ n,
      ExprInput.tensorView n ∈ e.inputs →
        n = inp.name ∨ n = (q.reshape inp plan).out.name ∨
          ∃ tv ∈ (q.reshape inp plan).newVals, tv.name = n)
    (l : List (TensorView × Plan)) (st st' : IrState)
    (hl : ∀ kv ∈ l, kv.1.name ∈ names)
    (hok : concretizeReshape q l st = .ok st') :
    (∀ o ∈ names, st.Removed o → st'.Removed o) ∧ ∀ kv ∈ l, st'.Removed kv.1.name := by
  induction l generalizing st with
  | nil =>
    simp only [concretizeReshape, Except.ok.injEq] at hok
    subst hok
    exact ⟨fun _ _ h => h, fun kv hkv => by simp at hkv⟩
  | cons kv l ih =>
    simp only [concretizeReshape] at hok
    cases hs : concretizeReshapeStep q st kv with
    | error e => simp [hs] at hok
    | ok st₁ =>
      simp only [hs] at hok
      obtain ⟨hcur, hkeep₁⟩ := concretizeReshapeStep_removed q names st st₁ kv
        (hl kv (List.mem_cons_self _ _)) hfresh hreads hs
      obtain ⟨hkeep, hrest⟩ := ih st₁ (fun kv' h => hl kv' (List.mem_cons_of_mem _ h)) hok
      refine ⟨fun o ho h => hkeep o ho (hkeep₁ o ho h), ?_⟩
      intro kv' hkv'
      rcases List.mem_cons.1 hkv' with rfl | hkv'
      · exact hkeep _ (hl _ (List.mem_cons_self _ _)) hcur
      · exact hrest kv' hkv'

/-- The reshape phase and the declared outputs: their number is kept, an output
that is not an old output of an entry stays at its position, and the old output
of an entry is replaced at its positions by the tensor built from the plan of
the entry and the first producer of the old output. -/
theorem concretizeReshape_outputs {Plan : Type} (q : IrQueries Plan)
    (names : List Nat)
    (hfresh : ∀ inp plan, (q.reshape inp plan).out.name ∉ names)
    (l : List (TensorView × Plan)) (st st' : IrState)
    (hl : ∀ kv ∈ l, kv.1.name ∈ names)
    (hnodup : (l.map (fun kv => kv.1.name)).Nodup)
    (hok : concretizeReshape q l st = .ok st') :
    st'.outputs.length = st.outputs.length ∧
    (∀ (i : Nat) (o : Nat), st.outputs[i]? = some o → (∀ kv ∈ l, kv.1.name ≠ o) →
      st'.outputs[i]? = some o) ∧
    (∀ kv ∈ l, ∃ (st_k : IrState) (inp_tv : TensorView) (rest : List TensorView),
      st_k.producerTvsOf kv.1 = inp_tv :: rest ∧
      ∀ i : Nat, st.outputs[i]? = some kv.1.name →
        st'.outputs[i]? = some (q.reshape inp_tv kv.2).out.name) := by
  induction l generalizing st with
  | nil =>
    simp only [concretizeReshape, Except.ok.injEq] at hok
    subst hok
    exact ⟨rfl, fun _ _ h _ => h, fun kv hkv => by simp at hkv⟩
  | cons kv l ih =>
    simp only [concretizeReshape] at hok
    cases hs : concretizeReshapeStep q st kv with
    | error e => simp [hs] at hok
    | ok st₁ =>
      simp only [hs] at hok
      simp only [List.map_cons, List.nodup_cons, List.mem_map, not_exists, not_and] at hnodup
      obtain ⟨hhead, htail⟩ := hnodup
      obtain ⟨inp_tv, rest, hprod, -, -, -, hout, -, -⟩ :=
        concretizeReshapeStep_cases q st st₁ kv hs
      obtain ⟨hlen, hkeep, hrepl⟩ := ih st₁
        (fun kv' h => hl kv' (List.mem_cons_of_mem _ h)) htail hok
      have hstep : ∀ (i : Nat) (o : Nat), st.outputs[i]? = some o →
          st₁.outputs[i]? = some (if o = kv.1.name then (q.reshape inp_tv kv.2).out.name
            else o) := by
        intro i o hi
        rw [hout, List.getElem?_map, hi]
        rfl
      refine ⟨by rw [hlen, hout, List.length_map], ?_, ?_⟩
      · intro i o hi ho
        have h₁ := hstep i o hi
        have hne : o ≠ kv.1.name := fun h => ho kv (List.mem_cons_self _ _) h.symm
        simp only [hne, ↓reduceIte] at h₁
        exact hkeep i o h₁ (fun kv' h => ho kv' (List.mem_cons_of_mem _ h))
      · intro kv' hkv'
        rcases List.mem_cons.1 hkv' with rfl | hkv'
        · refine ⟨st, inp_tv, rest, hprod, ?_⟩
          intro i hi
          have h₁ := hstep i _ hi
          simp only [↓reduceIte] at h₁
          apply hkeep i _ h₁
          intro kv'' hkv'' heq
          exact hfresh inp_tv kv'.2 (heq ▸ hl kv'' (List.mem_cons_of_mem _ hkv''))
        · obtain ⟨st_k, inp', rest', hprod', hall⟩ := hrepl kv' hkv'
          refine ⟨st_k, inp', rest', hprod', ?_⟩
          intro i hi
          have h₁ := hstep i _ hi
          have hne : kv'.1.name ≠ kv.1.name := fun h => hhead kv' hkv' h
          simp only [hne, ↓reduceIte] at h₁
          exact hall i h₁

/-- C26: the reshape phase.  After `concretizeReshape` succeeds on entries with
distinct old outputs, the created tensors having names other than those of the
old outputs and the created operations reading the producer and the created
tensors only: for every entry, no operation of the graph takes the old output
as an input, the old output is not a declared output, and no tensor of the
graph has its name; the declared outputs are as many as before, an output
that is not an old output stays at its position, and at every position of an
old output stands the tensor built from the plan applied to the first producer
of the old output.  In one step, every operation takes the new tensor at the
positions where it took the old one. -/
theorem reshape_phase {Plan : Type} (q : IrQueries Plan) (l : List (TensorView × Plan))
    (st st' : IrState)
    (hnodup : (l.map (fun kv => kv.1.name)).Nodup)
    (hfresh : ∀ inp plan, ∀ kv ∈ l, (q.reshape inp plan).out.name ≠ kv.1.name ∧
      ∀ tv ∈ (q.reshape inp plan).newVals, tv.name ≠ kv.1.name)
    (hreads : ∀ inp plan, ∀ e ∈ (q.reshape inp plan).newExprs, ∀ n,
      ExprInput.tensorView n ∈ e.inputs →
        n = inp.name ∨ n = (q.reshape inp plan).out.name ∨
          ∃ tv ∈ (q.reshape inp plan).newVals, tv.name = n)
    (hok : concretizeReshape q l st = .ok st') :
    (∀ kv ∈ l,
      (∀ e ∈ st'.exprs, ExprInput.tensorView kv.1.name ∉ e.inputs) ∧
      (∀ tv ∈ st'.vals, tv.name ≠ kv.1.name) ∧ kv.1.name ∉ st'.outputs) ∧
    st'.outputs.length = st.outputs.length ∧
    (∀ (i : Nat) (o : Nat), st.outputs[i]? = some o → (∀ kv ∈ l, kv.1.name ≠ o) →
      st'.outputs[i]? = some o) ∧
    (∀ kv ∈ l, ∃ (st_k : IrState) (inp_tv : TensorView) (rest : List TensorView),
      st_k.producerTvsOf kv.1 = inp_tv :: rest ∧
      ∀ i : Nat, st.outputs[i]? = some kv.1.name →
        st'.outputs[i]? = some (q.reshape inp_tv kv.2).out.name) ∧
    (∀ (st₀ st₁ : IrState) (kv : TensorView × Plan),
      concretizeReshapeStep q st₀ kv = .ok st₁ →
      ∃ (inp_tv : TensorView) (rest : List TensorView),
        st₀.producerTvsOf kv.1 = inp_tv :: rest ∧
        st₁.exprs = (((st₀.exprs ++ (q.reshape inp_tv kv.2).newExprs).map (fun e =>
            { e with inputs := e.inputs.map (fun i =>
                if i = .tensorView kv.1.name then
                  .tensorView (q.reshape inp_tv kv.2).out.name
                else i) })).filter (fun e => !e.outputs.contains kv.1.name))) := by
  have hmem : ∀ kv ∈ l, kv.1.name ∈ l.map (fun kv => kv.1.name) :=
    fun kv hkv => List.mem_map.2 ⟨kv, hkv, rfl⟩
  have hfresh' : ∀ inp plan, (q.reshape inp plan).out.name ∉ l.map (fun kv => kv.1.name) ∧
      ∀ tv ∈ (q.reshape inp plan).newVals, tv.name ∉ l.map (fun kv => kv.1.name) := by
    intro inp plan
    constructor
    · intro h
      obtain ⟨kv, hkv, heq⟩ := List.mem_map.1 h
      exact (hfresh inp plan kv hkv).1 heq.symm
    · intro tv htv h
      obtain ⟨kv, hkv, heq⟩ := List.mem_map.1 h
      exact (hfresh inp plan kv hkv).2 tv htv heq.symm
  obtain ⟨-, hremoved⟩ := concretizeReshape_removed q _ hfresh' hreads l st st' hmem hok
  obtain ⟨hlen, hkeep, hrepl⟩ := concretizeReshape_outputs q _
    (fun inp plan => (hfresh' inp plan).1) l st st' hmem hnodup hok
  refine ⟨fun kv hkv => hremoved kv hkv, hlen, hkeep, hrepl, ?_⟩
  intro st₀ st₁ kv hstep
  obtain ⟨inp_tv, rest, hprod, -, -, -, -, -, hexprs⟩ :=
    concretizeReshapeStep_cases q st₀ st₁ kv hstep
  exact ⟨inp_tv, rest, hprod, hexprs⟩

/-- Witness of C26: in the example graph the old output 2 of the reshape is
replaced by the created tensor 50 in its consumer and among the declared
outputs, and it is removed together with the operation that defined it. -/
theorem reshape_phase_witness :
    ∃ st' : IrState,
      concretizeReshape exampleReshapeQueries [(exampleReshapeOutput, ())]
        exampleReshapeGraph = .ok st' ∧
      st'.outputs = [50, 3] ∧
      st'.exprs = [{ name := 10, inputs := [ExprInput.tensorView 50], outputs := [3] },
                   { name := 51, inputs := [ExprInput.tensorView 1], outputs := [50] }] ∧
      (∀ kv ∈ [(exampleReshapeOutput, ())],
        (∀ e ∈ st'.exprs, ExprInput.tensorView kv.1.name ∉ e.inputs) ∧
        (∀ tv ∈ st'.vals, tv.name ≠ kv.1.name) ∧ kv.1.name ∉ st'.outputs) :=
  ⟨_, rfl, rfl, rfl,
    (reshape_phase exampleReshapeQueries [(exampleReshapeOutput, ())] exampleReshapeGraph _
      (by decide)
      (fun inp plan kv hkv => by
        simp only [List.mem_singleton] at hkv
        subst hkv
        exact ⟨by simp [exampleReshapeQueries, exampleReshapeOutput, exampleTensor],
          fun tv htv => by
          simp only [exampleReshapeQueries, List.mem_singleton] at htv
          subst htv
          decide⟩)
      (fun inp plan e he n hn => by
        simp only [exampleReshapeQueries, List.mem_singleton] at he
        subst he
        simp only [List.mem_singleton, ExprInput.tensorView.injEq] at hn
        exact Or.inl hn)
      rfl).1⟩

end nvfuser
